import Mathlib

/-!
Shallow embedding of the `rbtset` crate (casimir/rbtset): a red-black-tree
ordered set with parent back-references, an in-order successor iterator and a
"repack" pass merging consecutive elements.

The Rust code stores nodes as `Rc<RefCell<NodeData>>` with `Weak` parent
links.  The embedding models the heap explicitly: nodes live in a growing
arena (`Heap`), a node handle is its arena index (Rust `Rc::ptr_eq` becomes
index equality), and every `RefCell` mutation is a functional update of the
arena.  Removed nodes are simply unlinked, never deallocated — index reuse
never happens, which matches `Rc` semantics as long as no freed pointer is
dereferenced (the library never does).  Upward-recursive fix-up procedures
get a fuel argument; the public wrappers pass a fuel that is ample for every
well-formed tree (recursion is bounded by the number of nodes), and fuel
exhaustion returns the state unchanged.

Comparisons are threaded explicitly, mirroring the Rust trait dictionaries:
`Ords` packs `PartialEq::eq` (`beq`), `Ord::lt` and `Ord::le`; `Consec`
packs the `Consecutive` trait's two methods.  This keeps the model faithful
to payload types such as the crate's `Seq` example, whose `==` is *not* the
equality induced by its `Ord`.
-/

namespace Rbtset

/-- node.rs:9-12 `Colour`. -/
inductive Colour where
  | black
  | red
deriving DecidableEq, Repr

/-- The comparison dictionary of the payload type: Rust's `PartialEq::eq`
(`beq`) and the `<` / `<=` of `Ord` (`lt` / `le`).  For ordinary payloads
`beq` agrees with the order's equality, but the crate also supports payloads
where it does not (the `Seq` documentation example). -/
structure Ords (α : Type) where
  beq : α → α → Bool
  lt : α → α → Bool
  le : α → α → Bool

/-- lib.rs:58-64 the `Consecutive` trait. -/
structure Consec (α : Type) where
  consecutive : α → α → Bool
  merged : α → α → α

/-- node.rs:24-30 `NodeData<T>`: colour, optional parent / left / right
links (arena indices) and the payload. -/
structure NodeData (α : Type) where
  colour : Colour
  parent : Option Nat
  left : Option Nat
  right : Option Nat
  data : α
deriving DecidableEq, Repr

/-- The arena: node records addressed by index.  It only ever grows. -/
abbrev Heap (α : Type) := List (NodeData α)

/-- Read a node record (a `borrow` through a valid handle always succeeds;
out-of-range indices never occur in real executions). -/
def hGet {α : Type} (h : Heap α) (i : Nat) : Option (NodeData α) :=
  h[i]?

/-- Mutate one node record in place (a `borrow_mut` through the handle). -/
def hModify {α : Type} (h : Heap α) (i : Nat) (f : NodeData α → NodeData α) :
    Heap α :=
  match h[i]? with
  | some nd => h.set i (f nd)
  | none => h

/-- node.rs:107-109 `set_colour`. -/
def set_colour {α : Type} (h : Heap α) (i : Nat) (c : Colour) : Heap α :=
  hModify h i fun nd => { nd with colour := c }

/-- node.rs:74-79 `set_parent`. -/
def set_parent {α : Type} (h : Heap α) (i : Nat) (p : Option Nat) : Heap α :=
  hModify h i fun nd => { nd with parent := p }

/-- node.rs:85-90 `set_left`. -/
def set_left {α : Type} (h : Heap α) (i : Nat) (l : Option Nat) : Heap α :=
  hModify h i fun nd => { nd with left := l }

/-- node.rs:96-101 `set_right`. -/
def set_right {α : Type} (h : Heap α) (i : Nat) (r : Option Nat) : Heap α :=
  hModify h i fun nd => { nd with right := r }

/-- node.rs:59-61 `set_data`. -/
def set_data {α : Type} (h : Heap α) (i : Nat) (d : α) : Heap α :=
  hModify h i fun nd => { nd with data := d }

/-- node.rs:63-68 `swap_data` (`mem::swap` of the two payloads). -/
def swap_data {α : Type} (h : Heap α) (i j : Nat) : Heap α :=
  match hGet h i, hGet h j with
  | some a, some b => set_data (set_data h i b.data) j a.data
  | _, _ => h

/-- node.rs:70-72 `parent()` (the `Weak` upgrade always succeeds while the
parent is alive, which holds throughout the library's uses). -/
def parent! {α : Type} (h : Heap α) (i : Nat) : Option Nat :=
  (hGet h i).bind (·.parent)

/-- node.rs:81-83 `left()`. -/
def left! {α : Type} (h : Heap α) (i : Nat) : Option Nat :=
  (hGet h i).bind (·.left)

/-- node.rs:92-94 `right()`. -/
def right! {α : Type} (h : Heap α) (i : Nat) : Option Nat :=
  (hGet h i).bind (·.right)

/-- node.rs:103-105 `colour()`, as an `Option` to transcribe the source's
frequent `.map(Node::colour)` patterns; on a valid handle it is `some`. -/
def colour! {α : Type} (h : Heap α) (i : Nat) : Option Colour :=
  (hGet h i).map (·.colour)

/-- node.rs:120-130 `data()` / `clone_data()`. -/
def data! {α : Type} (h : Heap α) (i : Nat) : Option α :=
  (hGet h i).map (·.data)

/-- node.rs:134-141 `is_left_child`: parent's left child is this very record
(`Rc::ptr_eq`, so index equality). -/
def is_left_child {α : Type} (h : Heap α) (i : Nat) : Bool :=
  ((parent! h i).bind (left! h)) == some i

/-- node.rs:143-149 `sibling`. -/
def sibling {α : Type} (h : Heap α) (i : Nat) : Option Nat :=
  if is_left_child h i then (parent! h i).bind (right! h)
  else (parent! h i).bind (left! h)

/-- node.rs:151-153 `uncle`. -/
def uncle {α : Type} (h : Heap α) (i : Nat) : Option Nat :=
  (parent! h i).bind (sibling h)

/-- tree.rs:63-67 `RBTreeSet<T>`, plus the explicit arena. -/
structure RBTreeSet (α : Type) where
  heap : Heap α
  root : Option Nat
  length : Nat
deriving DecidableEq, Repr

/-- tree.rs:70-76 `new`. -/
def RBTreeSet.new (α : Type) : RBTreeSet α :=
  { heap := [], root := none, length := 0 }

/-- node.rs:156-160 `Node::from(data)`: allocate a fresh red, unlinked node;
returns the new state and the handle (the fresh index). -/
def allocNode {α : Type} (t : RBTreeSet α) (d : α) : RBTreeSet α × Nat :=
  ({ t with heap :=
      t.heap ++ [{ colour := .red, parent := none, left := none,
                   right := none, data := d }] },
   t.heap.length)

/-- tree.rs:101-121 `insert_from`: binary-search descent; attach a fresh red
leaf at the first empty slot, or return `none` on an equal value.  The fuel
bounds the descent (a well-formed tree never exhausts it). -/
def insert_from {α : Type} (o : Ords α) :
    Nat → RBTreeSet α → Nat → α → RBTreeSet α × Option Nat
  | 0, t, _, _ => (t, none)
  | fuel + 1, t, root, d =>
    match hGet t.heap root with
    | none => (t, none)
    | some nd =>
      if o.beq d nd.data then (t, none)
      else if o.le d nd.data then
        match nd.left with
        | none =>
          let (t1, n) := allocNode t d
          let h1 := set_parent t1.heap n (some root)
          let h2 := set_left h1 root (some n)
          ({ t1 with heap := h2 }, some n)
        | some l => insert_from o fuel t l d
      else
        match nd.right with
        | none =>
          let (t1, n) := allocNode t d
          let h1 := set_parent t1.heap n (some root)
          let h2 := set_right h1 root (some n)
          ({ t1 with heap := h2 }, some n)
        | some r => insert_from o fuel t r d

/-- tree.rs:123-141 `rotate_right`.  The source `expect`s the left child; an
absent child is a library bug there, modelled as a no-op (unreachable on
well-formed trees).  Every read is transcribed at its point in the source's
statement order, so aliasing behaves exactly as through the `RefCell`s. -/
def rotate_right {α : Type} (t : RBTreeSet α) (node : Nat) : RBTreeSet α :=
  match left! t.heap node with
  | none => t
  | some p =>
    let h := set_left t.heap node (right! t.heap p)
    let h := match right! h p with
      | some r => set_parent h r (some node)
      | none => h
    let h := set_right h p (some node)
    let h := set_parent h p (parent! h node)
    match parent! h p with
    | some g =>
      let h := if is_left_child h node then set_left h g (some p)
               else set_right h g (some p)
      { t with heap := set_parent h node (some p) }
    | none =>
      { t with heap := set_parent h node (some p), root := some p }

/-- tree.rs:143-161 `rotate_left` (mirror image of `rotate_right`). -/
def rotate_left {α : Type} (t : RBTreeSet α) (node : Nat) : RBTreeSet α :=
  match right! t.heap node with
  | none => t
  | some p =>
    let h := set_right t.heap node (left! t.heap p)
    let h := match left! h p with
      | some l => set_parent h l (some node)
      | none => h
    let h := set_left h p (some node)
    let h := set_parent h p (parent! h node)
    match parent! h p with
    | some g =>
      let h := if is_left_child h node then set_left h g (some p)
               else set_right h g (some p)
      { t with heap := set_parent h node (some p) }
    | none =>
      { t with heap := set_parent h node (some p), root := some p }

/-- tree.rs:163-217 `balance`, the insert fix-up, recursing upward (two
levels per step); the `.getD` defaults stand for `unwrap`s the source only
reaches when the option is `some`. -/
def balance {α : Type} : Nat → RBTreeSet α → Nat → RBTreeSet α
  | 0, t, _ => t
  | fuel + 1, t, node =>
    if parent! t.heap node == none then
      { t with heap := set_colour t.heap node .black }
    else if (parent! t.heap node).bind (colour! t.heap) == some .black then
      t
    else if (uncle t.heap node).bind (colour! t.heap) == some .red then
      let h := match parent! t.heap node with
        | some p => set_colour t.heap p .black
        | none => t.heap
      let h := match uncle h node with
        | some u => set_colour h u .black
        | none => h
      match (parent! h node).bind (parent! h) with
      | some gp =>
        balance fuel { t with heap := set_colour h gp .red } gp
      | none => { t with heap := h }
    else
      let parent_is_left :=
        match parent! t.heap node with
        | some p => is_left_child t.heap p
        | none => false
      let node_is_left := is_left_child t.heap node
      let (t, new_node) :=
        if parent_is_left && !node_is_left then
          let t1 := rotate_left t ((parent! t.heap node).getD node)
          (t1, (left! t1.heap node).getD node)
        else if !parent_is_left && node_is_left then
          let t1 := rotate_right t ((parent! t.heap node).getD node)
          (t1, (right! t1.heap node).getD node)
        else (t, node)
      match (parent! t.heap new_node).bind (parent! t.heap) with
      | none => t
      | some new_gparent =>
        let h := match parent! t.heap new_node with
          | some p => set_colour t.heap p .black
          | none => t.heap
        let h := set_colour h new_gparent .red
        let t := { t with heap := h }
        if is_left_child t.heap new_node then rotate_right t new_gparent
        else rotate_left t new_gparent

/-- tree.rs:235-247 `insert`. -/
def insert {α : Type} (o : Ords α) (t : RBTreeSet α) (d : α) :
    RBTreeSet α × Option Nat :=
  let (t, node) :=
    match t.root with
    | some r => insert_from o (t.heap.length + 1) t r d
    | none =>
      let (t1, n) := allocNode t d
      ({ t1 with root := some n }, some n)
  match node with
  | some n =>
    let t := balance (t.heap.length + 1) t n
    ({ t with length := t.length + 1 }, some n)
  | none => (t, none)

/-- tree.rs:303-315 `get_node`'s descent loop (`while let Some(n) = tmp`). -/
def get_node_loop {α : Type} (o : Ords α) (d : α) :
    Nat → Heap α → Option Nat → Option Nat
  | 0, _, _ => none
  | fuel + 1, h, tmp =>
    match tmp with
    | none => none
    | some n =>
      match hGet h n with
      | none => none
      | some nd =>
        if o.beq d nd.data then some n
        else if o.lt d nd.data then get_node_loop o d fuel h nd.left
        else get_node_loop o d fuel h nd.right

/-- tree.rs:303-315 `get_node`. -/
def get_node {α : Type} (o : Ords α) (t : RBTreeSet α) (d : α) : Option Nat :=
  get_node_loop o d (t.heap.length + 1) t.heap t.root

/-- tree.rs:319-323 the `while let Some(n) = tmp.left()` descent of
`successor`, also tree.rs:478-481 the loop of `first`. -/
def leftmost {α : Type} : Nat → Heap α → Nat → Nat
  | 0, _, i => i
  | fuel + 1, h, i =>
    match left! h i with
    | some l => leftmost fuel h l
    | none => i

/-- tree.rs:498-501 the loop of `last`. -/
def rightmost {α : Type} : Nat → Heap α → Nat → Nat
  | 0, _, i => i
  | fuel + 1, h, i =>
    match right! h i with
    | some r => rightmost fuel h r
    | none => i

/-- tree.rs:327-330 the `while tmp.parent().and_then(Node::right) ==
Some(tmp)` climb of `successor` (the loop body's `unwrap` cannot fail when
the condition holds). -/
def climb_right {α : Type} : Nat → Heap α → Nat → Nat
  | 0, _, i => i
  | fuel + 1, h, i =>
    if (parent! h i).bind (right! h) == some i then
      climb_right fuel h ((parent! h i).getD i)
    else i

/-- tree.rs:317-333 `successor`: leftmost node of the right subtree, or the
first ancestor reached from a left child. -/
def successor {α : Type} (fuel : Nat) (h : Heap α) (i : Nat) : Option Nat :=
  match right! h i with
  | some r => some (leftmost fuel h r)
  | none =>
    if is_left_child h i then parent! h i
    else parent! h (climb_right fuel h i)

/-- tree.rs:477-483 `first`. -/
def first {α : Type} (t : RBTreeSet α) : Option Nat :=
  t.root.map (leftmost (t.heap.length + 1) t.heap)

/-- tree.rs:497-503 `last`. -/
def last {α : Type} (t : RBTreeSet α) : Option Nat :=
  t.root.map (rightmost (t.heap.length + 1) t.heap)

/-- tree.rs:517-519 `len`. -/
def len {α : Type} (t : RBTreeSet α) : Nat :=
  t.length

/-- tree.rs:533-535 `is_empty`. -/
def is_empty {α : Type} (t : RBTreeSet α) : Bool :=
  t.length == 0

/-- tree.rs:283-286 `clear`. -/
def clear {α : Type} (t : RBTreeSet α) : RBTreeSet α :=
  { t with root := none, length := 0 }

/-- tree.rs:828-830 `Iter<T>`: the forward cursor. -/
structure Iter where
  cursor : Option Nat
deriving DecidableEq, Repr

/-- tree.rs:835-841 `Iter::next`: yield the cursor, advance it to the
successor. -/
def iter_next {α : Type} (h : Heap α) (s : Iter) : Option Nat × Iter :=
  match s.cursor with
  | some n => (some n, ⟨successor (h.length + 1) h n⟩)
  | none => (none, s)

/-- tree.rs:552-556 `iter`. -/
def iter {α : Type} (t : RBTreeSet α) : Iter :=
  ⟨first t⟩

/-- tree.rs:574-578 `iter_from`. -/
def iter_from {α : Type} (_t : RBTreeSet α) (node : Nat) : Iter :=
  ⟨some node⟩

/-- The list of handles an `Iter` yields until exhaustion (tree.rs:835-841
driven to the end); the fuel bounds the walk. -/
def iter_list {α : Type} : Nat → Heap α → Option Nat → List Nat
  | 0, _, _ => []
  | _, _, none => []
  | fuel + 1, h, some n => n :: iter_list fuel h (successor (h.length + 1) h n)

/-- tree.rs:601-606 / 852-858 `values`: the in-order payload list (what
collecting the `IterValues` iterator returns). -/
def values {α : Type} (t : RBTreeSet α) : List α :=
  (iter_list (t.heap.length + 1) t.heap ((iter t).cursor)).filterMap
    (data! t.heap)

/-- tree.rs:335-389 `double_black_fixup`, recursing upward.  The `parent`
handle is captured once (an `Rc`), so it survives the rotations, exactly as
an arena index does.  `.getD` defaults transcribe colour reads the source
performs through valid handles. -/
def double_black_fixup {α : Type} : Nat → RBTreeSet α → Nat → RBTreeSet α
  | 0, t, _ => t
  | fuel + 1, t, node =>
    if t.root == some node then t
    else
      match parent! t.heap node with
      | none => t
      | some parent =>
        match sibling t.heap node with
        | some s =>
          if colour! t.heap s == some .red then
            let h := set_colour t.heap parent .red
            let h := set_colour h s .black
            let t1 :=
              if is_left_child h s then rotate_right { t with heap := h } parent
              else rotate_left { t with heap := h } parent
            double_black_fixup fuel t1 node
          else if ((left! t.heap s).bind (colour! t.heap) == some .red)
              || ((right! t.heap s).bind (colour! t.heap) == some .red) then
            let t1 :=
              if (left! t.heap s).bind (colour! t.heap) == some .red then
                match left! t.heap s with
                | some l =>
                  if is_left_child t.heap s then
                    let h := set_colour t.heap l
                      ((colour! t.heap s).getD .red)
                    let h := set_colour h s ((colour! h parent).getD .red)
                    rotate_right { t with heap := h } parent
                  else
                    let h := set_colour t.heap l
                      ((colour! t.heap parent).getD .red)
                    let t2 := rotate_right { t with heap := h } s
                    rotate_left t2 parent
                | none => t
              else
                match right! t.heap s with
                | some r =>
                  if is_left_child t.heap s then
                    let h := set_colour t.heap r
                      ((colour! t.heap parent).getD .red)
                    let t2 := rotate_left { t with heap := h } s
                    rotate_right t2 parent
                  else
                    let h := set_colour t.heap r
                      ((colour! t.heap s).getD .red)
                    let h := set_colour h s ((colour! h parent).getD .red)
                    rotate_left { t with heap := h } parent
                | none => t
            { t1 with heap := set_colour t1.heap parent .black }
          else
            let h := set_colour t.heap s .red
            if colour! h parent == some .black then
              double_black_fixup fuel { t with heap := h } parent
            else
              { t with heap := set_colour h parent .black }
        | none => double_black_fixup fuel t parent

/-- tree.rs:404-463 `remove_node`.  The self-recursion (two-children case:
swap payloads with the successor, then remove the successor) is bounded by
the fuel; on a well-formed tree one recursive step always suffices. -/
def remove_node {α : Type} : Nat → RBTreeSet α → Nat → RBTreeSet α
  | 0, t, _ => t
  | fuel + 1, t, node =>
    let new_node :=
      if (left! t.heap node).isSome && (right! t.heap node).isSome then
        successor (t.heap.length + 1) t.heap node
      else if (left! t.heap node).isSome then left! t.heap node
      else right! t.heap node
    let double_black := (colour! t.heap node == some .black)
      && !(new_node.bind (colour! t.heap) == some .red)
    match new_node with
    | none =>
      if t.root == some node then
        { t with root := none, length := t.length - 1 }
      else
        let t1 :=
          if double_black then
            double_black_fixup (t.heap.length + 1) t node
          else
            match sibling t.heap node with
            | some s => { t with heap := set_colour t.heap s .red }
            | none => t
        let t2 :=
          match parent! t1.heap node with
          | some p =>
            if is_left_child t1.heap node then
              { t1 with heap := set_left t1.heap p none }
            else
              { t1 with heap := set_right t1.heap p none }
          | none => t1
        { t2 with length := t2.length - 1 }
    | some substitute =>
      if (left! t.heap node).isNone || (right! t.heap node).isNone then
        if t.root == some node then
          let h := swap_data t.heap node substitute
          let h := set_left h node none
          let h := set_right h node none
          { t with heap := h, length := t.length - 1 }
        else
          match parent! t.heap node with
          | some p =>
            let h :=
              if is_left_child t.heap node then
                set_left t.heap p (some substitute)
              else
                set_right t.heap p (some substitute)
            let h := set_parent h substitute (parent! h node)
            let t1 := { t with heap := h }
            let t2 :=
              if double_black then
                double_black_fixup (t1.heap.length + 1) t1 substitute
              else
                { t1 with heap := set_colour t1.heap substitute .black }
            { t2 with length := t2.length - 1 }
          | none => { t with length := t.length - 1 }
      else
        let h := swap_data t.heap substitute node
        remove_node fuel { t with heap := h } substitute

/-- tree.rs:261-269 `remove`. -/
def remove {α : Type} (o : Ords α) (t : RBTreeSet α) (d : α) :
    RBTreeSet α × Bool :=
  match get_node o t d with
  | some node => (remove_node (t.heap.length + 1) t node, true)
  | none => (t, false)

/-- tree.rs:799-813 `clone_subtree`: recursive copy, fresh records, colours
carried over, children cloned then re-parented to the fresh copy. -/
def clone_subtree {α : Type} : Nat → RBTreeSet α → Option Nat →
    RBTreeSet α × Option Nat
  | 0, t, _ => (t, none)
  | _, t, none => (t, none)
  | fuel + 1, t, some sub =>
    match hGet t.heap sub with
    | none => (t, none)
    | some nd =>
      let (t1, c) := allocNode t nd.data
      let t1 := { t1 with heap := set_colour t1.heap c nd.colour }
      let (t2, lc) := clone_subtree fuel t1 nd.left
      let t2 := { t2 with heap := set_left t2.heap c lc }
      let (t3, rc) := clone_subtree fuel t2 nd.right
      let t3 := { t3 with heap := set_right t3.heap c rc }
      let h := match left! t3.heap c with
        | some l => set_parent t3.heap l (some c)
        | none => t3.heap
      let h := match right! h c with
        | some r => set_parent h r (some c)
        | none => h
      ({ t3 with heap := h }, some c)

/-- tree.rs:815-822 `Clone for RBTreeSet`: returns the original set and the
clone, both views of the common (grown) arena. -/
def clone {α : Type} (t : RBTreeSet α) : RBTreeSet α × RBTreeSet α :=
  let (t1, r) := clone_subtree (t.heap.length + 1) t t.root
  ({ t1 with root := t.root, length := t.length },
   { heap := t1.heap, root := r, length := t.length })

/-- tree.rs:711-719 the inner `while prev.data().consecutive(&cursor.data())`
run-collection loop of `repack`.  It only reads the tree; it returns the
iterator state, `prev`, `cursor` and the accumulated run payloads. -/
def repack_run {α : Type} (cs : Consec α) :
    Nat → Heap α → Iter → Nat → Nat → List α → Iter × Nat × Nat × List α
  | 0, _, ns, prev, cursor, acc => (ns, prev, cursor, acc)
  | fuel + 1, h, ns, prev, cursor, acc =>
    let go :=
      match data! h prev, data! h cursor with
      | some a, some b => cs.consecutive a b
      | _, _ => false
    if go then
      let acc := acc ++ (data! h cursor).toList
      let prev := cursor
      match iter_next h ns with
      | (some n, ns1) => repack_run cs fuel h ns1 prev n acc
      | (_, ns1) => (ns1, prev, cursor, acc)
    else (ns, prev, cursor, acc)

/-- tree.rs:720-728 the merge block of `repack`: fold the run left-to-right
through `merged`, remove every element but the last, then overwrite the
payload of the node a fresh lookup of the last value finds.  The boolean
records whether the source's `.expect("get node")` would have panicked. -/
def repack_removals {α : Type} (o : Ords α) (t : RBTreeSet α)
    (acc : List α) : RBTreeSet α :=
  (acc.take (acc.length - 1)).foldl (fun t d => (remove o t d).1) t

/-- tree.rs:720-728 continued: the whole merge block. -/
def repack_merge {α : Type} (o : Ords α) (cs : Consec α)
    (t : RBTreeSet α) (acc : List α) : RBTreeSet α × Bool :=
  match acc with
  | [] => (t, false)
  | a0 :: rest =>
    let new_data := rest.foldl (fun a b => cs.merged a b) a0
    let t1 := repack_removals o t (a0 :: rest)
    let lastv := acc.getLastD a0
    match get_node o t1 lastv with
    | some last_node =>
      ({ t1 with heap := set_data t1.heap last_node new_data }, false)
    | none => (t1, true)

/-- tree.rs:708-730 the outer `while let Some(curr) = nodes.next()` loop of
`repack`; the boolean is the sticky would-have-panicked flag. -/
def repack_loop {α : Type} (o : Ords α) (cs : Consec α) :
    Nat → RBTreeSet α → Iter → Nat → RBTreeSet α × Bool
  | 0, t, _, _ => (t, false)
  | fuel + 1, t, ns, prev =>
    match iter_next t.heap ns with
    | (none, _) => (t, false)
    | (some curr, ns1) =>
      let acc := (data! t.heap prev).toList
      let (ns2, _, cursor, acc) :=
        repack_run cs (t.heap.length + 1) t.heap ns1 prev curr acc
      let (t1, panicked) :=
        if acc.length > 1 then repack_merge o cs t acc else (t, false)
      let (t2, p2) := repack_loop o cs fuel t1 ns2 cursor
      (t2, panicked || p2)

/-- tree.rs:699-731 `repack`; the boolean records whether the internal
`.expect("get node")` would have panicked (always `false` in real runs). -/
def repack {α : Type} (o : Ords α) (cs : Consec α) (t : RBTreeSet α) :
    RBTreeSet α × Bool :=
  if is_empty t then (t, false)
  else
    match iter_next t.heap (iter t) with
    | (some prev, ns) => repack_loop o cs (t.heap.length + 1) t ns prev
    | (none, _) => (t, false)

/-! ### Decidable checkers for the data-model invariants (spec §3) and for
structural well-formedness of an arena state.  `none` / `false` also covers
a traversal that would not terminate (cyclic or dangling links), which a
well-formed tree never has. -/

/-- Pre-order list of the indices reachable from a root through `left` /
`right`; `none` on a dangling link or fuel exhaustion. -/
def subtree_list? {α : Type} : Nat → Heap α → Option Nat → Option (List Nat)
  | 0, _, some _ => none
  | _, _, none => some []
  | fuel + 1, h, some i =>
    match hGet h i with
    | none => none
    | some nd =>
      match subtree_list? fuel h nd.left, subtree_list? fuel h nd.right with
      | some l, some r => some (i :: (l ++ r))
      | _, _ => none

/-- In-order payload list of the subtree at a root; `none` on a dangling
link or fuel exhaustion. -/
def inorder? {α : Type} : Nat → Heap α → Option Nat → Option (List α)
  | 0, _, some _ => none
  | _, _, none => some []
  | fuel + 1, h, some i =>
    match hGet h i with
    | none => none
    | some nd =>
      match inorder? fuel h nd.left, inorder? fuel h nd.right with
      | some l, some r => some (l ++ nd.data :: r)
      | _, _ => none

/-- Parent back-references agree with the ownership tree: the subtree root's
`parent` field holds exactly the expected index. -/
def parent_ok {α : Type} : Nat → Heap α → Option Nat → Option Nat → Bool
  | 0, _, _, some _ => false
  | _, _, _, none => true
  | fuel + 1, h, expected, some i =>
    (parent! h i == expected)
    && parent_ok fuel h (some i) (left! h i)
    && parent_ok fuel h (some i) (right! h i)

/-- Structural well-formedness of a state: the reachable indices form a
finite tree with no sharing, and every parent back-reference is coherent
(the root's is `none`). -/
def wfb {α : Type} (t : RBTreeSet α) : Bool :=
  match subtree_list? (t.heap.length + 1) t.heap t.root with
  | none => false
  | some l => decide l.Nodup
      && parent_ok (t.heap.length + 1) t.heap none t.root

/-- Spec §3 invariant 3: the root, if present, is black. -/
def root_black {α : Type} (t : RBTreeSet α) : Bool :=
  match t.root with
  | none => true
  | some r => colour! t.heap r == some .black

/-- Spec §3 invariant 4: a red node never has a red child. -/
def no_red_red {α : Type} : Nat → Heap α → Option Nat → Bool
  | 0, _, some _ => false
  | _, _, none => true
  | fuel + 1, h, some i =>
    (if colour! h i == some .red then
      !((left! h i).bind (colour! h) == some .red)
        && !((right! h i).bind (colour! h) == some .red)
     else true)
    && no_red_red fuel h (left! h i)
    && no_red_red fuel h (right! h i)

/-- Spec §3 invariant 5: the black-height of a subtree, `none` when two
root-to-null paths in it pass through different numbers of black nodes. -/
def bheight? {α : Type} : Nat → Heap α → Option Nat → Option Nat
  | 0, _, some _ => none
  | _, _, none => some 0
  | fuel + 1, h, some i =>
    match bheight? fuel h (left! h i), bheight? fuel h (right! h i) with
    | some a, some b =>
      if a == b then
        some (a + (if colour! h i == some .black then 1 else 0))
      else none
    | _, _ => none

/-- Strictly ascending according to `o.lt`, pairwise on neighbours. -/
def chain_lt {α : Type} (o : Ords α) : List α → Bool
  | [] => true
  | [_] => true
  | a :: b :: l => o.lt a b && chain_lt o (b :: l)

/-- Spec §3 invariants 1-2 (binary-search-tree order, no duplicate values),
stated through the in-order payload list. -/
def bst_ok {α : Type} (o : Ords α) (t : RBTreeSet α) : Bool :=
  match inorder? (t.heap.length + 1) t.heap t.root with
  | none => false
  | some l => chain_lt o l

/-- The red-black invariant set of claim C1: invariants 3-5 of spec §3 plus
`length` agreeing with a full traversal. -/
def rb_invariants {α : Type} (t : RBTreeSet α) : Bool :=
  root_black t
    && no_red_red (t.heap.length + 1) t.heap t.root
    && (bheight? (t.heap.length + 1) t.heap t.root).isSome
    && (match subtree_list? (t.heap.length + 1) t.heap t.root with
        | some l => t.length == l.length
        | none => false)

/-! ### Concrete payload types and states used by the claims -/

/-- tree.rs:651-680 (doc example) / tree.rs:1134-1163 (tests): the `Seq`
payload, a half-open range merged by the `Consecutive` capability. -/
structure Seq where
  start : Nat
  stop : Nat
deriving DecidableEq, Repr

/-- `Seq`'s comparison dictionary: `PartialEq` is range overlap
(tree.rs:1149-1153), `Ord` compares the `start` fields (tree.rs:1137-1141). -/
def oSeq : Ords Seq :=
  { beq := fun a b => b.start ≤ a.start && a.start < b.stop,
    lt := fun a b => a.start < b.start,
    le := fun a b => a.start ≤ b.start }

/-- `Seq`'s `Consecutive` dictionary (tree.rs:1155-1163). -/
def csSeq : Consec Seq :=
  { consecutive := fun a b => a.stop == b.start,
    merged := fun a b => { start := a.start, stop := b.stop } }

/-- The integer comparison dictionary (`i32` / `isize` payloads of the
crate's tests): `==`, `<`, `<=`. -/
def oInt : Ords Int :=
  { beq := fun a b => a == b, lt := fun a b => a < b, le := fun a b => a ≤ b }

/-- Fold a list of insertions into an initially empty set. -/
def ofList {α : Type} (o : Ords α) (l : List α) : RBTreeSet α :=
  l.foldl (fun t v => (insert o t v).1) (RBTreeSet.new α)

/-- A three-node state for claim C3: black parent (index 0, value 10), red
left leaf (index 1, value 5) and black right leaf (index 2, value 15).
Not a legal red-black tree (the black sibling of a red leaf breaks the
black-height invariant), which is exactly what makes the recolouring in
`remove_node`'s non-double-black branch visible. -/
def c3state : RBTreeSet Int :=
  { heap :=
      [{ colour := .black, parent := none, left := some 1, right := some 2,
         data := 10 },
       { colour := .red, parent := some 0, left := none, right := none,
         data := 5 },
       { colour := .black, parent := some 0, left := none, right := none,
         data := 15 }],
    root := some 0,
    length := 3 }

/-- The set of claim C5's counterexample, built through the public
interface: insert `5..8`, then `1..3`, then `8..13`.  The run
`[5..8, 8..13]` is consecutive; its last element lives at index 2. -/
def c5base : RBTreeSet Seq :=
  ofList oSeq [⟨5, 8⟩, ⟨1, 3⟩, ⟨8, 13⟩]

/-- An element `beq`-matching `v` is present in the set (membership as the
spec's "a matching value exists", read off the in-order traversal). -/
def present {α : Type} (o : Ords α) (t : RBTreeSet α) (v : α) : Bool :=
  match inorder? (t.heap.length + 1) t.heap t.root with
  | some l => l.any (o.beq v)
  | none => false

/-- The laws a Rust `T: Ord` payload with an `Ord`-consistent `PartialEq`
satisfies: `==` is mutual `<`-incomparability, `<=` is `!(b < a)`, and `<`
is transitive and asymmetric. -/
structure LawfulOrds {α : Type} (o : Ords α) : Prop where
  beq_iff : ∀ a b, o.beq a b = true ↔ (o.lt a b = false ∧ o.lt b a = false)
  le_iff : ∀ a b, o.le a b = !o.lt b a
  lt_trans : ∀ a b c, o.lt a b = true → o.lt b c = true → o.lt a c = true
  lt_asymm : ∀ a b, o.lt a b = true → o.lt b a = false

/-! ### An inductive view of the arena

`reify?` reconstructs the ownership tree below a root index as an inductive
tree; the proofs relate every heap-level operation to surgery on this view.
Reification reads only the `colour`, `left`, `right` and `data` fields (the
`core` of a record) — parent back-references are checked separately by
`parOkI`, mirroring the split between ownership and back-references in the
data model (spec §3). -/

/-- The fields reification depends on. -/
def core {α : Type} (nd : NodeData α) : Colour × Option Nat × Option Nat × α :=
  (nd.colour, nd.left, nd.right, nd.data)

/-- The inductive view of a subtree: colour, left, arena index, payload,
right. -/
inductive ITree (α : Type) where
  | leaf
  | node (c : Colour) (l : ITree α) (i : Nat) (d : α) (r : ITree α)
deriving DecidableEq, Repr

/-- Reconstruct the subtree at a root index; `none` on a dangling link or
fuel exhaustion (in particular on any cyclic structure). -/
def reify? {α : Type} : Nat → Heap α → Option Nat → Option (ITree α)
  | 0, _, some _ => none
  | _, _, none => some .leaf
  | fuel + 1, h, some i =>
    match hGet h i with
    | none => none
    | some nd =>
      match reify? fuel h nd.left, reify? fuel h nd.right with
      | some l, some r => some (.node nd.colour l i nd.data r)
      | _, _ => none

/-- Pre-order index list of an inductive tree. -/
def indicesI {α : Type} : ITree α → List Nat
  | .leaf => []
  | .node _ l i _ r => i :: (indicesI l ++ indicesI r)

/-- In-order payload list of an inductive tree. -/
def inorderI {α : Type} : ITree α → List α
  | .leaf => []
  | .node _ l _ d r => inorderI l ++ d :: inorderI r

/-- In-order (colour, payload) list — the traversal with colours, used to
state clone equivalence (C8). -/
def inorderCI {α : Type} : ITree α → List (Colour × α)
  | .leaf => []
  | .node c l _ d r => inorderCI l ++ (c, d) :: inorderCI r

/-- Number of nodes. -/
def sizeI {α : Type} : ITree α → Nat
  | .leaf => 0
  | .node _ l _ _ r => sizeI l + sizeI r + 1

/-- Height (depth) of the tree. -/
def depthI {α : Type} : ITree α → Nat
  | .leaf => 0
  | .node _ l _ _ r => max (depthI l) (depthI r) + 1

/-- Root colour; a leaf (null position) counts as black. -/
def colourI {α : Type} : ITree α → Colour
  | .leaf => .black
  | .node c _ _ _ _ => c

/-- Root colour as the heap reports it: `none` at a null position. -/
def colourI? {α : Type} : ITree α → Option Colour
  | .leaf => none
  | .node c _ _ _ _ => some c

/-- Spec §3 invariant 4 on the inductive view. -/
def noRRI {α : Type} : ITree α → Bool
  | .leaf => true
  | .node c l _ _ r =>
    (match c with
     | .red => !(colourI l == .red) && !(colourI r == .red)
     | .black => true)
    && noRRI l && noRRI r

/-- Spec §3 invariant 5 on the inductive view: uniform black-height. -/
def bhI {α : Type} : ITree α → Option Nat
  | .leaf => some 0
  | .node c l _ _ r =>
    match bhI l, bhI r with
    | some a, some b =>
      if a == b then some (a + (match c with | .black => 1 | .red => 0))
      else none
    | _, _ => none

/-- Parent back-references below a root agree with the ownership tree. -/
def parOkI {α : Type} (h : Heap α) : Option Nat → ITree α → Bool
  | _, .leaf => true
  | expected, .node _ l i _ r =>
    (parent! h i == expected)
    && parOkI h (some i) l && parOkI h (some i) r

/-- Parent coherence of everything strictly below the root (the root's own
back-reference is not constrained). -/
def parOkSub {α : Type} (h : Heap α) : ITree α → Bool
  | .leaf => true
  | .node _ l i _ r => parOkI h (some i) l && parOkI h (some i) r

/-- In-order (arena index, payload) listing of the inductive view. -/
def inorderNI {α : Type} : ITree α → List (Nat × α)
  | .leaf => []
  | .node _ l i d r => inorderNI l ++ (i, d) :: inorderNI r

/-- The subtree of the view rooted at arena index `n` (left-first hit;
unique when the index list has no duplicates). -/
def subtreeAt {α : Type} : ITree α → Nat → Option (ITree α)
  | .leaf, _ => none
  | .node c l i d r, n =>
    if i = n then some (.node c l i d r)
    else match subtreeAt l n with
      | some s => some s
      | none => subtreeAt r n

/-- Replace the subtree rooted at arena index `n` by `s`. -/
def graftI {α : Type} : ITree α → Nat → ITree α → ITree α
  | .leaf, _, _ => .leaf
  | .node c l i d r, n, s =>
    if i = n then s
    else .node c (graftI l n s) i d (graftI r n s)

/-- Rename an optional child link: `some n` becomes `r`, all else fixed. -/
def substL (n : Nat) (r : Option Nat) (x : Option Nat) : Option Nat :=
  if x = some n then r else x

/-- The arena index at the root of a view (`none` for a leaf): the value a
parent's child-link field holds for this subtree. -/
def rootLink {α : Type} : ITree α → Option Nat
  | .leaf => none
  | .node _ _ i _ _ => some i

/-- Recolour the node with arena index `n` in a view (every occurrence;
with duplicate-free indices, the one node). -/
def recolourI {α : Type} : ITree α → Nat → Colour → ITree α
  | .leaf, _, _ => .leaf
  | .node c l i d r, n, c' =>
    if i = n then .node c' l i d r
    else .node c (recolourI l n c') i d (recolourI r n c')

/-- Overwrite the payload of the node with arena index `n` in a view. -/
def setDataI {α : Type} : ITree α → Nat → α → ITree α
  | .leaf, _, _ => .leaf
  | .node c l i d r, n, d' =>
    if i = n then .node c l i d' r
    else .node c (setDataI l n d') i d (setDataI r n d')

/-- The well-formed view of an arena state: the root reifies, parents are
coherent and the reachable indices are duplicate-free. -/
def viewOK {α : Type} (t : RBTreeSet α) (tr : ITree α) : Prop :=
  reify? (t.heap.length + 1) t.heap t.root = some tr
  ∧ parOkI t.heap none tr = true
  ∧ (indicesI tr).Nodup

/-- One mutation step of the fix-up procedures, viewed: the new state is
well-formed, in-order pairs, lengths and the subtree of a pinned node are
preserved. -/
def stepBundle {α : Type} (t t' : RBTreeSet α) (node : Nat)
    (tr tr' : ITree α) : Prop :=
  viewOK t' tr'
  ∧ inorderNI tr' = inorderNI tr
  ∧ t'.heap.length = t.heap.length
  ∧ t'.length = t.length
  ∧ (∀ SN, subtreeAt tr node = some SN → subtreeAt tr' node = some SN)

/-! ### Public mutations and region predicates (for clone independence) -/

/-- A public mutation of a set (spec §6): the value-level mutating surface.
-/
inductive Op (α : Type) where
  | insert (v : α)
  | remove (v : α)
  | repack
  | clear

/-- Apply a public mutation. -/
def applyOp {α : Type} (o : Ords α) (cs : Consec α) (t : RBTreeSet α) :
    Op α → RBTreeSet α
  | .insert v => (Rbtset.insert o t v).1
  | .remove v => (Rbtset.remove o t v).1
  | .repack => (Rbtset.repack o cs t).1
  | .clear => Rbtset.clear t

/-- Every link field of every record stays inside the arena. -/
def links_bounded {α : Type} (h : Heap α) : Bool :=
  h.all fun nd =>
    (match nd.parent with | some k => k < h.length | none => true)
    && (match nd.left with | some k => k < h.length | none => true)
    && (match nd.right with | some k => k < h.length | none => true)

/-- A region of the arena closed under every link field: no record inside
points outside. -/
def regionP {α : Type} (P : Nat → Prop) (h : Heap α) : Prop :=
  ∀ j nd, P j → hGet h j = some nd →
    (∀ k, nd.parent = some k → P k)
    ∧ (∀ k, nd.left = some k → P k)
    ∧ (∀ k, nd.right = some k → P k)

/-- The region invariant of a tree view: everything the view reaches lies in
`Q`, `Q` is closed under links, and all indices at or beyond the arena's end
are in `Q` (so fresh allocations always land in `Q`). -/
def regionInv {α : Type} (Q : Nat → Prop) (t : RBTreeSet α) : Prop :=
  regionP Q t.heap
  ∧ (∀ j, t.heap.length ≤ j → Q j)
  ∧ (∀ r, t.root = some r → Q r)

/-- One heap evolution confined to the region `Q`: closedness and the
fresh-indices property persist, records outside `Q` are untouched, and the
arena only grows. -/
def hstep {α : Type} (Q : Nat → Prop) (h h' : Heap α) : Prop :=
  regionP Q h'
  ∧ (∀ j, h'.length ≤ j → Q j)
  ∧ (∀ j, ¬ Q j → hGet h' j = hGet h j)
  ∧ h.length ≤ h'.length

/-- One tree mutation confined to the region `Q`. -/
def rstep {α : Type} (Q : Nat → Prop) (t t' : RBTreeSet α) : Prop :=
  regionInv Q t'
  ∧ (∀ j, ¬ Q j → hGet t'.heap j = hGet t.heap j)
  ∧ t.heap.length ≤ t'.heap.length

/-- An integer `Consecutive` dictionary (merge adjacent integers, keeping
the right one), used to instantiate mutation claims at `Int` payloads. -/
def csInt : Consec Int :=
  { consecutive := fun a b => a + 1 == b, merged := fun _ b => b }

/-! ## Theorems

First a toolbox of frame lemmas about the heap primitives, then the claims.
-/

theorem length_hModify {α : Type} (h : Heap α) (i : Nat)
    (f : NodeData α → NodeData α) : (hModify h i f).length = h.length := by
  unfold hModify
  cases hGet : h[i]? with
  | none => rfl
  | some nd => exact List.length_set h i (f nd)

theorem hGet_hModify {α : Type} (h : Heap α) (i j : Nat)
    (f : NodeData α → NodeData α) :
    hGet (hModify h i f) j = if j = i then (hGet h j).map f else hGet h j := by
  unfold hGet hModify
  split
  · next nd hi =>
    rw [List.getElem?_set']
    by_cases hij : i = j
    · subst hij
      simp [hi]
    · simp [hij, Ne.symm hij]
  · next hi =>
    by_cases hij : j = i
    · subst hij
      simp [hi]
    · simp [hij]

theorem hbind_hModify {α β : Type} (h : Heap α) (i j : Nat)
    (f : NodeData α → NodeData α) (g : NodeData α → Option β)
    (hp : ∀ nd, g (f nd) = g nd) :
    (hGet (hModify h i f) j).bind g = (hGet h j).bind g := by
  rw [hGet_hModify]
  split
  · cases hGet h j with
    | none => rfl
    | some nd => simp [hp]
  · rfl

theorem hmap_hModify {α β : Type} (h : Heap α) (i j : Nat)
    (f : NodeData α → NodeData α) (g : NodeData α → β)
    (hp : ∀ nd, g (f nd) = g nd) :
    (hGet (hModify h i f) j).map g = (hGet h j).map g := by
  rw [hGet_hModify]
  split
  · cases hGet h j with
    | none => rfl
    | some nd => simp [hp]
  · rfl

theorem left_set_colour {α : Type} (h : Heap α) (i : Nat) (c : Colour)
    (j : Nat) : left! (set_colour h i c) j = left! h j := by
  simp only [left!, set_colour]
  exact hbind_hModify h i j _ _ (fun _ => rfl)

theorem right_set_colour {α : Type} (h : Heap α) (i : Nat) (c : Colour)
    (j : Nat) : right! (set_colour h i c) j = right! h j := by
  simp only [right!, set_colour]
  exact hbind_hModify h i j _ _ (fun _ => rfl)

theorem parent_set_colour {α : Type} (h : Heap α) (i : Nat) (c : Colour)
    (j : Nat) : parent! (set_colour h i c) j = parent! h j := by
  simp only [parent!, set_colour]
  exact hbind_hModify h i j _ _ (fun _ => rfl)

theorem data_set_colour {α : Type} (h : Heap α) (i : Nat) (c : Colour)
    (j : Nat) : data! (set_colour h i c) j = data! h j := by
  simp only [data!, set_colour]
  exact hmap_hModify h i j _ _ (fun _ => rfl)

theorem colour_set_colour {α : Type} (h : Heap α) (i : Nat) (c : Colour)
    (j : Nat) (hj : j ≠ i) : colour! (set_colour h i c) j = colour! h j := by
  simp only [colour!, set_colour, hGet_hModify, hj, if_false]

theorem colour_set_colour_self {α : Type} (h : Heap α) (i : Nat) (c : Colour)
    (hi : (hGet h i).isSome = true) :
    colour! (set_colour h i c) i = some c := by
  simp only [colour!, set_colour, hGet_hModify, if_pos rfl]
  cases hg : hGet h i with
  | none => rw [hg] at hi; cases hi
  | some nd => rfl

theorem colour_set_left {α : Type} (h : Heap α) (i : Nat) (x : Option Nat)
    (j : Nat) : colour! (set_left h i x) j = colour! h j := by
  simp only [colour!, set_left]
  exact hmap_hModify h i j _ _ (fun _ => rfl)

theorem colour_set_right {α : Type} (h : Heap α) (i : Nat) (x : Option Nat)
    (j : Nat) : colour! (set_right h i x) j = colour! h j := by
  simp only [colour!, set_right]
  exact hmap_hModify h i j _ _ (fun _ => rfl)

theorem colour_set_parent {α : Type} (h : Heap α) (i : Nat) (x : Option Nat)
    (j : Nat) : colour! (set_parent h i x) j = colour! h j := by
  simp only [colour!, set_parent]
  exact hmap_hModify h i j _ _ (fun _ => rfl)

theorem colour_set_data {α : Type} (h : Heap α) (i : Nat) (x : α)
    (j : Nat) : colour! (set_data h i x) j = colour! h j := by
  simp only [colour!, set_data]
  exact hmap_hModify h i j _ _ (fun _ => rfl)

theorem data_set_left {α : Type} (h : Heap α) (i : Nat) (x : Option Nat)
    (j : Nat) : data! (set_left h i x) j = data! h j := by
  simp only [data!, set_left]
  exact hmap_hModify h i j _ _ (fun _ => rfl)

theorem data_set_right {α : Type} (h : Heap α) (i : Nat) (x : Option Nat)
    (j : Nat) : data! (set_right h i x) j = data! h j := by
  simp only [data!, set_right]
  exact hmap_hModify h i j _ _ (fun _ => rfl)

theorem data_set_parent {α : Type} (h : Heap α) (i : Nat) (x : Option Nat)
    (j : Nat) : data! (set_parent h i x) j = data! h j := by
  simp only [data!, set_parent]
  exact hmap_hModify h i j _ _ (fun _ => rfl)

theorem data_set_data {α : Type} (h : Heap α) (i : Nat) (x : α)
    (j : Nat) (hj : j ≠ i) : data! (set_data h i x) j = data! h j := by
  simp only [data!, set_data, hGet_hModify, hj, if_false]

theorem data_set_data_self {α : Type} (h : Heap α) (i : Nat) (x : α)
    (hi : (hGet h i).isSome = true) :
    data! (set_data h i x) i = some x := by
  simp only [data!, set_data, hGet_hModify, if_pos rfl]
  cases hg : hGet h i with
  | none => rw [hg] at hi; cases hi
  | some nd => rfl

theorem left_set_data {α : Type} (h : Heap α) (i : Nat) (x : α)
    (j : Nat) : left! (set_data h i x) j = left! h j := by
  simp only [left!, set_data]
  exact hbind_hModify h i j _ _ (fun _ => rfl)

theorem right_set_data {α : Type} (h : Heap α) (i : Nat) (x : α)
    (j : Nat) : right! (set_data h i x) j = right! h j := by
  simp only [right!, set_data]
  exact hbind_hModify h i j _ _ (fun _ => rfl)

theorem parent_set_data {α : Type} (h : Heap α) (i : Nat) (x : α)
    (j : Nat) : parent! (set_data h i x) j = parent! h j := by
  simp only [parent!, set_data]
  exact hbind_hModify h i j _ _ (fun _ => rfl)

theorem parent_set_left {α : Type} (h : Heap α) (i : Nat) (x : Option Nat)
    (j : Nat) : parent! (set_left h i x) j = parent! h j := by
  simp only [parent!, set_left]
  exact hbind_hModify h i j _ _ (fun _ => rfl)

theorem parent_set_right {α : Type} (h : Heap α) (i : Nat) (x : Option Nat)
    (j : Nat) : parent! (set_right h i x) j = parent! h j := by
  simp only [parent!, set_right]
  exact hbind_hModify h i j _ _ (fun _ => rfl)

theorem right_set_left {α : Type} (h : Heap α) (i : Nat) (x : Option Nat)
    (j : Nat) : right! (set_left h i x) j = right! h j := by
  simp only [right!, set_left]
  exact hbind_hModify h i j _ _ (fun _ => rfl)

theorem left_set_right {α : Type} (h : Heap α) (i : Nat) (x : Option Nat)
    (j : Nat) : left! (set_right h i x) j = left! h j := by
  simp only [left!, set_right]
  exact hbind_hModify h i j _ _ (fun _ => rfl)

theorem left_set_parent {α : Type} (h : Heap α) (i : Nat) (x : Option Nat)
    (j : Nat) : left! (set_parent h i x) j = left! h j := by
  simp only [left!, set_parent]
  exact hbind_hModify h i j _ _ (fun _ => rfl)

theorem right_set_parent {α : Type} (h : Heap α) (i : Nat) (x : Option Nat)
    (j : Nat) : right! (set_parent h i x) j = right! h j := by
  simp only [right!, set_parent]
  exact hbind_hModify h i j _ _ (fun _ => rfl)

theorem left_set_left {α : Type} (h : Heap α) (i : Nat) (x : Option Nat)
    (j : Nat) (hj : j ≠ i) : left! (set_left h i x) j = left! h j := by
  simp only [left!, set_left, hGet_hModify, hj, if_false]

theorem left_set_left_self {α : Type} (h : Heap α) (i : Nat) (x : Option Nat)
    (hi : (hGet h i).isSome = true) : left! (set_left h i x) i = x := by
  simp only [left!, set_left, hGet_hModify, if_pos rfl]
  cases hg : hGet h i with
  | none => rw [hg] at hi; cases hi
  | some nd => rfl

theorem right_set_right {α : Type} (h : Heap α) (i : Nat) (x : Option Nat)
    (j : Nat) (hj : j ≠ i) : right! (set_right h i x) j = right! h j := by
  simp only [right!, set_right, hGet_hModify, hj, if_false]

theorem right_set_right_self {α : Type} (h : Heap α) (i : Nat)
    (x : Option Nat) (hi : (hGet h i).isSome = true) :
    right! (set_right h i x) i = x := by
  simp only [right!, set_right, hGet_hModify, if_pos rfl]
  cases hg : hGet h i with
  | none => rw [hg] at hi; cases hi
  | some nd => rfl

theorem parent_set_parent {α : Type} (h : Heap α) (i : Nat) (x : Option Nat)
    (j : Nat) (hj : j ≠ i) : parent! (set_parent h i x) j = parent! h j := by
  simp only [parent!, set_parent, hGet_hModify, hj, if_false]

theorem is_left_child_set_colour {α : Type} (h : Heap α) (i : Nat)
    (c : Colour) (j : Nat) :
    is_left_child (set_colour h i c) j = is_left_child h j := by
  simp only [is_left_child, parent_set_colour]
  cases parent! h j with
  | none => rfl
  | some p => simp only [Option.bind_some, left_set_colour]

theorem sibling_set_colour {α : Type} (h : Heap α) (i : Nat) (c : Colour)
    (j : Nat) : sibling (set_colour h i c) j = sibling h j := by
  simp only [sibling, is_left_child_set_colour, parent_set_colour]
  cases parent! h j with
  | none => split <;> rfl
  | some p =>
    split <;> simp only [Option.bind_some, left_set_colour, right_set_colour]

/-- C10: every iterator is fused — once `next()` has returned `None`, every
subsequent `next()` (any number of further advances of the cursor) still
returns `None`; the cursor stays exhausted and never restarts. -/
theorem claim_C10_iter_fused {α : Type} (h : Heap α) (s : Iter) (n : Nat)
    (hnone : (iter_next h s).1 = none) :
    (iter_next h (Nat.iterate (fun st => (iter_next h st).2) n s)).1
      = none := by
  have hc : s.cursor = none := by
    cases hs : s.cursor with
    | none => rfl
    | some k =>
      exfalso
      rw [iter_next, hs] at hnone
      cases hnone
  have hfix : (fun st => (iter_next h st).2) s = s := by
    show (iter_next h s).2 = s
    rw [iter_next, hc]
  rw [Function.iterate_fixed hfix]
  rw [iter_next, hc]

/-- C10 witness: a concrete exhausted iterator stays exhausted after three
further calls. -/
theorem claim_C10_witness :
    (iter_next ([] : Heap Int) ⟨none⟩).1 = none
    ∧ (iter_next ([] : Heap Int)
        (Nat.iterate (fun st => (iter_next ([] : Heap Int) st).2) 3
          ⟨none⟩)).1 = none :=
  ⟨rfl, claim_C10_iter_fused ([] : Heap Int) ⟨none⟩ 3 rfl⟩

/-- C3 counterexample: in `c3state` node 1 is a red leaf (no replacement
child, not the root, not double-black), its sibling node 2 is black, and
running `remove_node` on node 1 *changes* node 2's colour to red —
contradicting "no sibling recolouring is performed … no other node's colour
changes" (the code at tree.rs:421-423 recolours the sibling red). -/
theorem claim_C3_counterexample :
    (left! c3state.heap 1 = none ∧ right! c3state.heap 1 = none
      ∧ c3state.root ≠ some 1 ∧ colour! c3state.heap 1 = some .red)
    ∧ colour! c3state.heap 2 = some .black
    ∧ colour! (remove_node 4 c3state 1).heap 2 = some .red := by
  decide

/-- The emptied child slot reads back `none` whether or not the record
exists. -/
theorem left_set_left_none {α : Type} (h : Heap α) (i : Nat) :
    left! (set_left h i none) i = none := by
  simp only [left!, set_left, hGet_hModify, if_pos rfl]
  cases hGet h i with
  | none => rfl
  | some nd => rfl

theorem right_set_right_none {α : Type} (h : Heap α) (i : Nat) :
    right! (set_right h i none) i = none := by
  simp only [right!, set_right, hGet_hModify, if_pos rfl]
  cases hGet h i with
  | none => rfl
  | some nd => rfl

/-- C3 amended: in the no-replacement, non-root, non-double-black branch,
with a sibling `s` and a parent `p`, the code first recolours `s` red and
only then unlinks the node from `p`'s corresponding child slot (that slot
becomes `none` while `p`'s other child slot keeps its value); apart from
`s`'s colour and `p`'s emptied slot nothing else changes: every other
node keeps its colour, the left/right links of every node other than `p`,
all parent links, all payloads and the root are untouched, and the length
drops by one.  (On a tree satisfying the red-black invariants the sibling
of a red leaf is already red, so the recolouring is observationally a
no-op there.) -/
theorem claim_C3_amended {α : Type} (t : RBTreeSet α) (node fuel s p : Nat)
    (hl : left! t.heap node = none) (hr : right! t.heap node = none)
    (hroot : t.root ≠ some node)
    (hred : colour! t.heap node = some .red)
    (hs : sibling t.heap node = some s)
    (hsin : (hGet t.heap s).isSome = true)
    (hp : parent! t.heap node = some p) :
    colour! (remove_node (fuel + 1) t node).heap s = some .red
    ∧ (is_left_child t.heap node = true →
        left! (remove_node (fuel + 1) t node).heap p = none
        ∧ right! (remove_node (fuel + 1) t node).heap p
            = right! t.heap p)
    ∧ (is_left_child t.heap node = false →
        right! (remove_node (fuel + 1) t node).heap p = none
        ∧ left! (remove_node (fuel + 1) t node).heap p
            = left! t.heap p)
    ∧ (∀ j, j ≠ p → left! (remove_node (fuel + 1) t node).heap j
        = left! t.heap j)
    ∧ (∀ j, j ≠ p → right! (remove_node (fuel + 1) t node).heap j
        = right! t.heap j)
    ∧ (∀ j, parent! (remove_node (fuel + 1) t node).heap j
        = parent! t.heap j)
    ∧ (∀ j, j ≠ s →
        colour! (remove_node (fuel + 1) t node).heap j = colour! t.heap j)
    ∧ (∀ j, data! (remove_node (fuel + 1) t node).heap j = data! t.heap j)
    ∧ (remove_node (fuel + 1) t node).root = t.root
    ∧ (remove_node (fuel + 1) t node).length = t.length - 1 := by
  have hrootb : (t.root == some node) = false := by
    cases hb : t.root == some node with
    | false => rfl
    | true => exact absurd (eq_of_beq hb) hroot
  have hlis : (left! t.heap node).isSome = false := by rw [hl]; rfl
  have hnn :
      (if (left! t.heap node).isSome && (right! t.heap node).isSome then
        successor (t.heap.length + 1) t.heap node
      else if (left! t.heap node).isSome then left! t.heap node
      else right! t.heap node) = none := by
    rw [hlis, hr]
    rfl
  rw [remove_node, hnn]
  have hcond : ((colour! t.heap node == some Colour.black)
      && !(Option.bind (none : Option Nat) (colour! t.heap)
            == some Colour.red)) = false := by
    rw [hred]
    rfl
  rw [hcond, hrootb]
  simp only [Bool.false_eq_true, if_false]
  rw [hs]
  simp only [parent_set_colour, is_left_child_set_colour]
  rw [hp]
  cases hilc : is_left_child t.heap node with
  | true =>
    dsimp only
    simp only [eq_self_iff_true, if_true]
    refine ⟨?_, ?_, ?_, ?_, ?_, ?_, ?_, ?_, trivial, trivial⟩
    · rw [colour_set_left]
      exact colour_set_colour_self t.heap s .red hsin
    · intro _
      refine ⟨left_set_left_none (set_colour t.heap s .red) p, ?_⟩
      rw [right_set_left, right_set_colour]
    · intro hfalse
      exact absurd hfalse (by decide)
    · intro j hj
      rw [left_set_left (set_colour t.heap s .red) p none j hj,
        left_set_colour]
    · intro j _
      rw [right_set_left, right_set_colour]
    · intro j
      rw [parent_set_left, parent_set_colour]
    · intro j hj
      rw [colour_set_left]
      exact colour_set_colour t.heap s .red j hj
    · intro j
      rw [data_set_left]
      exact data_set_colour t.heap s .red j
  | false =>
    dsimp only
    simp only [Bool.false_eq_true, if_false]
    refine ⟨?_, ?_, ?_, ?_, ?_, ?_, ?_, ?_, trivial, trivial⟩
    · rw [colour_set_right]
      exact colour_set_colour_self t.heap s .red hsin
    · intro htrue
      exact absurd htrue (by decide)
    · intro _
      refine ⟨right_set_right_none (set_colour t.heap s .red) p, ?_⟩
      rw [left_set_right, left_set_colour]
    · intro j _
      rw [left_set_right, left_set_colour]
    · intro j hj
      rw [right_set_right (set_colour t.heap s .red) p none j hj,
        right_set_colour]
    · intro j
      rw [parent_set_right, parent_set_colour]
    · intro j hj
      rw [colour_set_right]
      exact colour_set_colour t.heap s .red j hj
    · intro j
      rw [data_set_right]
      exact data_set_colour t.heap s .red j

/-- C3 amended witness: the amended description evaluated on `c3state`
(node 1, sibling 2, parent 0): the sibling turns red, the parent's left
slot is emptied, and the length drops from 3 to 2. -/
theorem claim_C3_amended_witness :
    colour! (remove_node 4 c3state 1).heap 2 = some .red
    ∧ left! (remove_node 4 c3state 1).heap 0 = none
    ∧ (remove_node 4 c3state 1).length = 3 - 1 :=
  ⟨(claim_C3_amended c3state 1 3 2 0 (by decide) (by decide) (by decide)
      (by decide) (by decide) (by decide) (by decide)).1,
   ((claim_C3_amended c3state 1 3 2 0 (by decide) (by decide) (by decide)
      (by decide) (by decide) (by decide) (by decide)).2.1
      (by decide)).1,
   (claim_C3_amended c3state 1 3 2 0 (by decide) (by decide) (by decide)
      (by decide) (by decide) (by decide)
      (by decide)).2.2.2.2.2.2.2.2.2⟩

/-- C5 counterexample: in `c5base` (inserts `5..8`, `1..3`, `8..13`) the
consecutive run is `[5..8, 8..13]` and its last element lives in record 2.
After `repack()` the folded value `5..13` lives in record 0 — the record
that held the run's *first* element — because removing `5..8` (a node with
two children) swapped payloads with its successor and deleted record 2.
The run's last element's record is no longer in the tree, so the claim's
"same node record" identity preservation fails. -/
theorem claim_C5_counterexample :
    csSeq.consecutive ⟨5, 8⟩ ⟨8, 13⟩ = true
    ∧ values c5base = [⟨1, 3⟩, ⟨5, 8⟩, ⟨8, 13⟩]
    ∧ get_node oSeq c5base ⟨8, 13⟩ = some 2
    ∧ data! c5base.heap 2 = some ⟨8, 13⟩
    ∧ values (repack oSeq csSeq c5base).1 = [⟨1, 3⟩, ⟨5, 13⟩]
    ∧ data! (repack oSeq csSeq c5base).1.heap 0 = some ⟨5, 13⟩
    ∧ get_node oSeq (repack oSeq csSeq c5base).1 ⟨5, 13⟩ = some 0
    ∧ subtree_list? 4 (repack oSeq csSeq c5base).1.heap
        (repack oSeq csSeq c5base).1.root = some [0, 1] := by
  decide

/-- C5 amended: the merge block of `repack` folds the run left-to-right
through `merged` and writes the folded value into the payload of the node
that a fresh `get_node` lookup of the run's last value finds *after* the
removals; only that node's payload changes (colours, links, root and length
of the post-removal state are untouched).  That node need not be the record
that held the run's last element before the merge: the removals can move
payloads between records (tree.rs:461, the swap in `remove_node`). -/
theorem claim_C5_amended {α : Type} (o : Ords α) (cs : Consec α)
    (t : RBTreeSet α) (a0 b0 : α) (rest : List α) (j : Nat)
    (hj : get_node o (repack_removals o t (a0 :: b0 :: rest))
        ((a0 :: b0 :: rest).getLastD a0) = some j)
    (hjin : (hGet (repack_removals o t (a0 :: b0 :: rest)).heap j).isSome
        = true) :
    (repack_merge o cs t (a0 :: b0 :: rest)).2 = false
    ∧ data! (repack_merge o cs t (a0 :: b0 :: rest)).1.heap j
        = some ((b0 :: rest).foldl (fun a b => cs.merged a b) a0)
    ∧ (∀ k, k ≠ j →
        data! (repack_merge o cs t (a0 :: b0 :: rest)).1.heap k
          = data! (repack_removals o t (a0 :: b0 :: rest)).heap k)
    ∧ (∀ k, colour! (repack_merge o cs t (a0 :: b0 :: rest)).1.heap k
        = colour! (repack_removals o t (a0 :: b0 :: rest)).heap k)
    ∧ (∀ k, left! (repack_merge o cs t (a0 :: b0 :: rest)).1.heap k
        = left! (repack_removals o t (a0 :: b0 :: rest)).heap k)
    ∧ (∀ k, right! (repack_merge o cs t (a0 :: b0 :: rest)).1.heap k
        = right! (repack_removals o t (a0 :: b0 :: rest)).heap k)
    ∧ (∀ k, parent! (repack_merge o cs t (a0 :: b0 :: rest)).1.heap k
        = parent! (repack_removals o t (a0 :: b0 :: rest)).heap k)
    ∧ (repack_merge o cs t (a0 :: b0 :: rest)).1.root
        = (repack_removals o t (a0 :: b0 :: rest)).root
    ∧ (repack_merge o cs t (a0 :: b0 :: rest)).1.length
        = (repack_removals o t (a0 :: b0 :: rest)).length := by
  rw [repack_merge]
  rw [hj]
  refine ⟨rfl, ?_, ?_, ?_, ?_, ?_, ?_, rfl, rfl⟩
  · exact data_set_data_self _ j _ hjin
  · intro k hk
    exact data_set_data _ j _ k hk
  · intro k
    exact colour_set_data _ j _ k
  · intro k
    exact left_set_data _ j _ k
  · intro k
    exact right_set_data _ j _ k
  · intro k
    exact parent_set_data _ j _ k

/-- C5 amended witness: the merge block on `c5base`'s run `[5..8, 8..13]`
finds record 0 after the removals and stores the folded value `5..13`
there. -/
theorem claim_C5_witness :
    data! (repack_merge oSeq csSeq c5base [⟨5, 8⟩, ⟨8, 13⟩]).1.heap 0
      = some ⟨5, 13⟩ :=
  (claim_C5_amended oSeq csSeq c5base ⟨5, 8⟩ ⟨8, 13⟩ [] 0 (by decide)
    (by decide)).2.1

theorem chain_lt_cons {α : Type} {o : Ords α} {a : α} {l : List α}
    (h : chain_lt o (a :: l) = true) : chain_lt o l = true := by
  cases l with
  | nil => rfl
  | cons b l' =>
    rw [chain_lt] at h
    exact (Bool.and_eq_true_iff.mp h).2

theorem chain_lt_head_lt {α : Type} {o : Ords α} (lo : LawfulOrds o)
    {d y : α} {R : List α} (h : chain_lt o (d :: R) = true) (hy : y ∈ R) :
    o.lt d y = true := by
  induction R generalizing d with
  | nil => cases hy
  | cons a R' ih =>
    rw [chain_lt] at h
    have h1 := (Bool.and_eq_true_iff.mp h).1
    have h2 := (Bool.and_eq_true_iff.mp h).2
    cases hy with
    | head => exact h1
    | tail _ hy' => exact lo.lt_trans d a y h1 (ih h2 hy')

theorem chain_lt_append_right {α : Type} {o : Ords α} {l1 l2 : List α}
    (h : chain_lt o (l1 ++ l2) = true) : chain_lt o l2 = true := by
  induction l1 with
  | nil => exact h
  | cons a l1' ih => exact ih (chain_lt_cons h)

theorem chain_lt_append_left {α : Type} {o : Ords α} {l1 l2 : List α}
    (h : chain_lt o (l1 ++ l2) = true) : chain_lt o l1 = true := by
  induction l1 with
  | nil => rfl
  | cons a l1' ih =>
    cases l1' with
    | nil => rfl
    | cons b l1'' =>
      rw [List.cons_append, List.cons_append, chain_lt] at h
      have h1 := (Bool.and_eq_true_iff.mp h).1
      have h2 := (Bool.and_eq_true_iff.mp h).2
      rw [chain_lt]
      exact Bool.and_eq_true_iff.mpr ⟨h1, ih (by rw [List.cons_append]; exact h2)⟩

theorem chain_lt_mem_lt {α : Type} {o : Ords α} (lo : LawfulOrds o)
    {L R : List α} {d x : α} (h : chain_lt o (L ++ d :: R) = true)
    (hx : x ∈ L) : o.lt x d = true := by
  induction L with
  | nil => cases hx
  | cons a L' ih =>
    cases hx with
    | head =>
      refine chain_lt_head_lt lo (d := x) (R := L' ++ d :: R) h ?_
      exact List.mem_append.mpr (Or.inr (List.mem_cons_self d R))
    | tail _ hx' => exact ih (chain_lt_cons h) hx'

/-- The descent of `insert_from` finds a `beq`-equal element whenever the
subtree's in-order list contains one and is strictly sorted: no mutation,
`none` returned. -/
theorem insert_from_finds {α : Type} (o : Ords α) (lo : LawfulOrds o) :
    ∀ (fuel : Nat) (t : RBTreeSet α) (i : Nat) (l : List α) (v : α),
      inorder? fuel t.heap (some i) = some l →
      chain_lt o l = true →
      (∃ x ∈ l, o.beq v x = true) →
      insert_from o fuel t i v = (t, none) := by
  intro fuel
  induction fuel with
  | zero => intro t i l v hio; cases hio
  | succ fuel ih =>
    intro t i l v hio hch hmem
    rw [inorder?] at hio
    cases hg : hGet t.heap i with
    | none => rw [hg] at hio; cases hio
    | some nd =>
      rw [hg] at hio
      dsimp only at hio
      cases hL : inorder? fuel t.heap nd.left with
      | none => rw [hL] at hio; cases hio
      | some L =>
        cases hR : inorder? fuel t.heap nd.right with
        | none => rw [hL, hR] at hio; cases hio
        | some R =>
          rw [hL, hR] at hio
          have hl : l = L ++ nd.data :: R := by
            cases hio
            rfl
          subst hl
          obtain ⟨x, hxmem, hbeq⟩ := hmem
          rw [insert_from, hg]
          dsimp only
          by_cases hbeqd : o.beq v nd.data = true
          · rw [hbeqd]
            rfl
          · rw [Bool.not_eq_true] at hbeqd
            rw [hbeqd]
            simp only [Bool.false_eq_true, if_false]
            have hxcase := List.mem_append.mp hxmem
            have hbx := (lo.beq_iff v x).mp hbeq
            rcases hxcase with hxL | hxdR
            · -- the match is in the left subtree
              have hxd : o.lt x nd.data = true := chain_lt_mem_lt lo hch hxL
              have hdv : o.lt nd.data v = false := by
                cases hq : o.lt nd.data v with
                | false => rfl
                | true =>
                  have : o.lt x v = true := lo.lt_trans x nd.data v hxd hq
                  rw [hbx.2] at this
                  cases this
              have hle : o.le v nd.data = true := by
                rw [lo.le_iff, hdv]
                rfl
              rw [hle]
              simp only [eq_self_iff_true, if_true]
              cases hnl : nd.left with
              | none =>
                rw [hnl] at hL
                rw [inorder?] at hL
                cases hL
                cases hxL
              | some lidx =>
                rw [hnl] at hL
                exact ih t lidx L v hL (chain_lt_append_left hch) ⟨x, hxL, hbeq⟩
            · cases hxdR with
              | head =>
                rw [hbeq] at hbeqd
                cases hbeqd
              | tail _ hxR =>
                have hdx : o.lt nd.data x = true :=
                  chain_lt_head_lt lo (chain_lt_append_right hch) hxR
                have hdv : o.lt nd.data v = true := by
                  cases hq : o.lt nd.data v with
                  | true => rfl
                  | false =>
                    have hvd : o.lt v nd.data = true := by
                      cases hq2 : o.lt v nd.data with
                      | true => rfl
                      | false =>
                        have : o.beq v nd.data = true :=
                          (lo.beq_iff v nd.data).mpr ⟨hq2, hq⟩
                        rw [this] at hbeqd
                        cases hbeqd
                    have : o.lt v x = true := lo.lt_trans v nd.data x hvd hdx
                    rw [hbx.1] at this
                    cases this
                have hle : o.le v nd.data = false := by
                  rw [lo.le_iff, hdv]
                  rfl
                rw [hle]
                simp only [Bool.false_eq_true, if_false]
                cases hnr : nd.right with
                | none =>
                  rw [hnr] at hR
                  rw [inorder?] at hR
                  cases hR
                  cases hxR
                | some ridx =>
                  rw [hnr] at hR
                  exact ih t ridx R v hR
                    (chain_lt_cons (chain_lt_append_right hch)) ⟨x, hxR, hbeq⟩

theorem lawful_oInt : LawfulOrds oInt := by
  constructor
  · intro a b
    simp only [oInt]
    constructor
    · intro h
      have : a = b := by
        have := beq_iff_eq.mp h
        exact this
      subst this
      simp
    · intro ⟨h1, h2⟩
      simp only [decide_eq_false_iff_not] at h1 h2
      have : a = b := by omega
      subst this
      simp
  · intro a b
    simp only [oInt]
    by_cases h : b < a
    · have h2 : ¬a ≤ b := by omega
      simp [h, h2]
    · have h2 : a ≤ b := by omega
      simp [h, h2]
  · intro a b c h1 h2
    simp only [oInt, decide_eq_true_eq] at h1 h2 ⊢
    omega
  · intro a b h
    simp only [oInt, decide_eq_true_eq, decide_eq_false_iff_not] at h ⊢
    omega

/-- C6: inserting a value `beq`-equal to an element already present returns
`None` and leaves the set completely unchanged — the state (hence `len()`
and the full traversal) is identical. -/
theorem claim_C6_insert_duplicate {α : Type} (o : Ords α)
    (lo : LawfulOrds o) (t : RBTreeSet α) (v : α)
    (hbst : bst_ok o t = true) (hmem : present o t v = true) :
    insert o t v = (t, none)
    ∧ len (insert o t v).1 = len t
    ∧ values (insert o t v).1 = values t := by
  have hins : insert o t v = (t, none) := by
    rw [insert]
    cases hroot : t.root with
    | none =>
      exfalso
      rw [present, hroot] at hmem
      simp only [inorder?] at hmem
      cases hmem
    | some r =>
      rw [bst_ok, hroot] at hbst
      rw [present, hroot] at hmem
      cases hio : inorder? (t.heap.length + 1) t.heap (some r) with
      | none =>
        rw [hio] at hbst
        cases hbst
      | some l =>
        rw [hio] at hbst hmem
        dsimp only at hbst hmem
        have hex : ∃ x ∈ l, o.beq v x = true := by
          simpa using List.any_eq_true.mp hmem
        have hfind := insert_from_finds o lo (t.heap.length + 1) t r l v
          hio hbst hex
        dsimp only
        rw [hfind]
  refine ⟨hins, ?_, ?_⟩ <;> rw [hins]

/-- C6 witness: spec scenario D — `insert(2)` then `insert(2)` again on a
singleton set. -/
theorem claim_C6_witness :
    insert oInt (ofList oInt [2]) 2 = (ofList oInt [2], none)
    ∧ len (ofList oInt [2]) = 1 :=
  ⟨(claim_C6_insert_duplicate oInt lawful_oInt (ofList oInt [2]) 2
      (by decide) (by decide)).1,
   by decide⟩

/-- Whatever `get_node`'s descent returns matched the searched value by
`beq`, and its payload is in the subtree's in-order list. -/
theorem get_node_loop_sound {α : Type} (o : Ords α) (d : α) :
    ∀ (fuel : Nat) (h : Heap α) (oi : Option Nat) (n : Nat) (l : List α),
      get_node_loop o d fuel h oi = some n →
      inorder? fuel h oi = some l →
      ∃ x ∈ l, o.beq d x = true := by
  intro fuel
  induction fuel with
  | zero => intro h oi n l hg; cases hg
  | succ fuel ih =>
    intro h oi n l hg hio
    cases oi with
    | none => cases hg
    | some i =>
      rw [get_node_loop] at hg
      rw [inorder?] at hio
      cases hgi : hGet h i with
      | none => rw [hgi] at hg; cases hg
      | some nd =>
        rw [hgi] at hg hio
        dsimp only at hg hio
        cases hL : inorder? fuel h nd.left with
        | none => rw [hL] at hio; cases hio
        | some L =>
          cases hR : inorder? fuel h nd.right with
          | none => rw [hL, hR] at hio; cases hio
          | some R =>
            rw [hL, hR] at hio
            have hl : l = L ++ nd.data :: R := by
              cases hio
              rfl
            subst hl
            by_cases hbeq : o.beq d nd.data = true
            · exact ⟨nd.data, List.mem_append.mpr
                (Or.inr (List.mem_cons_self _ _)), hbeq⟩
            · rw [Bool.not_eq_true] at hbeq
              rw [hbeq] at hg
              simp only [Bool.false_eq_true, if_false] at hg
              by_cases hlt : o.lt d nd.data = true
              · rw [hlt] at hg
                simp only [eq_self_iff_true, if_true] at hg
                obtain ⟨x, hx, hb⟩ := ih h nd.left n L hg hL
                exact ⟨x, List.mem_append.mpr (Or.inl hx), hb⟩
              · rw [Bool.not_eq_true] at hlt
                rw [hlt] at hg
                simp only [Bool.false_eq_true, if_false] at hg
                obtain ⟨x, hx, hb⟩ := ih h nd.right n R hg hR
                exact ⟨x, List.mem_append.mpr
                  (Or.inr (List.mem_cons_of_mem _ hx)), hb⟩

/-- On a strictly sorted subtree, `get_node`'s descent finds a node whenever
a `beq`-match is in the subtree's in-order list. -/
theorem get_node_loop_finds {α : Type} (o : Ords α) (lo : LawfulOrds o)
    (d : α) :
    ∀ (fuel : Nat) (h : Heap α) (oi : Option Nat) (l : List α),
      inorder? fuel h oi = some l →
      chain_lt o l = true →
      (∃ x ∈ l, o.beq d x = true) →
      ∃ n, get_node_loop o d fuel h oi = some n := by
  intro fuel
  induction fuel with
  | zero =>
    intro h oi l hio hch hmem
    cases oi with
    | none =>
      cases hio
      obtain ⟨x, hx, _⟩ := hmem
      cases hx
    | some i => cases hio
  | succ fuel ih =>
    intro h oi l hio hch hmem
    cases oi with
    | none =>
      cases hio
      obtain ⟨x, hx, _⟩ := hmem
      cases hx
    | some i =>
      rw [inorder?] at hio
      rw [get_node_loop]
      cases hgi : hGet h i with
      | none => rw [hgi] at hio; cases hio
      | some nd =>
        rw [hgi] at hio
        dsimp only at hio ⊢
        cases hL : inorder? fuel h nd.left with
        | none => rw [hL] at hio; cases hio
        | some L =>
          cases hR : inorder? fuel h nd.right with
          | none => rw [hL, hR] at hio; cases hio
          | some R =>
            rw [hL, hR] at hio
            have hl : l = L ++ nd.data :: R := by
              cases hio
              rfl
            subst hl
            obtain ⟨x, hxmem, hbeq⟩ := hmem
            by_cases hbeqd : o.beq d nd.data = true
            · rw [hbeqd]
              exact ⟨i, rfl⟩
            · rw [Bool.not_eq_true] at hbeqd
              rw [hbeqd]
              simp only [Bool.false_eq_true, if_false]
              have hbx := (lo.beq_iff d x).mp hbeq
              rcases List.mem_append.mp hxmem with hxL | hxdR
              · have hxd : o.lt x nd.data = true :=
                  chain_lt_mem_lt lo hch hxL
                have hdn : o.lt d nd.data = true := by
                  cases hq : o.lt d nd.data with
                  | true => rfl
                  | false =>
                    have hnd : o.lt nd.data d = true := by
                      cases hq2 : o.lt nd.data d with
                      | true => rfl
                      | false =>
                        have : o.beq d nd.data = true :=
                          (lo.beq_iff d nd.data).mpr ⟨hq, hq2⟩
                        rw [this] at hbeqd
                        cases hbeqd
                    have : o.lt x d = true :=
                      lo.lt_trans x nd.data d hxd hnd
                    rw [hbx.2] at this
                    cases this
                rw [hdn]
                simp only [eq_self_iff_true, if_true]
                exact ih h nd.left L hL (chain_lt_append_left hch)
                  ⟨x, hxL, hbeq⟩
              · cases hxdR with
                | head =>
                  rw [hbeq] at hbeqd
                  cases hbeqd
                | tail _ hxR =>
                  have hdx : o.lt nd.data x = true :=
                    chain_lt_head_lt lo (chain_lt_append_right hch) hxR
                  have hdn : o.lt d nd.data = false := by
                    cases hq : o.lt d nd.data with
                    | false => rfl
                    | true =>
                      have : o.lt d x = true :=
                        lo.lt_trans d nd.data x hq hdx
                      rw [hbx.1] at this
                      cases this
                  rw [hdn]
                  simp only [Bool.false_eq_true, if_false]
                  exact ih h nd.right R hR
                    (chain_lt_cons (chain_lt_append_right hch))
                    ⟨x, hxR, hbeq⟩

theorem reify?_depth_le {α : Type} :
    ∀ (fuel : Nat) (h : Heap α) (oi : Option Nat) (tr : ITree α),
      reify? fuel h oi = some tr → depthI tr ≤ fuel := by
  intro fuel
  induction fuel with
  | zero =>
    intro h oi tr hr
    cases oi with
    | none => cases hr; exact Nat.le_refl 0
    | some i => cases hr
  | succ fuel ih =>
    intro h oi tr hr
    cases oi with
    | none => cases hr; exact Nat.zero_le _
    | some i =>
      rw [reify?] at hr
      cases hg : hGet h i with
      | none => rw [hg] at hr; cases hr
      | some nd =>
        rw [hg] at hr
        dsimp only at hr
        cases hL : reify? fuel h nd.left with
        | none => rw [hL] at hr; cases hr
        | some trl =>
          cases hR : reify? fuel h nd.right with
          | none => rw [hL, hR] at hr; cases hr
          | some trr =>
            rw [hL, hR] at hr
            cases hr
            have h1 := ih h nd.left trl hL
            have h2 := ih h nd.right trr hR
            rw [depthI]
            omega

theorem reify?_of_depth_lt {α : Type} :
    ∀ (fuel : Nat) (h : Heap α) (oi : Option Nat) (tr : ITree α)
      (fuel' : Nat),
      reify? fuel h oi = some tr → depthI tr < fuel' →
      reify? fuel' h oi = some tr := by
  intro fuel
  induction fuel with
  | zero =>
    intro h oi tr fuel' hr hd
    cases oi with
    | none =>
      cases hr
      cases fuel' with
      | zero => rfl
      | succ k => rfl
    | some i => cases hr
  | succ fuel ih =>
    intro h oi tr fuel' hr hd
    cases oi with
    | none =>
      cases hr
      cases fuel' with
      | zero => rfl
      | succ k => rfl
    | some i =>
      rw [reify?] at hr
      cases hg : hGet h i with
      | none => rw [hg] at hr; cases hr
      | some nd =>
        rw [hg] at hr
        dsimp only at hr
        cases hL : reify? fuel h nd.left with
        | none => rw [hL] at hr; cases hr
        | some trl =>
          cases hR : reify? fuel h nd.right with
          | none => rw [hL, hR] at hr; cases hr
          | some trr =>
            rw [hL, hR] at hr
            cases hr
            cases fuel' with
            | zero => exact absurd hd (by omega)
            | succ k =>
              rw [depthI] at hd
              rw [reify?, hg]
              dsimp only
              rw [ih h nd.left trl k hL (by omega),
                ih h nd.right trr k hR (by omega)]

theorem reify?_mono {α : Type} (fuel fuel' : Nat) (h : Heap α)
    (oi : Option Nat) (tr : ITree α) (hle : fuel ≤ fuel')
    (hr : reify? fuel h oi = some tr) : reify? fuel' h oi = some tr := by
  rcases Nat.lt_or_ge fuel fuel' with hlt | hge
  · exact reify?_of_depth_lt fuel h oi tr fuel' hr
      (Nat.lt_of_le_of_lt (reify?_depth_le fuel h oi tr hr) hlt)
  · have : fuel = fuel' := Nat.le_antisymm hle hge
    subst this
    exact hr

theorem reify?_frame {α : Type} :
    ∀ (fuel : Nat) (h h' : Heap α) (oi : Option Nat) (tr : ITree α),
      reify? fuel h oi = some tr →
      (∀ j ∈ indicesI tr, (hGet h' j).map core = (hGet h j).map core) →
      reify? fuel h' oi = some tr := by
  intro fuel
  induction fuel with
  | zero =>
    intro h h' oi tr hr ha
    cases oi with
    | none => exact hr
    | some i => cases hr
  | succ fuel ih =>
    intro h h' oi tr hr ha
    cases oi with
    | none => exact hr
    | some i =>
      rw [reify?] at hr
      cases hg : hGet h i with
      | none => rw [hg] at hr; cases hr
      | some nd =>
        rw [hg] at hr
        dsimp only at hr
        cases hL : reify? fuel h nd.left with
        | none => rw [hL] at hr; cases hr
        | some trl =>
          cases hR : reify? fuel h nd.right with
          | none => rw [hL, hR] at hr; cases hr
          | some trr =>
            rw [hL, hR] at hr
            cases hr
            have hai : (hGet h' i).map core = (hGet h i).map core :=
              ha i (by rw [indicesI]; exact List.mem_cons_self _ _)
            rw [hg] at hai
            cases hg' : hGet h' i with
            | none =>
              rw [hg'] at hai
              simp only [Option.map_none', Option.map_some'] at hai
              cases hai
            | some nd' =>
              rw [hg'] at hai
              simp only [Option.map_some'] at hai
              have hcore : core nd' = core nd := Option.some.inj hai
              rw [core, core] at hcore
              have hcol : nd'.colour = nd.colour := congrArg Prod.fst hcore
              have h234 := congrArg Prod.snd hcore
              have hlf : nd'.left = nd.left := congrArg Prod.fst h234
              have h34 := congrArg Prod.snd h234
              have hrg : nd'.right = nd.right := congrArg Prod.fst h34
              have hdt : nd'.data = nd.data := congrArg Prod.snd h34
              rw [reify?, hg']
              dsimp only
              rw [hlf, hrg, hcol, hdt]
              rw [ih h h' nd.left trl hL (fun j hj => ha j (by
                    rw [indicesI]
                    exact List.mem_cons_of_mem _
                      (List.mem_append.mpr (Or.inl hj)))),
                ih h h' nd.right trr hR (fun j hj => ha j (by
                    rw [indicesI]
                    exact List.mem_cons_of_mem _
                      (List.mem_append.mpr (Or.inr hj))))]

theorem subtree_list?_eq {α : Type} :
    ∀ (fuel : Nat) (h : Heap α) (oi : Option Nat),
      subtree_list? fuel h oi = (reify? fuel h oi).map indicesI := by
  intro fuel
  induction fuel with
  | zero =>
    intro h oi
    cases oi with
    | none => rfl
    | some i => rfl
  | succ fuel ih =>
    intro h oi
    cases oi with
    | none => rfl
    | some i =>
      rw [subtree_list?, reify?]
      cases hg : hGet h i with
      | none => rfl
      | some nd =>
        dsimp only
        rw [ih h nd.left, ih h nd.right]
        cases reify? fuel h nd.left with
        | none => rfl
        | some trl =>
          cases reify? fuel h nd.right with
          | none => rfl
          | some trr => rfl

theorem inorder?_eq {α : Type} :
    ∀ (fuel : Nat) (h : Heap α) (oi : Option Nat),
      inorder? fuel h oi = (reify? fuel h oi).map inorderI := by
  intro fuel
  induction fuel with
  | zero =>
    intro h oi
    cases oi with
    | none => rfl
    | some i => rfl
  | succ fuel ih =>
    intro h oi
    cases oi with
    | none => rfl
    | some i =>
      rw [inorder?, reify?]
      cases hg : hGet h i with
      | none => rfl
      | some nd =>
        dsimp only
        rw [ih h nd.left, ih h nd.right]
        cases reify? fuel h nd.left with
        | none => rfl
        | some trl =>
          cases reify? fuel h nd.right with
          | none => rfl
          | some trr => rfl

theorem reify?_some_node {α : Type} (fuel : Nat) (h : Heap α) (i : Nat)
    (tr : ITree α) (hr : reify? fuel h (some i) = some tr) :
    ∃ nd trl trr, hGet h i = some nd
      ∧ tr = .node nd.colour trl i nd.data trr
      ∧ reify? (fuel - 1) h nd.left = some trl
      ∧ reify? (fuel - 1) h nd.right = some trr := by
  cases fuel with
  | zero => cases hr
  | succ fuel =>
    rw [reify?] at hr
    cases hg : hGet h i with
    | none => rw [hg] at hr; cases hr
    | some nd =>
      rw [hg] at hr
      dsimp only at hr
      cases hL : reify? fuel h nd.left with
      | none => rw [hL] at hr; cases hr
      | some trl =>
        cases hR : reify? fuel h nd.right with
        | none => rw [hL, hR] at hr; cases hr
        | some trr =>
          rw [hL, hR] at hr
          cases hr
          exact ⟨nd, trl, trr, rfl, rfl, hL, hR⟩

/-- The colour the heap reports for the root of a reified subtree. -/
theorem reify?_colour {α : Type} (fuel : Nat) (h : Heap α)
    (oi : Option Nat) (tr : ITree α) (hr : reify? fuel h oi = some tr) :
    oi.bind (colour! h) = colourI? tr := by
  cases oi with
  | none =>
    cases fuel with
    | zero => cases hr; rfl
    | succ fuel => cases hr; rfl
  | some i =>
    obtain ⟨nd, trl, trr, hg, htr, _, _⟩ := reify?_some_node fuel h i tr hr
    subst htr
    show colour! h i = some nd.colour
    rw [colour!, hg]
    rfl

theorem bheight?_eq {α : Type} :
    ∀ (fuel : Nat) (h : Heap α) (oi : Option Nat) (tr : ITree α),
      reify? fuel h oi = some tr → bheight? fuel h oi = bhI tr := by
  intro fuel
  induction fuel with
  | zero =>
    intro h oi tr hr
    cases oi with
    | none => cases hr; rfl
    | some i => cases hr
  | succ fuel ih =>
    intro h oi tr hr
    cases oi with
    | none => cases hr; rfl
    | some i =>
      obtain ⟨nd, trl, trr, hg, htr, hL, hR⟩ :=
        reify?_some_node (fuel + 1) h i tr hr
      subst htr
      rw [bheight?]
      have hli : left! h i = nd.left := by rw [left!, hg]; rfl
      have hri : right! h i = nd.right := by rw [right!, hg]; rfl
      have hci : colour! h i = some nd.colour := by rw [colour!, hg]; rfl
      rw [hli, hri, hci]
      rw [ih h nd.left trl hL, ih h nd.right trr hR]
      simp only [bhI]
      cases bhI trl with
      | none => rfl
      | some a =>
        cases bhI trr with
        | none => rfl
        | some b =>
          dsimp only
          by_cases hab : a == b
          · rw [hab]
            simp only [if_true]
            cases nd.colour <;> rfl
          · rw [Bool.not_eq_true] at hab
            rw [hab]
            rfl

theorem no_red_red_eq {α : Type} :
    ∀ (fuel : Nat) (h : Heap α) (oi : Option Nat) (tr : ITree α),
      reify? fuel h oi = some tr → no_red_red fuel h oi = noRRI tr := by
  intro fuel
  induction fuel with
  | zero =>
    intro h oi tr hr
    cases oi with
    | none => cases hr; rfl
    | some i => cases hr
  | succ fuel ih =>
    intro h oi tr hr
    cases oi with
    | none => cases hr; rfl
    | some i =>
      obtain ⟨nd, trl, trr, hg, htr, hL, hR⟩ :=
        reify?_some_node (fuel + 1) h i tr hr
      subst htr
      rw [no_red_red]
      have hli : left! h i = nd.left := by rw [left!, hg]; rfl
      have hri : right! h i = nd.right := by rw [right!, hg]; rfl
      have hci : colour! h i = some nd.colour := by rw [colour!, hg]; rfl
      rw [hli, hri, hci]
      rw [ih h nd.left trl hL, ih h nd.right trr hR]
      simp only [noRRI]
      have hcl : nd.left.bind (colour! h) = colourI? trl :=
        reify?_colour fuel h nd.left trl hL
      have hcr : nd.right.bind (colour! h) = colourI? trr :=
        reify?_colour fuel h nd.right trr hR
      rw [hcl, hcr]
      cases nd.colour with
      | black => simp
      | red =>
        cases trl with
        | leaf =>
          cases trr with
          | leaf => simp [colourI, colourI?]
          | node c2 l2 i2 d2 r2 => cases c2 <;> simp [colourI, colourI?]
        | node c1 l1 i1 d1 r1 =>
          cases trr with
          | leaf => cases c1 <;> simp [colourI, colourI?]
          | node c2 l2 i2 d2 r2 => cases c1 <;> cases c2 <;> simp [colourI, colourI?]

theorem parent_ok_eq {α : Type} :
    ∀ (fuel : Nat) (h : Heap α) (oi e : Option Nat) (tr : ITree α),
      reify? fuel h oi = some tr → parent_ok fuel h e oi = parOkI h e tr := by
  intro fuel
  induction fuel with
  | zero =>
    intro h oi e tr hr
    cases oi with
    | none => cases hr; rfl
    | some i => cases hr
  | succ fuel ih =>
    intro h oi e tr hr
    cases oi with
    | none => cases hr; rfl
    | some i =>
      obtain ⟨nd, trl, trr, hg, htr, hL, hR⟩ :=
        reify?_some_node (fuel + 1) h i tr hr
      subst htr
      rw [parent_ok]
      have hli : left! h i = nd.left := by rw [left!, hg]; rfl
      have hri : right! h i = nd.right := by rw [right!, hg]; rfl
      rw [hli, hri]
      rw [ih h nd.left (some i) trl hL, ih h nd.right (some i) trr hR]
      rfl

theorem reify?_mem_isSome {α : Type} :
    ∀ (fuel : Nat) (h : Heap α) (oi : Option Nat) (tr : ITree α) (j : Nat),
      reify? fuel h oi = some tr → j ∈ indicesI tr →
      (hGet h j).isSome = true := by
  intro fuel
  induction fuel with
  | zero =>
    intro h oi tr j hr hj
    cases oi with
    | none => cases hr; cases hj
    | some i => cases hr
  | succ fuel ih =>
    intro h oi tr j hr hj
    cases oi with
    | none => cases hr; cases hj
    | some i =>
      obtain ⟨nd, trl, trr, hg, htr, hL, hR⟩ :=
        reify?_some_node (fuel + 1) h i tr hr
      subst htr
      rw [indicesI] at hj
      cases hj with
      | head => rw [hg]; rfl
      | tail _ hj' =>
        rcases List.mem_append.mp hj' with hjl | hjr
        · exact ih h nd.left trl j hL hjl
        · exact ih h nd.right trr j hR hjr

theorem hGet_isSome_lt {α : Type} (h : Heap α) (j : Nat)
    (hs : (hGet h j).isSome = true) : j < h.length := by
  rw [hGet] at hs
  cases hg : h[j]? with
  | none => rw [hg] at hs; cases hs
  | some nd => exact (List.getElem?_eq_some.mp hg).1

theorem hGet_hModify_ne {α : Type} (h : Heap α) (i j : Nat)
    (f : NodeData α → NodeData α) (hj : j ≠ i) :
    hGet (hModify h i f) j = hGet h j := by
  rw [hGet_hModify, if_neg hj]

theorem hGet_append {α : Type} (h : Heap α) (x : NodeData α) (j : Nat) :
    hGet (h ++ [x]) j = if j = h.length then some x else hGet h j := by
  rcases Nat.lt_trichotomy j h.length with hlt | heq | hgt
  · rw [if_neg (by omega)]
    rw [hGet, hGet, List.getElem?_append, if_pos hlt]
  · subst heq
    rw [if_pos rfl, hGet]
    exact List.getElem?_concat_length h x
  · rw [if_neg (by omega), hGet, hGet]
    rw [List.getElem?_eq_none (by simp; omega),
      List.getElem?_eq_none (by omega)]

theorem length_set_colour {α : Type} (h : Heap α) (i : Nat) (c : Colour) :
    (set_colour h i c).length = h.length := length_hModify h i _

theorem length_set_left {α : Type} (h : Heap α) (i : Nat) (x : Option Nat) :
    (set_left h i x).length = h.length := length_hModify h i _

theorem length_set_right {α : Type} (h : Heap α) (i : Nat) (x : Option Nat) :
    (set_right h i x).length = h.length := length_hModify h i _

theorem length_set_parent {α : Type} (h : Heap α) (i : Nat)
    (x : Option Nat) : (set_parent h i x).length = h.length :=
  length_hModify h i _

theorem length_set_data {α : Type} (h : Heap α) (i : Nat) (x : α) :
    (set_data h i x).length = h.length := length_hModify h i _

/-- `set_parent` never changes the reification-relevant fields. -/
theorem core_set_parent {α : Type} (h : Heap α) (i : Nat) (x : Option Nat)
    (j : Nat) :
    (hGet (set_parent h i x) j).map core = (hGet h j).map core := by
  rw [set_parent, hGet_hModify]
  split
  · cases hGet h j with
    | none => rfl
    | some nd => rfl
  · rfl

theorem hGet_isSome_of_lt {α : Type} (h : Heap α) (j : Nat)
    (hj : j < h.length) : (hGet h j).isSome = true := by
  rw [hGet, List.getElem?_eq_getElem hj]
  rfl

theorem parent_set_parent_self {α : Type} (h : Heap α) (i : Nat)
    (x : Option Nat) (hi : (hGet h i).isSome = true) :
    parent! (set_parent h i x) i = x := by
  simp only [parent!, set_parent, hGet_hModify, if_pos rfl]
  cases hg : hGet h i with
  | none => rw [hg] at hi; cases hi
  | some nd => rfl

theorem reify?_node_root {α : Type} (fuel : Nat) (h : Heap α)
    (oi : Option Nat) (c : Colour) (l : ITree α) (i : Nat) (d : α)
    (r : ITree α) (hr : reify? fuel h oi = some (.node c l i d r)) :
    oi = some i := by
  cases oi with
  | none =>
    have : reify? fuel h none = some ITree.leaf := by
      cases fuel with
      | zero => rfl
      | succ k => rfl
    rw [this] at hr
    cases hr
  | some j =>
    obtain ⟨nd, trl, trr, _, htr, _, _⟩ := reify?_some_node fuel h j _ hr
    cases htr
    rfl

theorem parOkI_frame {α : Type} :
    ∀ (tr : ITree α) (h h' : Heap α) (e : Option Nat),
      parOkI h e tr = true →
      (∀ j ∈ indicesI tr, parent! h' j = parent! h j) →
      parOkI h' e tr = true := by
  intro tr
  induction tr with
  | leaf => intro h h' e hp ha; rfl
  | node c l i d r ihl ihr =>
    intro h h' e hp ha
    rw [parOkI] at hp ⊢
    rw [Bool.and_eq_true_iff] at hp
    rw [Bool.and_eq_true_iff] at hp
    obtain ⟨⟨hp1, hp2⟩, hp3⟩ := hp
    rw [ha i (by rw [indicesI]; exact List.mem_cons_self _ _), hp1]
    rw [ihl h h' (some i) hp2 (fun j hj => ha j (by
      rw [indicesI]
      exact List.mem_cons_of_mem _ (List.mem_append.mpr (Or.inl hj))))]
    rw [ihr h h' (some i) hp3 (fun j hj => ha j (by
      rw [indicesI]
      exact List.mem_cons_of_mem _ (List.mem_append.mpr (Or.inr hj))))]
    rfl

/-- Complete characterisation of `clone_subtree`: it leaves `root`,
`length` and every pre-existing record untouched, only grows the arena, and
when the source subtree reifies it produces a fresh copy with the same
in-order (colour, payload) traversal whose records all live in the newly
allocated region. -/
theorem clone_subtree_spec {α : Type} :
    ∀ (fuel : Nat) (t : RBTreeSet α) (oi : Option Nat),
      (clone_subtree fuel t oi).1.root = t.root
      ∧ (clone_subtree fuel t oi).1.length = t.length
      ∧ t.heap.length ≤ (clone_subtree fuel t oi).1.heap.length
      ∧ (∀ j, j < t.heap.length →
          hGet (clone_subtree fuel t oi).1.heap j = hGet t.heap j)
      ∧ (∀ c, (clone_subtree fuel t oi).2 = some c →
          t.heap.length ≤ c ∧ c < (clone_subtree fuel t oi).1.heap.length
            ∧ parent! (clone_subtree fuel t oi).1.heap c = none)
      ∧ (∀ tr, reify? fuel t.heap oi = some tr →
          ∃ tr', reify? fuel (clone_subtree fuel t oi).1.heap
              (clone_subtree fuel t oi).2 = some tr'
            ∧ inorderCI tr' = inorderCI tr
            ∧ (∀ j ∈ indicesI tr', t.heap.length ≤ j
                ∧ j < (clone_subtree fuel t oi).1.heap.length)
            ∧ (indicesI tr').Nodup
            ∧ parOkSub (clone_subtree fuel t oi).1.heap tr' = true
            ∧ (∀ j, t.heap.length ≤ j →
                j < (clone_subtree fuel t oi).1.heap.length →
                j ∈ indicesI tr')) := by
  intro fuel t oi
  induction fuel, t, oi using clone_subtree.induct with
  | case1 t oi =>
    have hcl : clone_subtree 0 t oi = (t, none) := by
      cases oi with
      | none => rfl
      | some i => rfl
    rw [hcl]
    refine ⟨rfl, rfl, Nat.le_refl _, fun j _ => rfl, ?_, ?_⟩
    · intro c hc
      cases hc
    intro tr hr
    cases oi with
    | none =>
      cases hr
      refine ⟨.leaf, rfl, rfl, ?_, List.nodup_nil, rfl, ?_⟩
      · intro j hj
        cases hj
      · intro j h1 h2
        dsimp only at h2
        omega
    | some i => cases hr
  | case2 fuel t hne =>
    have hcl : clone_subtree fuel t none = (t, none) := by
      cases fuel with
      | zero => rfl
      | succ k => rfl
    rw [hcl]
    refine ⟨rfl, rfl, Nat.le_refl _, fun j _ => rfl, ?_, ?_⟩
    · intro c hc
      cases hc
    intro tr hr
    have : reify? fuel t.heap none = some ITree.leaf := by
      cases fuel with
      | zero => rfl
      | succ k => rfl
    rw [this] at hr
    cases hr
    refine ⟨.leaf, by cases fuel with | zero => rfl | succ k => rfl, rfl,
      ?_, List.nodup_nil, rfl, ?_⟩
    · intro j hj
      cases hj
    · intro j h1 h2
      dsimp only at h2
      omega
  | case3 fuel t sub hg =>
    have hcl : clone_subtree (fuel + 1) t (some sub) = (t, none) := by
      rw [clone_subtree, hg]
    rw [hcl]
    refine ⟨rfl, rfl, Nat.le_refl _, fun j _ => rfl, ?_, ?_⟩
    · intro c hc
      cases hc
    intro tr hr
    rw [reify?, hg] at hr
    cases hr
  | case4 fuel t sub nd hg t1 n halloc tP tA lc hrec1 tQ tB rc hrec2 ih1 ih2 =>
    unfold_let tQ at hrec2 ih2
    unfold_let tP at hrec1 ih1 hrec2 ih2
    dsimp only at hrec1 ih1 hrec2 ih2
    -- unpack the allocation
    have ht1 : t1 = { t with heap := t.heap ++
        [{ colour := .red, parent := none, left := none, right := none,
           data := nd.data }] } ∧ n = t.heap.length := by
      rw [allocNode] at halloc
      exact ⟨(Prod.mk.injEq _ _ _ _ ▸ halloc).1.symm,
        (Prod.mk.injEq _ _ _ _ ▸ halloc).2.symm⟩
    obtain ⟨ht1h, hn⟩ := ht1
    -- shorthand facts about the allocation
    have hlen1 : t1.heap.length = t.heap.length + 1 := by
      rw [ht1h]
      simp
    have hlen1' : (set_colour t1.heap n nd.colour).length
        = t.heap.length + 1 := by
      rw [length_set_colour, hlen1]
    have hget1n : hGet t1.heap n = some
        { colour := .red, parent := none, left := none, right := none,
          data := nd.data } := by
      rw [ht1h]
      show hGet (t.heap ++ [_]) n = _
      rw [hGet_append, if_pos hn]
    have hgetn : hGet (set_colour t1.heap n nd.colour) n = some
        { colour := nd.colour, parent := none, left := none, right := none,
          data := nd.data } := by
      rw [set_colour, hGet_hModify, if_pos rfl, hget1n]
      rfl
    have hpres1 : ∀ j, j < t.heap.length →
        hGet (set_colour t1.heap n nd.colour) j = hGet t.heap j := by
      intro j hj
      rw [set_colour, hGet_hModify_ne _ _ _ _ (by omega), ht1h]
      show hGet (t.heap ++ [_]) j = _
      rw [hGet_append, if_neg (by omega)]
    -- components of the two induction hypotheses
    rw [hrec1] at ih1
    obtain ⟨ihA_root, ihA_len, ihA_mono, ihA_pres, ihA_bnd, ihA_reify⟩ := ih1
    dsimp only at ihA_root ihA_len ihA_mono ihA_pres ihA_bnd ihA_reify
    rw [hrec2] at ih2
    obtain ⟨ihB_root, ihB_len, ihB_mono, ihB_pres, ihB_bnd, ihB_reify⟩ := ih2
    dsimp only at ihB_root ihB_len ihB_mono ihB_pres ihB_bnd ihB_reify
    have hlenA : t.heap.length + 1 ≤ tA.heap.length := by
      rw [hlen1'] at ihA_mono
      exact ihA_mono
    have hlen2' : (set_left tA.heap n lc).length = tA.heap.length :=
      length_set_left _ _ _
    have hlenB : tA.heap.length ≤ tB.heap.length := by
      rw [hlen2'] at ihB_mono
      exact ihB_mono
    -- the record of the clone root through the later stages
    have hgetnA : hGet tA.heap n = some
        { colour := nd.colour, parent := none, left := none, right := none,
          data := nd.data } := by
      rw [ihA_pres n (by rw [hlen1']; omega), hgetn]
    have hgetn2 : hGet (set_left tA.heap n lc) n = some
        { colour := nd.colour, parent := none, left := lc, right := none,
          data := nd.data } := by
      rw [set_left, hGet_hModify, if_pos rfl, hgetnA]
      rfl
    have hgetnB : hGet tB.heap n = some
        { colour := nd.colour, parent := none, left := lc, right := none,
          data := nd.data } := by
      rw [ihB_pres n (by rw [hlen2']; omega), hgetn2]
    have hgetn3 : hGet (set_right tB.heap n rc) n = some
        { colour := nd.colour, parent := none, left := lc, right := rc,
          data := nd.data } := by
      rw [set_right, hGet_hModify, if_pos rfl, hgetnB]
      rfl
    have hleft3 : left! (set_right tB.heap n rc) n = lc := by
      rw [left!, hgetn3]
      rfl
    -- bounds on the returned child handles
    have hlc_bnd : ∀ l, lc = some l →
        t.heap.length + 1 ≤ l ∧ l < tA.heap.length := by
      intro l hl
      have := ihA_bnd l hl
      rw [hlen1'] at this
      exact ⟨this.1, this.2.1⟩
    have hrc_bnd : ∀ r, rc = some r →
        tA.heap.length ≤ r ∧ r < tB.heap.length := by
      intro r hr
      have := ihB_bnd r hr
      rw [hlen2'] at this
      exact ⟨this.1, this.2.1⟩
    -- everything below is uniform in the final heap, so abstract it
    have hrootB : tB.root = t.root := by
      rw [ihB_root, ihA_root, ht1h]
    have hlenBl : tB.length = t.length := by
      rw [ihB_len, ihA_len, ht1h]
    have hlen3 : (set_right tB.heap n rc).length = tB.heap.length :=
      length_set_right _ _ _
    have hpres3 : ∀ j, j < t.heap.length →
        hGet (set_right tB.heap n rc) j = hGet t.heap j := by
      intro j hj
      rw [set_right, hGet_hModify_ne _ _ _ _ (by omega),
        ihB_pres j (by rw [hlen2']; omega),
        set_left, hGet_hModify_ne _ _ _ _ (by omega),
        ihA_pres j (by rw [hlen1']; omega), hpres1 j hj]
    suffices hsuff : ∀ hF : Heap α,
        clone_subtree (fuel + 1) t (some sub)
          = ({ heap := hF, root := tB.root, length := tB.length }, some n) →
        (∀ j, (hGet hF j).map core
          = (hGet (set_right tB.heap n rc) j).map core) →
        hF.length = tB.heap.length →
        (∀ j, j < t.heap.length →
          hGet hF j = hGet (set_right tB.heap n rc) j) →
        parent! hF n = none →
        (∀ l, lc = some l → parent! hF l = some n) →
        (∀ r, rc = some r → parent! hF r = some n) →
        (∀ j, (∀ l, lc = some l → j ≠ l) → (∀ r, rc = some r → j ≠ r) →
          parent! hF j = parent! (set_right tB.heap n rc) j) →
        ((clone_subtree (fuel + 1) t (some sub)).1.root = t.root
        ∧ (clone_subtree (fuel + 1) t (some sub)).1.length = t.length
        ∧ t.heap.length ≤
            (clone_subtree (fuel + 1) t (some sub)).1.heap.length
        ∧ (∀ j, j < t.heap.length →
            hGet (clone_subtree (fuel + 1) t (some sub)).1.heap j
              = hGet t.heap j)
        ∧ (∀ c, (clone_subtree (fuel + 1) t (some sub)).2 = some c →
            t.heap.length ≤ c
              ∧ c < (clone_subtree (fuel + 1) t (some sub)).1.heap.length
              ∧ parent! (clone_subtree (fuel + 1) t (some sub)).1.heap c
                  = none)
        ∧ (∀ tr, reify? (fuel + 1) t.heap (some sub) = some tr →
            ∃ tr', reify? (fuel + 1)
                (clone_subtree (fuel + 1) t (some sub)).1.heap
                (clone_subtree (fuel + 1) t (some sub)).2 = some tr'
              ∧ inorderCI tr' = inorderCI tr
              ∧ (∀ j ∈ indicesI tr', t.heap.length ≤ j
                  ∧ j < (clone_subtree (fuel + 1) t
                      (some sub)).1.heap.length)
              ∧ (indicesI tr').Nodup
              ∧ parOkSub (clone_subtree (fuel + 1) t
                  (some sub)).1.heap tr' = true
              ∧ (∀ j, t.heap.length ≤ j →
                  j < (clone_subtree (fuel + 1) t
                      (some sub)).1.heap.length →
                  j ∈ indicesI tr'))) by
      cases lc with
      | none =>
        cases rc with
        | none =>
          have hr4 : right! (set_right tB.heap n none) n = none := by
            rw [right!, hgetn3]
            rfl
          refine hsuff (set_right tB.heap n none) ?_ (fun j => rfl) hlen3
            (fun j _ => rfl) ?_ (fun l hl => by cases hl)
            (fun r hr => by cases hr) (fun j _ _ => rfl)
          · simp only [clone_subtree, hg, halloc, hrec1, hrec2, hleft3, hr4]
          · rw [parent_set_right, parent!, hgetnB]
            rfl
        | some r =>
          have hrb := hrc_bnd r rfl
          have hr4 : right! (set_right tB.heap n (some r)) n = some r := by
            rw [right!, hgetn3]
            rfl
          refine hsuff (set_parent (set_right tB.heap n (some r)) r (some n))
            ?_ (fun j => core_set_parent _ r _ j)
            (by rw [length_set_parent, hlen3])
            (fun j hj => hGet_hModify_ne _ _ _ _ (by omega))
            ?_ (fun l hl => by cases hl) ?_ ?_
          · simp only [clone_subtree, hg, halloc, hrec1, hrec2, hleft3, hr4]
          · rw [parent_set_parent _ _ _ _ (by omega), parent_set_right,
              parent!, hgetnB]
            rfl
          · intro r' hr'
            cases hr'
            refine parent_set_parent_self _ _ _ ?_
            refine hGet_isSome_of_lt _ _ ?_
            rw [length_set_right]
            omega
          · intro j _ h2
            exact parent_set_parent _ _ _ _ (h2 r rfl)
      | some l =>
        have hlb := hlc_bnd l rfl
        have hr4 : right! (set_parent (set_right tB.heap n rc) l (some n)) n
            = rc := by
          rw [right!, set_parent, hGet_hModify_ne _ _ _ _ (by omega), hgetn3]
          rfl
        cases rc with
        | none =>
          refine hsuff (set_parent (set_right tB.heap n none) l (some n))
            ?_ (fun j => core_set_parent _ l _ j)
            (by rw [length_set_parent, hlen3])
            (fun j hj => hGet_hModify_ne _ _ _ _ (by omega))
            ?_ ?_ (fun r hr => by cases hr) ?_
          · simp only [clone_subtree, hg, halloc, hrec1, hrec2, hleft3, hr4]
          · rw [parent_set_parent _ _ _ _ (by omega), parent_set_right,
              parent!, hgetnB]
            rfl
          · intro l' hl'
            cases hl'
            refine parent_set_parent_self _ _ _ ?_
            refine hGet_isSome_of_lt _ _ ?_
            rw [length_set_right]
            omega
          · intro j h1 _
            exact parent_set_parent _ _ _ _ (h1 l rfl)
        | some r =>
          have hrb := hrc_bnd r rfl
          refine hsuff (set_parent (set_parent
              (set_right tB.heap n (some r)) l (some n)) r (some n))
            ?_ ?_
            (by rw [length_set_parent, length_set_parent, hlen3])
            ?_ ?_ ?_ ?_ ?_
          · simp only [clone_subtree, hg, halloc, hrec1, hrec2, hleft3,
              hr4]
          · intro j
            rw [core_set_parent, core_set_parent]
          · intro j hj
            rw [set_parent, hGet_hModify_ne _ _ _ _ (by omega)]
            exact hGet_hModify_ne _ _ _ _ (by omega)
          · rw [parent_set_parent _ _ _ _ (by omega),
              parent_set_parent _ _ _ _ (by omega), parent_set_right,
              parent!, hgetnB]
            rfl
          · intro l' hl'
            cases hl'
            rw [parent_set_parent _ _ _ _ (by omega)]
            refine parent_set_parent_self _ _ _ ?_
            refine hGet_isSome_of_lt _ _ ?_
            rw [length_set_right]
            omega
          · intro r' hr'
            cases hr'
            refine parent_set_parent_self _ _ _ ?_
            refine hGet_isSome_of_lt _ _ ?_
            rw [length_set_parent, length_set_right]
            omega
          · intro j h1 h2
            rw [parent_set_parent _ _ _ _ (h2 r rfl)]
            exact parent_set_parent _ _ _ _ (h1 l rfl)
    -- proof of the abstracted statement
    intro hF heq hcoreF hlenF hpresF hFtop hFlc hFrc hFparent
    have hpresAllF : ∀ j, j < t.heap.length → hGet hF j = hGet t.heap j := by
      intro j hj
      rw [hpresF j hj, hpres3 j hj]
    -- parent fields inside the cloned subtrees, traced back
    have hparA : ∀ j, t.heap.length + 1 ≤ j → j < tA.heap.length →
        (∀ l, lc = some l → j ≠ l) →
        parent! hF j = parent! tA.heap j := by
      intro j hj1 hj2 hjl
      rw [hFparent j hjl (fun r hr => by
          have := (hrc_bnd r hr).1
          omega),
        parent_set_right]
      have := ihB_pres j (by rw [hlen2']; omega)
      rw [parent!, this, set_left, hGet_hModify_ne _ _ _ _ (by omega)]
      rfl
    have hparB : ∀ j, tA.heap.length ≤ j → j < tB.heap.length →
        (∀ r, rc = some r → j ≠ r) →
        parent! hF j = parent! tB.heap j := by
      intro j hj1 hj2 hjr
      rw [hFparent j (fun l hl => by
          have := (hlc_bnd l hl).2
          omega) hjr,
        parent_set_right]
    rw [heq]
    refine ⟨hrootB, hlenBl, ?_, ?_, ?_, ?_⟩
    · show t.heap.length ≤ hF.length
      rw [hlenF]
      omega
    · intro j hj
      exact hpresAllF j hj
    · intro c hc
      cases hc
      refine ⟨by omega, ?_, hFtop⟩
      show n < hF.length
      rw [hlenF]
      omega
    · -- the reify correspondence
      intro tr hr
      obtain ⟨nd', trl, trr, hg', htr, hLs, hRs⟩ :=
        reify?_some_node (fuel + 1) t.heap sub tr hr
      rw [hg] at hg'
      have hnd : nd = nd' := by
        cases hg'
        rfl
      subst hnd
      subst htr
      simp only [Nat.add_sub_cancel] at hLs hRs
      have hL1 : reify? fuel (set_colour t1.heap n nd.colour) nd.left
          = some trl := by
        refine reify?_frame fuel t.heap _ nd.left trl hLs ?_
        intro j hj
        have hjin := reify?_mem_isSome fuel t.heap nd.left trl j hLs hj
        have hjlt := hGet_isSome_lt t.heap j hjin
        rw [hpres1 j hjlt]
      obtain ⟨trlc, hrA, hCA, hbA, hndA, hpsA, hcovA⟩ := ihA_reify trl hL1
      have hR1 : reify? fuel (set_left tA.heap n lc) nd.right
          = some trr := by
        refine reify?_frame fuel t.heap _ nd.right trr hRs ?_
        intro j hj
        have hjin := reify?_mem_isSome fuel t.heap nd.right trr j hRs hj
        have hjlt := hGet_isSome_lt t.heap j hjin
        rw [set_left, hGet_hModify_ne _ _ _ _ (by omega),
          ihA_pres j (by rw [hlen1']; omega), hpres1 j hjlt]
      obtain ⟨trrc, hrB, hCB, hbB, hndB, hpsB, hcovB⟩ := ihB_reify trr hR1
      have hbA' : ∀ j ∈ indicesI trlc,
          t.heap.length + 1 ≤ j ∧ j < tA.heap.length := by
        intro j hj
        have := hbA j hj
        rw [hlen1'] at this
        exact ⟨this.1, this.2⟩
      have hbB' : ∀ j ∈ indicesI trrc,
          tA.heap.length ≤ j ∧ j < tB.heap.length := by
        intro j hj
        have := hbB j hj
        rw [hlen2'] at this
        exact ⟨this.1, this.2⟩
      have hLfin : reify? fuel hF lc = some trlc := by
        refine reify?_frame fuel tA.heap hF lc trlc hrA ?_
        intro j hj
        obtain ⟨hj1, hj2⟩ := hbA' j hj
        rw [hcoreF j, set_right, hGet_hModify_ne _ _ _ _ (by omega),
          ihB_pres j (by rw [hlen2']; omega),
          set_left, hGet_hModify_ne _ _ _ _ (by omega)]
      have hRfin : reify? fuel hF rc = some trrc := by
        refine reify?_frame fuel tB.heap hF rc trrc hrB ?_
        intro j hj
        obtain ⟨hj1, hj2⟩ := hbB' j hj
        rw [hcoreF j, set_right, hGet_hModify_ne _ _ _ _ (by omega)]
      have hn5 : (hGet hF n).map core
          = some (core ⟨nd.colour, none, lc, rc, nd.data⟩) := by
        rw [hcoreF n, hgetn3]
        rfl
      obtain ⟨nd5, hnd5, hc5⟩ : ∃ nd5, hGet hF n = some nd5
          ∧ core nd5 = core ⟨nd.colour, none, lc, rc, nd.data⟩ := by
        cases hq : hGet hF n with
        | none => rw [hq] at hn5; cases hn5
        | some nd5 =>
          rw [hq] at hn5
          exact ⟨nd5, rfl, Option.some.inj hn5⟩
      rw [core, core] at hc5
      have hc5col : nd5.colour = nd.colour := congrArg Prod.fst hc5
      have hc5a := congrArg Prod.snd hc5
      have hc5l : nd5.left = lc := congrArg Prod.fst hc5a
      have hc5b := congrArg Prod.snd hc5a
      have hc5r : nd5.right = rc := congrArg Prod.fst hc5b
      have hc5d : nd5.data = nd.data := congrArg Prod.snd hc5b
      refine ⟨.node nd.colour trlc n nd.data trrc, ?_, ?_, ?_, ?_, ?_, ?_⟩
      · show reify? (fuel + 1) hF (some n) = _
        rw [reify?, hnd5]
        dsimp only
        rw [hc5l, hc5r, hc5col, hc5d, hLfin, hRfin]
      · rw [inorderCI, inorderCI, hCA, hCB]
      · intro j hj
        rw [indicesI] at hj
        cases hj with
        | head =>
          refine ⟨by omega, ?_⟩
          show n < hF.length
          rw [hlenF]
          omega
        | tail _ hj' =>
          rcases List.mem_append.mp hj' with hjl | hjr
          · obtain ⟨h1, h2⟩ := hbA' j hjl
            refine ⟨by omega, ?_⟩
            show j < hF.length
            rw [hlenF]
            omega
          · obtain ⟨h1, h2⟩ := hbB' j hjr
            refine ⟨by omega, ?_⟩
            show j < hF.length
            rw [hlenF]
            omega
      · -- the fresh indices are pairwise distinct
        rw [indicesI]
        refine List.nodup_cons.mpr ⟨?_, ?_⟩
        · intro hmem
          rcases List.mem_append.mp hmem with hjl | hjr
          · have := (hbA' n hjl).1
            omega
          · have := (hbB' n hjr).1
            omega
        · refine List.Nodup.append hndA hndB ?_
          intro a haA haB
          have h1 := (hbA' a haA).2
          have h2 := (hbB' a haB).1
          omega
      · -- parent coherence strictly below the clone root
        rw [parOkSub]
        have hsideL : parOkI hF (some n) trlc = true := by
          cases htrlc : trlc with
          | leaf => rfl
          | node c0 A0 lroot d0 B0 =>
            have hlcs : lc = some lroot :=
              reify?_node_root fuel tA.heap lc c0 A0 lroot d0 B0
                (htrlc ▸ hrA)
            rw [htrlc] at hpsA hndA hbA'
            rw [parOkI]
            rw [hFlc lroot hlcs]
            rw [parOkSub, Bool.and_eq_true_iff] at hpsA
            rw [indicesI, List.nodup_cons] at hndA
            have hframe : ∀ j ∈ indicesI A0 ++ indicesI B0,
                parent! hF j = parent! tA.heap j := by
              intro j hj
              have hjmem : j ∈ indicesI (ITree.node c0 A0 lroot d0 B0) := by
                rw [indicesI]
                exact List.mem_cons_of_mem _ hj
              obtain ⟨hj1, hj2⟩ := hbA' j hjmem
              refine hparA j hj1 hj2 ?_
              intro l0 hl0
              rw [hlcs] at hl0
              cases hl0
              intro hEq
              exact hndA.1 (hEq ▸ hj)
            rw [parOkI_frame A0 tA.heap hF (some lroot) hpsA.1
              (fun j hj => hframe j (List.mem_append.mpr (Or.inl hj)))]
            rw [parOkI_frame B0 tA.heap hF (some lroot) hpsA.2
              (fun j hj => hframe j (List.mem_append.mpr (Or.inr hj)))]
            simp
        have hsideR : parOkI hF (some n) trrc = true := by
          cases htrrc : trrc with
          | leaf => rfl
          | node c0 A0 rroot d0 B0 =>
            have hrcs : rc = some rroot :=
              reify?_node_root fuel tB.heap rc c0 A0 rroot d0 B0
                (htrrc ▸ hrB)
            rw [htrrc] at hpsB hndB hbB'
            rw [parOkI]
            rw [hFrc rroot hrcs]
            rw [parOkSub, Bool.and_eq_true_iff] at hpsB
            rw [indicesI, List.nodup_cons] at hndB
            have hframe : ∀ j ∈ indicesI A0 ++ indicesI B0,
                parent! hF j = parent! tB.heap j := by
              intro j hj
              have hjmem : j ∈ indicesI (ITree.node c0 A0 rroot d0 B0) := by
                rw [indicesI]
                exact List.mem_cons_of_mem _ hj
              obtain ⟨hj1, hj2⟩ := hbB' j hjmem
              refine hparB j hj1 hj2 ?_
              intro r0 hr0
              rw [hrcs] at hr0
              cases hr0
              intro hEq
              exact hndB.1 (hEq ▸ hj)
            rw [parOkI_frame A0 tB.heap hF (some rroot) hpsB.1
              (fun j hj => hframe j (List.mem_append.mpr (Or.inl hj)))]
            rw [parOkI_frame B0 tB.heap hF (some rroot) hpsB.2
              (fun j hj => hframe j (List.mem_append.mpr (Or.inr hj)))]
            simp
        rw [hsideL, hsideR]
        rfl
      · -- every fresh index belongs to the cloned tree
        intro j h1 h2
        rw [hlenF] at h2
        rw [indicesI]
        rcases Nat.lt_or_ge j (t.heap.length + 1) with hj1 | hj1
        · have : j = n := by omega
          subst this
          exact List.mem_cons_self _ _
        · rcases Nat.lt_or_ge j tA.heap.length with hj2 | hj2
          · refine List.mem_cons_of_mem _ (List.mem_append.mpr (Or.inl ?_))
            refine hcovA j ?_ hj2
            rw [hlen1']
            omega
          · refine List.mem_cons_of_mem _ (List.mem_append.mpr (Or.inr ?_))
            refine hcovB j ?_ h2
            rw [hlen2']
            omega

/-! ### Region toolbox: setters keep a link-closed region closed, readers
starting inside a region stay inside it. -/

theorem regionP_set_colour {α : Type} {Q : Nat → Prop} (h : Heap α)
    (i : Nat) (c : Colour) (hreg : regionP Q h) :
    regionP Q (set_colour h i c) := by
  intro j nd hj hg
  rw [set_colour, hGet_hModify] at hg
  by_cases hji : j = i
  · rw [if_pos hji] at hg
    cases hg0 : hGet h j with
    | none => rw [hg0] at hg; cases hg
    | some nd0 =>
      rw [hg0] at hg
      simp only [Option.map_some'] at hg
      injection hg with hh
      subst hh
      exact hreg j nd0 hj hg0
  · rw [if_neg hji] at hg
    exact hreg j nd hj hg

theorem regionP_set_data {α : Type} {Q : Nat → Prop} (h : Heap α)
    (i : Nat) (d : α) (hreg : regionP Q h) :
    regionP Q (set_data h i d) := by
  intro j nd hj hg
  rw [set_data, hGet_hModify] at hg
  by_cases hji : j = i
  · rw [if_pos hji] at hg
    cases hg0 : hGet h j with
    | none => rw [hg0] at hg; cases hg
    | some nd0 =>
      rw [hg0] at hg
      simp only [Option.map_some'] at hg
      injection hg with hh
      subst hh
      exact hreg j nd0 hj hg0
  · rw [if_neg hji] at hg
    exact hreg j nd hj hg

theorem regionP_swap_data {α : Type} {Q : Nat → Prop} (h : Heap α)
    (i j : Nat) (hreg : regionP Q h) :
    regionP Q (swap_data h i j) := by
  rw [swap_data]
  cases hGet h i with
  | none => exact hreg
  | some a =>
    cases hGet h j with
    | none => exact hreg
    | some b => exact regionP_set_data _ _ _ (regionP_set_data _ _ _ hreg)

theorem regionP_set_parent {α : Type} {Q : Nat → Prop} (h : Heap α)
    (i : Nat) (x : Option Nat) (hreg : regionP Q h)
    (hx : ∀ k, x = some k → Q k) :
    regionP Q (set_parent h i x) := by
  intro j nd hj hg
  rw [set_parent, hGet_hModify] at hg
  by_cases hji : j = i
  · rw [if_pos hji] at hg
    cases hg0 : hGet h j with
    | none => rw [hg0] at hg; cases hg
    | some nd0 =>
      rw [hg0] at hg
      simp only [Option.map_some'] at hg
      injection hg with hh
      subst hh
      obtain ⟨_, hl, hr⟩ := hreg j nd0 hj hg0
      exact ⟨fun k hk => hx k hk, hl, hr⟩
  · rw [if_neg hji] at hg
    exact hreg j nd hj hg

theorem regionP_set_left {α : Type} {Q : Nat → Prop} (h : Heap α)
    (i : Nat) (x : Option Nat) (hreg : regionP Q h)
    (hx : ∀ k, x = some k → Q k) :
    regionP Q (set_left h i x) := by
  intro j nd hj hg
  rw [set_left, hGet_hModify] at hg
  by_cases hji : j = i
  · rw [if_pos hji] at hg
    cases hg0 : hGet h j with
    | none => rw [hg0] at hg; cases hg
    | some nd0 =>
      rw [hg0] at hg
      simp only [Option.map_some'] at hg
      injection hg with hh
      subst hh
      obtain ⟨hp, _, hr⟩ := hreg j nd0 hj hg0
      exact ⟨hp, fun k hk => hx k hk, hr⟩
  · rw [if_neg hji] at hg
    exact hreg j nd hj hg

theorem regionP_set_right {α : Type} {Q : Nat → Prop} (h : Heap α)
    (i : Nat) (x : Option Nat) (hreg : regionP Q h)
    (hx : ∀ k, x = some k → Q k) :
    regionP Q (set_right h i x) := by
  intro j nd hj hg
  rw [set_right, hGet_hModify] at hg
  by_cases hji : j = i
  · rw [if_pos hji] at hg
    cases hg0 : hGet h j with
    | none => rw [hg0] at hg; cases hg
    | some nd0 =>
      rw [hg0] at hg
      simp only [Option.map_some'] at hg
      injection hg with hh
      subst hh
      obtain ⟨hp, hl, _⟩ := hreg j nd0 hj hg0
      exact ⟨hp, hl, fun k hk => hx k hk⟩
  · rw [if_neg hji] at hg
    exact hreg j nd hj hg

theorem regionP_append_fresh {α : Type} {Q : Nat → Prop} (h : Heap α)
    (d : α) (hreg : regionP Q h) :
    regionP Q (h ++ [{ colour := .red, parent := none, left := none,
                       right := none, data := d }]) := by
  intro j nd hj hg
  rw [hGet_append] at hg
  by_cases hjl : j = h.length
  · rw [if_pos hjl] at hg
    injection hg with hh
    subst hh
    refine ⟨?_, ?_, ?_⟩ <;> intro k hk <;> cases hk
  · rw [if_neg hjl] at hg
    exact hreg j nd hj hg

theorem parent_inQ {α : Type} {Q : Nat → Prop} {h : Heap α} {i : Nat}
    (hreg : regionP Q h) (hi : Q i) :
    ∀ k, parent! h i = some k → Q k := by
  intro k hk
  rw [parent!] at hk
  cases hg : hGet h i with
  | none => rw [hg] at hk; cases hk
  | some nd =>
    rw [hg] at hk
    exact (hreg i nd hi hg).1 k hk

theorem left_inQ {α : Type} {Q : Nat → Prop} {h : Heap α} {i : Nat}
    (hreg : regionP Q h) (hi : Q i) :
    ∀ k, left! h i = some k → Q k := by
  intro k hk
  rw [left!] at hk
  cases hg : hGet h i with
  | none => rw [hg] at hk; cases hk
  | some nd =>
    rw [hg] at hk
    exact (hreg i nd hi hg).2.1 k hk

theorem right_inQ {α : Type} {Q : Nat → Prop} {h : Heap α} {i : Nat}
    (hreg : regionP Q h) (hi : Q i) :
    ∀ k, right! h i = some k → Q k := by
  intro k hk
  rw [right!] at hk
  cases hg : hGet h i with
  | none => rw [hg] at hk; cases hk
  | some nd =>
    rw [hg] at hk
    exact (hreg i nd hi hg).2.2 k hk

theorem sibling_inQ {α : Type} {Q : Nat → Prop} {h : Heap α} {i : Nat}
    (hreg : regionP Q h) (hi : Q i) :
    ∀ k, sibling h i = some k → Q k := by
  intro k hk
  rw [sibling] at hk
  cases hp : parent! h i with
  | none =>
    rw [hp] at hk
    cases hik : is_left_child h i <;> simp only [hik] at hk
    · simp only [Bool.false_eq_true, if_false, Option.none_bind] at hk
      cases hk
    · simp only [if_true, Option.none_bind] at hk
      cases hk
  | some p =>
    have hQp : Q p := parent_inQ hreg hi p hp
    rw [hp] at hk
    cases hik : is_left_child h i <;> simp only [hik] at hk
    · simp only [Bool.false_eq_true, if_false, Option.some_bind] at hk
      exact left_inQ hreg hQp k hk
    · simp only [if_true, Option.some_bind] at hk
      exact right_inQ hreg hQp k hk

theorem uncle_inQ {α : Type} {Q : Nat → Prop} {h : Heap α} {i : Nat}
    (hreg : regionP Q h) (hi : Q i) :
    ∀ k, uncle h i = some k → Q k := by
  intro k hk
  rw [uncle] at hk
  cases hp : parent! h i with
  | none => rw [hp] at hk; cases hk
  | some p =>
    rw [hp] at hk
    exact sibling_inQ hreg (parent_inQ hreg hi p hp) k hk

theorem parent_getD_inQ {α : Type} {Q : Nat → Prop} {h : Heap α} {i : Nat}
    (hreg : regionP Q h) (hi : Q i) (dflt : Nat) (hd : Q dflt) :
    Q ((parent! h i).getD dflt) := by
  cases hp : parent! h i with
  | none => exact hd
  | some p => exact parent_inQ hreg hi p hp

theorem leftmost_inQ {α : Type} {Q : Nat → Prop} :
    ∀ (fuel : Nat) (h : Heap α) (i : Nat), regionP Q h → Q i →
      Q (leftmost fuel h i) := by
  intro fuel
  induction fuel with
  | zero => intro h i _ hi; exact hi
  | succ fuel ih =>
    intro h i hreg hi
    rw [leftmost]
    cases hl : left! h i with
    | none => exact hi
    | some l => exact ih h l hreg (left_inQ hreg hi l hl)

theorem rightmost_inQ {α : Type} {Q : Nat → Prop} :
    ∀ (fuel : Nat) (h : Heap α) (i : Nat), regionP Q h → Q i →
      Q (rightmost fuel h i) := by
  intro fuel
  induction fuel with
  | zero => intro h i _ hi; exact hi
  | succ fuel ih =>
    intro h i hreg hi
    rw [rightmost]
    cases hr : right! h i with
    | none => exact hi
    | some r => exact ih h r hreg (right_inQ hreg hi r hr)

theorem climb_right_inQ {α : Type} {Q : Nat → Prop} :
    ∀ (fuel : Nat) (h : Heap α) (i : Nat), regionP Q h → Q i →
      Q (climb_right fuel h i) := by
  intro fuel
  induction fuel with
  | zero => intro h i _ hi; exact hi
  | succ fuel ih =>
    intro h i hreg hi
    rw [climb_right]
    by_cases hc : ((parent! h i).bind (right! h) == some i) = true
    · rw [if_pos hc]
      exact ih h _ hreg (parent_getD_inQ hreg hi i hi)
    · rw [if_neg hc]
      exact hi

theorem successor_inQ {α : Type} {Q : Nat → Prop} (fuel : Nat)
    {h : Heap α} {i : Nat} (hreg : regionP Q h) (hi : Q i) :
    ∀ k, successor fuel h i = some k → Q k := by
  intro k hk
  rw [successor] at hk
  cases hr : right! h i with
  | some r =>
    rw [hr] at hk
    injection hk with hh
    subst hh
    exact leftmost_inQ fuel h r hreg (right_inQ hreg hi r hr)
  | none =>
    rw [hr] at hk
    by_cases hc : is_left_child h i = true
    · rw [if_pos hc] at hk
      exact parent_inQ hreg hi k hk
    · rw [if_neg hc] at hk
      exact parent_inQ hreg (climb_right_inQ fuel h i hreg hi) k hk

theorem get_node_loop_inQ {α : Type} {Q : Nat → Prop} (o : Ords α) (d : α) :
    ∀ (fuel : Nat) (h : Heap α) (tmp : Option Nat), regionP Q h →
      (∀ m, tmp = some m → Q m) →
      ∀ k, get_node_loop o d fuel h tmp = some k → Q k := by
  intro fuel
  induction fuel with
  | zero => intro h tmp _ _ k hk; cases hk
  | succ fuel ih =>
    intro h tmp hreg htmp k hk
    cases tmp with
    | none => rw [get_node_loop] at hk; cases hk
    | some n =>
      rw [get_node_loop] at hk
      have hn : Q n := htmp n rfl
      cases hg : hGet h n with
      | none => rw [hg] at hk; cases hk
      | some nd =>
        rw [hg] at hk
        dsimp only at hk
        by_cases hb : o.beq d nd.data = true
        · rw [if_pos hb] at hk
          injection hk with hh
          subst hh
          exact hn
        · rw [if_neg hb] at hk
          by_cases hlt : o.lt d nd.data = true
          · rw [if_pos hlt] at hk
            refine ih h nd.left hreg ?_ k hk
            intro m hm
            refine left_inQ hreg hn m ?_
            rw [left!, hg]
            exact hm
          · rw [if_neg hlt] at hk
            refine ih h nd.right hreg ?_ k hk
            intro m hm
            refine right_inQ hreg hn m ?_
            rw [right!, hg]
            exact hm

/-! ### `hstep` / `rstep` calculus -/

theorem hstep_init {α : Type} {Q : Nat → Prop} {h : Heap α}
    (h1 : regionP Q h) (h2 : ∀ j, h.length ≤ j → Q j) : hstep Q h h :=
  ⟨h1, h2, fun _ _ => rfl, Nat.le_refl _⟩

theorem hstep_set_colour {α : Type} {Q : Nat → Prop} {h h0 : Heap α}
    (hs : hstep Q h h0) {i : Nat} (hi : Q i) (c : Colour) :
    hstep Q h (set_colour h0 i c) := by
  obtain ⟨hreg, hfr, hout, hle⟩ := hs
  refine ⟨regionP_set_colour h0 i c hreg, ?_, ?_, ?_⟩
  · intro j hj
    rw [length_set_colour] at hj
    exact hfr j hj
  · intro j hj
    rw [set_colour, hGet_hModify_ne h0 i j _ (fun he => hj (he ▸ hi))]
    exact hout j hj
  · rw [length_set_colour]
    exact hle

theorem hstep_set_data {α : Type} {Q : Nat → Prop} {h h0 : Heap α}
    (hs : hstep Q h h0) {i : Nat} (hi : Q i) (d : α) :
    hstep Q h (set_data h0 i d) := by
  obtain ⟨hreg, hfr, hout, hle⟩ := hs
  refine ⟨regionP_set_data h0 i d hreg, ?_, ?_, ?_⟩
  · intro j hj
    rw [length_set_data] at hj
    exact hfr j hj
  · intro j hj
    rw [set_data, hGet_hModify_ne h0 i j _ (fun he => hj (he ▸ hi))]
    exact hout j hj
  · rw [length_set_data]
    exact hle

theorem hstep_swap_data {α : Type} {Q : Nat → Prop} {h h0 : Heap α}
    (hs : hstep Q h h0) {i j : Nat} (hi : Q i) (hj : Q j) :
    hstep Q h (swap_data h0 i j) := by
  rw [swap_data]
  cases hGet h0 i with
  | none => exact hs
  | some a =>
    cases hGet h0 j with
    | none => exact hs
    | some b => exact hstep_set_data (hstep_set_data hs hi b.data) hj a.data

theorem hstep_set_parent {α : Type} {Q : Nat → Prop} {h h0 : Heap α}
    (hs : hstep Q h h0) {i : Nat} (hi : Q i) {x : Option Nat}
    (hx : ∀ k, x = some k → Q k) :
    hstep Q h (set_parent h0 i x) := by
  obtain ⟨hreg, hfr, hout, hle⟩ := hs
  refine ⟨regionP_set_parent h0 i x hreg hx, ?_, ?_, ?_⟩
  · intro j hj
    rw [length_set_parent] at hj
    exact hfr j hj
  · intro j hj
    rw [set_parent, hGet_hModify_ne h0 i j _ (fun he => hj (he ▸ hi))]
    exact hout j hj
  · rw [length_set_parent]
    exact hle

theorem hstep_set_left {α : Type} {Q : Nat → Prop} {h h0 : Heap α}
    (hs : hstep Q h h0) {i : Nat} (hi : Q i) {x : Option Nat}
    (hx : ∀ k, x = some k → Q k) :
    hstep Q h (set_left h0 i x) := by
  obtain ⟨hreg, hfr, hout, hle⟩ := hs
  refine ⟨regionP_set_left h0 i x hreg hx, ?_, ?_, ?_⟩
  · intro j hj
    rw [length_set_left] at hj
    exact hfr j hj
  · intro j hj
    rw [set_left, hGet_hModify_ne h0 i j _ (fun he => hj (he ▸ hi))]
    exact hout j hj
  · rw [length_set_left]
    exact hle

theorem hstep_set_right {α : Type} {Q : Nat → Prop} {h h0 : Heap α}
    (hs : hstep Q h h0) {i : Nat} (hi : Q i) {x : Option Nat}
    (hx : ∀ k, x = some k → Q k) :
    hstep Q h (set_right h0 i x) := by
  obtain ⟨hreg, hfr, hout, hle⟩ := hs
  refine ⟨regionP_set_right h0 i x hreg hx, ?_, ?_, ?_⟩
  · intro j hj
    rw [length_set_right] at hj
    exact hfr j hj
  · intro j hj
    rw [set_right, hGet_hModify_ne h0 i j _ (fun he => hj (he ▸ hi))]
    exact hout j hj
  · rw [length_set_right]
    exact hle

theorem hstep_alloc {α : Type} {Q : Nat → Prop} {h h0 : Heap α}
    (hs : hstep Q h h0) (d : α) :
    hstep Q h (h0 ++ [{ colour := .red, parent := none, left := none,
                        right := none, data := d }]) := by
  obtain ⟨hreg, hfr, hout, hle⟩ := hs
  refine ⟨regionP_append_fresh h0 d hreg, ?_, ?_, ?_⟩
  · intro j hj
    rw [List.length_append] at hj
    exact hfr j (by omega)
  · intro j hj
    rw [hGet_append]
    rw [if_neg (fun he => hj (hfr j (Nat.le_of_eq he.symm)))]
    exact hout j hj
  · rw [List.length_append]
    omega

theorem rstep_refl {α : Type} {Q : Nat → Prop} {t : RBTreeSet α}
    (hinv : regionInv Q t) : rstep Q t t :=
  ⟨hinv, fun _ _ => rfl, Nat.le_refl _⟩

theorem rstep_trans {α : Type} {Q : Nat → Prop} {t t1 t2 : RBTreeSet α}
    (h1 : rstep Q t t1) (h2 : rstep Q t1 t2) : rstep Q t t2 :=
  ⟨h2.1, fun j hj => (h2.2.1 j hj).trans (h1.2.1 j hj),
   Nat.le_trans h1.2.2 h2.2.2⟩

theorem hstep_of_regionInv {α : Type} {Q : Nat → Prop} {t : RBTreeSet α}
    (hinv : regionInv Q t) : hstep Q t.heap t.heap :=
  hstep_init hinv.1 hinv.2.1

theorem rstep_mk {α : Type} {Q : Nat → Prop} {t : RBTreeSet α}
    {h' : Heap α} {ro : Option Nat} {n : Nat}
    (hs : hstep Q t.heap h') (hroot : ∀ r, ro = some r → Q r) :
    rstep Q t (RBTreeSet.mk h' ro n) :=
  ⟨⟨hs.1, hs.2.1, hroot⟩, hs.2.2.1, hs.2.2.2⟩

theorem regionInv_of_rstep {α : Type} {Q : Nat → Prop} {t t' : RBTreeSet α}
    (h : rstep Q t t') : regionInv Q t' := h.1

theorem someQ {Q : Nat → Prop} {v : Nat} (hv : Q v) :
    ∀ k, (some v : Option Nat) = some k → Q k := by
  intro k hk
  injection hk with hh
  exact hh ▸ hv

theorem rotate_right_rstep {α : Type} {Q : Nat → Prop} (t : RBTreeSet α)
    (node : Nat) (hinv : regionInv Q t) (hn : Q node) :
    rstep Q t (rotate_right t node) := by
  rw [rotate_right]
  cases hL : left! t.heap node with
  | none => exact rstep_refl hinv
  | some p =>
    have hp : Q p := left_inQ hinv.1 hn p hL
    dsimp only
    set h1 := set_left t.heap node (right! t.heap p) with hh1
    have hs1 : hstep Q t.heap h1 :=
      hstep_set_left (hstep_of_regionInv hinv) hn (right_inQ hinv.1 hp)
    cases hR : right! h1 p with
    | some r =>
      dsimp only
      have hr : Q r := right_inQ hs1.1 hp r hR
      set h2 := set_parent h1 r (some node) with hh2
      have hs2 : hstep Q t.heap h2 := hstep_set_parent hs1 hr (someQ hn)
      set h3 := set_right h2 p (some node) with hh3
      have hs3 : hstep Q t.heap h3 := hstep_set_right hs2 hp (someQ hn)
      set h4 := set_parent h3 p (parent! h3 node) with hh4
      have hs4 : hstep Q t.heap h4 :=
        hstep_set_parent hs3 hp (parent_inQ hs3.1 hn)
      cases hG : parent! h4 p with
      | some g =>
        dsimp only
        have hg : Q g := parent_inQ hs4.1 hp g hG
        by_cases hc : is_left_child h4 node = true
        · rw [if_pos hc]
          exact rstep_mk (hstep_set_parent
            (hstep_set_left hs4 hg (someQ hp)) hn (someQ hp)) hinv.2.2
        · rw [if_neg hc]
          exact rstep_mk (hstep_set_parent
            (hstep_set_right hs4 hg (someQ hp)) hn (someQ hp)) hinv.2.2
      | none =>
        dsimp only
        exact rstep_mk (hstep_set_parent hs4 hn (someQ hp)) (someQ hp)
    | none =>
      dsimp only
      set h3 := set_right h1 p (some node) with hh3
      have hs3 : hstep Q t.heap h3 := hstep_set_right hs1 hp (someQ hn)
      set h4 := set_parent h3 p (parent! h3 node) with hh4
      have hs4 : hstep Q t.heap h4 :=
        hstep_set_parent hs3 hp (parent_inQ hs3.1 hn)
      cases hG : parent! h4 p with
      | some g =>
        dsimp only
        have hg : Q g := parent_inQ hs4.1 hp g hG
        by_cases hc : is_left_child h4 node = true
        · rw [if_pos hc]
          exact rstep_mk (hstep_set_parent
            (hstep_set_left hs4 hg (someQ hp)) hn (someQ hp)) hinv.2.2
        · rw [if_neg hc]
          exact rstep_mk (hstep_set_parent
            (hstep_set_right hs4 hg (someQ hp)) hn (someQ hp)) hinv.2.2
      | none =>
        dsimp only
        exact rstep_mk (hstep_set_parent hs4 hn (someQ hp)) (someQ hp)

theorem rotate_left_rstep {α : Type} {Q : Nat → Prop} (t : RBTreeSet α)
    (node : Nat) (hinv : regionInv Q t) (hn : Q node) :
    rstep Q t (rotate_left t node) := by
  rw [rotate_left]
  cases hL : right! t.heap node with
  | none => exact rstep_refl hinv
  | some p =>
    have hp : Q p := right_inQ hinv.1 hn p hL
    dsimp only
    set h1 := set_right t.heap node (left! t.heap p) with hh1
    have hs1 : hstep Q t.heap h1 :=
      hstep_set_right (hstep_of_regionInv hinv) hn (left_inQ hinv.1 hp)
    cases hR : left! h1 p with
    | some l =>
      dsimp only
      have hl : Q l := left_inQ hs1.1 hp l hR
      set h2 := set_parent h1 l (some node) with hh2
      have hs2 : hstep Q t.heap h2 := hstep_set_parent hs1 hl (someQ hn)
      set h3 := set_left h2 p (some node) with hh3
      have hs3 : hstep Q t.heap h3 := hstep_set_left hs2 hp (someQ hn)
      set h4 := set_parent h3 p (parent! h3 node) with hh4
      have hs4 : hstep Q t.heap h4 :=
        hstep_set_parent hs3 hp (parent_inQ hs3.1 hn)
      cases hG : parent! h4 p with
      | some g =>
        dsimp only
        have hg : Q g := parent_inQ hs4.1 hp g hG
        by_cases hc : is_left_child h4 node = true
        · rw [if_pos hc]
          exact rstep_mk (hstep_set_parent
            (hstep_set_left hs4 hg (someQ hp)) hn (someQ hp)) hinv.2.2
        · rw [if_neg hc]
          exact rstep_mk (hstep_set_parent
            (hstep_set_right hs4 hg (someQ hp)) hn (someQ hp)) hinv.2.2
      | none =>
        dsimp only
        exact rstep_mk (hstep_set_parent hs4 hn (someQ hp)) (someQ hp)
    | none =>
      dsimp only
      set h3 := set_left h1 p (some node) with hh3
      have hs3 : hstep Q t.heap h3 := hstep_set_left hs1 hp (someQ hn)
      set h4 := set_parent h3 p (parent! h3 node) with hh4
      have hs4 : hstep Q t.heap h4 :=
        hstep_set_parent hs3 hp (parent_inQ hs3.1 hn)
      cases hG : parent! h4 p with
      | some g =>
        dsimp only
        have hg : Q g := parent_inQ hs4.1 hp g hG
        by_cases hc : is_left_child h4 node = true
        · rw [if_pos hc]
          exact rstep_mk (hstep_set_parent
            (hstep_set_left hs4 hg (someQ hp)) hn (someQ hp)) hinv.2.2
        · rw [if_neg hc]
          exact rstep_mk (hstep_set_parent
            (hstep_set_right hs4 hg (someQ hp)) hn (someQ hp)) hinv.2.2
      | none =>
        dsimp only
        exact rstep_mk (hstep_set_parent hs4 hn (someQ hp)) (someQ hp)

theorem left_getD_inQ {α : Type} {Q : Nat → Prop} {h : Heap α} {i : Nat}
    (hreg : regionP Q h) (hi : Q i) (dflt : Nat) (hd : Q dflt) :
    Q ((left! h i).getD dflt) := by
  cases hl : left! h i with
  | none => exact hd
  | some l => exact left_inQ hreg hi l hl

theorem right_getD_inQ {α : Type} {Q : Nat → Prop} {h : Heap α} {i : Nat}
    (hreg : regionP Q h) (hi : Q i) (dflt : Nat) (hd : Q dflt) :
    Q ((right! h i).getD dflt) := by
  cases hr : right! h i with
  | none => exact hd
  | some r => exact right_inQ hreg hi r hr

theorem balance_rstep {α : Type} {Q : Nat → Prop} :
    ∀ (fuel : Nat) (t : RBTreeSet α) (node : Nat),
      regionInv Q t → Q node → rstep Q t (balance fuel t node) := by
  intro fuel
  induction fuel with
  | zero => intro t node hinv _; exact rstep_refl hinv
  | succ fuel ih =>
    intro t node hinv hn
    rw [balance]
    by_cases h1 : (parent! t.heap node == none) = true
    · rw [if_pos h1]
      exact rstep_mk (hstep_set_colour (hstep_of_regionInv hinv) hn .black)
        hinv.2.2
    · rw [if_neg h1]
      by_cases h2 : ((parent! t.heap node).bind (colour! t.heap)
          == some Colour.black) = true
      · rw [if_pos h2]
        exact rstep_refl hinv
      · rw [if_neg h2]
        by_cases h3 : ((uncle t.heap node).bind (colour! t.heap)
            == some Colour.red) = true
        · rw [if_pos h3]
          dsimp only
          cases hP : parent! t.heap node with
          | none =>
            dsimp only
            cases hU : uncle t.heap node with
            | none =>
              dsimp only
              cases hpn : parent! t.heap node with
              | none =>
                simp only [Option.none_bind]
                exact rstep_mk (hstep_of_regionInv hinv) hinv.2.2
              | some pp =>
                simp only [Option.some_bind]
                have hpp : Q pp := parent_inQ hinv.1 hn pp hpn
                cases hgp : parent! t.heap pp with
                | none => exact rstep_mk (hstep_of_regionInv hinv) hinv.2.2
                | some gp =>
                  have hgpQ : Q gp := parent_inQ hinv.1 hpp gp hgp
                  have hr : rstep Q t
                      { t with heap := set_colour t.heap gp Colour.red } :=
                    rstep_mk (hstep_set_colour (hstep_of_regionInv hinv)
                      hgpQ Colour.red) hinv.2.2
                  exact rstep_trans hr (ih _ gp (regionInv_of_rstep hr) hgpQ)
            | some u =>
              dsimp only
              have hu : Q u := uncle_inQ hinv.1 hn u hU
              set hB := set_colour t.heap u Colour.black with hhB
              have hsB : hstep Q t.heap hB :=
                hstep_set_colour (hstep_of_regionInv hinv) hu Colour.black
              cases hpn : parent! hB node with
              | none =>
                simp only [Option.none_bind]
                exact rstep_mk hsB hinv.2.2
              | some pp =>
                simp only [Option.some_bind]
                have hpp : Q pp := parent_inQ hsB.1 hn pp hpn
                cases hgp : parent! hB pp with
                | none => exact rstep_mk hsB hinv.2.2
                | some gp =>
                  have hgpQ : Q gp := parent_inQ hsB.1 hpp gp hgp
                  have hr : rstep Q t
                      { t with heap := set_colour hB gp Colour.red } :=
                    rstep_mk (hstep_set_colour hsB hgpQ Colour.red) hinv.2.2
                  exact rstep_trans hr (ih _ gp (regionInv_of_rstep hr) hgpQ)
          | some p =>
            have hp : Q p := parent_inQ hinv.1 hn p hP
            dsimp only
            set hA := set_colour t.heap p Colour.black with hhA
            have hsA : hstep Q t.heap hA :=
              hstep_set_colour (hstep_of_regionInv hinv) hp Colour.black
            cases hU : uncle hA node with
            | none =>
              dsimp only
              cases hpn : parent! hA node with
              | none =>
                simp only [Option.none_bind]
                exact rstep_mk hsA hinv.2.2
              | some pp =>
                simp only [Option.some_bind]
                have hpp : Q pp := parent_inQ hsA.1 hn pp hpn
                cases hgp : parent! hA pp with
                | none => exact rstep_mk hsA hinv.2.2
                | some gp =>
                  have hgpQ : Q gp := parent_inQ hsA.1 hpp gp hgp
                  have hr : rstep Q t
                      { t with heap := set_colour hA gp Colour.red } :=
                    rstep_mk (hstep_set_colour hsA hgpQ Colour.red) hinv.2.2
                  exact rstep_trans hr (ih _ gp (regionInv_of_rstep hr) hgpQ)
            | some u =>
              dsimp only
              have hu : Q u := uncle_inQ hsA.1 hn u hU
              set hB := set_colour hA u Colour.black with hhB
              have hsB : hstep Q t.heap hB :=
                hstep_set_colour hsA hu Colour.black
              cases hpn : parent! hB node with
              | none =>
                simp only [Option.none_bind]
                exact rstep_mk hsB hinv.2.2
              | some pp =>
                simp only [Option.some_bind]
                have hpp : Q pp := parent_inQ hsB.1 hn pp hpn
                cases hgp : parent! hB pp with
                | none => exact rstep_mk hsB hinv.2.2
                | some gp =>
                  have hgpQ : Q gp := parent_inQ hsB.1 hpp gp hgp
                  have hr : rstep Q t
                      { t with heap := set_colour hB gp Colour.red } :=
                    rstep_mk (hstep_set_colour hsB hgpQ Colour.red) hinv.2.2
                  exact rstep_trans hr (ih _ gp (regionInv_of_rstep hr) hgpQ)
        · rw [if_neg h3]
          dsimp only
          cases hP : parent! t.heap node with
          | none =>
            dsimp only
            rw [if_neg (by simp :
              ¬((false && !is_left_child t.heap node) = true))]
            simp only [Bool.not_false, Bool.true_and]
            by_cases hnl : is_left_child t.heap node = true
            · rw [if_pos hnl]
              dsimp only
              simp only [Option.getD_none]
              set t1 := rotate_right t node with ht1
              have hrt1 : rstep Q t t1 := rotate_right_rstep t node hinv hn
              set n1 := (right! t1.heap node).getD node with hn1d
              have hn1 : Q n1 :=
                right_getD_inQ (regionInv_of_rstep hrt1).1 hn node hn
              cases hpn : (parent! t1.heap n1).bind (parent! t1.heap) with
              | none => exact hrt1
              | some ng =>
                obtain ⟨pp, hpp2, hng2⟩ := Option.bind_eq_some.mp hpn
                have hpp : Q pp :=
                  parent_inQ (regionInv_of_rstep hrt1).1 hn1 pp hpp2
                have hng : Q ng :=
                  parent_inQ (regionInv_of_rstep hrt1).1 hpp ng hng2
                dsimp only
                rw [hpp2]
                dsimp only
                set hC := set_colour (set_colour t1.heap pp Colour.black) ng Colour.red with hhC
                have hr2 : rstep Q t { t1 with heap := hC } :=
                  rstep_trans hrt1 (rstep_mk (hstep_set_colour
                    (hstep_set_colour (hstep_of_regionInv
                      (regionInv_of_rstep hrt1)) hpp Colour.black)
                    hng Colour.red) (regionInv_of_rstep hrt1).2.2)
                by_cases hc : is_left_child hC n1 = true
                · rw [if_pos hc]
                  exact rstep_trans hr2 (rotate_right_rstep _ ng
                    (regionInv_of_rstep hr2) hng)
                · rw [if_neg hc]
                  exact rstep_trans hr2 (rotate_left_rstep _ ng
                    (regionInv_of_rstep hr2) hng)
            · rw [if_neg hnl]
              dsimp only
              cases hpn : parent! t.heap node with
              | none => simp only [Option.none_bind]; exact rstep_refl hinv
              | some pp =>
                simp only [Option.some_bind]
                have hpp : Q pp := parent_inQ hinv.1 hn pp hpn
                cases hgp : parent! t.heap pp with
                | none => exact rstep_refl hinv
                | some ng =>
                  have hng : Q ng := parent_inQ hinv.1 hpp ng hgp
                  dsimp only
                  set hC := set_colour (set_colour t.heap pp Colour.black) ng Colour.red with hhC
                  have hr2 : rstep Q t { t with heap := hC } :=
                    rstep_mk (hstep_set_colour (hstep_set_colour
                      (hstep_of_regionInv hinv) hpp Colour.black)
                      hng Colour.red) hinv.2.2
                  by_cases hc : is_left_child hC node = true
                  · rw [if_pos hc]
                    exact rstep_trans hr2 (rotate_right_rstep _ ng
                      (regionInv_of_rstep hr2) hng)
                  · rw [if_neg hc]
                    exact rstep_trans hr2 (rotate_left_rstep _ ng
                      (regionInv_of_rstep hr2) hng)
          | some p =>
            have hp : Q p := parent_inQ hinv.1 hn p hP
            dsimp only
            by_cases hc1 : (is_left_child t.heap p
                && !is_left_child t.heap node) = true
            · rw [if_pos hc1]
              dsimp only
              simp only [Option.getD_some]
              set t1 := rotate_left t p with ht1
              have hrt1 : rstep Q t t1 := rotate_left_rstep t p hinv hp
              set n1 := (left! t1.heap node).getD node with hn1d
              have hn1 : Q n1 :=
                left_getD_inQ (regionInv_of_rstep hrt1).1 hn node hn
              cases hpn : (parent! t1.heap n1).bind (parent! t1.heap) with
              | none => exact hrt1
              | some ng =>
                obtain ⟨pp, hpp2, hng2⟩ := Option.bind_eq_some.mp hpn
                have hpp : Q pp :=
                  parent_inQ (regionInv_of_rstep hrt1).1 hn1 pp hpp2
                have hng : Q ng :=
                  parent_inQ (regionInv_of_rstep hrt1).1 hpp ng hng2
                dsimp only
                rw [hpp2]
                dsimp only
                set hC := set_colour (set_colour t1.heap pp Colour.black) ng Colour.red with hhC
                have hr2 : rstep Q t { t1 with heap := hC } :=
                  rstep_trans hrt1 (rstep_mk (hstep_set_colour
                    (hstep_set_colour (hstep_of_regionInv
                      (regionInv_of_rstep hrt1)) hpp Colour.black)
                    hng Colour.red) (regionInv_of_rstep hrt1).2.2)
                by_cases hc : is_left_child hC n1 = true
                · rw [if_pos hc]
                  exact rstep_trans hr2 (rotate_right_rstep _ ng
                    (regionInv_of_rstep hr2) hng)
                · rw [if_neg hc]
                  exact rstep_trans hr2 (rotate_left_rstep _ ng
                    (regionInv_of_rstep hr2) hng)
            · rw [if_neg hc1]
              by_cases hc2 : (!is_left_child t.heap p
                  && is_left_child t.heap node) = true
              · rw [if_pos hc2]
                dsimp only
                simp only [Option.getD_some]
                set t1 := rotate_right t p with ht1
                have hrt1 : rstep Q t t1 := rotate_right_rstep t p hinv hp
                set n1 := (right! t1.heap node).getD node with hn1d
                have hn1 : Q n1 :=
                  right_getD_inQ (regionInv_of_rstep hrt1).1 hn node hn
                cases hpn : (parent! t1.heap n1).bind (parent! t1.heap) with
                | none => exact hrt1
                | some ng =>
                  obtain ⟨pp, hpp2, hng2⟩ := Option.bind_eq_some.mp hpn
                  have hpp : Q pp :=
                    parent_inQ (regionInv_of_rstep hrt1).1 hn1 pp hpp2
                  have hng : Q ng :=
                    parent_inQ (regionInv_of_rstep hrt1).1 hpp ng hng2
                  dsimp only
                  rw [hpp2]
                  dsimp only
                  set hC := set_colour (set_colour t1.heap pp Colour.black) ng Colour.red with hhC
                  have hr2 : rstep Q t { t1 with heap := hC } :=
                    rstep_trans hrt1 (rstep_mk (hstep_set_colour
                      (hstep_set_colour (hstep_of_regionInv
                        (regionInv_of_rstep hrt1)) hpp Colour.black)
                      hng Colour.red) (regionInv_of_rstep hrt1).2.2)
                  by_cases hc : is_left_child hC n1 = true
                  · rw [if_pos hc]
                    exact rstep_trans hr2 (rotate_right_rstep _ ng
                      (regionInv_of_rstep hr2) hng)
                  · rw [if_neg hc]
                    exact rstep_trans hr2 (rotate_left_rstep _ ng
                      (regionInv_of_rstep hr2) hng)
              · rw [if_neg hc2]
                dsimp only
                cases hpn : parent! t.heap node with
                | none => simp only [Option.none_bind]; exact rstep_refl hinv
                | some pp =>
                  simp only [Option.some_bind]
                  have hpp : Q pp := parent_inQ hinv.1 hn pp hpn
                  cases hgp : parent! t.heap pp with
                  | none => exact rstep_refl hinv
                  | some ng =>
                    have hng : Q ng := parent_inQ hinv.1 hpp ng hgp
                    dsimp only
                    set hC := set_colour (set_colour t.heap pp Colour.black) ng Colour.red with hhC
                    have hr2 : rstep Q t { t with heap := hC } :=
                      rstep_mk (hstep_set_colour (hstep_set_colour
                        (hstep_of_regionInv hinv) hpp Colour.black)
                        hng Colour.red) hinv.2.2
                    by_cases hc : is_left_child hC node = true
                    · rw [if_pos hc]
                      exact rstep_trans hr2 (rotate_right_rstep _ ng
                        (regionInv_of_rstep hr2) hng)
                    · rw [if_neg hc]
                      exact rstep_trans hr2 (rotate_left_rstep _ ng
                        (regionInv_of_rstep hr2) hng)

theorem rstep_relength {α : Type} {Q : Nat → Prop} {t t' : RBTreeSet α}
    (h : rstep Q t t') (m : Nat) :
    rstep Q t (RBTreeSet.mk t'.heap t'.root m) :=
  ⟨⟨h.1.1, h.1.2.1, h.1.2.2⟩, h.2.1, h.2.2⟩

theorem insert_from_rstep {α : Type} {Q : Nat → Prop} (o : Ords α) (d : α) :
    ∀ (fuel : Nat) (t : RBTreeSet α) (root : Nat),
      regionInv Q t → Q root →
      rstep Q t (insert_from o fuel t root d).1
      ∧ (∀ n, (insert_from o fuel t root d).2 = some n → Q n) := by
  intro fuel
  induction fuel with
  | zero =>
    intro t root hinv _
    exact ⟨rstep_refl hinv, fun n h => nomatch h⟩
  | succ fuel ih =>
    intro t root hinv hroot
    have hfr : Q t.heap.length := hinv.2.1 t.heap.length (Nat.le_refl _)
    cases hg : hGet t.heap root with
    | none =>
      rw [insert_from, hg]
      exact ⟨rstep_refl hinv, fun n h => nomatch h⟩
    | some nd =>
      rw [insert_from, hg]
      dsimp only
      by_cases hbeq : o.beq d nd.data = true
      · rw [if_pos hbeq]
        exact ⟨rstep_refl hinv, fun n h => nomatch h⟩
      · rw [if_neg hbeq]
        by_cases hle : o.le d nd.data = true
        · rw [if_pos hle]
          cases hl : nd.left with
          | none =>
            simp only [allocNode]
            refine ⟨rstep_mk (hstep_set_left (hstep_set_parent
              (hstep_alloc (hstep_of_regionInv hinv) d) hfr (someQ hroot))
              hroot (someQ hfr)) hinv.2.2, someQ hfr⟩
          | some l =>
            dsimp only
            have hQl : Q l := (hinv.1 root nd hroot hg).2.1 l hl
            exact ih t l hinv hQl
        · rw [if_neg hle]
          cases hr : nd.right with
          | none =>
            simp only [allocNode]
            refine ⟨rstep_mk (hstep_set_right (hstep_set_parent
              (hstep_alloc (hstep_of_regionInv hinv) d) hfr (someQ hroot))
              hroot (someQ hfr)) hinv.2.2, someQ hfr⟩
          | some r =>
            dsimp only
            have hQr : Q r := (hinv.1 root nd hroot hg).2.2 r hr
            exact ih t r hinv hQr

theorem insert_rstep {α : Type} {Q : Nat → Prop} (o : Ords α)
    (t : RBTreeSet α) (d : α) (hinv : regionInv Q t) :
    rstep Q t (insert o t d).1 := by
  rw [insert]
  have hfr : Q t.heap.length := hinv.2.1 t.heap.length (Nat.le_refl _)
  cases hr : t.root with
  | none =>
    simp only [allocNode]
    have hr1 := @rstep_mk α Q t (t.heap ++ [{ colour := .red, parent := none, left := none, right := none, data := d }]) (some t.heap.length) t.length (hstep_alloc (hstep_of_regionInv hinv) d) (someQ hfr)
    exact rstep_relength (rstep_trans hr1 (balance_rstep _ _ t.heap.length
      (regionInv_of_rstep hr1) hfr)) _
  | some r =>
    have hQr : Q r := hinv.2.2 r hr
    dsimp only
    have hif := insert_from_rstep o d (t.heap.length + 1) t r hinv hQr
    cases hp : insert_from o (t.heap.length + 1) t r d with
    | mk t2 node =>
      rw [hp] at hif
      dsimp only at hif
      cases node with
      | none => exact hif.1
      | some n =>
        have hn : Q n := hif.2 n rfl
        dsimp only
        exact rstep_relength (rstep_trans hif.1 (balance_rstep _ t2 n
          (regionInv_of_rstep hif.1) hn)) _

theorem clear_rstep {α : Type} {Q : Nat → Prop} (t : RBTreeSet α)
    (hinv : regionInv Q t) : rstep Q t (clear t) :=
  rstep_mk (hstep_of_regionInv hinv) (fun r h => nomatch h)

theorem hstep_of_rstep {α : Type} {Q : Nat → Prop} {t t' : RBTreeSet α}
    (h : rstep Q t t') : hstep Q t.heap t'.heap :=
  ⟨h.1.1, h.1.2.1, h.2.1, h.2.2⟩

theorem double_black_fixup_rstep {α : Type} {Q : Nat → Prop} :
    ∀ (fuel : Nat) (t : RBTreeSet α) (node : Nat),
      regionInv Q t → Q node → rstep Q t (double_black_fixup fuel t node) := by
  intro fuel
  induction fuel with
  | zero => intro t node hinv _; exact rstep_refl hinv
  | succ fuel ih =>
    intro t node hinv hn
    rw [double_black_fixup]
    by_cases hrt : (t.root == some node) = true
    · rw [if_pos hrt]
      exact rstep_refl hinv
    · rw [if_neg hrt]
      cases hP : parent! t.heap node with
      | none => exact rstep_refl hinv
      | some parent =>
        have hparQ : Q parent := parent_inQ hinv.1 hn parent hP
        dsimp only
        cases hS : sibling t.heap node with
        | none => exact ih t parent hinv hparQ
        | some s =>
          have hsQ : Q s := sibling_inQ hinv.1 hn s hS
          dsimp only
          by_cases hc1 : (colour! t.heap s == some Colour.red) = true
          · rw [if_pos hc1]
            set hA := set_colour (set_colour t.heap parent Colour.red) s Colour.black with hhA
            have hstA : rstep Q t { t with heap := hA } :=
              rstep_mk (hstep_set_colour (hstep_set_colour
                (hstep_of_regionInv hinv) hparQ Colour.red) hsQ Colour.black)
                hinv.2.2
            by_cases hc2 : is_left_child hA s = true
            · rw [if_pos hc2]
              have h2 : rstep Q t (rotate_right { t with heap := hA } parent) :=
                rstep_trans hstA (rotate_right_rstep _ parent
                  (regionInv_of_rstep hstA) hparQ)
              exact rstep_trans h2 (ih _ node (regionInv_of_rstep h2) hn)
            · rw [if_neg hc2]
              have h2 : rstep Q t (rotate_left { t with heap := hA } parent) :=
                rstep_trans hstA (rotate_left_rstep _ parent
                  (regionInv_of_rstep hstA) hparQ)
              exact rstep_trans h2 (ih _ node (regionInv_of_rstep h2) hn)
          · rw [if_neg hc1]
            by_cases hc3 : (((left! t.heap s).bind (colour! t.heap)
                == some Colour.red)
                || ((right! t.heap s).bind (colour! t.heap)
                  == some Colour.red)) = true
            · rw [if_pos hc3]
              by_cases hc4 : ((left! t.heap s).bind (colour! t.heap)
                  == some Colour.red) = true
              · rw [if_pos hc4]
                cases hL : left! t.heap s with
                | none =>
                  dsimp only
                  exact rstep_mk (hstep_set_colour (hstep_of_regionInv hinv)
                    hparQ Colour.black) hinv.2.2
                | some l =>
                  have hlQ : Q l := left_inQ hinv.1 hsQ l hL
                  dsimp only
                  by_cases hc5 : is_left_child t.heap s = true
                  · rw [if_pos hc5]
                    set hB := set_colour (set_colour t.heap l ((colour! t.heap s).getD Colour.red)) s ((colour! (set_colour t.heap l ((colour! t.heap s).getD Colour.red)) parent).getD Colour.red) with hhB
                    have hstB : rstep Q t { t with heap := hB } :=
                      rstep_mk (hstep_set_colour (hstep_set_colour
                        (hstep_of_regionInv hinv) hlQ _) hsQ _) hinv.2.2
                    have h3 : rstep Q t
                        (rotate_right { t with heap := hB } parent) :=
                      rstep_trans hstB (rotate_right_rstep _ parent
                        (regionInv_of_rstep hstB) hparQ)
                    exact rstep_trans h3 (rstep_mk (hstep_set_colour
                      (hstep_of_regionInv (regionInv_of_rstep h3)) hparQ Colour.black)
                      (regionInv_of_rstep h3).2.2)
                  · rw [if_neg hc5]
                    set hB := set_colour t.heap l ((colour! t.heap parent).getD Colour.red) with hhB
                    have hstB : rstep Q t { t with heap := hB } :=
                      rstep_mk (hstep_set_colour (hstep_of_regionInv hinv)
                        hlQ _) hinv.2.2
                    have h3 : rstep Q t
                        (rotate_right { t with heap := hB } s) :=
                      rstep_trans hstB (rotate_right_rstep _ s
                        (regionInv_of_rstep hstB) hsQ)
                    have h4 : rstep Q t
                        (rotate_left (rotate_right { t with heap := hB } s)
                          parent) :=
                      rstep_trans h3 (rotate_left_rstep _ parent
                        (regionInv_of_rstep h3) hparQ)
                    exact rstep_trans h4 (rstep_mk (hstep_set_colour
                      (hstep_of_regionInv (regionInv_of_rstep h4)) hparQ Colour.black)
                      (regionInv_of_rstep h4).2.2)
              · rw [if_neg hc4]
                cases hR : right! t.heap s with
                | none =>
                  dsimp only
                  exact rstep_mk (hstep_set_colour (hstep_of_regionInv hinv)
                    hparQ Colour.black) hinv.2.2
                | some r =>
                  have hrQ : Q r := right_inQ hinv.1 hsQ r hR
                  dsimp only
                  by_cases hc5 : is_left_child t.heap s = true
                  · rw [if_pos hc5]
                    set hB := set_colour t.heap r ((colour! t.heap parent).getD Colour.red) with hhB
                    have hstB : rstep Q t { t with heap := hB } :=
                      rstep_mk (hstep_set_colour (hstep_of_regionInv hinv)
                        hrQ _) hinv.2.2
                    have h3 : rstep Q t
                        (rotate_left { t with heap := hB } s) :=
                      rstep_trans hstB (rotate_left_rstep _ s
                        (regionInv_of_rstep hstB) hsQ)
                    have h4 : rstep Q t
                        (rotate_right (rotate_left { t with heap := hB } s)
                          parent) :=
                      rstep_trans h3 (rotate_right_rstep _ parent
                        (regionInv_of_rstep h3) hparQ)
                    exact rstep_trans h4 (rstep_mk (hstep_set_colour
                      (hstep_of_regionInv (regionInv_of_rstep h4)) hparQ Colour.black)
                      (regionInv_of_rstep h4).2.2)
                  · rw [if_neg hc5]
                    set hB := set_colour (set_colour t.heap r ((colour! t.heap s).getD Colour.red)) s ((colour! (set_colour t.heap r ((colour! t.heap s).getD Colour.red)) parent).getD Colour.red) with hhB
                    have hstB : rstep Q t { t with heap := hB } :=
                      rstep_mk (hstep_set_colour (hstep_set_colour
                        (hstep_of_regionInv hinv) hrQ _) hsQ _) hinv.2.2
                    have h3 : rstep Q t
                        (rotate_left { t with heap := hB } parent) :=
                      rstep_trans hstB (rotate_left_rstep _ parent
                        (regionInv_of_rstep hstB) hparQ)
                    exact rstep_trans h3 (rstep_mk (hstep_set_colour
                      (hstep_of_regionInv (regionInv_of_rstep h3)) hparQ Colour.black)
                      (regionInv_of_rstep h3).2.2)
            · rw [if_neg hc3]
              set hA := set_colour t.heap s Colour.red with hhA
              have hsA : hstep Q t.heap hA :=
                hstep_set_colour (hstep_of_regionInv hinv) hsQ Colour.red
              by_cases hc6 : (colour! hA parent == some Colour.black) = true
              · rw [if_pos hc6]
                have hstA : rstep Q t { t with heap := hA } :=
                  rstep_mk hsA hinv.2.2
                exact rstep_trans hstA (ih _ parent
                  (regionInv_of_rstep hstA) hparQ)
              · rw [if_neg hc6]
                exact rstep_mk (hstep_set_colour hsA hparQ Colour.black)
                  hinv.2.2

theorem noneQ {Q : Nat → Prop} :
    ∀ k, (none : Option Nat) = some k → Q k := fun _ hk => nomatch hk

theorem remove_node_none_arm {α : Type} {Q : Nat → Prop} (t : RBTreeSet α)
    (node : Nat) (db : Bool) (hinv : regionInv Q t) (hn : Q node) :
    rstep Q t
      (if t.root == some node then
        { t with root := none, length := t.length - 1 }
      else
        let t1 := if db then double_black_fixup (t.heap.length + 1) t node
          else match sibling t.heap node with
            | some s => { t with heap := set_colour t.heap s .red }
            | none => t
        let t2 := match parent! t1.heap node with
          | some p =>
            if is_left_child t1.heap node then
              { t1 with heap := set_left t1.heap p none }
            else
              { t1 with heap := set_right t1.heap p none }
          | none => t1
        { t2 with length := t2.length - 1 }) := by
  by_cases hrt : (t.root == some node) = true
  · rw [if_pos hrt]
    exact rstep_mk (hstep_of_regionInv hinv) noneQ
  · rw [if_neg hrt]
    dsimp only
    set T1 := (if db then double_black_fixup (t.heap.length + 1) t node
      else match sibling t.heap node with
        | some s => { t with heap := set_colour t.heap s .red }
        | none => t) with hT1
    have ht1 : rstep Q t T1 := by
      rw [hT1]
      cases db with
      | true =>
        rw [if_pos rfl]
        exact double_black_fixup_rstep _ t node hinv hn
      | false =>
        rw [if_neg (by simp)]
        cases hS : sibling t.heap node with
        | some s =>
          exact rstep_mk (hstep_set_colour (hstep_of_regionInv hinv)
            (sibling_inQ hinv.1 hn s hS) .red) hinv.2.2
        | none => exact rstep_refl hinv
    cases hP : parent! T1.heap node with
    | none => exact rstep_relength ht1 _
    | some p =>
      have hpQ : Q p := parent_inQ (regionInv_of_rstep ht1).1 hn p hP
      dsimp only
      by_cases hc : is_left_child T1.heap node = true
      · rw [if_pos hc]
        exact rstep_relength (rstep_trans ht1 (rstep_mk (hstep_set_left
          (hstep_of_regionInv (regionInv_of_rstep ht1)) hpQ noneQ)
          (regionInv_of_rstep ht1).2.2)) _
      · rw [if_neg hc]
        exact rstep_relength (rstep_trans ht1 (rstep_mk (hstep_set_right
          (hstep_of_regionInv (regionInv_of_rstep ht1)) hpQ noneQ)
          (regionInv_of_rstep ht1).2.2)) _

theorem remove_node_some_arm {α : Type} {Q : Nat → Prop} (fuel : Nat)
    (t : RBTreeSet α) (node substitute : Nat) (db cnd : Bool)
    (hinv : regionInv Q t) (hn : Q node) (hsub : Q substitute)
    (ihfuel : ∀ (t' : RBTreeSet α) (n' : Nat), regionInv Q t' → Q n' →
      rstep Q t' (remove_node fuel t' n')) :
    rstep Q t
      (if cnd then
        if t.root == some node then
          RBTreeSet.mk (set_right (set_left
              (swap_data t.heap node substitute) node none) node none)
            t.root (t.length - 1)
        else
          match parent! t.heap node with
          | some p =>
            let h := if is_left_child t.heap node then
                set_left t.heap p (some substitute)
              else set_right t.heap p (some substitute)
            let h2 := set_parent h substitute (parent! h node)
            let t1 : RBTreeSet α := { t with heap := h2 }
            let t2 := if db then
                double_black_fixup (t1.heap.length + 1) t1 substitute
              else { t1 with heap := set_colour t1.heap substitute .black }
            { t2 with length := t2.length - 1 }
          | none => { t with length := t.length - 1 }
      else
        remove_node fuel { t with heap := swap_data t.heap substitute node }
          substitute) := by
  by_cases h0 : cnd = true
  · rw [if_pos h0]
    by_cases hrt : (t.root == some node) = true
    · rw [if_pos hrt]
      exact rstep_mk (hstep_set_right (hstep_set_left (hstep_swap_data
        (hstep_of_regionInv hinv) hn hsub) hn noneQ) hn noneQ) hinv.2.2
    · rw [if_neg hrt]
      cases hP : parent! t.heap node with
      | none => exact rstep_relength (rstep_refl hinv) _
      | some p =>
        have hpQ : Q p := parent_inQ hinv.1 hn p hP
        dsimp only
        set hh := (if is_left_child t.heap node then
            set_left t.heap p (some substitute)
          else set_right t.heap p (some substitute)) with hhh
        have hsh : hstep Q t.heap hh := by
          rw [hhh]
          by_cases hc : is_left_child t.heap node = true
          · rw [if_pos hc]
            exact hstep_set_left (hstep_of_regionInv hinv) hpQ (someQ hsub)
          · rw [if_neg hc]
            exact hstep_set_right (hstep_of_regionInv hinv) hpQ (someQ hsub)
        set hh2 := set_parent hh substitute (parent! hh node) with hhh2
        have hsh2 : hstep Q t.heap hh2 :=
          hstep_set_parent hsh hsub (parent_inQ hsh.1 hn)
        have ht1 : rstep Q t { t with heap := hh2 } := rstep_mk hsh2 hinv.2.2
        cases db with
        | true =>
          rw [if_pos rfl]
          exact rstep_relength (rstep_trans ht1 (double_black_fixup_rstep
            _ _ substitute (regionInv_of_rstep ht1) hsub)) _
        | false =>
          rw [if_neg (by simp)]
          exact rstep_relength (rstep_trans ht1 (rstep_mk (hstep_set_colour
            (hstep_of_regionInv (regionInv_of_rstep ht1)) hsub .black)
            (regionInv_of_rstep ht1).2.2)) _
  · rw [if_neg h0]
    have hsw : rstep Q t { t with heap := swap_data t.heap substitute node } :=
      rstep_mk (hstep_swap_data (hstep_of_regionInv hinv) hsub hn) hinv.2.2
    exact rstep_trans hsw (ihfuel _ substitute (regionInv_of_rstep hsw) hsub)

theorem remove_node_rstep {α : Type} {Q : Nat → Prop} :
    ∀ (fuel : Nat) (t : RBTreeSet α) (node : Nat), regionInv Q t → Q node →
      rstep Q t (remove_node fuel t node) := by
  intro fuel
  induction fuel with
  | zero => intro t node hinv _; exact rstep_refl hinv
  | succ fuel ih =>
    intro t node hinv hn
    rw [remove_node]
    dsimp only
    by_cases hc1 : ((left! t.heap node).isSome
        && (right! t.heap node).isSome) = true
    · rw [if_pos hc1]
      cases hNN : successor (t.heap.length + 1) t.heap node with
      | none => exact remove_node_none_arm t node _ hinv hn
      | some sub =>
        exact remove_node_some_arm fuel t node sub _ _ hinv hn
          (successor_inQ _ hinv.1 hn sub hNN) ih
    · rw [if_neg hc1]
      by_cases hc2 : (left! t.heap node).isSome = true
      · rw [if_pos hc2]
        cases hNN : left! t.heap node with
        | none => exact remove_node_none_arm t node _ hinv hn
        | some sub =>
          exact remove_node_some_arm fuel t node sub _ _ hinv hn
            (left_inQ hinv.1 hn sub hNN) ih
      · rw [if_neg hc2]
        cases hNN : right! t.heap node with
        | none => exact remove_node_none_arm t node _ hinv hn
        | some sub =>
          exact remove_node_some_arm fuel t node sub _ _ hinv hn
            (right_inQ hinv.1 hn sub hNN) ih

theorem remove_rstep {α : Type} {Q : Nat → Prop} (o : Ords α)
    (t : RBTreeSet α) (d : α) (hinv : regionInv Q t) :
    rstep Q t (remove o t d).1 := by
  rw [remove]
  cases hg : get_node o t d with
  | none => exact rstep_refl hinv
  | some node =>
    have hg2 : get_node_loop o d (t.heap.length + 1) t.heap t.root
        = some node := hg
    have hnQ : Q node := get_node_loop_inQ o d _ t.heap t.root hinv.1
      hinv.2.2 node hg2
    exact remove_node_rstep _ t node hinv hnQ

theorem foldl_remove_rstep {α : Type} {Q : Nat → Prop} (o : Ords α) :
    ∀ (l : List α) (t : RBTreeSet α), regionInv Q t →
      rstep Q t (l.foldl (fun t d => (remove o t d).1) t) := by
  intro l
  induction l with
  | nil => intro t hinv; exact rstep_refl hinv
  | cons a l ih =>
    intro t hinv
    rw [List.foldl_cons]
    have h1 : rstep Q t (remove o t a).1 := remove_rstep o t a hinv
    exact rstep_trans h1 (ih _ (regionInv_of_rstep h1))

theorem repack_removals_rstep {α : Type} {Q : Nat → Prop} (o : Ords α)
    (t : RBTreeSet α) (acc : List α) (hinv : regionInv Q t) :
    rstep Q t (repack_removals o t acc) :=
  foldl_remove_rstep o _ t hinv

theorem repack_merge_rstep {α : Type} {Q : Nat → Prop} (o : Ords α)
    (cs : Consec α) (t : RBTreeSet α) (acc : List α)
    (hinv : regionInv Q t) :
    rstep Q t (repack_merge o cs t acc).1 := by
  rw [repack_merge.eq_def]
  cases acc with
  | nil => exact rstep_refl hinv
  | cons a0 rest =>
    dsimp only
    have h1 : rstep Q t (repack_removals o t (a0 :: rest)) :=
      repack_removals_rstep o t _ hinv
    cases hg : get_node o (repack_removals o t (a0 :: rest))
        ((a0 :: rest).getLastD a0) with
    | none => exact h1
    | some ln =>
      have hg2 : get_node_loop o ((a0 :: rest).getLastD a0)
          ((repack_removals o t (a0 :: rest)).heap.length + 1)
          (repack_removals o t (a0 :: rest)).heap
          (repack_removals o t (a0 :: rest)).root = some ln := hg
      have hln : Q ln := get_node_loop_inQ o _ _ _ _
        (regionInv_of_rstep h1).1 (regionInv_of_rstep h1).2.2 ln hg2
      exact rstep_trans h1 (rstep_mk (hstep_set_data
        (hstep_of_regionInv (regionInv_of_rstep h1)) hln _)
        (regionInv_of_rstep h1).2.2)

theorem repack_loop_rstep {α : Type} {Q : Nat → Prop} (o : Ords α)
    (cs : Consec α) :
    ∀ (fuel : Nat) (t : RBTreeSet α) (ns : Iter) (prev : Nat),
      regionInv Q t → rstep Q t (repack_loop o cs fuel t ns prev).1 := by
  intro fuel
  induction fuel with
  | zero => intro t ns prev hinv; exact rstep_refl hinv
  | succ fuel ih =>
    intro t ns prev hinv
    rw [repack_loop.eq_def]
    dsimp only
    cases hin : iter_next t.heap ns with
    | mk oc ns1 =>
      cases oc with
      | none => exact rstep_refl hinv
      | some curr =>
        dsimp only
        cases hrr : repack_run cs (t.heap.length + 1) t.heap ns1 prev curr
            ((data! t.heap prev).toList) with
        | mk ns2 z =>
          cases z with
          | mk pv z2 =>
            cases z2 with
            | mk cursor acc2 =>
              dsimp only
              by_cases hlen : acc2.length > 1
              · rw [if_pos hlen]
                have ht1 : rstep Q t (repack_merge o cs t acc2).1 :=
                  repack_merge_rstep o cs t acc2 hinv
                cases hrm : repack_merge o cs t acc2 with
                | mk t1 pk =>
                  rw [hrm] at ht1
                  dsimp only at ht1
                  dsimp only
                  have htail := ih t1 ns2 cursor (regionInv_of_rstep ht1)
                  cases hrl : repack_loop o cs fuel t1 ns2 cursor with
                  | mk t2 p2 =>
                    rw [hrl] at htail
                    exact rstep_trans ht1 htail
              · rw [if_neg hlen]
                dsimp only
                have htail := ih t ns2 cursor hinv
                cases hrl : repack_loop o cs fuel t ns2 cursor with
                | mk t2 p2 =>
                  rw [hrl] at htail
                  exact htail

theorem repack_rstep {α : Type} {Q : Nat → Prop} (o : Ords α)
    (cs : Consec α) (t : RBTreeSet α) (hinv : regionInv Q t) :
    rstep Q t (repack o cs t).1 := by
  rw [repack]
  by_cases he : is_empty t = true
  · rw [if_pos he]
    exact rstep_refl hinv
  · rw [if_neg he]
    cases hin : iter_next t.heap (iter t) with
    | mk oc ns =>
      cases oc with
      | none => exact rstep_refl hinv
      | some prev =>
        dsimp only
        exact repack_loop_rstep o cs _ t ns prev hinv

theorem applyOp_rstep {α : Type} {Q : Nat → Prop} (o : Ords α)
    (cs : Consec α) (t : RBTreeSet α) (op : Op α)
    (hinv : regionInv Q t) :
    rstep Q t (applyOp o cs t op) := by
  cases op with
  | insert v => exact insert_rstep o t v hinv
  | remove v => exact remove_rstep o t v hinv
  | repack => exact repack_rstep o cs t hinv
  | clear => exact clear_rstep t hinv

/-! ### C8: the clone region is link-closed, and so is the source region -/

theorem reify?_root_mem {α : Type} (fuel : Nat) (h : Heap α) (i : Nat)
    (tr : ITree α) (hr : reify? fuel h (some i) = some tr) :
    i ∈ indicesI tr := by
  obtain ⟨nd, trl, trr, _, htr, _, _⟩ := reify?_some_node fuel h i tr hr
  subst htr
  rw [indicesI]
  exact List.mem_cons_self _ _

theorem reify?_links_mem {α : Type} :
    ∀ (fuel : Nat) (h : Heap α) (oi : Option Nat) (tr : ITree α) (j : Nat),
      reify? fuel h oi = some tr → j ∈ indicesI tr →
      ∃ nd, hGet h j = some nd
        ∧ (∀ k, nd.left = some k → k ∈ indicesI tr)
        ∧ (∀ k, nd.right = some k → k ∈ indicesI tr) := by
  intro fuel
  induction fuel with
  | zero =>
    intro h oi tr j hr hj
    cases oi with
    | none => cases hr; cases hj
    | some i => cases hr
  | succ fuel ih =>
    intro h oi tr j hr hj
    cases oi with
    | none => cases hr; cases hj
    | some i =>
      obtain ⟨nd, trl, trr, hg, htr, hL, hR⟩ :=
        reify?_some_node (fuel + 1) h i tr hr
      subst htr
      rw [indicesI] at hj
      cases hj with
      | head =>
        refine ⟨nd, hg, ?_, ?_⟩
        · intro k hk
          have hk2 : reify? fuel h (some k) = some trl := by
            rw [← hk]; exact hL
          have hkm : k ∈ indicesI trl := reify?_root_mem fuel h k trl hk2
          rw [indicesI]
          exact List.mem_cons_of_mem _ (List.mem_append.mpr (Or.inl hkm))
        · intro k hk
          have hk2 : reify? fuel h (some k) = some trr := by
            rw [← hk]; exact hR
          have hkm : k ∈ indicesI trr := reify?_root_mem fuel h k trr hk2
          rw [indicesI]
          exact List.mem_cons_of_mem _ (List.mem_append.mpr (Or.inr hkm))
      | tail _ hj2 =>
        rcases List.mem_append.mp hj2 with hjl | hjr
        · obtain ⟨nd2, hg2, hL2, hR2⟩ := ih h nd.left trl j hL hjl
          refine ⟨nd2, hg2, fun k hk => ?_, fun k hk => ?_⟩
          · rw [indicesI]
            exact List.mem_cons_of_mem _
              (List.mem_append.mpr (Or.inl (hL2 k hk)))
          · rw [indicesI]
            exact List.mem_cons_of_mem _
              (List.mem_append.mpr (Or.inl (hR2 k hk)))
        · obtain ⟨nd2, hg2, hL2, hR2⟩ := ih h nd.right trr j hR hjr
          refine ⟨nd2, hg2, fun k hk => ?_, fun k hk => ?_⟩
          · rw [indicesI]
            exact List.mem_cons_of_mem _
              (List.mem_append.mpr (Or.inr (hL2 k hk)))
          · rw [indicesI]
            exact List.mem_cons_of_mem _
              (List.mem_append.mpr (Or.inr (hR2 k hk)))

theorem parOkI_members {α : Type} :
    ∀ (tr : ITree α) (h : Heap α) (e : Option Nat),
      parOkI h e tr = true →
      ∀ j, j ∈ indicesI tr →
        parent! h j = e ∨ ∃ k, k ∈ indicesI tr ∧ parent! h j = some k := by
  intro tr
  induction tr with
  | leaf => intro h e _ j hj; cases hj
  | node c l i d r ihl ihr =>
    intro h e hp j hj
    rw [parOkI] at hp
    rw [Bool.and_eq_true_iff] at hp
    rw [Bool.and_eq_true_iff] at hp
    obtain ⟨⟨hp1, hp2⟩, hp3⟩ := hp
    rw [indicesI] at hj
    cases hj with
    | head => exact Or.inl (eq_of_beq hp1)
    | tail _ hj2 =>
      rcases List.mem_append.mp hj2 with hjl | hjr
      · rcases ihl h (some i) hp2 j hjl with hcase | ⟨k, hk1, hk2⟩
        · refine Or.inr ⟨i, ?_, hcase⟩
          rw [indicesI]
          exact List.mem_cons_self _ _
        · refine Or.inr ⟨k, ?_, hk2⟩
          rw [indicesI]
          exact List.mem_cons_of_mem _ (List.mem_append.mpr (Or.inl hk1))
      · rcases ihr h (some i) hp3 j hjr with hcase | ⟨k, hk1, hk2⟩
        · refine Or.inr ⟨i, ?_, hcase⟩
          rw [indicesI]
          exact List.mem_cons_self _ _
        · refine Or.inr ⟨k, ?_, hk2⟩
          rw [indicesI]
          exact List.mem_cons_of_mem _ (List.mem_append.mpr (Or.inr hk1))

theorem regionP_of_clone {α : Type} (h : Heap α) (N : Nat) (fuel : Nat)
    (r : Option Nat) (tr : ITree α)
    (hre : reify? fuel h r = some tr)
    (hsub : parOkSub h tr = true)
    (hrp : ∀ c, r = some c → parent! h c = none)
    (hidx : ∀ j, j ∈ indicesI tr → N ≤ j)
    (hcov : ∀ j, N ≤ j → j < h.length → j ∈ indicesI tr) :
    regionP (fun j => N ≤ j) h := by
  intro j nd hj hg
  have hjlen : j < h.length := hGet_isSome_lt h j (by rw [hg]; rfl)
  have hjmem : j ∈ indicesI tr := hcov j hj hjlen
  obtain ⟨nd2, hg2, hL, hR⟩ := reify?_links_mem fuel h r tr j hre hjmem
  rw [hg] at hg2
  have hnd2 : nd = nd2 := Option.some.inj hg2
  subst hnd2
  refine ⟨?_, fun k hk => hidx k (hL k hk), fun k hk => hidx k (hR k hk)⟩
  intro k hk
  have hpj : parent! h j = some k := by rw [parent!, hg]; exact hk
  cases htr : tr with
  | leaf =>
    rw [htr] at hjmem
    cases hjmem
  | node c l i d rr =>
    have hri : r = some i := reify?_node_root fuel h r c l i d rr (htr ▸ hre)
    rw [htr] at hjmem hsub
    rw [parOkSub] at hsub
    rw [Bool.and_eq_true_iff] at hsub
    obtain ⟨hsl, hsr⟩ := hsub
    rw [indicesI] at hjmem
    cases hjmem with
    | head =>
      rw [hrp _ hri] at hpj
      cases hpj
    | tail _ hj2 =>
      have hiN : N ≤ i := by
        refine hidx i ?_
        rw [htr, indicesI]
        exact List.mem_cons_self _ _
      rcases List.mem_append.mp hj2 with hjl | hjr
      · rcases parOkI_members l h (some i) hsl j hjl with hcase | ⟨k2, hk1, hk2⟩
        · rw [hcase] at hpj
          have : i = k := Option.some.inj hpj
          exact this ▸ hiN
        · rw [hk2] at hpj
          have : k2 = k := Option.some.inj hpj
          refine this ▸ hidx k2 ?_
          rw [htr, indicesI]
          exact List.mem_cons_of_mem _ (List.mem_append.mpr (Or.inl hk1))
      · rcases parOkI_members rr h (some i) hsr j hjr with hcase | ⟨k2, hk1, hk2⟩
        · rw [hcase] at hpj
          have : i = k := Option.some.inj hpj
          exact this ▸ hiN
        · rw [hk2] at hpj
          have : k2 = k := Option.some.inj hpj
          refine this ▸ hidx k2 ?_
          rw [htr, indicesI]
          exact List.mem_cons_of_mem _ (List.mem_append.mpr (Or.inr hk1))

theorem links_bounded_get {α : Type} (h : Heap α) (j : Nat)
    (nd : NodeData α) (hlb : links_bounded h = true) (hg : hGet h j = some nd) :
    (∀ k, nd.parent = some k → k < h.length)
    ∧ (∀ k, nd.left = some k → k < h.length)
    ∧ (∀ k, nd.right = some k → k < h.length) := by
  rw [links_bounded, List.all_eq_true] at hlb
  have hmem : nd ∈ h := by
    rw [hGet] at hg
    obtain ⟨hlt, heq⟩ := List.getElem?_eq_some.mp hg
    exact heq ▸ List.getElem_mem hlt
  have hnd := hlb nd hmem
  rw [Bool.and_eq_true_iff] at hnd
  rw [Bool.and_eq_true_iff] at hnd
  obtain ⟨⟨hp, hl⟩, hr⟩ := hnd
  refine ⟨?_, ?_, ?_⟩
  · intro k hk
    rw [hk] at hp
    exact of_decide_eq_true hp
  · intro k hk
    rw [hk] at hl
    exact of_decide_eq_true hl
  · intro k hk
    rw [hk] at hr
    exact of_decide_eq_true hr

theorem regionP_src {α : Type} (hO hG : Heap α) (N M : Nat)
    (hN : hO.length = N) (hM : hG.length = M)
    (hlb : links_bounded hO = true)
    (hpres : ∀ j, j < N → hGet hG j = hGet hO j) :
    regionP (fun j => j < N ∨ M ≤ j) hG := by
  intro j nd hj hg
  rcases hj with hjN | hjM
  · have hgO : hGet hO j = some nd := by rw [← hpres j hjN]; exact hg
    obtain ⟨hp, hl, hr⟩ := links_bounded_get hO j nd hlb hgO
    rw [hN] at hp hl hr
    exact ⟨fun k hk => Or.inl (hp k hk), fun k hk => Or.inl (hl k hk),
      fun k hk => Or.inl (hr k hk)⟩
  · exfalso
    have : j < hG.length := hGet_isSome_lt hG j (by rw [hg]; rfl)
    omega

/-- **C8.** `clone()` yields a set with identical in-order
(colour, payload) traversal and the same `length`, stored entirely in
fresh records (the source's and the clone's index sets are disjoint), and
the two views are independent: any public mutation (`insert` / `remove` /
`repack` / `clear`) applied through the clone leaves every source record —
and hence the source's complete reified tree — unchanged, and any mutation
applied through the source leaves every clone record and the clone's
reified tree unchanged. -/
theorem claim_C8_clone_independent {α : Type} (o : Ords α) (cs : Consec α)
    (t : RBTreeSet α) (tr : ITree α)
    (hre : reify? (t.heap.length + 1) t.heap t.root = some tr)
    (hlb : links_bounded t.heap = true) :
    (clone t).1.root = t.root
    ∧ (clone t).1.length = t.length
    ∧ (clone t).2.length = t.length
    ∧ (∀ j, j < t.heap.length → hGet (clone t).1.heap j = hGet t.heap j)
    ∧ reify? (t.heap.length + 1) (clone t).1.heap t.root = some tr
    ∧ ∃ tr', reify? (t.heap.length + 1) (clone t).2.heap (clone t).2.root
          = some tr'
        ∧ inorderCI tr' = inorderCI tr
        ∧ (∀ j, j ∈ indicesI tr → j ∈ indicesI tr' → False)
        ∧ (∀ op : Op α,
            (∀ j, j < t.heap.length →
              hGet (applyOp o cs (clone t).2 op).heap j = hGet t.heap j)
            ∧ reify? (t.heap.length + 1) (applyOp o cs (clone t).2 op).heap
                t.root = some tr
            ∧ (∀ j, t.heap.length ≤ j → j < (clone t).2.heap.length →
              hGet (applyOp o cs (clone t).1 op).heap j
                = hGet (clone t).2.heap j)
            ∧ reify? (t.heap.length + 1) (applyOp o cs (clone t).1 op).heap
                (clone t).2.root = some tr') := by
  obtain ⟨hroot, hlen, hle, hpres, hhandle, hbundle⟩ :=
    clone_subtree_spec (t.heap.length + 1) t t.root
  obtain ⟨tr', hre', hino, hidx, hnodup, hpar, hcov⟩ := hbundle tr hre
  have htrlt : ∀ j, j ∈ indicesI tr → j < t.heap.length := fun j hj =>
    hGet_isSome_lt _ _ (reify?_mem_isSome _ _ _ _ j hre hj)
  cases hcl : clone_subtree (t.heap.length + 1) t t.root with
  | mk t1 r =>
    have hclone : clone t
        = ({ t1 with root := t.root, length := t.length },
           { heap := t1.heap, root := r, length := t.length }) := by
      rw [clone, hcl]
    rw [hcl] at hroot hlen hle hpres hhandle hre' hidx hpar hcov
    dsimp only at hroot hlen hle hpres hhandle hre' hidx hpar hcov
    rw [hclone]
    dsimp only
    have hsrcre : reify? (t.heap.length + 1) t1.heap t.root = some tr :=
      reify?_frame _ t.heap t1.heap t.root tr hre
        (fun j hj => by rw [hpres j (htrlt j hj)])
    refine ⟨rfl, rfl, rfl, hpres, hsrcre, tr', hre', hino, ?_, ?_⟩
    · intro j hjt hjt'
      have h1 := htrlt j hjt
      have h2 := (hidx j hjt').1
      omega
    · intro op
      have hinvC : regionInv (fun j => t.heap.length ≤ j)
          (RBTreeSet.mk t1.heap r t.length) := by
        refine ⟨regionP_of_clone t1.heap t.heap.length (t.heap.length + 1)
          r tr' hre' hpar (fun c hc => (hhandle c hc).2.2)
          (fun j hj => (hidx j hj).1) hcov, ?_, ?_⟩
        · intro j hj
          dsimp only at hj
          omega
        · intro rr hrr
          exact (hhandle rr hrr).1
      have hsC := applyOp_rstep o cs (RBTreeSet.mk t1.heap r t.length)
        op hinvC
      have hinvS : regionInv
          (fun j => j < t.heap.length ∨ t1.heap.length ≤ j)
          (RBTreeSet.mk t1.heap t.root t.length) := by
        refine ⟨regionP_src t.heap t1.heap t.heap.length t1.heap.length
          rfl rfl hlb hpres, ?_, ?_⟩
        · intro j hj
          dsimp only at hj
          exact Or.inr hj
        · intro rr hrr
          dsimp only at hrr
          have hre2 := hre
          rw [hrr] at hre2
          obtain ⟨nd, _, _, hgr, _, _⟩ :=
            reify?_some_node _ t.heap rr tr hre2
          exact Or.inl (hGet_isSome_lt _ _ (by rw [hgr]; rfl))
      have hsS := applyOp_rstep o cs (RBTreeSet.mk t1.heap t.root t.length)
        op hinvS
      refine ⟨?_, ?_, ?_, ?_⟩
      · intro j hj
        have h1 := hsC.2.1 j (by omega)
        dsimp only at h1
        rw [h1]
        exact hpres j hj
      · refine reify?_frame _ t1.heap _ t.root tr hsrcre ?_
        intro j hj
        have hjlt := htrlt j hj
        have h1 := hsC.2.1 j (by omega)
        dsimp only at h1
        rw [h1]
      · intro j h1 h2
        have h3 := hsS.2.1 j (by intro hq; rcases hq with hq | hq <;> omega)
        dsimp only at h3
        exact h3
      · refine reify?_frame _ t1.heap _ r tr' hre' ?_
        intro j hj
        have h1 := (hidx j hj).1
        have h2 := (hidx j hj).2
        have h3 := hsS.2.1 j (by intro hq; rcases hq with hq | hq <;> omega)
        dsimp only at h3
        rw [h3]

/-- Witness for C8: the three-element set `{1, 2, 3}` reifies, its links
are in range, and its clone keeps the source's root and the source's
length. -/
theorem claim_C8_witness :
    (reify? ((ofList oInt [2, 1, 3]).heap.length + 1)
        (ofList oInt [2, 1, 3]).heap (ofList oInt [2, 1, 3]).root
      = some (ITree.node .black (ITree.node .red .leaf 1 (1 : Int) .leaf)
          0 2 (ITree.node .red .leaf 2 3 .leaf))
      ∧ links_bounded (ofList oInt [2, 1, 3]).heap = true)
    ∧ (clone (ofList oInt [2, 1, 3])).1.root = (ofList oInt [2, 1, 3]).root
    ∧ (clone (ofList oInt [2, 1, 3])).2.length
      = (ofList oInt [2, 1, 3]).length :=
  ⟨⟨by decide, by decide⟩,
   (claim_C8_clone_independent oInt csInt (ofList oInt [2, 1, 3])
      (ITree.node .black (ITree.node .red .leaf 1 (1 : Int) .leaf)
        0 2 (ITree.node .red .leaf 2 3 .leaf)) (by decide) (by decide)).1,
   (claim_C8_clone_independent oInt csInt (ofList oInt [2, 1, 3])
      (ITree.node .black (ITree.node .red .leaf 1 (1 : Int) .leaf)
        0 2 (ITree.node .red .leaf 2 3 .leaf)) (by decide)
      (by decide)).2.2.1⟩

/-! ### Subtree surgery: `subtreeAt` / `graftI` and their list splits -/

theorem subtreeAt_root {α : Type} :
    ∀ (tr : ITree α) (n : Nat) (S : ITree α),
      subtreeAt tr n = some S →
      ∃ c l d r, S = ITree.node c l n d r := by
  intro tr
  induction tr with
  | leaf => intro n S hS; cases hS
  | node c l i d r ihl ihr =>
    intro n S hS
    rw [subtreeAt] at hS
    by_cases hin : i = n
    · rw [if_pos hin] at hS
      injection hS with hS2
      subst hin
      exact ⟨c, l, d, r, hS2.symm⟩
    · rw [if_neg hin] at hS
      cases hl : subtreeAt l n with
      | some sl =>
        rw [hl] at hS
        injection hS with hS2
        subst hS2
        exact ihl n _ hl
      | none =>
        rw [hl] at hS
        exact ihr n S hS

theorem subtreeAt_isSome_of_mem {α : Type} :
    ∀ (tr : ITree α) (n : Nat), n ∈ indicesI tr →
      (subtreeAt tr n).isSome = true := by
  intro tr
  induction tr with
  | leaf => intro n hn; cases hn
  | node c l i d r ihl ihr =>
    intro n hn
    rw [subtreeAt]
    by_cases hin : i = n
    · rw [if_pos hin]; rfl
    · rw [if_neg hin]
      rw [indicesI] at hn
      cases hn with
      | head => exact absurd rfl hin
      | tail _ hn2 =>
        rcases List.mem_append.mp hn2 with hnl | hnr
        · have := ihl n hnl
          cases hl : subtreeAt l n with
          | some sl => rfl
          | none => rw [hl] at this; cases this
        · cases hl : subtreeAt l n with
          | some sl => rfl
          | none => exact ihr n hnr

theorem graftI_not_mem {α : Type} :
    ∀ (tr : ITree α) (n : Nat) (S' : ITree α), n ∉ indicesI tr →
      graftI tr n S' = tr := by
  intro tr
  induction tr with
  | leaf => intro n S' _; rfl
  | node c l i d r ihl ihr =>
    intro n S' hn
    rw [indicesI] at hn
    rw [graftI]
    rw [if_neg (fun he => hn (List.mem_cons.mpr (Or.inl he.symm)))]
    rw [ihl n S' (fun hm =>
      hn (List.mem_cons_of_mem _ (List.mem_append.mpr (Or.inl hm))))]
    rw [ihr n S' (fun hm =>
      hn (List.mem_cons_of_mem _ (List.mem_append.mpr (Or.inr hm))))]

theorem subtreeAt_split {α : Type} :
    ∀ (tr : ITree α) (n : Nat) (S : ITree α),
      subtreeAt tr n = some S → (indicesI tr).Nodup →
      (∃ X Y, indicesI tr = X ++ indicesI S ++ Y
        ∧ ∀ S' : ITree α, indicesI (graftI tr n S') = X ++ indicesI S' ++ Y)
      ∧ (∃ A B, inorderNI tr = A ++ inorderNI S ++ B
        ∧ ∀ S' : ITree α,
            inorderNI (graftI tr n S') = A ++ inorderNI S' ++ B) := by
  intro tr
  induction tr with
  | leaf => intro n S hS _; cases hS
  | node c l i d r ihl ihr =>
    intro n S hS hnd
    rw [subtreeAt] at hS
    rw [indicesI] at hnd
    have hnd' := List.nodup_cons.mp hnd
    have hndl : (indicesI l).Nodup := hnd'.2.of_append_left
    have hndr : (indicesI r).Nodup := hnd'.2.of_append_right
    have hdisj : ∀ a, a ∈ indicesI l → a ∉ indicesI r :=
      fun a hal har => (List.disjoint_of_nodup_append hnd'.2) hal har
    by_cases hin : i = n
    · rw [if_pos hin] at hS
      injection hS with hS2
      refine ⟨⟨[], [], ?_, ?_⟩, ⟨[], [], ?_, ?_⟩⟩
      · rw [hS2]; simp
      · intro S'
        rw [graftI, if_pos hin]; simp
      · rw [hS2]; simp
      · intro S'
        rw [graftI, if_pos hin]; simp
    · rw [if_neg hin] at hS
      cases hl : subtreeAt l n with
      | some sl =>
        rw [hl] at hS
        injection hS with hS2
        rw [hS2] at hl
        obtain ⟨⟨X1, Y1, hX1, hgX1⟩, ⟨A1, B1, hA1, hgA1⟩⟩ := ihl n S hl hndl
        obtain ⟨c2, l2, d2, r2, hSshape⟩ := subtreeAt_root l n S hl
        have hnS : n ∈ indicesI S := by
          rw [hSshape, indicesI]
          exact List.mem_cons_self _ _
        have hnl : n ∈ indicesI l := by
          rw [hX1]
          exact List.mem_append.mpr
            (Or.inl (List.mem_append.mpr (Or.inr hnS)))
        have hnr : n ∉ indicesI r := hdisj n hnl
        refine ⟨⟨i :: X1, Y1 ++ indicesI r, ?_, ?_⟩,
          ⟨A1, B1 ++ (i, d) :: inorderNI r, ?_, ?_⟩⟩
        · rw [indicesI, hX1]; simp
        · intro S'
          rw [graftI, if_neg hin, graftI_not_mem r n S' hnr, indicesI,
            hgX1 S']
          simp
        · rw [inorderNI, hA1]; simp
        · intro S'
          rw [graftI, if_neg hin, graftI_not_mem r n S' hnr, inorderNI,
            hgA1 S']
          simp
      | none =>
        rw [hl] at hS
        obtain ⟨⟨X1, Y1, hX1, hgX1⟩, ⟨A1, B1, hA1, hgA1⟩⟩ := ihr n S hS hndr
        have hnl : n ∉ indicesI l := by
          intro hm
          have h2 := subtreeAt_isSome_of_mem l n hm
          rw [hl] at h2
          cases h2
        refine ⟨⟨(i :: indicesI l) ++ X1, Y1, ?_, ?_⟩,
          ⟨(inorderNI l ++ [(i, d)]) ++ A1, B1, ?_, ?_⟩⟩
        · rw [indicesI, hX1]; simp
        · intro S'
          rw [graftI, if_neg hin, graftI_not_mem l n S' hnl, indicesI,
            hgX1 S']
          simp
        · rw [inorderNI, hA1]; simp
        · intro S'
          rw [graftI, if_neg hin, graftI_not_mem l n S' hnl, inorderNI,
            hgA1 S']
          simp

theorem link_target_tail {α : Type} (fuel : Nat) (h : Heap α) (i0 : Nat)
    (tr : ITree α) (hre : reify? fuel h (some i0) = some tr)
    (j : Nat) (nd : NodeData α) (k : Nat) (hj : j ∈ indicesI tr)
    (hg : hGet h j = some nd)
    (hk : nd.left = some k ∨ nd.right = some k) :
    ∃ c l d r, tr = ITree.node c l i0 d r
      ∧ k ∈ indicesI l ++ indicesI r := by
  obtain ⟨nd0, trl, trr, hg0, htr, hL, hR⟩ :=
    reify?_some_node fuel h i0 tr hre
  subst htr
  refine ⟨nd0.colour, trl, nd0.data, trr, rfl, ?_⟩
  rw [indicesI] at hj
  cases hj with
  | head =>
    rw [hg0] at hg
    have hnd : nd0 = nd := Option.some.inj hg
    subst hnd
    rcases hk with hk | hk
    · have hre2 : reify? (fuel - 1) h (some k) = some trl := by
        rw [← hk]; exact hL
      exact List.mem_append.mpr
        (Or.inl (reify?_root_mem _ h k trl hre2))
    · have hre2 : reify? (fuel - 1) h (some k) = some trr := by
        rw [← hk]; exact hR
      exact List.mem_append.mpr
        (Or.inr (reify?_root_mem _ h k trr hre2))
  | tail _ hj2 =>
    rcases List.mem_append.mp hj2 with hjl | hjr
    · obtain ⟨nd2, hg2, hL2, hR2⟩ :=
        reify?_links_mem (fuel - 1) h nd0.left trl j hL hjl
      rw [hg] at hg2
      have hnd : nd = nd2 := Option.some.inj hg2
      subst hnd
      rcases hk with hk | hk
      · exact List.mem_append.mpr (Or.inl (hL2 k hk))
      · exact List.mem_append.mpr (Or.inl (hR2 k hk))
    · obtain ⟨nd2, hg2, hL2, hR2⟩ :=
        reify?_links_mem (fuel - 1) h nd0.right trr j hR hjr
      rw [hg] at hg2
      have hnd : nd = nd2 := Option.some.inj hg2
      subst hnd
      rcases hk with hk | hk
      · exact List.mem_append.mpr (Or.inr (hL2 k hk))
      · exact List.mem_append.mpr (Or.inr (hR2 k hk))

theorem link_unique {α : Type} :
    ∀ (fuel : Nat) (h : Heap α) (oi : Option Nat) (tr : ITree α),
      reify? fuel h oi = some tr → (indicesI tr).Nodup →
      ∀ j1 j2 nd1 nd2 k,
        j1 ∈ indicesI tr → j2 ∈ indicesI tr →
        hGet h j1 = some nd1 → hGet h j2 = some nd2 →
        (nd1.left = some k ∨ nd1.right = some k) →
        (nd2.left = some k ∨ nd2.right = some k) →
        j1 = j2 := by
  intro fuel
  induction fuel with
  | zero =>
    intro h oi tr hre hnd j1 j2 nd1 nd2 k hj1 hj2 hg1 hg2 hk1 hk2
    cases oi with
    | none => cases hre; cases hj1
    | some i => cases hre
  | succ fuel ih =>
    intro h oi tr hre hnd j1 j2 nd1 nd2 k hj1 hj2 hg1 hg2 hk1 hk2
    cases oi with
    | none => cases hre; cases hj1
    | some i0 =>
      obtain ⟨nd0, trl, trr, hg0, htr, hL, hR⟩ :=
        reify?_some_node (fuel + 1) h i0 tr hre
      subst htr
      rw [indicesI] at hnd hj1 hj2
      have hnd' := List.nodup_cons.mp hnd
      have hndl : (indicesI trl).Nodup := hnd'.2.of_append_left
      have hndr : (indicesI trr).Nodup := hnd'.2.of_append_right
      have hdisj : ∀ a, a ∈ indicesI trl → a ∉ indicesI trr :=
        fun a hal har => (List.disjoint_of_nodup_append hnd'.2) hal har
      have hside : ∀ j nd, j ∈ indicesI trl → hGet h j = some nd →
          (nd.left = some k ∨ nd.right = some k) → k ∈ indicesI trl := by
        intro j nd hj hg hk
        obtain ⟨nd2', hg2', hL2, hR2⟩ :=
          reify?_links_mem fuel h nd0.left trl j hL hj
        rw [hg] at hg2'
        have he : nd = nd2' := Option.some.inj hg2'
        subst he
        rcases hk with hk | hk
        · exact hL2 k hk
        · exact hR2 k hk
      have hside' : ∀ j nd, j ∈ indicesI trr → hGet h j = some nd →
          (nd.left = some k ∨ nd.right = some k) → k ∈ indicesI trr := by
        intro j nd hj hg hk
        obtain ⟨nd2', hg2', hL2, hR2⟩ :=
          reify?_links_mem fuel h nd0.right trr j hR hj
        rw [hg] at hg2'
        have he : nd = nd2' := Option.some.inj hg2'
        subst he
        rcases hk with hk | hk
        · exact hL2 k hk
        · exact hR2 k hk
      have hmix : ∀ jB ndB, jB ∈ indicesI trl ++ indicesI trr →
          hGet h jB = some ndB →
          (ndB.left = some k ∨ ndB.right = some k) →
          ∀ ndA, hGet h i0 = some ndA →
          (ndA.left = some k ∨ ndA.right = some k) → False := by
        intro jB ndB hjB hgB hkB ndA hgA hkA
        rw [hg0] at hgA
        have heA : nd0 = ndA := Option.some.inj hgA
        rcases List.mem_append.mp hjB with hjl | hjr
        · have hkl : k ∈ indicesI trl := hside jB ndB hjl hgB hkB
          rcases hkA with hk | hk
          · have hre2 : reify? fuel h (some k) = some trl := by
              rw [heA] at hL
              rw [← hk]
              exact hL
            obtain ⟨c, l, d, r, htrl, hktail⟩ :=
              link_target_tail fuel h k trl hre2 jB ndB k hjl hgB hkB
            rw [htrl, indicesI] at hndl
            exact (List.nodup_cons.mp hndl).1 hktail
          · have hre2 : reify? fuel h (some k) = some trr := by
              rw [heA] at hR
              rw [← hk]
              exact hR
            exact hdisj k hkl (reify?_root_mem fuel h k trr hre2)
        · have hkr : k ∈ indicesI trr := hside' jB ndB hjr hgB hkB
          rcases hkA with hk | hk
          · have hre2 : reify? fuel h (some k) = some trl := by
              rw [heA] at hL
              rw [← hk]
              exact hL
            exact hdisj k (reify?_root_mem fuel h k trl hre2) hkr
          · have hre2 : reify? fuel h (some k) = some trr := by
              rw [heA] at hR
              rw [← hk]
              exact hR
            obtain ⟨c, l, d, r, htrr, hktail⟩ :=
              link_target_tail fuel h k trr hre2 jB ndB k hjr hgB hkB
            rw [htrr, indicesI] at hndr
            exact (List.nodup_cons.mp hndr).1 hktail
      cases hj1 with
      | head =>
        cases hj2 with
        | head => rfl
        | tail _ hj2b =>
          exact absurd (hmix j2 nd2 hj2b hg2 hk2 nd1 hg1 hk1) not_false
      | tail _ hj1b =>
        cases hj2 with
        | head =>
          exact absurd (hmix j1 nd1 hj1b hg1 hk1 nd2 hg2 hk2) not_false
        | tail _ hj2b =>
          rcases List.mem_append.mp hj1b with h1l | h1r
          · rcases List.mem_append.mp hj2b with h2l | h2r
            · exact ih h nd0.left trl hL hndl j1 j2 nd1 nd2 k h1l h2l
                hg1 hg2 hk1 hk2
            · exact absurd (hdisj k (hside j1 nd1 h1l hg1 hk1)
                (hside' j2 nd2 h2r hg2 hk2)) not_false
          · rcases List.mem_append.mp hj2b with h2l | h2r
            · exact absurd (hdisj k (hside j2 nd2 h2l hg2 hk2)
                (hside' j1 nd1 h1r hg1 hk1)) not_false
            · exact ih h nd0.right trr hR hndr j1 j2 nd1 nd2 k h1r h2r
                hg1 hg2 hk1 hk2

theorem subtreeAt_indices_sub {α : Type} :
    ∀ (tr : ITree α) (n : Nat) (S : ITree α), subtreeAt tr n = some S →
      ∀ j, j ∈ indicesI S → j ∈ indicesI tr := by
  intro tr
  induction tr with
  | leaf => intro n S hS; cases hS
  | node c l i d r ihl ihr =>
    intro n S hS j hj
    rw [subtreeAt] at hS
    by_cases hin : i = n
    · rw [if_pos hin] at hS
      injection hS with hS2
      rw [hS2]
      exact hj
    · rw [if_neg hin] at hS
      cases hl : subtreeAt l n with
      | some sl =>
        rw [hl] at hS
        injection hS with hS2
        rw [hS2] at hl
        rw [indicesI]
        exact List.mem_cons_of_mem _
          (List.mem_append.mpr (Or.inl (ihl n S hl j hj)))
      | none =>
        rw [hl] at hS
        rw [indicesI]
        exact List.mem_cons_of_mem _
          (List.mem_append.mpr (Or.inr (ihr n S hS j hj)))

theorem reify?_graft {α : Type} :
    ∀ (fuel : Nat) (h h' : Heap α) (rt : Option Nat) (tr : ITree α)
      (n : Nat) (S S' : ITree α) (r : Option Nat) (fuelS : Nat),
      reify? fuel h rt = some tr → (indicesI tr).Nodup →
      subtreeAt tr n = some S →
      reify? fuelS h' r = some S' →
      (∀ j nd, j ∈ indicesI tr → j ∉ indicesI S → hGet h j = some nd →
        ∃ nd', hGet h' j = some nd'
          ∧ nd'.colour = nd.colour ∧ nd'.data = nd.data
          ∧ nd'.left = substL n r nd.left
          ∧ nd'.right = substL n r nd.right) →
      reify? (fuel + fuelS) h' (substL n r rt) = some (graftI tr n S') := by
  intro fuel
  induction fuel with
  | zero =>
    intro h h' rt tr n S S' r fuelS hre hnd hS hS' hfr
    cases rt with
    | none =>
      cases hre
      cases hS
    | some i => cases hre
  | succ fuel ih =>
    intro h h' rt tr n S S' r fuelS hre hnd hS hS' hfr
    cases rt with
    | none =>
      cases hre
      cases hS
    | some i0 =>
      obtain ⟨nd0, trl, trr, hg0, htr, hL, hR⟩ :=
        reify?_some_node (fuel + 1) h i0 tr hre
      subst htr
      rw [subtreeAt] at hS
      by_cases hin : i0 = n
      · rw [if_pos hin] at hS
        injection hS with hS2
        have hsub : substL n r (some i0) = r := by
          rw [substL, if_pos (by rw [hin])]
        have hgr : graftI (ITree.node nd0.colour trl i0 nd0.data trr) n S'
            = S' := by
          rw [graftI, if_pos hin]
        rw [hsub, hgr]
        exact reify?_mono fuelS (fuel + 1 + fuelS) h' r S'
          (by omega) hS'
      · rw [if_neg hin] at hS
        rw [indicesI] at hnd
        have hnd' := List.nodup_cons.mp hnd
        have hndl : (indicesI trl).Nodup := hnd'.2.of_append_left
        have hndr : (indicesI trr).Nodup := hnd'.2.of_append_right
        have hdisj : ∀ a, a ∈ indicesI trl → a ∉ indicesI trr :=
          fun a hal har => (List.disjoint_of_nodup_append hnd'.2) hal har
        have hsub0 : substL n r (some i0) = some i0 := by
          rw [substL, if_neg (fun hxe => hin (Option.some.inj hxe))]
        have hplus : fuel + 1 + fuelS = (fuel + fuelS) + 1 := by omega
        rw [hsub0, hplus]
        have hgr : graftI (ITree.node nd0.colour trl i0 nd0.data trr) n S'
            = ITree.node nd0.colour (graftI trl n S') i0 nd0.data
                (graftI trr n S') := by
          rw [graftI, if_neg hin]
        rw [hgr]
        cases hl : subtreeAt trl n with
        | some sl =>
          rw [hl] at hS
          injection hS with hS2
          rw [hS2] at hl
          have hSsubl : ∀ j, j ∈ indicesI S → j ∈ indicesI trl :=
            subtreeAt_indices_sub trl n S hl
          obtain ⟨cS, lS, dS, rS, hSshape⟩ := subtreeAt_root trl n S hl
          have hnS : n ∈ indicesI S := by
            rw [hSshape, indicesI]
            exact List.mem_cons_self _ _
          have hnl : n ∈ indicesI trl := hSsubl n hnS
          have hnr : n ∉ indicesI trr := hdisj n hnl
          have hi0S : i0 ∉ indicesI S := fun hm =>
            hnd'.1 (List.mem_append.mpr (Or.inl (hSsubl i0 hm)))
          obtain ⟨nd0', hg0', hcol, hdat, hlft, hrgt⟩ :=
            hfr i0 nd0 (List.mem_cons_self _ _) hi0S hg0
          have hIHl := ih h h' nd0.left trl n S S' r fuelS hL hndl hl hS'
            (fun j nd hj hjS hg => hfr j nd
              (List.mem_cons_of_mem _ (List.mem_append.mpr (Or.inl hj)))
              hjS hg)
          have hrne : nd0.right ≠ some n := by
            intro hk
            have hre2 : reify? fuel h (some n) = some trr := by
              rw [← hk]
              exact hR
            exact hnr (reify?_root_mem fuel h n trr hre2)
          have hrgt2 : nd0'.right = nd0.right := by
            rw [hrgt, substL, if_neg hrne]
          have hgrr : graftI trr n S' = trr := graftI_not_mem trr n S' hnr
          have hframe_r : reify? fuel h' nd0.right = some trr := by
            refine reify?_frame fuel h h' nd0.right trr hR ?_
            intro j hj
            have hjt : j ∈ indicesI (ITree.node nd0.colour trl i0 nd0.data
                trr) := by
              rw [indicesI]
              exact List.mem_cons_of_mem _
                (List.mem_append.mpr (Or.inr hj))
            have hjS : j ∉ indicesI S := fun hm =>
              hdisj j (hSsubl j hm) hj
            have hjsome : (hGet h j).isSome = true :=
              reify?_mem_isSome fuel h nd0.right trr j hR hj
            cases hgj : hGet h j with
            | none => rw [hgj] at hjsome; cases hjsome
            | some nd =>
              obtain ⟨nd', hg', hc2, hd2, hl2, hr2⟩ := hfr j nd hjt hjS hgj
              obtain ⟨nd2', hg2', hL2, hR2⟩ :=
                reify?_links_mem fuel h nd0.right trr j hR hj
              rw [hgj] at hg2'
              have he2 : nd = nd2' := Option.some.inj hg2'
              have hlne : nd.left ≠ some n := by
                intro hk
                exact hnr (hL2 n (he2 ▸ hk))
              have hrne2 : nd.right ≠ some n := by
                intro hk
                exact hnr (hR2 n (he2 ▸ hk))
              rw [hg']
              simp only [Option.map_some']
              have hcore : core nd' = core nd := by
                rw [core, core, hc2, hd2, hl2, hr2, substL, substL,
                  if_neg hlne, if_neg hrne2]
              rw [hcore]
          have hframe_r2 : reify? (fuel + fuelS) h' nd0.right = some trr :=
            reify?_mono fuel (fuel + fuelS) h' nd0.right trr
              (by omega) hframe_r
          rw [reify?, hg0']
          dsimp only
          rw [hlft, hIHl]
          rw [hrgt2, hframe_r2]
          dsimp only
          rw [hcol, hdat, hgrr]
        | none =>
          rw [hl] at hS
          have hSsubr : ∀ j, j ∈ indicesI S → j ∈ indicesI trr :=
            subtreeAt_indices_sub trr n S hS
          obtain ⟨cS, lS, dS, rS, hSshape⟩ := subtreeAt_root trr n S hS
          have hnS : n ∈ indicesI S := by
            rw [hSshape, indicesI]
            exact List.mem_cons_self _ _
          have hnr : n ∈ indicesI trr := hSsubr n hnS
          have hnl : n ∉ indicesI trl := fun hm => hdisj n hm hnr
          have hi0S : i0 ∉ indicesI S := fun hm =>
            hnd'.1 (List.mem_append.mpr (Or.inr (hSsubr i0 hm)))
          obtain ⟨nd0', hg0', hcol, hdat, hlft, hrgt⟩ :=
            hfr i0 nd0 (List.mem_cons_self _ _) hi0S hg0
          have hIHr := ih h h' nd0.right trr n S S' r fuelS hR hndr hS hS'
            (fun j nd hj hjS hg => hfr j nd
              (List.mem_cons_of_mem _ (List.mem_append.mpr (Or.inr hj)))
              hjS hg)
          have hlne : nd0.left ≠ some n := by
            intro hk
            have hre2 : reify? fuel h (some n) = some trl := by
              rw [← hk]
              exact hL
            exact hnl (reify?_root_mem fuel h n trl hre2)
          have hlft2 : nd0'.left = nd0.left := by
            rw [hlft, substL, if_neg hlne]
          have hgrl : graftI trl n S' = trl := graftI_not_mem trl n S' hnl
          have hframe_l : reify? fuel h' nd0.left = some trl := by
            refine reify?_frame fuel h h' nd0.left trl hL ?_
            intro j hj
            have hjt : j ∈ indicesI (ITree.node nd0.colour trl i0 nd0.data
                trr) := by
              rw [indicesI]
              exact List.mem_cons_of_mem _
                (List.mem_append.mpr (Or.inl hj))
            have hjS : j ∉ indicesI S := fun hm =>
              hdisj j hj (hSsubr j hm)
            have hjsome : (hGet h j).isSome = true :=
              reify?_mem_isSome fuel h nd0.left trl j hL hj
            cases hgj : hGet h j with
            | none => rw [hgj] at hjsome; cases hjsome
            | some nd =>
              obtain ⟨nd', hg', hc2, hd2, hl2, hr2⟩ := hfr j nd hjt hjS hgj
              obtain ⟨nd2', hg2', hL2, hR2⟩ :=
                reify?_links_mem fuel h nd0.left trl j hL hj
              rw [hgj] at hg2'
              have he2 : nd = nd2' := Option.some.inj hg2'
              have hlne2 : nd.left ≠ some n := by
                intro hk
                exact hnl (hL2 n (he2 ▸ hk))
              have hrne2 : nd.right ≠ some n := by
                intro hk
                exact hnl (hR2 n (he2 ▸ hk))
              rw [hg']
              simp only [Option.map_some']
              have hcore : core nd' = core nd := by
                rw [core, core, hc2, hd2, hl2, hr2, substL, substL,
                  if_neg hlne2, if_neg hrne2]
              rw [hcore]
          have hframe_l2 : reify? (fuel + fuelS) h' nd0.left = some trl :=
            reify?_mono fuel (fuel + fuelS) h' nd0.left trl
              (by omega) hframe_l
          rw [reify?, hg0']
          dsimp only
          rw [hrgt, hIHr]
          rw [hlft2, hframe_l2]
          dsimp only
          rw [hcol, hdat, hgrl]

theorem reify?_leaf_link {α : Type} (fuel : Nat) (h : Heap α)
    (oi : Option Nat) (hre : reify? fuel h oi = some (.leaf : ITree α)) :
    oi = none := by
  cases oi with
  | none => rfl
  | some i =>
    obtain ⟨nd, trl, trr, _, htr, _, _⟩ := reify?_some_node fuel h i _ hre
    cases htr

theorem reify?_rootLink {α : Type} (fuel : Nat) (h : Heap α)
    (oi : Option Nat) (tr : ITree α) (hre : reify? fuel h oi = some tr) :
    oi = rootLink tr := by
  cases tr with
  | leaf => rw [rootLink]; exact reify?_leaf_link fuel h oi hre
  | node c l i d r =>
    rw [rootLink]
    exact reify?_node_root fuel h oi c l i d r hre

theorem reify?_record {α : Type} (fuel : Nat) (h : Heap α) (i : Nat)
    (c : Colour) (l : ITree α) (d : α) (r : ITree α)
    (hre : reify? fuel h (some i) = some (ITree.node c l i d r)) :
    ∃ nd, hGet h i = some nd ∧ nd.colour = c ∧ nd.data = d
      ∧ nd.left = rootLink l ∧ nd.right = rootLink r
      ∧ reify? (fuel - 1) h nd.left = some l
      ∧ reify? (fuel - 1) h nd.right = some r := by
  obtain ⟨nd, trl, trr, hg, htr, hL, hR⟩ :=
    reify?_some_node fuel h i _ hre
  injection htr with hc hl hi hd hr
  subst hc
  subst hl
  subst hd
  subst hr
  exact ⟨nd, hg, rfl, rfl, reify?_rootLink _ h nd.left l hL,
    reify?_rootLink _ h nd.right r hR, hL, hR⟩

theorem reify?_subtreeAt {α : Type} :
    ∀ (fuel : Nat) (h : Heap α) (rt : Option Nat) (tr : ITree α) (n : Nat)
      (S : ITree α),
      reify? fuel h rt = some tr → subtreeAt tr n = some S →
      reify? fuel h (some n) = some S := by
  intro fuel
  induction fuel with
  | zero =>
    intro h rt tr n S hre hS
    cases rt with
    | none => cases hre; cases hS
    | some i => cases hre
  | succ fuel ih =>
    intro h rt tr n S hre hS
    cases rt with
    | none => cases hre; cases hS
    | some i0 =>
      obtain ⟨nd0, trl, trr, hg0, htr, hL, hR⟩ :=
        reify?_some_node (fuel + 1) h i0 tr hre
      subst htr
      rw [subtreeAt] at hS
      by_cases hin : i0 = n
      · rw [if_pos hin] at hS
        injection hS with hS2
        rw [← hS2, ← hin]
        exact hre
      · rw [if_neg hin] at hS
        cases hl : subtreeAt trl n with
        | some sl =>
          rw [hl] at hS
          injection hS with hS2
          rw [hS2] at hl
          exact reify?_mono fuel (fuel + 1) h (some n) S (by omega)
            (ih h nd0.left trl n S hL hl)
        | none =>
          rw [hl] at hS
          exact reify?_mono fuel (fuel + 1) h (some n) S (by omega)
            (ih h nd0.right trr n S hR hS)

theorem depthI_le_sizeI {α : Type} :
    ∀ (tr : ITree α), depthI tr ≤ sizeI tr := by
  intro tr
  induction tr with
  | leaf => rw [depthI, sizeI]
  | node c l i d r ihl ihr =>
    rw [depthI, sizeI]
    rcases Nat.le_total (depthI l) (depthI r) with hle | hle <;> omega

theorem sizeI_eq_length_indicesI {α : Type} :
    ∀ (tr : ITree α), sizeI tr = (indicesI tr).length := by
  intro tr
  induction tr with
  | leaf => rw [sizeI, indicesI]; rfl
  | node c l i d r ihl ihr =>
    rw [sizeI, indicesI, ihl, ihr]
    rw [List.length_cons, List.length_append]

theorem indicesI_length_le {α : Type} (tr : ITree α) (L : Nat)
    (hnd : (indicesI tr).Nodup) (hb : ∀ j, j ∈ indicesI tr → j < L) :
    (indicesI tr).length ≤ L := by
  have hsub : indicesI tr ⊆ List.range L := by
    intro j hj
    exact List.mem_range.mpr (hb j hj)
  have := (List.subperm_of_subset hnd hsub).length_le
  rw [List.length_range] at this
  exact this

theorem reify?_canonical {α : Type} (fuel : Nat) (h : Heap α)
    (oi : Option Nat) (tr : ITree α)
    (hre : reify? fuel h oi = some tr)
    (hnd : (indicesI tr).Nodup) :
    reify? (h.length + 1) h oi = some tr := by
  have hb : ∀ j, j ∈ indicesI tr → j < h.length := fun j hj =>
    hGet_isSome_lt h j (reify?_mem_isSome fuel h oi tr j hre hj)
  refine reify?_of_depth_lt fuel h oi tr (h.length + 1) hre ?_
  have h1 := depthI_le_sizeI tr
  have h2 := sizeI_eq_length_indicesI tr
  have h3 := indicesI_length_le tr h.length hnd hb
  omega

theorem subtreeAt_parent {α : Type} :
    ∀ (tr : ITree α) (fuel : Nat) (h : Heap α) (e rt : Option Nat)
      (n : Nat) (S : ITree α),
      reify? fuel h rt = some tr →
      parOkI h e tr = true → (indicesI tr).Nodup →
      subtreeAt tr n = some S →
      (rt = some n ∧ parent! h n = e ∧ S = tr)
      ∨ (∃ g ndg, g ∈ indicesI tr ∧ hGet h g = some ndg
          ∧ parent! h n = some g ∧ g ∉ indicesI S
          ∧ (ndg.left = some n ∨ ndg.right = some n)
          ∧ ¬(ndg.left = some n ∧ ndg.right = some n)) := by
  intro tr
  induction tr with
  | leaf => intro fuel h e rt n S _ _ _ hS; cases hS
  | node c l i d r ihl ihr =>
    intro fuel h e rt n S hre hp hnd hS
    obtain ⟨nd0, hg0, hc0, hd0, hl0, hr0, hLre, hRre⟩ := by
      have hrt : rt = some i := reify?_node_root fuel h rt c l i d r hre
      rw [hrt] at hre
      exact reify?_record fuel h i c l d r hre
    have hrt : rt = some i := reify?_node_root fuel h rt c l i d r hre
    rw [parOkI, Bool.and_eq_true_iff, Bool.and_eq_true_iff] at hp
    obtain ⟨⟨hp1, hp2⟩, hp3⟩ := hp
    rw [indicesI] at hnd
    have hnd' := List.nodup_cons.mp hnd
    have hndl : (indicesI l).Nodup := hnd'.2.of_append_left
    have hndr : (indicesI r).Nodup := hnd'.2.of_append_right
    have hdisj : ∀ a, a ∈ indicesI l → a ∉ indicesI r :=
      fun a hal har => (List.disjoint_of_nodup_append hnd'.2) hal har
    have hnotboth : ¬(nd0.left = some n ∧ nd0.right = some n) := by
      rintro ⟨hkl, hkr⟩
      have h1 : n ∈ indicesI l := by
        have : reify? (fuel - 1) h (some n) = some l := by
          rw [← hkl]; exact hLre
        exact reify?_root_mem _ h n l this
      have h2 : n ∈ indicesI r := by
        have : reify? (fuel - 1) h (some n) = some r := by
          rw [← hkr]; exact hRre
        exact reify?_root_mem _ h n r this
      exact hdisj n h1 h2
    rw [subtreeAt] at hS
    by_cases hin : i = n
    · rw [if_pos hin] at hS
      injection hS with hS2
      subst hin
      refine Or.inl ⟨hrt, ?_, hS2.symm⟩
      have : parent! h i = e := eq_of_beq hp1
      exact this
    · rw [if_neg hin] at hS
      cases hl : subtreeAt l n with
      | some sl =>
        rw [hl] at hS
        injection hS with hS2
        rw [hS2] at hl
        have hSsub := subtreeAt_indices_sub l n S hl
        rcases ihl (fuel - 1) h (some i) nd0.left n S hLre hp2 hndl hl with
          ⟨hrt2, hpar2, hStr⟩ | ⟨g, ndg, hgmem, hgg, hpn, hgS, hside, hboth⟩
        · refine Or.inr ⟨i, nd0, List.mem_cons_self _ _, hg0, hpar2, ?_,
            Or.inl hrt2, hnotboth⟩
          intro hm
          exact hnd'.1 (List.mem_append.mpr (Or.inl (hStr ▸ hm)))
        · refine Or.inr ⟨g, ndg, ?_, hgg, hpn, hgS, hside, hboth⟩
          rw [indicesI]
          exact List.mem_cons_of_mem _ (List.mem_append.mpr (Or.inl hgmem))
      | none =>
        rw [hl] at hS
        have hSsub := subtreeAt_indices_sub r n S hS
        rcases ihr (fuel - 1) h (some i) nd0.right n S hRre hp3 hndr hS with
          ⟨hrt2, hpar2, hStr⟩ | ⟨g, ndg, hgmem, hgg, hpn, hgS, hside, hboth⟩
        · refine Or.inr ⟨i, nd0, List.mem_cons_self _ _, hg0, hpar2, ?_,
            Or.inr hrt2, hnotboth⟩
          intro hm
          exact hnd'.1 (List.mem_append.mpr (Or.inr (hStr ▸ hm)))
        · refine Or.inr ⟨g, ndg, ?_, hgg, hpn, hgS, hside, hboth⟩
          rw [indicesI]
          exact List.mem_cons_of_mem _ (List.mem_append.mpr (Or.inr hgmem))

theorem hGet_set_left_self {α : Type} (h : Heap α) (i : Nat)
    (v : Option Nat) (nd : NodeData α) (hg : hGet h i = some nd) :
    hGet (set_left h i v) i = some { nd with left := v } := by
  rw [set_left, hGet_hModify, if_pos rfl, hg]
  rfl

theorem hGet_set_left_ne {α : Type} (h : Heap α) (i : Nat)
    (v : Option Nat) (j : Nat) (hne : j ≠ i) :
    hGet (set_left h i v) j = hGet h j := by
  rw [set_left, hGet_hModify, if_neg hne]

theorem hGet_set_right_self {α : Type} (h : Heap α) (i : Nat)
    (v : Option Nat) (nd : NodeData α) (hg : hGet h i = some nd) :
    hGet (set_right h i v) i = some { nd with right := v } := by
  rw [set_right, hGet_hModify, if_pos rfl, hg]
  rfl

theorem hGet_set_right_ne {α : Type} (h : Heap α) (i : Nat)
    (v : Option Nat) (j : Nat) (hne : j ≠ i) :
    hGet (set_right h i v) j = hGet h j := by
  rw [set_right, hGet_hModify, if_neg hne]

theorem hGet_set_parent_self {α : Type} (h : Heap α) (i : Nat)
    (v : Option Nat) (nd : NodeData α) (hg : hGet h i = some nd) :
    hGet (set_parent h i v) i = some { nd with parent := v } := by
  rw [set_parent, hGet_hModify, if_pos rfl, hg]
  rfl

theorem hGet_set_parent_ne {α : Type} (h : Heap α) (i : Nat)
    (v : Option Nat) (j : Nat) (hne : j ≠ i) :
    hGet (set_parent h i v) j = hGet h j := by
  rw [set_parent, hGet_hModify, if_neg hne]

theorem hGet_set_colour_self {α : Type} (h : Heap α) (i : Nat)
    (v : Colour) (nd : NodeData α) (hg : hGet h i = some nd) :
    hGet (set_colour h i v) i = some { nd with colour := v } := by
  rw [set_colour, hGet_hModify, if_pos rfl, hg]
  rfl

theorem hGet_set_colour_ne {α : Type} (h : Heap α) (i : Nat)
    (v : Colour) (j : Nat) (hne : j ≠ i) :
    hGet (set_colour h i v) j = hGet h j := by
  rw [set_colour, hGet_hModify, if_neg hne]

theorem hGet_set_data_self {α : Type} (h : Heap α) (i : Nat)
    (v : α) (nd : NodeData α) (hg : hGet h i = some nd) :
    hGet (set_data h i v) i = some { nd with data := v } := by
  rw [set_data, hGet_hModify, if_pos rfl, hg]
  rfl

theorem hGet_set_data_ne {α : Type} (h : Heap α) (i : Nat)
    (v : α) (j : Nat) (hne : j ≠ i) :
    hGet (set_data h i v) j = hGet h j := by
  rw [set_data, hGet_hModify, if_neg hne]

/-- Reassemble the rotated subtree `node cp A p dp (node c B n d C)` from
the records a right-rotation leaves behind. -/
theorem rotated_sub_reify {α : Type} (h' : Heap α) (n p : Nat)
    (c cp : Colour) (d dp : α) (A B C : ITree α) (fa fb fc : Nat)
    (hA : reify? fa h' (rootLink A) = some A)
    (hB : reify? fb h' (rootLink B) = some B)
    (hC : reify? fc h' (rootLink C) = some C)
    (ndn ndp : NodeData α)
    (hgn : hGet h' n = some ndn)
    (hn1 : ndn.colour = c) (hn2 : ndn.data = d)
    (hn3 : ndn.left = rootLink B) (hn4 : ndn.right = rootLink C)
    (hgp : hGet h' p = some ndp)
    (hp1 : ndp.colour = cp) (hp2 : ndp.data = dp)
    (hp3 : ndp.left = rootLink A) (hp4 : ndp.right = some n) :
    reify? (fa + fb + fc + 2) h' (some p)
      = some (ITree.node cp A p dp (ITree.node c B n d C)) := by
  have hB' : reify? (fa + fb + fc) h' (rootLink B) = some B :=
    reify?_mono fb _ h' _ B (by omega) hB
  have hC' : reify? (fa + fb + fc) h' (rootLink C) = some C :=
    reify?_mono fc _ h' _ C (by omega) hC
  have hA' : reify? (fa + fb + fc + 1) h' (rootLink A) = some A :=
    reify?_mono fa _ h' _ A (by omega) hA
  have hN : reify? (fa + fb + fc + 1) h' (some n)
      = some (ITree.node c B n d C) := by
    rw [reify?, hgn]
    dsimp only
    rw [hn3, hn4, hB', hC']
    dsimp only
    rw [hn1, hn2]
  rw [reify?, hgp]
  dsimp only
  rw [hp3, hp4, hA', hN]
  dsimp only
  rw [hp1, hp2]

/-- Mirror image: reassemble `node c (node cp A p dp B) n d C` from the
records a left-rotation leaves behind (rotation at `n` with right child
`p`). -/
theorem rotated_sub_reify_left {α : Type} (h' : Heap α) (n p : Nat)
    (c cp : Colour) (d dp : α) (A B C : ITree α) (fa fb fc : Nat)
    (hA : reify? fa h' (rootLink A) = some A)
    (hB : reify? fb h' (rootLink B) = some B)
    (hC : reify? fc h' (rootLink C) = some C)
    (ndn ndp : NodeData α)
    (hgn : hGet h' n = some ndn)
    (hn1 : ndn.colour = c) (hn2 : ndn.data = d)
    (hn3 : ndn.left = rootLink A) (hn4 : ndn.right = rootLink B)
    (hgp : hGet h' p = some ndp)
    (hp1 : ndp.colour = cp) (hp2 : ndp.data = dp)
    (hp3 : ndp.left = some n) (hp4 : ndp.right = rootLink C) :
    reify? (fa + fb + fc + 2) h' (some p)
      = some (ITree.node cp (ITree.node c A n d B) p dp C) := by
  have hA' : reify? (fa + fb + fc) h' (rootLink A) = some A :=
    reify?_mono fa _ h' _ A (by omega) hA
  have hB' : reify? (fa + fb + fc) h' (rootLink B) = some B :=
    reify?_mono fb _ h' _ B (by omega) hB
  have hC' : reify? (fa + fb + fc + 1) h' (rootLink C) = some C :=
    reify?_mono fc _ h' _ C (by omega) hC
  have hN : reify? (fa + fb + fc + 1) h' (some n)
      = some (ITree.node c A n d B) := by
    rw [reify?, hgn]
    dsimp only
    rw [hn3, hn4, hA', hB']
    dsimp only
    rw [hn1, hn2]
  rw [reify?, hgp]
  dsimp only
  rw [hp3, hp4, hN, hC']
  dsimp only
  rw [hp1, hp2]

theorem rootLink_mem {α : Type} (tr : ITree α) (b : Nat)
    (hb : rootLink tr = some b) : b ∈ indicesI tr := by
  cases tr with
  | leaf => cases hb
  | node c l i d r =>
    rw [rootLink] at hb
    injection hb with hb2
    rw [indicesI, hb2]
    exact List.mem_cons_self _ _

theorem subtreeAt_parOk {α : Type} :
    ∀ (tr : ITree α) (h : Heap α) (e : Option Nat) (n : Nat) (S : ITree α),
      parOkI h e tr = true → subtreeAt tr n = some S →
      ∃ e0, parOkI h e0 S = true := by
  intro tr
  induction tr with
  | leaf => intro h e n S _ hS; cases hS
  | node c l i d r ihl ihr =>
    intro h e n S hp hS
    rw [parOkI, Bool.and_eq_true_iff, Bool.and_eq_true_iff] at hp
    obtain ⟨⟨hp1, hp2⟩, hp3⟩ := hp
    rw [subtreeAt] at hS
    by_cases hin : i = n
    · rw [if_pos hin] at hS
      injection hS with hS2
      refine ⟨e, ?_⟩
      rw [← hS2, parOkI, Bool.and_eq_true_iff, Bool.and_eq_true_iff]
      exact ⟨⟨hp1, hp2⟩, hp3⟩
    · rw [if_neg hin] at hS
      cases hl : subtreeAt l n with
      | some sl =>
        rw [hl] at hS
        injection hS with hS2
        rw [hS2] at hl
        exact ihl h (some i) n S hp2 hl
      | none =>
        rw [hl] at hS
        exact ihr h (some i) n S hp3 hS

theorem rotated_sub_parOk {α : Type} (h0 h' : Heap α) (n p : Nat)
    (c cp : Colour) (d dp : α) (A B C : ITree α) (e0 : Option Nat)
    (hndB : (indicesI B).Nodup)
    (hA : parOkI h0 (some p) A = true)
    (hB : parOkI h0 (some p) B = true)
    (hC : parOkI h0 (some n) C = true)
    (hpp : parent! h' p = e0)
    (hpn : parent! h' n = some p)
    (hpB : ∀ b2, rootLink B = some b2 → parent! h' b2 = some n)
    (hAB : ∀ j, j ∈ indicesI A → j ∉ indicesI B)
    (hCB : ∀ j, j ∈ indicesI C → j ∉ indicesI B)
    (hframe : ∀ j, (j ∈ indicesI A ∨ j ∈ indicesI B ∨ j ∈ indicesI C) →
      (∀ b2, rootLink B = some b2 → j ≠ b2) →
      parent! h' j = parent! h0 j) :
    parOkI h' e0 (ITree.node cp A p dp (ITree.node c B n d C)) = true := by
  rw [parOkI, Bool.and_eq_true_iff, Bool.and_eq_true_iff]
  refine ⟨⟨?_, ?_⟩, ?_⟩
  · rw [hpp]
    exact beq_self_eq_true e0
  · refine parOkI_frame A h0 h' (some p) hA ?_
    intro j hj
    refine hframe j (Or.inl hj) ?_
    intro b2 hb2 hjb
    exact hAB j hj (hjb ▸ rootLink_mem B b2 hb2)
  · rw [parOkI, Bool.and_eq_true_iff, Bool.and_eq_true_iff]
    refine ⟨⟨?_, ?_⟩, ?_⟩
    · rw [hpn]
      exact beq_self_eq_true _
    · cases B with
      | leaf => rfl
      | node cb Bl bi bd Br =>
        rw [parOkI, Bool.and_eq_true_iff, Bool.and_eq_true_iff] at hB ⊢
        obtain ⟨⟨hb1, hb2⟩, hb3⟩ := hB
        rw [indicesI] at hndB
        have hbi := (List.nodup_cons.mp hndB).1
        refine ⟨⟨?_, ?_⟩, ?_⟩
        · rw [hpB bi rfl]
          exact beq_self_eq_true _
        · refine parOkI_frame Bl h0 h' (some bi) hb2 ?_
          intro j hj
          refine hframe j (Or.inr (Or.inl ?_)) ?_
          · rw [indicesI]
            exact List.mem_cons_of_mem _
              (List.mem_append.mpr (Or.inl hj))
          · intro b2 hb2' hjb
            rw [rootLink] at hb2'
            injection hb2' with hb2''
            have hjbi : j = bi := hjb.trans hb2''.symm
            rw [hjbi] at hj
            exact hbi (List.mem_append.mpr (Or.inl hj))
        · refine parOkI_frame Br h0 h' (some bi) hb3 ?_
          intro j hj
          refine hframe j (Or.inr (Or.inl ?_)) ?_
          · rw [indicesI]
            exact List.mem_cons_of_mem _
              (List.mem_append.mpr (Or.inr hj))
          · intro b2 hb2' hjb
            rw [rootLink] at hb2'
            injection hb2' with hb2''
            have hjbi : j = bi := hjb.trans hb2''.symm
            rw [hjbi] at hj
            exact hbi (List.mem_append.mpr (Or.inr hj))
    · refine parOkI_frame C h0 h' (some n) hC ?_
      intro j hj
      refine hframe j (Or.inr (Or.inr hj)) ?_
      intro b2 hb2 hjb
      exact hCB j hj (hjb ▸ rootLink_mem B b2 hb2)

theorem rotated_sub_parOk_left {α : Type} (h0 h' : Heap α) (n p : Nat)
    (c cp : Colour) (d dp : α) (A B C : ITree α) (e0 : Option Nat)
    (hndB : (indicesI B).Nodup)
    (hA : parOkI h0 (some n) A = true)
    (hB : parOkI h0 (some p) B = true)
    (hC : parOkI h0 (some p) C = true)
    (hpp : parent! h' p = e0)
    (hpn : parent! h' n = some p)
    (hpB : ∀ b2, rootLink B = some b2 → parent! h' b2 = some n)
    (hAB : ∀ j, j ∈ indicesI A → j ∉ indicesI B)
    (hCB : ∀ j, j ∈ indicesI C → j ∉ indicesI B)
    (hframe : ∀ j, (j ∈ indicesI A ∨ j ∈ indicesI B ∨ j ∈ indicesI C) →
      (∀ b2, rootLink B = some b2 → j ≠ b2) →
      parent! h' j = parent! h0 j) :
    parOkI h' e0 (ITree.node cp (ITree.node c A n d B) p dp C) = true := by
  rw [parOkI, Bool.and_eq_true_iff, Bool.and_eq_true_iff]
  refine ⟨⟨?_, ?_⟩, ?_⟩
  · rw [hpp]
    exact beq_self_eq_true e0
  · rw [parOkI, Bool.and_eq_true_iff, Bool.and_eq_true_iff]
    refine ⟨⟨?_, ?_⟩, ?_⟩
    · rw [hpn]
      exact beq_self_eq_true _
    · refine parOkI_frame A h0 h' (some n) hA ?_
      intro j hj
      refine hframe j (Or.inl hj) ?_
      intro b2 hb2 hjb
      exact hAB j hj (hjb ▸ rootLink_mem B b2 hb2)
    · cases B with
      | leaf => rfl
      | node cb Bl bi bd Br =>
        rw [parOkI, Bool.and_eq_true_iff, Bool.and_eq_true_iff] at hB ⊢
        obtain ⟨⟨hb1, hb2⟩, hb3⟩ := hB
        rw [indicesI] at hndB
        have hbi := (List.nodup_cons.mp hndB).1
        refine ⟨⟨?_, ?_⟩, ?_⟩
        · rw [hpB bi rfl]
          exact beq_self_eq_true _
        · refine parOkI_frame Bl h0 h' (some bi) hb2 ?_
          intro j hj
          refine hframe j (Or.inr (Or.inl ?_)) ?_
          · rw [indicesI]
            exact List.mem_cons_of_mem _
              (List.mem_append.mpr (Or.inl hj))
          · intro b2 hb2' hjb
            rw [rootLink] at hb2'
            injection hb2' with hb2''
            have hjbi : j = bi := hjb.trans hb2''.symm
            rw [hjbi] at hj
            exact hbi (List.mem_append.mpr (Or.inl hj))
        · refine parOkI_frame Br h0 h' (some bi) hb3 ?_
          intro j hj
          refine hframe j (Or.inr (Or.inl ?_)) ?_
          · rw [indicesI]
            exact List.mem_cons_of_mem _
              (List.mem_append.mpr (Or.inr hj))
          · intro b2 hb2' hjb
            rw [rootLink] at hb2'
            injection hb2' with hb2''
            have hjbi : j = bi := hjb.trans hb2''.symm
            rw [hjbi] at hj
            exact hbi (List.mem_append.mpr (Or.inr hj))
  · refine parOkI_frame C h0 h' (some p) hC ?_
    intro j hj
    refine hframe j (Or.inr (Or.inr hj)) ?_
    intro b2 hb2 hjb
    exact hCB j hj (hjb ▸ rootLink_mem B b2 hb2)

theorem parOkI_graft {α : Type} :
    ∀ (tr : ITree α) (h h' : Heap α) (e : Option Nat) (n : Nat)
      (S S' : ITree α),
      parOkI h e tr = true → (indicesI tr).Nodup → subtreeAt tr n = some S →
      (∀ e0, parOkI h e0 S = true → parOkI h' e0 S' = true) →
      (∀ j, j ∈ indicesI tr → j ∉ indicesI S →
        parent! h' j = parent! h j) →
      parOkI h' e (graftI tr n S') = true := by
  intro tr
  induction tr with
  | leaf => intro h h' e n S S' hp hnd hS hrepl hfr; cases hS
  | node c l i d r ihl ihr =>
    intro h h' e n S S' hp hnd hS hrepl hfr
    rw [subtreeAt] at hS
    rw [parOkI, Bool.and_eq_true_iff, Bool.and_eq_true_iff] at hp
    obtain ⟨⟨hp1, hp2⟩, hp3⟩ := hp
    rw [indicesI] at hnd
    have hnd' := List.nodup_cons.mp hnd
    have hndl : (indicesI l).Nodup := hnd'.2.of_append_left
    have hndr : (indicesI r).Nodup := hnd'.2.of_append_right
    have hdisj : ∀ a, a ∈ indicesI l → a ∉ indicesI r :=
      fun a hal har => (List.disjoint_of_nodup_append hnd'.2) hal har
    by_cases hin : i = n
    · rw [if_pos hin] at hS
      injection hS with hS2
      rw [graftI, if_pos hin]
      refine hrepl e ?_
      rw [← hS2, parOkI, Bool.and_eq_true_iff, Bool.and_eq_true_iff]
      exact ⟨⟨hp1, hp2⟩, hp3⟩
    · rw [if_neg hin] at hS
      rw [graftI, if_neg hin, parOkI, Bool.and_eq_true_iff,
        Bool.and_eq_true_iff]
      cases hl : subtreeAt l n with
      | some sl =>
        rw [hl] at hS
        injection hS with hS2
        rw [hS2] at hl
        have hSsub := subtreeAt_indices_sub l n S hl
        obtain ⟨cS, lS, dS, rS, hSshape⟩ := subtreeAt_root l n S hl
        have hnS : n ∈ indicesI S := by
          rw [hSshape, indicesI]
          exact List.mem_cons_self _ _
        have hnl2 : n ∈ indicesI l := hSsub n hnS
        have hnr : n ∉ indicesI r := hdisj n hnl2
        have hiS : i ∉ indicesI S := fun hm =>
          hnd'.1 (List.mem_append.mpr (Or.inl (hSsub i hm)))
        refine ⟨⟨?_, ?_⟩, ?_⟩
        · rw [hfr i (List.mem_cons_self _ _) hiS]
          exact hp1
        · exact ihl h h' (some i) n S S' hp2 hndl hl hrepl
            (fun j hj hjS => hfr j
              (List.mem_cons_of_mem _ (List.mem_append.mpr (Or.inl hj)))
              hjS)
        · rw [graftI_not_mem r n S' hnr]
          refine parOkI_frame r h h' (some i) hp3 ?_
          intro j hj
          exact hfr j
            (List.mem_cons_of_mem _ (List.mem_append.mpr (Or.inr hj)))
            (fun hm => hdisj j (hSsub j hm) hj)
      | none =>
        rw [hl] at hS
        have hSsub := subtreeAt_indices_sub r n S hS
        obtain ⟨cS, lS, dS, rS, hSshape⟩ := subtreeAt_root r n S hS
        have hnS : n ∈ indicesI S := by
          rw [hSshape, indicesI]
          exact List.mem_cons_self _ _
        have hnr2 : n ∈ indicesI r := hSsub n hnS
        have hnl2 : n ∉ indicesI l := fun hm => hdisj n hm hnr2
        have hiS : i ∉ indicesI S := fun hm =>
          hnd'.1 (List.mem_append.mpr (Or.inr (hSsub i hm)))
        refine ⟨⟨?_, ?_⟩, ?_⟩
        · rw [hfr i (List.mem_cons_self _ _) hiS]
          exact hp1
        · rw [graftI_not_mem l n S' hnl2]
          refine parOkI_frame l h h' (some i) hp2 ?_
          intro j hj
          exact hfr j
            (List.mem_cons_of_mem _ (List.mem_append.mpr (Or.inl hj)))
            (fun hm => hdisj j hj (hSsub j hm))
        · exact ihr h h' (some i) n S S' hp3 hndr hS hrepl
            (fun j hj hjS => hfr j
              (List.mem_cons_of_mem _ (List.mem_append.mpr (Or.inr hj)))
              hjS)

theorem rotate_finish_right {α : Type} (t : RBTreeSet α) (hF : Heap α)
    (n p : Nat) (tr : ITree α)
    (c cp : Colour) (d dp : α) (A B C : ITree α)
    (hre : reify? (t.heap.length + 1) t.heap t.root = some tr)
    (hpar : parOkI t.heap none tr = true)
    (hnd : (indicesI tr).Nodup)
    (hS : subtreeAt tr n
      = some (ITree.node c (ITree.node cp A p dp B) n d C))
    (hlen : hF.length = t.heap.length)
    (hgnF : ∃ ndn', hGet hF n = some ndn' ∧ ndn'.colour = c
      ∧ ndn'.data = d ∧ ndn'.left = rootLink B ∧ ndn'.right = rootLink C
      ∧ ndn'.parent = some p)
    (hgpF : ∃ ndp', hGet hF p = some ndp' ∧ ndp'.colour = cp
      ∧ ndp'.data = dp ∧ ndp'.left = rootLink A ∧ ndp'.right = some n
      ∧ ndp'.parent = parent! t.heap n)
    (hgbF : ∀ b2, rootLink B = some b2 → ∃ ndb ndb',
      hGet t.heap b2 = some ndb ∧ hGet hF b2 = some ndb'
      ∧ ndb'.colour = ndb.colour ∧ ndb'.data = ndb.data
      ∧ ndb'.left = ndb.left ∧ ndb'.right = ndb.right
      ∧ ndb'.parent = some n)
    (hunch : ∀ j, (j ∈ indicesI A ∨ (j ∈ indicesI B
        ∧ ∀ b2, rootLink B = some b2 → j ≠ b2) ∨ j ∈ indicesI C) →
      hGet hF j = hGet t.heap j)
    (hout : ∀ j nd, j ∈ indicesI tr →
      j ∉ indicesI (ITree.node c (ITree.node cp A p dp B) n d C) →
      hGet t.heap j = some nd →
      ∃ nd', hGet hF j = some nd' ∧ nd'.colour = nd.colour
        ∧ nd'.data = nd.data ∧ nd'.left = substL n (some p) nd.left
        ∧ nd'.right = substL n (some p) nd.right
        ∧ nd'.parent = nd.parent) :
    reify? (t.heap.length + 1) hF (substL n (some p) t.root)
      = some (graftI tr n (ITree.node cp A p dp (ITree.node c B n d C)))
    ∧ parOkI hF none
        (graftI tr n (ITree.node cp A p dp (ITree.node c B n d C))) = true
    ∧ (indicesI (graftI tr n
        (ITree.node cp A p dp (ITree.node c B n d C)))).Nodup
    ∧ inorderNI (graftI tr n (ITree.node cp A p dp (ITree.node c B n d C)))
      = inorderNI tr := by
  obtain ⟨ndn', hgn, hn1, hn2, hn3, hn4, hn5⟩ := hgnF
  obtain ⟨ndp', hgp, hq1, hq2, hq3, hq4, hq5⟩ := hgpF
  -- the old records and the children reifications in the old heap
  have hSre : reify? (t.heap.length + 1) t.heap (some n)
      = some (ITree.node c (ITree.node cp A p dp B) n d C) :=
    reify?_subtreeAt _ t.heap t.root tr n _ hre hS
  obtain ⟨ndn, hgn0, hcn0, hdn0, hn3o, hn4o, hLre, hCre⟩ :=
    reify?_record _ t.heap n _ _ _ _ hSre
  rw [rootLink] at hn3o
  have hPre : reify? (t.heap.length + 1 - 1) t.heap (some p)
      = some (ITree.node cp A p dp B) := by
    rw [← hn3o]
    exact hLre
  obtain ⟨ndp, hgp0, hcp0, hdp0, hq3o, hq4o, hAre, hBre⟩ :=
    reify?_record _ t.heap p _ _ _ _ hPre
  have hA0 : reify? (t.heap.length + 1 - 1 - 1) t.heap (rootLink A)
      = some A := by
    rw [← hq3o]
    exact hAre
  have hB0 : reify? (t.heap.length + 1 - 1 - 1) t.heap (rootLink B)
      = some B := by
    rw [← hq4o]
    exact hBre
  have hC0 : reify? (t.heap.length + 1 - 1) t.heap (rootLink C)
      = some C := by
    rw [← hn4o]
    exact hCre
  -- duplicate-freedom pieces of the subtree
  obtain ⟨⟨X, Y, hXY, hgXY⟩, ⟨Ai, Bi, hAB2, hgAB2⟩⟩ :=
    subtreeAt_split tr n _ hS hnd
  have hndS : (indicesI
      (ITree.node c (ITree.node cp A p dp B) n d C)).Nodup := by
    have h1 : (X ++ indicesI (ITree.node c (ITree.node cp A p dp B) n d C)
        ++ Y).Nodup := hXY ▸ hnd
    exact (h1.of_append_left).of_append_right
  rw [indicesI, indicesI] at hndS
  have hndS' := List.nodup_cons.mp hndS
  have hnrest := hndS'.1
  have hndLC := hndS'.2
  have hndL : ((p :: (indicesI A ++ indicesI B))).Nodup :=
    hndLC.of_append_left
  have hndC : (indicesI C).Nodup := hndLC.of_append_right
  have hdisjLC : ∀ a, a ∈ p :: (indicesI A ++ indicesI B) →
      a ∉ indicesI C :=
    fun a hal har => (List.disjoint_of_nodup_append hndLC) hal har
  have hndL' := List.nodup_cons.mp hndL
  have hndAB : (indicesI A ++ indicesI B).Nodup := hndL'.2
  have hndA : (indicesI A).Nodup := hndAB.of_append_left
  have hndB : (indicesI B).Nodup := hndAB.of_append_right
  have hdisjAB : ∀ a, a ∈ indicesI A → a ∉ indicesI B :=
    fun a hal har => (List.disjoint_of_nodup_append hndAB) hal har
  have hCB : ∀ j, j ∈ indicesI C → j ∉ indicesI B := by
    intro j hjC hjB
    exact hdisjLC j (List.mem_cons_of_mem _
      (List.mem_append.mpr (Or.inr hjB))) hjC
  -- children reify unchanged in the new heap
  have hagreeB : ∀ j, j ∈ indicesI B →
      (hGet hF j).map core = (hGet t.heap j).map core := by
    intro j hj
    cases hbB : rootLink B with
    | none =>
      rw [hunch j (Or.inr (Or.inl ⟨hj, fun b2 hb2 => by
        rw [hbB] at hb2; cases hb2⟩))]
    | some b2 =>
      by_cases hjb : j = b2
      · obtain ⟨ndb, ndb', hgb0, hgbF', hc2, hd2, hl2, hr2, _⟩ :=
          hgbF b2 hbB
        rw [hjb, hgb0, hgbF']
        simp only [Option.map_some']
        rw [core, core, hc2, hd2, hl2, hr2]
      · rw [hunch j (Or.inr (Or.inl ⟨hj, fun b3 hb3 => by
          rw [hbB] at hb3
          injection hb3 with hb4
          rw [← hb4]
          exact hjb⟩))]
  have hAF : reify? (t.heap.length + 1 - 1 - 1) hF (rootLink A)
      = some A := by
    refine reify?_frame _ t.heap hF _ A hA0 ?_
    intro j hj
    rw [hunch j (Or.inl hj)]
  have hBF : reify? (t.heap.length + 1 - 1 - 1) hF (rootLink B)
      = some B := by
    refine reify?_frame _ t.heap hF _ B hB0 ?_
    intro j hj
    exact hagreeB j hj
  have hCF : reify? (t.heap.length + 1 - 1) hF (rootLink C)
      = some C := by
    refine reify?_frame _ t.heap hF _ C hC0 ?_
    intro j hj
    rw [hunch j (Or.inr (Or.inr hj))]
  have hrot := rotated_sub_reify hF n p c cp d dp A B C
    (t.heap.length + 1 - 1 - 1) (t.heap.length + 1 - 1 - 1)
    (t.heap.length + 1 - 1) hAF hBF hCF ndn' ndp' hgn hn1 hn2 hn3 hn4
    hgp hq1 hq2 hq3 hq4
  have hgraft := reify?_graft (t.heap.length + 1) t.heap hF t.root tr n
    _ _ (some p) _ hre hnd hS hrot
    (fun j nd hj hjS hg => by
      obtain ⟨nd', h1, h2, h3, h4, h5, _⟩ := hout j nd hj hjS hg
      exact ⟨nd', h1, h2, h3, h4, h5⟩)
  -- permutation of the rotated subtree's indices
  have hpermS : List.Perm
      (indicesI (ITree.node cp A p dp (ITree.node c B n d C)))
      (indicesI (ITree.node c (ITree.node cp A p dp B) n d C)) := by
    rw [indicesI, indicesI, indicesI, indicesI]
    refine List.Perm.trans (List.Perm.cons p List.perm_middle) ?_
    rw [List.cons_append]
    refine List.Perm.trans (List.Perm.swap n p _) ?_
    rw [List.append_assoc]
  have hndg : (indicesI (graftI tr n
      (ITree.node cp A p dp (ITree.node c B n d C)))).Nodup := by
    rw [hgXY _]
    have hperm2 : List.Perm
        (X ++ indicesI (ITree.node cp A p dp (ITree.node c B n d C)) ++ Y)
        (X ++ indicesI (ITree.node c (ITree.node cp A p dp B) n d C)
          ++ Y) :=
      (hpermS.append_left X).append_right Y
    exact hperm2.nodup_iff.mpr (hXY ▸ hnd)
  have hcan : reify? (hF.length + 1) hF (substL n (some p) t.root)
      = some (graftI tr n
        (ITree.node cp A p dp (ITree.node c B n d C))) :=
    reify?_canonical _ hF _ _ hgraft hndg
  rw [hlen] at hcan
  refine ⟨hcan, ?_, hndg, ?_⟩
  · -- parent coherence of the grafted tree
    refine parOkI_graft tr t.heap hF none n _ _ hpar hnd hS ?_ ?_
    · intro e0 hpS
      rw [parOkI, Bool.and_eq_true_iff, Bool.and_eq_true_iff] at hpS
      obtain ⟨⟨hh1, hh2⟩, hh3⟩ := hpS
      rw [parOkI, Bool.and_eq_true_iff, Bool.and_eq_true_iff] at hh2
      obtain ⟨⟨hh4, hh5⟩, hh6⟩ := hh2
      refine rotated_sub_parOk t.heap hF n p c cp d dp A B C e0 hndB
        hh5 hh6 hh3 ?_ ?_ ?_ hdisjAB hCB ?_
      · rw [parent!, hgp]
        simp only [Option.some_bind]
        rw [hq5]
        exact eq_of_beq hh1
      · rw [parent!, hgn]
        simp only [Option.some_bind]
        exact hn5
      · intro b2 hb2
        obtain ⟨ndb, ndb', _, hgbF', _, _, _, _, hpb⟩ := hgbF b2 hb2
        rw [parent!, hgbF']
        simp only [Option.some_bind]
        exact hpb
      · intro j hj hjb
        rcases hj with hj | hj | hj
        · rw [parent!, parent!, hunch j (Or.inl hj)]
        · rw [parent!, parent!, hunch j (Or.inr (Or.inl ⟨hj, hjb⟩))]
        · rw [parent!, parent!, hunch j (Or.inr (Or.inr hj))]
    · intro j hj hjS
      have hjsome : (hGet t.heap j).isSome = true :=
        reify?_mem_isSome _ t.heap t.root tr j hre hj
      cases hgj : hGet t.heap j with
      | none => rw [hgj] at hjsome; cases hjsome
      | some nd =>
        obtain ⟨nd', h1, _, _, _, _, h6⟩ := hout j nd hj hjS hgj
        rw [parent!, parent!, h1, hgj]
        simp only [Option.some_bind]
        exact h6
  · rw [hgAB2 _, hAB2]
    have : inorderNI (ITree.node cp A p dp (ITree.node c B n d C))
        = inorderNI (ITree.node c (ITree.node cp A p dp B) n d C) := by
      rw [inorderNI, inorderNI, inorderNI, inorderNI]
      simp [List.append_assoc]
    rw [this]

/-- Mirror of `rotate_finish_right` for a left rotation at `n` (right child
`p`): reassembling the final records yields the grafted rotated tree with
parents coherent, duplicate-free indices and unchanged in-order pairs. -/
theorem rotate_finish_left {α : Type} (t : RBTreeSet α) (hF : Heap α)
    (n p : Nat) (tr : ITree α)
    (c cp : Colour) (d dp : α) (A B C : ITree α)
    (hre : reify? (t.heap.length + 1) t.heap t.root = some tr)
    (hpar : parOkI t.heap none tr = true)
    (hnd : (indicesI tr).Nodup)
    (hS : subtreeAt tr n
      = some (ITree.node c A n d (ITree.node cp B p dp C)))
    (hlen : hF.length = t.heap.length)
    (hgnF : ∃ ndn', hGet hF n = some ndn' ∧ ndn'.colour = c
      ∧ ndn'.data = d ∧ ndn'.left = rootLink A ∧ ndn'.right = rootLink B
      ∧ ndn'.parent = some p)
    (hgpF : ∃ ndp', hGet hF p = some ndp' ∧ ndp'.colour = cp
      ∧ ndp'.data = dp ∧ ndp'.left = some n ∧ ndp'.right = rootLink C
      ∧ ndp'.parent = parent! t.heap n)
    (hgbF : ∀ b2, rootLink B = some b2 → ∃ ndb ndb',
      hGet t.heap b2 = some ndb ∧ hGet hF b2 = some ndb'
      ∧ ndb'.colour = ndb.colour ∧ ndb'.data = ndb.data
      ∧ ndb'.left = ndb.left ∧ ndb'.right = ndb.right
      ∧ ndb'.parent = some n)
    (hunch : ∀ j, (j ∈ indicesI A ∨ (j ∈ indicesI B
        ∧ ∀ b2, rootLink B = some b2 → j ≠ b2) ∨ j ∈ indicesI C) →
      hGet hF j = hGet t.heap j)
    (hout : ∀ j nd, j ∈ indicesI tr →
      j ∉ indicesI (ITree.node c A n d (ITree.node cp B p dp C)) →
      hGet t.heap j = some nd →
      ∃ nd', hGet hF j = some nd' ∧ nd'.colour = nd.colour
        ∧ nd'.data = nd.data ∧ nd'.left = substL n (some p) nd.left
        ∧ nd'.right = substL n (some p) nd.right
        ∧ nd'.parent = nd.parent) :
    reify? (t.heap.length + 1) hF (substL n (some p) t.root)
      = some (graftI tr n (ITree.node cp (ITree.node c A n d B) p dp C))
    ∧ parOkI hF none
        (graftI tr n (ITree.node cp (ITree.node c A n d B) p dp C)) = true
    ∧ (indicesI (graftI tr n
        (ITree.node cp (ITree.node c A n d B) p dp C))).Nodup
    ∧ inorderNI (graftI tr n (ITree.node cp (ITree.node c A n d B) p dp C))
      = inorderNI tr := by
  obtain ⟨ndn', hgn, hn1, hn2, hn3, hn4, hn5⟩ := hgnF
  obtain ⟨ndp', hgp, hq1, hq2, hq3, hq4, hq5⟩ := hgpF
  -- the old records and the children reifications in the old heap
  have hSre : reify? (t.heap.length + 1) t.heap (some n)
      = some (ITree.node c A n d (ITree.node cp B p dp C)) :=
    reify?_subtreeAt _ t.heap t.root tr n _ hre hS
  obtain ⟨ndn, hgn0, hcn0, hdn0, hn3o, hn4o, hAre, hRre⟩ :=
    reify?_record _ t.heap n _ _ _ _ hSre
  rw [rootLink] at hn4o
  have hPre : reify? (t.heap.length + 1 - 1) t.heap (some p)
      = some (ITree.node cp B p dp C) := by
    rw [← hn4o]
    exact hRre
  obtain ⟨ndp, hgp0, hcp0, hdp0, hq3o, hq4o, hBre, hCre⟩ :=
    reify?_record _ t.heap p _ _ _ _ hPre
  have hA0 : reify? (t.heap.length + 1 - 1) t.heap (rootLink A)
      = some A := by
    rw [← hn3o]
    exact hAre
  have hB0 : reify? (t.heap.length + 1 - 1 - 1) t.heap (rootLink B)
      = some B := by
    rw [← hq3o]
    exact hBre
  have hC0 : reify? (t.heap.length + 1 - 1 - 1) t.heap (rootLink C)
      = some C := by
    rw [← hq4o]
    exact hCre
  -- duplicate-freedom pieces of the subtree
  obtain ⟨⟨X, Y, hXY, hgXY⟩, ⟨Ai, Bi, hAB2, hgAB2⟩⟩ :=
    subtreeAt_split tr n _ hS hnd
  have hndS : (indicesI
      (ITree.node c A n d (ITree.node cp B p dp C))).Nodup := by
    have h1 : (X ++ indicesI (ITree.node c A n d (ITree.node cp B p dp C))
        ++ Y).Nodup := hXY ▸ hnd
    exact (h1.of_append_left).of_append_right
  rw [indicesI, indicesI] at hndS
  have hndS' := List.nodup_cons.mp hndS
  have hnrest := hndS'.1
  have hndAR := hndS'.2
  have hndA : (indicesI A).Nodup := hndAR.of_append_left
  have hndR : ((p :: (indicesI B ++ indicesI C))).Nodup :=
    hndAR.of_append_right
  have hdisjAR : ∀ a, a ∈ indicesI A →
      a ∉ p :: (indicesI B ++ indicesI C) :=
    fun a hal har => (List.disjoint_of_nodup_append hndAR) hal har
  have hndR' := List.nodup_cons.mp hndR
  have hndBC : (indicesI B ++ indicesI C).Nodup := hndR'.2
  have hndB : (indicesI B).Nodup := hndBC.of_append_left
  have hndC : (indicesI C).Nodup := hndBC.of_append_right
  have hAB : ∀ j, j ∈ indicesI A → j ∉ indicesI B :=
    fun j hj hjB => hdisjAR j hj (List.mem_cons_of_mem _
      (List.mem_append.mpr (Or.inl hjB)))
  have hCB : ∀ j, j ∈ indicesI C → j ∉ indicesI B :=
    fun j hjC hjB => (List.disjoint_of_nodup_append hndBC) hjB hjC
  -- children reify unchanged in the new heap
  have hagreeB : ∀ j, j ∈ indicesI B →
      (hGet hF j).map core = (hGet t.heap j).map core := by
    intro j hj
    cases hbB : rootLink B with
    | none =>
      rw [hunch j (Or.inr (Or.inl ⟨hj, fun b2 hb2 => by
        rw [hbB] at hb2; cases hb2⟩))]
    | some b2 =>
      by_cases hjb : j = b2
      · obtain ⟨ndb, ndb', hgb0, hgbF', hc2, hd2, hl2, hr2, _⟩ :=
          hgbF b2 hbB
        rw [hjb, hgb0, hgbF']
        simp only [Option.map_some']
        rw [core, core, hc2, hd2, hl2, hr2]
      · rw [hunch j (Or.inr (Or.inl ⟨hj, fun b3 hb3 => by
          rw [hbB] at hb3
          injection hb3 with hb4
          rw [← hb4]
          exact hjb⟩))]
  have hAF : reify? (t.heap.length + 1 - 1) hF (rootLink A)
      = some A := by
    refine reify?_frame _ t.heap hF _ A hA0 ?_
    intro j hj
    rw [hunch j (Or.inl hj)]
  have hBF : reify? (t.heap.length + 1 - 1 - 1) hF (rootLink B)
      = some B := by
    refine reify?_frame _ t.heap hF _ B hB0 ?_
    intro j hj
    exact hagreeB j hj
  have hCF : reify? (t.heap.length + 1 - 1 - 1) hF (rootLink C)
      = some C := by
    refine reify?_frame _ t.heap hF _ C hC0 ?_
    intro j hj
    rw [hunch j (Or.inr (Or.inr hj))]
  have hrot := rotated_sub_reify_left hF n p c cp d dp A B C
    (t.heap.length + 1 - 1) (t.heap.length + 1 - 1 - 1)
    (t.heap.length + 1 - 1 - 1) hAF hBF hCF ndn' ndp' hgn hn1 hn2 hn3 hn4
    hgp hq1 hq2 hq3 hq4
  have hgraft := reify?_graft (t.heap.length + 1) t.heap hF t.root tr n
    _ _ (some p) _ hre hnd hS hrot
    (fun j nd hj hjS hg => by
      obtain ⟨nd', h1, h2, h3, h4, h5, _⟩ := hout j nd hj hjS hg
      exact ⟨nd', h1, h2, h3, h4, h5⟩)
  -- permutation of the rotated subtree's indices
  have hpermS : List.Perm
      (indicesI (ITree.node cp (ITree.node c A n d B) p dp C))
      (indicesI (ITree.node c A n d (ITree.node cp B p dp C))) := by
    rw [indicesI, indicesI, indicesI, indicesI]
    rw [List.cons_append]
    refine List.Perm.trans (List.Perm.swap n p _) ?_
    refine List.Perm.cons n ?_
    rw [List.append_assoc]
    exact List.perm_middle.symm
  have hndg : (indicesI (graftI tr n
      (ITree.node cp (ITree.node c A n d B) p dp C))).Nodup := by
    rw [hgXY _]
    have hperm2 : List.Perm
        (X ++ indicesI (ITree.node cp (ITree.node c A n d B) p dp C) ++ Y)
        (X ++ indicesI (ITree.node c A n d (ITree.node cp B p dp C))
          ++ Y) :=
      (hpermS.append_left X).append_right Y
    exact hperm2.nodup_iff.mpr (hXY ▸ hnd)
  have hcan : reify? (hF.length + 1) hF (substL n (some p) t.root)
      = some (graftI tr n
        (ITree.node cp (ITree.node c A n d B) p dp C)) :=
    reify?_canonical _ hF _ _ hgraft hndg
  rw [hlen] at hcan
  refine ⟨hcan, ?_, hndg, ?_⟩
  · -- parent coherence of the grafted tree
    refine parOkI_graft tr t.heap hF none n _ _ hpar hnd hS ?_ ?_
    · intro e0 hpS
      rw [parOkI, Bool.and_eq_true_iff, Bool.and_eq_true_iff] at hpS
      obtain ⟨⟨hh1, hh2⟩, hh3⟩ := hpS
      rw [parOkI, Bool.and_eq_true_iff, Bool.and_eq_true_iff] at hh3
      obtain ⟨⟨hh4, hh5⟩, hh6⟩ := hh3
      refine rotated_sub_parOk_left t.heap hF n p c cp d dp A B C e0 hndB
        hh2 hh5 hh6 ?_ ?_ ?_ hAB hCB ?_
      · rw [parent!, hgp]
        simp only [Option.some_bind]
        rw [hq5]
        exact eq_of_beq hh1
      · rw [parent!, hgn]
        simp only [Option.some_bind]
        exact hn5
      · intro b2 hb2
        obtain ⟨ndb, ndb', _, hgbF', _, _, _, _, hpb⟩ := hgbF b2 hb2
        rw [parent!, hgbF']
        simp only [Option.some_bind]
        exact hpb
      · intro j hj hjb
        rcases hj with hj | hj | hj
        · rw [parent!, parent!, hunch j (Or.inl hj)]
        · rw [parent!, parent!, hunch j (Or.inr (Or.inl ⟨hj, hjb⟩))]
        · rw [parent!, parent!, hunch j (Or.inr (Or.inr hj))]
    · intro j hj hjS
      have hjsome : (hGet t.heap j).isSome = true :=
        reify?_mem_isSome _ t.heap t.root tr j hre hj
      cases hgj : hGet t.heap j with
      | none => rw [hgj] at hjsome; cases hjsome
      | some nd =>
        obtain ⟨nd', h1, _, _, _, _, h6⟩ := hout j nd hj hjS hgj
        rw [parent!, parent!, h1, hgj]
        simp only [Option.some_bind]
        exact h6
  · rw [hgAB2 _, hAB2]
    have : inorderNI (ITree.node cp (ITree.node c A n d B) p dp C)
        = inorderNI (ITree.node c A n d (ITree.node cp B p dp C)) := by
      rw [inorderNI, inorderNI, inorderNI, inorderNI]
      simp [List.append_assoc]
    rw [this]

theorem parent!_eq {α : Type} (h : Heap α) (i : Nat) (nd : NodeData α)
    (hg : hGet h i = some nd) : parent! h i = nd.parent := by
  simp only [parent!, hg, Option.some_bind]

theorem left!_eq {α : Type} (h : Heap α) (i : Nat) (nd : NodeData α)
    (hg : hGet h i = some nd) : left! h i = nd.left := by
  simp only [left!, hg, Option.some_bind]

theorem right!_eq {α : Type} (h : Heap α) (i : Nat) (nd : NodeData α)
    (hg : hGet h i = some nd) : right! h i = nd.right := by
  simp only [right!, hg, Option.some_bind]

/-- Distinctness facts carried by the duplicate-free index list of the
right-rotation subtree `node c (node cp A p dp B) n d C`. -/
theorem rotR_shape_facts {α : Type} (tr : ITree α) (n p : Nat)
    (c cp : Colour) (d dp : α) (A B C : ITree α)
    (hnd : (indicesI tr).Nodup)
    (hS : subtreeAt tr n
      = some (ITree.node c (ITree.node cp A p dp B) n d C)) :
    n ≠ p
    ∧ (n ∉ indicesI A ∧ n ∉ indicesI B ∧ n ∉ indicesI C)
    ∧ (p ∉ indicesI A ∧ p ∉ indicesI B ∧ p ∉ indicesI C)
    ∧ (∀ a, a ∈ indicesI A → a ∉ indicesI B)
    ∧ (∀ a, a ∈ indicesI B → a ∉ indicesI C)
    ∧ (∀ a, a ∈ indicesI A → a ∉ indicesI C) := by
  obtain ⟨⟨X, Y, hXY, _⟩, _⟩ := subtreeAt_split tr n _ hS hnd
  have hndS : (indicesI
      (ITree.node c (ITree.node cp A p dp B) n d C)).Nodup := by
    have h1 : (X ++ indicesI (ITree.node c (ITree.node cp A p dp B) n d C)
        ++ Y).Nodup := hXY ▸ hnd
    exact (h1.of_append_left).of_append_right
  rw [indicesI, indicesI] at hndS
  have hndS' := List.nodup_cons.mp hndS
  have hnL := hndS'.1
  have hndLC := hndS'.2
  have hndL : ((p :: (indicesI A ++ indicesI B))).Nodup :=
    hndLC.of_append_left
  have hdisjLC : ∀ a, a ∈ p :: (indicesI A ++ indicesI B) →
      a ∉ indicesI C :=
    fun a hal har => (List.disjoint_of_nodup_append hndLC) hal har
  have hndL' := List.nodup_cons.mp hndL
  have hdisjAB : ∀ a, a ∈ indicesI A → a ∉ indicesI B :=
    fun a hal har => (List.disjoint_of_nodup_append hndL'.2) hal har
  refine ⟨?_, ⟨?_, ?_, ?_⟩, ⟨?_, ?_, ?_⟩, hdisjAB, ?_, ?_⟩
  · intro he
    exact hnL (List.mem_append.mpr (Or.inl
      (by rw [he]; exact List.mem_cons_self _ _)))
  · intro hm
    exact hnL (List.mem_append.mpr (Or.inl (List.mem_cons_of_mem _
      (List.mem_append.mpr (Or.inl hm)))))
  · intro hm
    exact hnL (List.mem_append.mpr (Or.inl (List.mem_cons_of_mem _
      (List.mem_append.mpr (Or.inr hm)))))
  · intro hm
    exact hnL (List.mem_append.mpr (Or.inr hm))
  · intro hm
    exact hndL'.1 (List.mem_append.mpr (Or.inl hm))
  · intro hm
    exact hndL'.1 (List.mem_append.mpr (Or.inr hm))
  · exact hdisjLC p (List.mem_cons_self _ _)
  · intro a ha
    exact hdisjLC a (List.mem_cons_of_mem _
      (List.mem_append.mpr (Or.inr ha)))
  · intro a ha
    exact hdisjLC a (List.mem_cons_of_mem _
      (List.mem_append.mpr (Or.inl ha)))

/-- Membership of the participants in the right-rotation subtree's index
list. -/
theorem rotR_mem_facts {α : Type} (n p : Nat) (c cp : Colour) (d dp : α)
    (A B C : ITree α) :
    n ∈ indicesI (ITree.node c (ITree.node cp A p dp B) n d C)
    ∧ p ∈ indicesI (ITree.node c (ITree.node cp A p dp B) n d C)
    ∧ (∀ j, j ∈ indicesI A →
        j ∈ indicesI (ITree.node c (ITree.node cp A p dp B) n d C))
    ∧ (∀ j, j ∈ indicesI B →
        j ∈ indicesI (ITree.node c (ITree.node cp A p dp B) n d C))
    ∧ (∀ j, j ∈ indicesI C →
        j ∈ indicesI (ITree.node c (ITree.node cp A p dp B) n d C)) := by
  refine ⟨?_, ?_, ?_, ?_, ?_⟩
  · rw [indicesI]
    exact List.mem_cons_self _ _
  · rw [indicesI]
    refine List.mem_cons_of_mem _ (List.mem_append.mpr (Or.inl ?_))
    rw [indicesI]
    exact List.mem_cons_self _ _
  · intro j hj
    rw [indicesI]
    refine List.mem_cons_of_mem _ (List.mem_append.mpr (Or.inl ?_))
    rw [indicesI]
    exact List.mem_cons_of_mem _ (List.mem_append.mpr (Or.inl hj))
  · intro j hj
    rw [indicesI]
    refine List.mem_cons_of_mem _ (List.mem_append.mpr (Or.inl ?_))
    rw [indicesI]
    exact List.mem_cons_of_mem _ (List.mem_append.mpr (Or.inr hj))
  · intro j hj
    rw [indicesI]
    exact List.mem_cons_of_mem _ (List.mem_append.mpr (Or.inr hj))

/-- Final stretch of `rotate_right` when the rotated node is the tree's
root: the mid-heap record facts yield the full effect bundle. -/
theorem rotate_right_tail_root {α : Type} (t : RBTreeSet α) (hm : Heap α)
    (n p : Nat) (tr : ITree α) (c cp : Colour) (d dp : α)
    (A B C : ITree α) (tF : RBTreeSet α)
    (hre : reify? (t.heap.length + 1) t.heap t.root = some tr)
    (hpar : parOkI t.heap none tr = true)
    (hnd : (indicesI tr).Nodup)
    (hS : subtreeAt tr n
      = some (ITree.node c (ITree.node cp A p dp B) n d C))
    (hlenm : hm.length = t.heap.length)
    (hg4n : ∃ nd4, hGet hm n = some nd4 ∧ nd4.colour = c ∧ nd4.data = d
      ∧ nd4.left = rootLink B ∧ nd4.right = rootLink C
      ∧ nd4.parent = parent! t.heap n)
    (hg4p : ∃ nd4, hGet hm p = some nd4 ∧ nd4.colour = cp ∧ nd4.data = dp
      ∧ nd4.left = rootLink A ∧ nd4.right = some n
      ∧ nd4.parent = parent! t.heap n)
    (hg4b : ∀ b2, rootLink B = some b2 → ∃ ndb ndb',
      hGet t.heap b2 = some ndb ∧ hGet hm b2 = some ndb'
      ∧ ndb'.colour = ndb.colour ∧ ndb'.data = ndb.data
      ∧ ndb'.left = ndb.left ∧ ndb'.right = ndb.right
      ∧ ndb'.parent = some n)
    (hun4 : ∀ j, j ≠ n → j ≠ p →
      (∀ b2, rootLink B = some b2 → j ≠ b2) →
      hGet hm j = hGet t.heap j)
    (hrt : t.root = some n)
    (hStr : ITree.node c (ITree.node cp A p dp B) n d C = tr)
    (htF : tF = RBTreeSet.mk (set_parent hm n (some p)) (some p)
        t.length) :
    tF.heap.length = t.heap.length
    ∧ tF.root = substL n (some p) t.root
    ∧ tF.length = t.length
    ∧ reify? (t.heap.length + 1) tF.heap tF.root
      = some (graftI tr n (ITree.node cp A p dp (ITree.node c B n d C)))
    ∧ parOkI tF.heap none
        (graftI tr n (ITree.node cp A p dp (ITree.node c B n d C))) = true
    ∧ (indicesI (graftI tr n
        (ITree.node cp A p dp (ITree.node c B n d C)))).Nodup
    ∧ inorderNI (graftI tr n
        (ITree.node cp A p dp (ITree.node c B n d C))) = inorderNI tr := by
  subst htF
  obtain ⟨hnp, ⟨hnA, hnB, hnC⟩, ⟨hpA, hpB, hpC⟩, hdAB, hdBC, hdAC⟩ :=
    rotR_shape_facts tr n p c cp d dp A B C hnd hS
  have hpne : p ≠ n := fun he => hnp he.symm
  obtain ⟨nd4n, hgmn, ha1, ha2, ha3, ha4, ha5⟩ := hg4n
  obtain ⟨nd4p, hgmp, hb1, hb2, hb3, hb4, hb5⟩ := hg4p
  have hlenF : (set_parent hm n (some p)).length = t.heap.length := by
    rw [length_set_parent, hlenm]
  have hsub : substL n (some p) t.root = some p := by
    rw [hrt]
    simp [substL]
  have hfin := rotate_finish_right t (set_parent hm n (some p)) n p tr
    c cp d dp A B C hre hpar hnd hS hlenF
    ⟨{ nd4n with parent := some p },
      hGet_set_parent_self hm n (some p) nd4n hgmn, ha1, ha2, ha3, ha4,
      rfl⟩
    ⟨nd4p, by rw [hGet_set_parent_ne hm n (some p) p hpne]; exact hgmp,
      hb1, hb2, hb3, hb4, hb5⟩
    (fun b2 hb2' => by
      obtain ⟨ndb, ndb', hc1, hc2, hc3, hc4, hc5, hc6, hc7⟩ :=
        hg4b b2 hb2'
      have hb2n : b2 ≠ n :=
        fun he => hnB (by rw [← he]; exact rootLink_mem B b2 hb2')
      exact ⟨ndb, ndb', hc1,
        by rw [hGet_set_parent_ne hm n (some p) b2 hb2n]; exact hc2,
        hc3, hc4, hc5, hc6, hc7⟩)
    (fun j hj => by
      have hjn : j ≠ n := by
        rcases hj with hj | ⟨hj, _⟩ | hj
        · exact fun he => hnA (he ▸ hj)
        · exact fun he => hnB (he ▸ hj)
        · exact fun he => hnC (he ▸ hj)
      have hjp : j ≠ p := by
        rcases hj with hj | ⟨hj, _⟩ | hj
        · exact fun he => hpA (he ▸ hj)
        · exact fun he => hpB (he ▸ hj)
        · exact fun he => hpC (he ▸ hj)
      have hjb : ∀ b2, rootLink B = some b2 → j ≠ b2 := by
        intro b2 hb2' he
        have hb2B := rootLink_mem B b2 hb2'
        rcases hj with hj | ⟨hj, hjb2⟩ | hj
        · exact hdAB j hj (he ▸ hb2B)
        · exact hjb2 b2 hb2' he
        · exact hdBC b2 hb2B (he ▸ hj)
      rw [hGet_set_parent_ne hm n (some p) j hjn]
      exact hun4 j hjn hjp hjb)
    (fun j nd hj hjS hg => by
      rw [← hStr] at hj
      exact absurd hj hjS)
  obtain ⟨hf1, hf2, hf3, hf4⟩ := hfin
  rw [hsub] at hf1
  exact ⟨hlenF, by dsimp only; rw [hsub], rfl, hf1, hf2, hf3, hf4⟩

/-- Final stretch of `rotate_right` when the rotated node has a parent
`g`: the child slot of `g` is renamed from `n` to `p` and the effect
bundle follows. -/
theorem rotate_right_tail_g {α : Type} (t : RBTreeSet α) (hm : Heap α)
    (n p g : Nat) (ndg : NodeData α) (tr : ITree α) (c cp : Colour)
    (d dp : α) (A B C : ITree α) (tF : RBTreeSet α)
    (hre : reify? (t.heap.length + 1) t.heap t.root = some tr)
    (hpar : parOkI t.heap none tr = true)
    (hnd : (indicesI tr).Nodup)
    (hS : subtreeAt tr n
      = some (ITree.node c (ITree.node cp A p dp B) n d C))
    (hlenm : hm.length = t.heap.length)
    (hg4n : ∃ nd4, hGet hm n = some nd4 ∧ nd4.colour = c ∧ nd4.data = d
      ∧ nd4.left = rootLink B ∧ nd4.right = rootLink C
      ∧ nd4.parent = parent! t.heap n)
    (hg4p : ∃ nd4, hGet hm p = some nd4 ∧ nd4.colour = cp ∧ nd4.data = dp
      ∧ nd4.left = rootLink A ∧ nd4.right = some n
      ∧ nd4.parent = parent! t.heap n)
    (hg4b : ∀ b2, rootLink B = some b2 → ∃ ndb ndb',
      hGet t.heap b2 = some ndb ∧ hGet hm b2 = some ndb'
      ∧ ndb'.colour = ndb.colour ∧ ndb'.data = ndb.data
      ∧ ndb'.left = ndb.left ∧ ndb'.right = ndb.right
      ∧ ndb'.parent = some n)
    (hun4 : ∀ j, j ≠ n → j ≠ p →
      (∀ b2, rootLink B = some b2 → j ≠ b2) →
      hGet hm j = hGet t.heap j)
    (hgmem : g ∈ indicesI tr)
    (hgg : hGet t.heap g = some ndg)
    (hpn1 : parent! t.heap n = some g)
    (hgS : g ∉ indicesI (ITree.node c (ITree.node cp A p dp B) n d C))
    (hside : ndg.left = some n ∨ ndg.right = some n)
    (hboth : ¬(ndg.left = some n ∧ ndg.right = some n))
    (htF : tF = RBTreeSet.mk (set_parent
        (if is_left_child hm n then set_left hm g (some p)
         else set_right hm g (some p)) n (some p)) t.root t.length) :
    tF.heap.length = t.heap.length
    ∧ tF.root = substL n (some p) t.root
    ∧ tF.length = t.length
    ∧ reify? (t.heap.length + 1) tF.heap tF.root
      = some (graftI tr n (ITree.node cp A p dp (ITree.node c B n d C)))
    ∧ parOkI tF.heap none
        (graftI tr n (ITree.node cp A p dp (ITree.node c B n d C))) = true
    ∧ (indicesI (graftI tr n
        (ITree.node cp A p dp (ITree.node c B n d C)))).Nodup
    ∧ inorderNI (graftI tr n
        (ITree.node cp A p dp (ITree.node c B n d C))) = inorderNI tr := by
  subst htF
  obtain ⟨hnp, ⟨hnA, hnB, hnC⟩, ⟨hpA, hpB, hpC⟩, hdAB, hdBC, hdAC⟩ :=
    rotR_shape_facts tr n p c cp d dp A B C hnd hS
  obtain ⟨hmn, hmp, hmA, hmB, hmC⟩ := rotR_mem_facts n p c cp d dp A B C
  have hpne : p ≠ n := fun he => hnp he.symm
  have hgn : g ≠ n := fun he => hgS (by rw [he]; exact hmn)
  have hgp : g ≠ p := fun he => hgS (by rw [he]; exact hmp)
  have hng : n ≠ g := fun he => hgn he.symm
  have hpg : p ≠ g := fun he => hgp he.symm
  have hgb : ∀ b2, rootLink B = some b2 → g ≠ b2 :=
    fun b2 hb2 he => hgS (by rw [he]; exact hmB b2 (rootLink_mem B b2 hb2))
  obtain ⟨nd4n, hgmn, ha1, ha2, ha3, ha4, ha5⟩ := hg4n
  obtain ⟨nd4p, hgmp, hb1, hb2, hb3, hb4, hb5⟩ := hg4p
  have hgmg : hGet hm g = some ndg := by
    rw [hun4 g hgn hgp hgb]
    exact hgg
  have hilc : is_left_child hm n = (ndg.left == some n) := by
    rw [is_left_child, parent!_eq hm n nd4n hgmn, ha5, hpn1]
    simp only [Option.some_bind]
    rw [left!_eq hm g ndg hgmg]
  have hrne : t.root ≠ some n := by
    intro he
    rw [he] at hre
    obtain ⟨nd0, trl, trr, hg0', htr0, _, _⟩ :=
      reify?_some_node _ t.heap n tr hre
    rw [htr0, parOkI, Bool.and_eq_true_iff, Bool.and_eq_true_iff] at hpar
    have h2 := eq_of_beq hpar.1.1
    rw [hpn1] at h2
    cases h2
  have hsub : substL n (some p) t.root = t.root := by
    rw [substL, if_neg hrne]
  by_cases hgl : ndg.left = some n
  · have hilct : is_left_child hm n = true := by
      rw [hilc, hgl]
      exact beq_self_eq_true _
    rw [if_pos hilct]
    have hlenF : (set_parent (set_left hm g (some p)) n (some p)).length
        = t.heap.length := by
      rw [length_set_parent, length_set_left, hlenm]
    have h5n : hGet (set_left hm g (some p)) n = some nd4n := by
      rw [hGet_set_left_ne hm g (some p) n hng]
      exact hgmn
    have h5p : hGet (set_left hm g (some p)) p = some nd4p := by
      rw [hGet_set_left_ne hm g (some p) p hpg]
      exact hgmp
    have hfin := rotate_finish_right t
      (set_parent (set_left hm g (some p)) n (some p)) n p tr
      c cp d dp A B C hre hpar hnd hS hlenF
      ⟨{ nd4n with parent := some p },
        hGet_set_parent_self _ n (some p) nd4n h5n, ha1, ha2, ha3, ha4,
        rfl⟩
      ⟨nd4p, by rw [hGet_set_parent_ne _ n (some p) p hpne]; exact h5p,
        hb1, hb2, hb3, hb4, hb5⟩
      (fun b2 hb2' => by
        obtain ⟨ndb, ndb', hc1, hc2, hc3, hc4, hc5, hc6, hc7⟩ :=
          hg4b b2 hb2'
        have hb2B := rootLink_mem B b2 hb2'
        have hb2n : b2 ≠ n := fun he => hnB (he ▸ hb2B)
        have hb2g : b2 ≠ g := fun he => hgb b2 hb2' he.symm
        exact ⟨ndb, ndb', hc1, by
          rw [hGet_set_parent_ne _ n (some p) b2 hb2n,
            hGet_set_left_ne hm g (some p) b2 hb2g]
          exact hc2, hc3, hc4, hc5, hc6, hc7⟩)
      (fun j hj => by
        have hjn : j ≠ n := by
          rcases hj with hj | ⟨hj, _⟩ | hj
          · exact fun he => hnA (he ▸ hj)
          · exact fun he => hnB (he ▸ hj)
          · exact fun he => hnC (he ▸ hj)
        have hjp : j ≠ p := by
          rcases hj with hj | ⟨hj, _⟩ | hj
          · exact fun he => hpA (he ▸ hj)
          · exact fun he => hpB (he ▸ hj)
          · exact fun he => hpC (he ▸ hj)
        have hjb : ∀ b2, rootLink B = some b2 → j ≠ b2 := by
          intro b2 hb2' he
          have hb2B := rootLink_mem B b2 hb2'
          rcases hj with hj | ⟨hj, hjb2⟩ | hj
          · exact hdAB j hj (he ▸ hb2B)
          · exact hjb2 b2 hb2' he
          · exact hdBC b2 hb2B (he ▸ hj)
        have hjg : j ≠ g := by
          rcases hj with hj | ⟨hj, _⟩ | hj
          · exact fun he => hgS (by rw [← he]; exact hmA j hj)
          · exact fun he => hgS (by rw [← he]; exact hmB j hj)
          · exact fun he => hgS (by rw [← he]; exact hmC j hj)
        rw [hGet_set_parent_ne _ n (some p) j hjn,
          hGet_set_left_ne hm g (some p) j hjg]
        exact hun4 j hjn hjp hjb)
      (fun j nd hj hjS hg => by
        by_cases hjg : j = g
        · subst hjg
          rw [hgg] at hg
          have hndq := Option.some.inj hg
          have hnr : ndg.right ≠ some n := fun he => hboth ⟨hgl, he⟩
          refine ⟨{ ndg with left := some p }, ?_, ?_, ?_, ?_, ?_, ?_⟩
          · rw [hGet_set_parent_ne _ n (some p) j hgn]
            exact hGet_set_left_self hm j (some p) ndg hgmg
          · rw [← hndq]
          · rw [← hndq]
          · rw [← hndq, hgl, substL, if_pos rfl]
          · rw [← hndq, substL, if_neg hnr]
          · rw [← hndq]
        · have hjn : j ≠ n := fun he => hjS (by rw [he]; exact hmn)
          have hjp : j ≠ p := fun he => hjS (by rw [he]; exact hmp)
          have hjb2 : ∀ b2, rootLink B = some b2 → j ≠ b2 :=
            fun b2 hb2' he =>
              hjS (by rw [he]; exact hmB b2 (rootLink_mem B b2 hb2'))
          have hnl : nd.left ≠ some n := fun he =>
            hjg (link_unique (t.heap.length + 1) t.heap t.root tr hre hnd
              j g nd ndg n hj hgmem hg hgg (Or.inl he) hside)
          have hnr : nd.right ≠ some n := fun he =>
            hjg (link_unique (t.heap.length + 1) t.heap t.root tr hre hnd
              j g nd ndg n hj hgmem hg hgg (Or.inr he) hside)
          refine ⟨nd, ?_, rfl, rfl, ?_, ?_, rfl⟩
          · rw [hGet_set_parent_ne _ n (some p) j hjn,
              hGet_set_left_ne hm g (some p) j hjg,
              hun4 j hjn hjp hjb2]
            exact hg
          · rw [substL, if_neg hnl]
          · rw [substL, if_neg hnr])
    obtain ⟨hf1, hf2, hf3, hf4⟩ := hfin
    rw [hsub] at hf1
    exact ⟨hlenF, by dsimp only; rw [hsub], rfl, hf1, hf2, hf3, hf4⟩
  · have hgr : ndg.right = some n := hside.resolve_left hgl
    have hilcf : ¬ is_left_child hm n = true := by
      rw [hilc]
      intro hcontra
      exact hgl (eq_of_beq hcontra)
    rw [if_neg hilcf]
    have hlenF : (set_parent (set_right hm g (some p)) n (some p)).length
        = t.heap.length := by
      rw [length_set_parent, length_set_right, hlenm]
    have h5n : hGet (set_right hm g (some p)) n = some nd4n := by
      rw [hGet_set_right_ne hm g (some p) n hng]
      exact hgmn
    have h5p : hGet (set_right hm g (some p)) p = some nd4p := by
      rw [hGet_set_right_ne hm g (some p) p hpg]
      exact hgmp
    have hfin := rotate_finish_right t
      (set_parent (set_right hm g (some p)) n (some p)) n p tr
      c cp d dp A B C hre hpar hnd hS hlenF
      ⟨{ nd4n with parent := some p },
        hGet_set_parent_self _ n (some p) nd4n h5n, ha1, ha2, ha3, ha4,
        rfl⟩
      ⟨nd4p, by rw [hGet_set_parent_ne _ n (some p) p hpne]; exact h5p,
        hb1, hb2, hb3, hb4, hb5⟩
      (fun b2 hb2' => by
        obtain ⟨ndb, ndb', hc1, hc2, hc3, hc4, hc5, hc6, hc7⟩ :=
          hg4b b2 hb2'
        have hb2B := rootLink_mem B b2 hb2'
        have hb2n : b2 ≠ n := fun he => hnB (he ▸ hb2B)
        have hb2g : b2 ≠ g := fun he => hgb b2 hb2' he.symm
        exact ⟨ndb, ndb', hc1, by
          rw [hGet_set_parent_ne _ n (some p) b2 hb2n,
            hGet_set_right_ne hm g (some p) b2 hb2g]
          exact hc2, hc3, hc4, hc5, hc6, hc7⟩)
      (fun j hj => by
        have hjn : j ≠ n := by
          rcases hj with hj | ⟨hj, _⟩ | hj
          · exact fun he => hnA (he ▸ hj)
          · exact fun he => hnB (he ▸ hj)
          · exact fun he => hnC (he ▸ hj)
        have hjp : j ≠ p := by
          rcases hj with hj | ⟨hj, _⟩ | hj
          · exact fun he => hpA (he ▸ hj)
          · exact fun he => hpB (he ▸ hj)
          · exact fun he => hpC (he ▸ hj)
        have hjb : ∀ b2, rootLink B = some b2 → j ≠ b2 := by
          intro b2 hb2' he
          have hb2B := rootLink_mem B b2 hb2'
          rcases hj with hj | ⟨hj, hjb2⟩ | hj
          · exact hdAB j hj (he ▸ hb2B)
          · exact hjb2 b2 hb2' he
          · exact hdBC b2 hb2B (he ▸ hj)
        have hjg : j ≠ g := by
          rcases hj with hj | ⟨hj, _⟩ | hj
          · exact fun he => hgS (by rw [← he]; exact hmA j hj)
          · exact fun he => hgS (by rw [← he]; exact hmB j hj)
          · exact fun he => hgS (by rw [← he]; exact hmC j hj)
        rw [hGet_set_parent_ne _ n (some p) j hjn,
          hGet_set_right_ne hm g (some p) j hjg]
        exact hun4 j hjn hjp hjb)
      (fun j nd hj hjS hg => by
        by_cases hjg : j = g
        · subst hjg
          rw [hgg] at hg
          have hndq := Option.some.inj hg
          refine ⟨{ ndg with right := some p }, ?_, ?_, ?_, ?_, ?_, ?_⟩
          · rw [hGet_set_parent_ne _ n (some p) j hgn]
            exact hGet_set_right_self hm j (some p) ndg hgmg
          · rw [← hndq]
          · rw [← hndq]
          · rw [← hndq, substL, if_neg hgl]
          · rw [← hndq, hgr, substL, if_pos rfl]
          · rw [← hndq]
        · have hjn : j ≠ n := fun he => hjS (by rw [he]; exact hmn)
          have hjp : j ≠ p := fun he => hjS (by rw [he]; exact hmp)
          have hjb2 : ∀ b2, rootLink B = some b2 → j ≠ b2 :=
            fun b2 hb2' he =>
              hjS (by rw [he]; exact hmB b2 (rootLink_mem B b2 hb2'))
          have hnl : nd.left ≠ some n := fun he =>
            hjg (link_unique (t.heap.length + 1) t.heap t.root tr hre hnd
              j g nd ndg n hj hgmem hg hgg (Or.inl he) hside)
          have hnr : nd.right ≠ some n := fun he =>
            hjg (link_unique (t.heap.length + 1) t.heap t.root tr hre hnd
              j g nd ndg n hj hgmem hg hgg (Or.inr he) hside)
          refine ⟨nd, ?_, rfl, rfl, ?_, ?_, rfl⟩
          · rw [hGet_set_parent_ne _ n (some p) j hjn,
              hGet_set_right_ne hm g (some p) j hjg,
              hun4 j hjn hjp hjb2]
            exact hg
          · rw [substL, if_neg hnl]
          · rw [substL, if_neg hnr])
    obtain ⟨hf1, hf2, hf3, hf4⟩ := hfin
    rw [hsub] at hf1
    exact ⟨hlenF, by dsimp only; rw [hsub], rfl, hf1, hf2, hf3, hf4⟩

/-- tree.rs:123-141: full record-level effect of `rotate_right` at a node
`n` whose left child `p` exists in the reified view: the tree becomes the
rotation graft, the root link is renamed through `substL`, and length,
size, parent coherence, duplicate-freedom and the in-order sequence are
all preserved. -/
theorem rotate_right_effect {α : Type} (t : RBTreeSet α) (n p : Nat)
    (tr : ITree α) (c cp : Colour) (d dp : α) (A B C : ITree α)
    (hre : reify? (t.heap.length + 1) t.heap t.root = some tr)
    (hpar : parOkI t.heap none tr = true)
    (hnd : (indicesI tr).Nodup)
    (hS : subtreeAt tr n
      = some (ITree.node c (ITree.node cp A p dp B) n d C)) :
    (rotate_right t n).heap.length = t.heap.length
    ∧ (rotate_right t n).root = substL n (some p) t.root
    ∧ (rotate_right t n).length = t.length
    ∧ reify? (t.heap.length + 1) (rotate_right t n).heap
        (rotate_right t n).root
      = some (graftI tr n (ITree.node cp A p dp (ITree.node c B n d C)))
    ∧ parOkI (rotate_right t n).heap none
        (graftI tr n (ITree.node cp A p dp (ITree.node c B n d C))) = true
    ∧ (indicesI (graftI tr n
        (ITree.node cp A p dp (ITree.node c B n d C)))).Nodup
    ∧ inorderNI (graftI tr n
        (ITree.node cp A p dp (ITree.node c B n d C))) = inorderNI tr := by
  obtain ⟨hnp, ⟨hnA, hnB, hnC⟩, ⟨hpA, hpB, hpC⟩, hdAB, hdBC, hdAC⟩ :=
    rotR_shape_facts tr n p c cp d dp A B C hnd hS
  have hpne : p ≠ n := fun he => hnp he.symm
  have hSre : reify? (t.heap.length + 1) t.heap (some n)
      = some (ITree.node c (ITree.node cp A p dp B) n d C) :=
    reify?_subtreeAt _ t.heap t.root tr n _ hre hS
  obtain ⟨ndn, hgn0, hcn0, hdn0, hln0, hrn0, hLre, hCre⟩ :=
    reify?_record _ t.heap n _ _ _ _ hSre
  rw [rootLink] at hln0
  have hPre : reify? (t.heap.length + 1 - 1) t.heap (some p)
      = some (ITree.node cp A p dp B) := by
    rw [← hln0]
    exact hLre
  obtain ⟨ndp, hgp0, hcp0, hdp0, hlp0, hrp0, hAre, hBre⟩ :=
    reify?_record _ t.heap p _ _ _ _ hPre
  have hpn0 : parent! t.heap n = ndn.parent := parent!_eq t.heap n ndn hgn0
  have hleftn : left! t.heap n = some p := by
    rw [left!_eq t.heap n ndn hgn0]
    exact hln0
  have hrpB : right! t.heap p = rootLink B := by
    rw [right!_eq t.heap p ndp hgp0]
    exact hrp0
  have hr1p : right! (set_left t.heap n (rootLink B)) p = rootLink B := by
    rw [right!_eq _ p ndp (by
      rw [hGet_set_left_ne t.heap n (rootLink B) p hpne]
      exact hgp0)]
    exact hrp0
  rw [rotate_right, hleftn]
  dsimp only
  rw [hrpB, hr1p]
  cases hB : rootLink B with
  | none =>
    dsimp only
    set h1 := set_left t.heap n none with hh1
    set h3 := set_right h1 p (some n) with hh3
    set hm := set_parent h3 p (parent! h3 n) with hhm
    have hg1n : hGet h1 n = some { ndn with left := none } := by
      rw [hh1]
      exact hGet_set_left_self t.heap n none ndn hgn0
    have hg1p : hGet h1 p = some ndp := by
      rw [hh1, hGet_set_left_ne t.heap n none p hpne]
      exact hgp0
    have hg3n : hGet h3 n = some { ndn with left := none } := by
      rw [hh3, hGet_set_right_ne h1 p (some n) n hnp]
      exact hg1n
    have hg3p : hGet h3 p = some { ndp with right := some n } := by
      rw [hh3]
      exact hGet_set_right_self h1 p (some n) ndp hg1p
    have hp3n : parent! h3 n = ndn.parent :=
      parent!_eq h3 n { ndn with left := none } hg3n
    have hgmn : hGet hm n = some { ndn with left := none } := by
      rw [hhm, hGet_set_parent_ne h3 p (parent! h3 n) n hnp]
      exact hg3n
    have hgmp : hGet hm p
        = some { ndp with right := some n, parent := ndn.parent } := by
      rw [hhm, hp3n]
      exact hGet_set_parent_self h3 p ndn.parent _ hg3p
    have hlenm : hm.length = t.heap.length := by
      rw [hhm, length_set_parent, hh3, length_set_right, hh1,
        length_set_left]
    have hg4n : ∃ nd4, hGet hm n = some nd4 ∧ nd4.colour = c
        ∧ nd4.data = d ∧ nd4.left = rootLink B ∧ nd4.right = rootLink C
        ∧ nd4.parent = parent! t.heap n :=
      ⟨_, hgmn, hcn0, hdn0, by rw [hB], hrn0, by rw [hpn0]⟩
    have hg4p : ∃ nd4, hGet hm p = some nd4 ∧ nd4.colour = cp
        ∧ nd4.data = dp ∧ nd4.left = rootLink A ∧ nd4.right = some n
        ∧ nd4.parent = parent! t.heap n :=
      ⟨_, hgmp, hcp0, hdp0, hlp0, rfl, by rw [hpn0]⟩
    have hg4b : ∀ b2, rootLink B = some b2 → ∃ ndb ndb',
        hGet t.heap b2 = some ndb ∧ hGet hm b2 = some ndb'
        ∧ ndb'.colour = ndb.colour ∧ ndb'.data = ndb.data
        ∧ ndb'.left = ndb.left ∧ ndb'.right = ndb.right
        ∧ ndb'.parent = some n := by
      intro b2 hb2
      rw [hB] at hb2
      cases hb2
    have hun4 : ∀ j, j ≠ n → j ≠ p →
        (∀ b2, rootLink B = some b2 → j ≠ b2) →
        hGet hm j = hGet t.heap j := by
      intro j hjn hjp _
      rw [hhm, hGet_set_parent_ne h3 p (parent! h3 n) j hjp, hh3,
        hGet_set_right_ne h1 p (some n) j hjp, hh1,
        hGet_set_left_ne t.heap n none j hjn]
    have hpmp : parent! hm p = parent! t.heap n := by
      rw [parent!_eq hm p _ hgmp, hpn0]
    rcases subtreeAt_parent tr (t.heap.length + 1) t.heap none t.root n _
        hre hpar hnd hS with
      ⟨hrt, hpn1, hStr⟩ | ⟨g, ndg, hgmem, hgg, hpn1, hgS, hside, hboth⟩
    · rw [hpmp, hpn1]
      exact rotate_right_tail_root t hm n p tr c cp d dp A B C _ hre hpar
        hnd hS hlenm hg4n hg4p hg4b hun4 hrt hStr rfl
    · rw [hpmp, hpn1]
      exact rotate_right_tail_g t hm n p g ndg tr c cp d dp A B C _ hre
        hpar hnd hS hlenm hg4n hg4p hg4b hun4 hgmem hgg hpn1 hgS hside
        hboth rfl
  | some b2 =>
    dsimp only
    have hb2B : b2 ∈ indicesI B := rootLink_mem B b2 hB
    have hb2n : b2 ≠ n := fun he => hnB (he ▸ hb2B)
    have hb2p : b2 ≠ p := fun he => hpB (he ▸ hb2B)
    rw [hrp0, hB] at hBre
    obtain ⟨ndb, trbl, trbr, hgb0, htrb, hbl, hbr⟩ :=
      reify?_some_node _ t.heap b2 B hBre
    set h1 := set_left t.heap n (some b2) with hh1
    set h2 := set_parent h1 b2 (some n) with hh2
    set h3 := set_right h2 p (some n) with hh3
    set hm := set_parent h3 p (parent! h3 n) with hhm
    have hg1n : hGet h1 n = some { ndn with left := some b2 } := by
      rw [hh1]
      exact hGet_set_left_self t.heap n (some b2) ndn hgn0
    have hg1p : hGet h1 p = some ndp := by
      rw [hh1, hGet_set_left_ne t.heap n (some b2) p hpne]
      exact hgp0
    have hg1b : hGet h1 b2 = some ndb := by
      rw [hh1, hGet_set_left_ne t.heap n (some b2) b2 hb2n]
      exact hgb0
    have hg2n : hGet h2 n = some { ndn with left := some b2 } := by
      rw [hh2,
        hGet_set_parent_ne h1 b2 (some n) n (fun he => hb2n he.symm)]
      exact hg1n
    have hg2p : hGet h2 p = some ndp := by
      rw [hh2,
        hGet_set_parent_ne h1 b2 (some n) p (fun he => hb2p he.symm)]
      exact hg1p
    have hg2b : hGet h2 b2 = some { ndb with parent := some n } := by
      rw [hh2]
      exact hGet_set_parent_self h1 b2 (some n) ndb hg1b
    have hg3n : hGet h3 n = some { ndn with left := some b2 } := by
      rw [hh3, hGet_set_right_ne h2 p (some n) n hnp]
      exact hg2n
    have hg3p : hGet h3 p = some { ndp with right := some n } := by
      rw [hh3]
      exact hGet_set_right_self h2 p (some n) ndp hg2p
    have hg3b : hGet h3 b2 = some { ndb with parent := some n } := by
      rw [hh3, hGet_set_right_ne h2 p (some n) b2 hb2p]
      exact hg2b
    have hp3n : parent! h3 n = ndn.parent :=
      parent!_eq h3 n { ndn with left := some b2 } hg3n
    have hgmn : hGet hm n = some { ndn with left := some b2 } := by
      rw [hhm, hGet_set_parent_ne h3 p (parent! h3 n) n hnp]
      exact hg3n
    have hgmp : hGet hm p
        = some { ndp with right := some n, parent := ndn.parent } := by
      rw [hhm, hp3n]
      exact hGet_set_parent_self h3 p ndn.parent _ hg3p
    have hgmb : hGet hm b2 = some { ndb with parent := some n } := by
      rw [hhm, hGet_set_parent_ne h3 p (parent! h3 n) b2 hb2p]
      exact hg3b
    have hlenm : hm.length = t.heap.length := by
      rw [hhm, length_set_parent, hh3, length_set_right, hh2,
        length_set_parent, hh1, length_set_left]
    have hg4n : ∃ nd4, hGet hm n = some nd4 ∧ nd4.colour = c
        ∧ nd4.data = d ∧ nd4.left = rootLink B ∧ nd4.right = rootLink C
        ∧ nd4.parent = parent! t.heap n :=
      ⟨_, hgmn, hcn0, hdn0, by rw [hB], hrn0, by rw [hpn0]⟩
    have hg4p : ∃ nd4, hGet hm p = some nd4 ∧ nd4.colour = cp
        ∧ nd4.data = dp ∧ nd4.left = rootLink A ∧ nd4.right = some n
        ∧ nd4.parent = parent! t.heap n :=
      ⟨_, hgmp, hcp0, hdp0, hlp0, rfl, by rw [hpn0]⟩
    have hg4b : ∀ b2', rootLink B = some b2' → ∃ ndb0 ndb0',
        hGet t.heap b2' = some ndb0 ∧ hGet hm b2' = some ndb0'
        ∧ ndb0'.colour = ndb0.colour ∧ ndb0'.data = ndb0.data
        ∧ ndb0'.left = ndb0.left ∧ ndb0'.right = ndb0.right
        ∧ ndb0'.parent = some n := by
      intro b2' hb2'
      rw [hB] at hb2'
      injection hb2' with he
      rw [← he]
      exact ⟨ndb, { ndb with parent := some n }, hgb0, hgmb, rfl, rfl,
        rfl, rfl, rfl⟩
    have hun4 : ∀ j, j ≠ n → j ≠ p →
        (∀ b2', rootLink B = some b2' → j ≠ b2') →
        hGet hm j = hGet t.heap j := by
      intro j hjn hjp hjb
      have hjb2 : j ≠ b2 := hjb b2 hB
      rw [hhm, hGet_set_parent_ne h3 p (parent! h3 n) j hjp, hh3,
        hGet_set_right_ne h2 p (some n) j hjp, hh2,
        hGet_set_parent_ne h1 b2 (some n) j hjb2, hh1,
        hGet_set_left_ne t.heap n (some b2) j hjn]
    have hpmp : parent! hm p = parent! t.heap n := by
      rw [parent!_eq hm p _ hgmp, hpn0]
    rcases subtreeAt_parent tr (t.heap.length + 1) t.heap none t.root n _
        hre hpar hnd hS with
      ⟨hrt, hpn1, hStr⟩ | ⟨g, ndg, hgmem, hgg, hpn1, hgS, hside, hboth⟩
    · rw [hpmp, hpn1]
      exact rotate_right_tail_root t hm n p tr c cp d dp A B C _ hre hpar
        hnd hS hlenm hg4n hg4p hg4b hun4 hrt hStr rfl
    · rw [hpmp, hpn1]
      exact rotate_right_tail_g t hm n p g ndg tr c cp d dp A B C _ hre
        hpar hnd hS hlenm hg4n hg4p hg4b hun4 hgmem hgg hpn1 hgS hside
        hboth rfl

/-- Distinctness facts from the duplicate-free index list of the
left-rotation subtree `node c A n d (node cp B p dp C)`. -/
theorem rotL_shape_facts {α : Type} (tr : ITree α) (n p : Nat)
    (c cp : Colour) (d dp : α) (A B C : ITree α)
    (hnd : (indicesI tr).Nodup)
    (hS : subtreeAt tr n
      = some (ITree.node c A n d (ITree.node cp B p dp C))) :
    n ≠ p
    ∧ (n ∉ indicesI A ∧ n ∉ indicesI B ∧ n ∉ indicesI C)
    ∧ (p ∉ indicesI A ∧ p ∉ indicesI B ∧ p ∉ indicesI C)
    ∧ (∀ a, a ∈ indicesI A → a ∉ indicesI B)
    ∧ (∀ a, a ∈ indicesI B → a ∉ indicesI C)
    ∧ (∀ a, a ∈ indicesI A → a ∉ indicesI C) := by
  obtain ⟨⟨X, Y, hXY, _⟩, _⟩ := subtreeAt_split tr n _ hS hnd
  have hndS : (indicesI
      (ITree.node c A n d (ITree.node cp B p dp C))).Nodup := by
    have h1 : (X ++ indicesI (ITree.node c A n d (ITree.node cp B p dp C))
        ++ Y).Nodup := hXY ▸ hnd
    exact (h1.of_append_left).of_append_right
  rw [indicesI, indicesI] at hndS
  have hndS' := List.nodup_cons.mp hndS
  have hnL := hndS'.1
  have hndAR := hndS'.2
  have hdisjAR : ∀ a, a ∈ indicesI A →
      a ∉ p :: (indicesI B ++ indicesI C) :=
    fun a hal har => (List.disjoint_of_nodup_append hndAR) hal har
  have hndR : ((p :: (indicesI B ++ indicesI C))).Nodup :=
    hndAR.of_append_right
  have hndR' := List.nodup_cons.mp hndR
  have hdisjBC : ∀ a, a ∈ indicesI B → a ∉ indicesI C :=
    fun a hal har => (List.disjoint_of_nodup_append hndR'.2) hal har
  refine ⟨?_, ⟨?_, ?_, ?_⟩, ⟨?_, ?_, ?_⟩, ?_, hdisjBC, ?_⟩
  · intro he
    exact hnL (List.mem_append.mpr (Or.inr
      (by rw [he]; exact List.mem_cons_self _ _)))
  · intro hm
    exact hnL (List.mem_append.mpr (Or.inl hm))
  · intro hm
    exact hnL (List.mem_append.mpr (Or.inr (List.mem_cons_of_mem _
      (List.mem_append.mpr (Or.inl hm)))))
  · intro hm
    exact hnL (List.mem_append.mpr (Or.inr (List.mem_cons_of_mem _
      (List.mem_append.mpr (Or.inr hm)))))
  · intro hm
    exact hdisjAR p hm (List.mem_cons_self _ _)
  · intro hm
    exact hndR'.1 (List.mem_append.mpr (Or.inl hm))
  · intro hm
    exact hndR'.1 (List.mem_append.mpr (Or.inr hm))
  · intro a ha hb
    exact hdisjAR a ha (List.mem_cons_of_mem _
      (List.mem_append.mpr (Or.inl hb)))
  · intro a ha hb
    exact hdisjAR a ha (List.mem_cons_of_mem _
      (List.mem_append.mpr (Or.inr hb)))

/-- Membership of the participants in the left-rotation subtree's index
list. -/
theorem rotL_mem_facts {α : Type} (n p : Nat) (c cp : Colour) (d dp : α)
    (A B C : ITree α) :
    n ∈ indicesI (ITree.node c A n d (ITree.node cp B p dp C))
    ∧ p ∈ indicesI (ITree.node c A n d (ITree.node cp B p dp C))
    ∧ (∀ j, j ∈ indicesI A →
        j ∈ indicesI (ITree.node c A n d (ITree.node cp B p dp C)))
    ∧ (∀ j, j ∈ indicesI B →
        j ∈ indicesI (ITree.node c A n d (ITree.node cp B p dp C)))
    ∧ (∀ j, j ∈ indicesI C →
        j ∈ indicesI (ITree.node c A n d (ITree.node cp B p dp C))) := by
  refine ⟨?_, ?_, ?_, ?_, ?_⟩
  · rw [indicesI]
    exact List.mem_cons_self _ _
  · rw [indicesI]
    refine List.mem_cons_of_mem _ (List.mem_append.mpr (Or.inr ?_))
    rw [indicesI]
    exact List.mem_cons_self _ _
  · intro j hj
    rw [indicesI]
    exact List.mem_cons_of_mem _ (List.mem_append.mpr (Or.inl hj))
  · intro j hj
    rw [indicesI]
    refine List.mem_cons_of_mem _ (List.mem_append.mpr (Or.inr ?_))
    rw [indicesI]
    exact List.mem_cons_of_mem _ (List.mem_append.mpr (Or.inl hj))
  · intro j hj
    rw [indicesI]
    refine List.mem_cons_of_mem _ (List.mem_append.mpr (Or.inr ?_))
    rw [indicesI]
    exact List.mem_cons_of_mem _ (List.mem_append.mpr (Or.inr hj))

/-- Final stretch of `rotate_left` when the rotated node is the tree's
root. -/
theorem rotate_left_tail_root {α : Type} (t : RBTreeSet α) (hm : Heap α)
    (n p : Nat) (tr : ITree α) (c cp : Colour) (d dp : α)
    (A B C : ITree α) (tF : RBTreeSet α)
    (hre : reify? (t.heap.length + 1) t.heap t.root = some tr)
    (hpar : parOkI t.heap none tr = true)
    (hnd : (indicesI tr).Nodup)
    (hS : subtreeAt tr n
      = some (ITree.node c A n d (ITree.node cp B p dp C)))
    (hlenm : hm.length = t.heap.length)
    (hg4n : ∃ nd4, hGet hm n = some nd4 ∧ nd4.colour = c ∧ nd4.data = d
      ∧ nd4.left = rootLink A ∧ nd4.right = rootLink B
      ∧ nd4.parent = parent! t.heap n)
    (hg4p : ∃ nd4, hGet hm p = some nd4 ∧ nd4.colour = cp ∧ nd4.data = dp
      ∧ nd4.left = some n ∧ nd4.right = rootLink C
      ∧ nd4.parent = parent! t.heap n)
    (hg4b : ∀ b2, rootLink B = some b2 → ∃ ndb ndb',
      hGet t.heap b2 = some ndb ∧ hGet hm b2 = some ndb'
      ∧ ndb'.colour = ndb.colour ∧ ndb'.data = ndb.data
      ∧ ndb'.left = ndb.left ∧ ndb'.right = ndb.right
      ∧ ndb'.parent = some n)
    (hun4 : ∀ j, j ≠ n → j ≠ p →
      (∀ b2, rootLink B = some b2 → j ≠ b2) →
      hGet hm j = hGet t.heap j)
    (hrt : t.root = some n)
    (hStr : ITree.node c A n d (ITree.node cp B p dp C) = tr)
    (htF : tF = RBTreeSet.mk (set_parent hm n (some p)) (some p)
        t.length) :
    tF.heap.length = t.heap.length
    ∧ tF.root = substL n (some p) t.root
    ∧ tF.length = t.length
    ∧ reify? (t.heap.length + 1) tF.heap tF.root
      = some (graftI tr n (ITree.node cp (ITree.node c A n d B) p dp C))
    ∧ parOkI tF.heap none
        (graftI tr n (ITree.node cp (ITree.node c A n d B) p dp C)) = true
    ∧ (indicesI (graftI tr n
        (ITree.node cp (ITree.node c A n d B) p dp C))).Nodup
    ∧ inorderNI (graftI tr n
        (ITree.node cp (ITree.node c A n d B) p dp C)) = inorderNI tr := by
  subst htF
  obtain ⟨hnp, ⟨hnA, hnB, hnC⟩, ⟨hpA, hpB, hpC⟩, hdAB, hdBC, hdAC⟩ :=
    rotL_shape_facts tr n p c cp d dp A B C hnd hS
  have hpne : p ≠ n := fun he => hnp he.symm
  obtain ⟨nd4n, hgmn, ha1, ha2, ha3, ha4, ha5⟩ := hg4n
  obtain ⟨nd4p, hgmp, hb1, hb2, hb3, hb4, hb5⟩ := hg4p
  have hlenF : (set_parent hm n (some p)).length = t.heap.length := by
    rw [length_set_parent, hlenm]
  have hsub : substL n (some p) t.root = some p := by
    rw [hrt]
    simp [substL]
  have hfin := rotate_finish_left t (set_parent hm n (some p)) n p tr
    c cp d dp A B C hre hpar hnd hS hlenF
    ⟨{ nd4n with parent := some p },
      hGet_set_parent_self hm n (some p) nd4n hgmn, ha1, ha2, ha3, ha4,
      rfl⟩
    ⟨nd4p, by rw [hGet_set_parent_ne hm n (some p) p hpne]; exact hgmp,
      hb1, hb2, hb3, hb4, hb5⟩
    (fun b2 hb2' => by
      obtain ⟨ndb, ndb', hc1, hc2, hc3, hc4, hc5, hc6, hc7⟩ :=
        hg4b b2 hb2'
      have hb2n : b2 ≠ n :=
        fun he => hnB (by rw [← he]; exact rootLink_mem B b2 hb2')
      exact ⟨ndb, ndb', hc1,
        by rw [hGet_set_parent_ne hm n (some p) b2 hb2n]; exact hc2,
        hc3, hc4, hc5, hc6, hc7⟩)
    (fun j hj => by
      have hjn : j ≠ n := by
        rcases hj with hj | ⟨hj, _⟩ | hj
        · exact fun he => hnA (he ▸ hj)
        · exact fun he => hnB (he ▸ hj)
        · exact fun he => hnC (he ▸ hj)
      have hjp : j ≠ p := by
        rcases hj with hj | ⟨hj, _⟩ | hj
        · exact fun he => hpA (he ▸ hj)
        · exact fun he => hpB (he ▸ hj)
        · exact fun he => hpC (he ▸ hj)
      have hjb : ∀ b2, rootLink B = some b2 → j ≠ b2 := by
        intro b2 hb2' he
        have hb2B := rootLink_mem B b2 hb2'
        rcases hj with hj | ⟨hj, hjb2⟩ | hj
        · exact hdAB j hj (he ▸ hb2B)
        · exact hjb2 b2 hb2' he
        · exact hdBC b2 hb2B (he ▸ hj)
      rw [hGet_set_parent_ne hm n (some p) j hjn]
      exact hun4 j hjn hjp hjb)
    (fun j nd hj hjS hg => by
      rw [← hStr] at hj
      exact absurd hj hjS)
  obtain ⟨hf1, hf2, hf3, hf4⟩ := hfin
  rw [hsub] at hf1
  exact ⟨hlenF, by dsimp only; rw [hsub], rfl, hf1, hf2, hf3, hf4⟩

/-- Final stretch of `rotate_left` when the rotated node has a parent
`g`. -/
theorem rotate_left_tail_g {α : Type} (t : RBTreeSet α) (hm : Heap α)
    (n p g : Nat) (ndg : NodeData α) (tr : ITree α) (c cp : Colour)
    (d dp : α) (A B C : ITree α) (tF : RBTreeSet α)
    (hre : reify? (t.heap.length + 1) t.heap t.root = some tr)
    (hpar : parOkI t.heap none tr = true)
    (hnd : (indicesI tr).Nodup)
    (hS : subtreeAt tr n
      = some (ITree.node c A n d (ITree.node cp B p dp C)))
    (hlenm : hm.length = t.heap.length)
    (hg4n : ∃ nd4, hGet hm n = some nd4 ∧ nd4.colour = c ∧ nd4.data = d
      ∧ nd4.left = rootLink A ∧ nd4.right = rootLink B
      ∧ nd4.parent = parent! t.heap n)
    (hg4p : ∃ nd4, hGet hm p = some nd4 ∧ nd4.colour = cp ∧ nd4.data = dp
      ∧ nd4.left = some n ∧ nd4.right = rootLink C
      ∧ nd4.parent = parent! t.heap n)
    (hg4b : ∀ b2, rootLink B = some b2 → ∃ ndb ndb',
      hGet t.heap b2 = some ndb ∧ hGet hm b2 = some ndb'
      ∧ ndb'.colour = ndb.colour ∧ ndb'.data = ndb.data
      ∧ ndb'.left = ndb.left ∧ ndb'.right = ndb.right
      ∧ ndb'.parent = some n)
    (hun4 : ∀ j, j ≠ n → j ≠ p →
      (∀ b2, rootLink B = some b2 → j ≠ b2) →
      hGet hm j = hGet t.heap j)
    (hgmem : g ∈ indicesI tr)
    (hgg : hGet t.heap g = some ndg)
    (hpn1 : parent! t.heap n = some g)
    (hgS : g ∉ indicesI (ITree.node c A n d (ITree.node cp B p dp C)))
    (hside : ndg.left = some n ∨ ndg.right = some n)
    (hboth : ¬(ndg.left = some n ∧ ndg.right = some n))
    (htF : tF = RBTreeSet.mk (set_parent
        (if is_left_child hm n then set_left hm g (some p)
         else set_right hm g (some p)) n (some p)) t.root t.length) :
    tF.heap.length = t.heap.length
    ∧ tF.root = substL n (some p) t.root
    ∧ tF.length = t.length
    ∧ reify? (t.heap.length + 1) tF.heap tF.root
      = some (graftI tr n (ITree.node cp (ITree.node c A n d B) p dp C))
    ∧ parOkI tF.heap none
        (graftI tr n (ITree.node cp (ITree.node c A n d B) p dp C)) = true
    ∧ (indicesI (graftI tr n
        (ITree.node cp (ITree.node c A n d B) p dp C))).Nodup
    ∧ inorderNI (graftI tr n
        (ITree.node cp (ITree.node c A n d B) p dp C)) = inorderNI tr := by
  subst htF
  obtain ⟨hnp, ⟨hnA, hnB, hnC⟩, ⟨hpA, hpB, hpC⟩, hdAB, hdBC, hdAC⟩ :=
    rotL_shape_facts tr n p c cp d dp A B C hnd hS
  obtain ⟨hmn, hmp, hmA, hmB, hmC⟩ := rotL_mem_facts n p c cp d dp A B C
  have hpne : p ≠ n := fun he => hnp he.symm
  have hgn : g ≠ n := fun he => hgS (by rw [he]; exact hmn)
  have hgp : g ≠ p := fun he => hgS (by rw [he]; exact hmp)
  have hng : n ≠ g := fun he => hgn he.symm
  have hpg : p ≠ g := fun he => hgp he.symm
  have hgb : ∀ b2, rootLink B = some b2 → g ≠ b2 :=
    fun b2 hb2 he => hgS (by rw [he]; exact hmB b2 (rootLink_mem B b2 hb2))
  obtain ⟨nd4n, hgmn, ha1, ha2, ha3, ha4, ha5⟩ := hg4n
  obtain ⟨nd4p, hgmp, hb1, hb2, hb3, hb4, hb5⟩ := hg4p
  have hgmg : hGet hm g = some ndg := by
    rw [hun4 g hgn hgp hgb]
    exact hgg
  have hilc : is_left_child hm n = (ndg.left == some n) := by
    rw [is_left_child, parent!_eq hm n nd4n hgmn, ha5, hpn1]
    simp only [Option.some_bind]
    rw [left!_eq hm g ndg hgmg]
  have hrne : t.root ≠ some n := by
    intro he
    rw [he] at hre
    obtain ⟨nd0, trl, trr, hg0', htr0, _, _⟩ :=
      reify?_some_node _ t.heap n tr hre
    rw [htr0, parOkI, Bool.and_eq_true_iff, Bool.and_eq_true_iff] at hpar
    have h2 := eq_of_beq hpar.1.1
    rw [hpn1] at h2
    cases h2
  have hsub : substL n (some p) t.root = t.root := by
    rw [substL, if_neg hrne]
  by_cases hgl : ndg.left = some n
  · have hilct : is_left_child hm n = true := by
      rw [hilc, hgl]
      exact beq_self_eq_true _
    rw [if_pos hilct]
    have hlenF : (set_parent (set_left hm g (some p)) n (some p)).length
        = t.heap.length := by
      rw [length_set_parent, length_set_left, hlenm]
    have h5n : hGet (set_left hm g (some p)) n = some nd4n := by
      rw [hGet_set_left_ne hm g (some p) n hng]
      exact hgmn
    have h5p : hGet (set_left hm g (some p)) p = some nd4p := by
      rw [hGet_set_left_ne hm g (some p) p hpg]
      exact hgmp
    have hfin := rotate_finish_left t
      (set_parent (set_left hm g (some p)) n (some p)) n p tr
      c cp d dp A B C hre hpar hnd hS hlenF
      ⟨{ nd4n with parent := some p },
        hGet_set_parent_self _ n (some p) nd4n h5n, ha1, ha2, ha3, ha4,
        rfl⟩
      ⟨nd4p, by rw [hGet_set_parent_ne _ n (some p) p hpne]; exact h5p,
        hb1, hb2, hb3, hb4, hb5⟩
      (fun b2 hb2' => by
        obtain ⟨ndb, ndb', hc1, hc2, hc3, hc4, hc5, hc6, hc7⟩ :=
          hg4b b2 hb2'
        have hb2B := rootLink_mem B b2 hb2'
        have hb2n : b2 ≠ n := fun he => hnB (he ▸ hb2B)
        have hb2g : b2 ≠ g := fun he => hgb b2 hb2' he.symm
        exact ⟨ndb, ndb', hc1, by
          rw [hGet_set_parent_ne _ n (some p) b2 hb2n,
            hGet_set_left_ne hm g (some p) b2 hb2g]
          exact hc2, hc3, hc4, hc5, hc6, hc7⟩)
      (fun j hj => by
        have hjn : j ≠ n := by
          rcases hj with hj | ⟨hj, _⟩ | hj
          · exact fun he => hnA (he ▸ hj)
          · exact fun he => hnB (he ▸ hj)
          · exact fun he => hnC (he ▸ hj)
        have hjp : j ≠ p := by
          rcases hj with hj | ⟨hj, _⟩ | hj
          · exact fun he => hpA (he ▸ hj)
          · exact fun he => hpB (he ▸ hj)
          · exact fun he => hpC (he ▸ hj)
        have hjb : ∀ b2, rootLink B = some b2 → j ≠ b2 := by
          intro b2 hb2' he
          have hb2B := rootLink_mem B b2 hb2'
          rcases hj with hj | ⟨hj, hjb2⟩ | hj
          · exact hdAB j hj (he ▸ hb2B)
          · exact hjb2 b2 hb2' he
          · exact hdBC b2 hb2B (he ▸ hj)
        have hjg : j ≠ g := by
          rcases hj with hj | ⟨hj, _⟩ | hj
          · exact fun he => hgS (by rw [← he]; exact hmA j hj)
          · exact fun he => hgS (by rw [← he]; exact hmB j hj)
          · exact fun he => hgS (by rw [← he]; exact hmC j hj)
        rw [hGet_set_parent_ne _ n (some p) j hjn,
          hGet_set_left_ne hm g (some p) j hjg]
        exact hun4 j hjn hjp hjb)
      (fun j nd hj hjS hg => by
        by_cases hjg : j = g
        · subst hjg
          rw [hgg] at hg
          have hndq := Option.some.inj hg
          have hnr : ndg.right ≠ some n := fun he => hboth ⟨hgl, he⟩
          refine ⟨{ ndg with left := some p }, ?_, ?_, ?_, ?_, ?_, ?_⟩
          · rw [hGet_set_parent_ne _ n (some p) j hgn]
            exact hGet_set_left_self hm j (some p) ndg hgmg
          · rw [← hndq]
          · rw [← hndq]
          · rw [← hndq, hgl, substL, if_pos rfl]
          · rw [← hndq, substL, if_neg hnr]
          · rw [← hndq]
        · have hjn : j ≠ n := fun he => hjS (by rw [he]; exact hmn)
          have hjp : j ≠ p := fun he => hjS (by rw [he]; exact hmp)
          have hjb2 : ∀ b2, rootLink B = some b2 → j ≠ b2 :=
            fun b2 hb2' he =>
              hjS (by rw [he]; exact hmB b2 (rootLink_mem B b2 hb2'))
          have hnl : nd.left ≠ some n := fun he =>
            hjg (link_unique (t.heap.length + 1) t.heap t.root tr hre hnd
              j g nd ndg n hj hgmem hg hgg (Or.inl he) hside)
          have hnr : nd.right ≠ some n := fun he =>
            hjg (link_unique (t.heap.length + 1) t.heap t.root tr hre hnd
              j g nd ndg n hj hgmem hg hgg (Or.inr he) hside)
          refine ⟨nd, ?_, rfl, rfl, ?_, ?_, rfl⟩
          · rw [hGet_set_parent_ne _ n (some p) j hjn,
              hGet_set_left_ne hm g (some p) j hjg,
              hun4 j hjn hjp hjb2]
            exact hg
          · rw [substL, if_neg hnl]
          · rw [substL, if_neg hnr])
    obtain ⟨hf1, hf2, hf3, hf4⟩ := hfin
    rw [hsub] at hf1
    exact ⟨hlenF, by dsimp only; rw [hsub], rfl, hf1, hf2, hf3, hf4⟩
  · have hgr : ndg.right = some n := hside.resolve_left hgl
    have hilcf : ¬ is_left_child hm n = true := by
      rw [hilc]
      intro hcontra
      exact hgl (eq_of_beq hcontra)
    rw [if_neg hilcf]
    have hlenF : (set_parent (set_right hm g (some p)) n (some p)).length
        = t.heap.length := by
      rw [length_set_parent, length_set_right, hlenm]
    have h5n : hGet (set_right hm g (some p)) n = some nd4n := by
      rw [hGet_set_right_ne hm g (some p) n hng]
      exact hgmn
    have h5p : hGet (set_right hm g (some p)) p = some nd4p := by
      rw [hGet_set_right_ne hm g (some p) p hpg]
      exact hgmp
    have hfin := rotate_finish_left t
      (set_parent (set_right hm g (some p)) n (some p)) n p tr
      c cp d dp A B C hre hpar hnd hS hlenF
      ⟨{ nd4n with parent := some p },
        hGet_set_parent_self _ n (some p) nd4n h5n, ha1, ha2, ha3, ha4,
        rfl⟩
      ⟨nd4p, by rw [hGet_set_parent_ne _ n (some p) p hpne]; exact h5p,
        hb1, hb2, hb3, hb4, hb5⟩
      (fun b2 hb2' => by
        obtain ⟨ndb, ndb', hc1, hc2, hc3, hc4, hc5, hc6, hc7⟩ :=
          hg4b b2 hb2'
        have hb2B := rootLink_mem B b2 hb2'
        have hb2n : b2 ≠ n := fun he => hnB (he ▸ hb2B)
        have hb2g : b2 ≠ g := fun he => hgb b2 hb2' he.symm
        exact ⟨ndb, ndb', hc1, by
          rw [hGet_set_parent_ne _ n (some p) b2 hb2n,
            hGet_set_right_ne hm g (some p) b2 hb2g]
          exact hc2, hc3, hc4, hc5, hc6, hc7⟩)
      (fun j hj => by
        have hjn : j ≠ n := by
          rcases hj with hj | ⟨hj, _⟩ | hj
          · exact fun he => hnA (he ▸ hj)
          · exact fun he => hnB (he ▸ hj)
          · exact fun he => hnC (he ▸ hj)
        have hjp : j ≠ p := by
          rcases hj with hj | ⟨hj, _⟩ | hj
          · exact fun he => hpA (he ▸ hj)
          · exact fun he => hpB (he ▸ hj)
          · exact fun he => hpC (he ▸ hj)
        have hjb : ∀ b2, rootLink B = some b2 → j ≠ b2 := by
          intro b2 hb2' he
          have hb2B := rootLink_mem B b2 hb2'
          rcases hj with hj | ⟨hj, hjb2⟩ | hj
          · exact hdAB j hj (he ▸ hb2B)
          · exact hjb2 b2 hb2' he
          · exact hdBC b2 hb2B (he ▸ hj)
        have hjg : j ≠ g := by
          rcases hj with hj | ⟨hj, _⟩ | hj
          · exact fun he => hgS (by rw [← he]; exact hmA j hj)
          · exact fun he => hgS (by rw [← he]; exact hmB j hj)
          · exact fun he => hgS (by rw [← he]; exact hmC j hj)
        rw [hGet_set_parent_ne _ n (some p) j hjn,
          hGet_set_right_ne hm g (some p) j hjg]
        exact hun4 j hjn hjp hjb)
      (fun j nd hj hjS hg => by
        by_cases hjg : j = g
        · subst hjg
          rw [hgg] at hg
          have hndq := Option.some.inj hg
          refine ⟨{ ndg with right := some p }, ?_, ?_, ?_, ?_, ?_, ?_⟩
          · rw [hGet_set_parent_ne _ n (some p) j hgn]
            exact hGet_set_right_self hm j (some p) ndg hgmg
          · rw [← hndq]
          · rw [← hndq]
          · rw [← hndq, substL, if_neg hgl]
          · rw [← hndq, hgr, substL, if_pos rfl]
          · rw [← hndq]
        · have hjn : j ≠ n := fun he => hjS (by rw [he]; exact hmn)
          have hjp : j ≠ p := fun he => hjS (by rw [he]; exact hmp)
          have hjb2 : ∀ b2, rootLink B = some b2 → j ≠ b2 :=
            fun b2 hb2' he =>
              hjS (by rw [he]; exact hmB b2 (rootLink_mem B b2 hb2'))
          have hnl : nd.left ≠ some n := fun he =>
            hjg (link_unique (t.heap.length + 1) t.heap t.root tr hre hnd
              j g nd ndg n hj hgmem hg hgg (Or.inl he) hside)
          have hnr : nd.right ≠ some n := fun he =>
            hjg (link_unique (t.heap.length + 1) t.heap t.root tr hre hnd
              j g nd ndg n hj hgmem hg hgg (Or.inr he) hside)
          refine ⟨nd, ?_, rfl, rfl, ?_, ?_, rfl⟩
          · rw [hGet_set_parent_ne _ n (some p) j hjn,
              hGet_set_right_ne hm g (some p) j hjg,
              hun4 j hjn hjp hjb2]
            exact hg
          · rw [substL, if_neg hnl]
          · rw [substL, if_neg hnr])
    obtain ⟨hf1, hf2, hf3, hf4⟩ := hfin
    rw [hsub] at hf1
    exact ⟨hlenF, by dsimp only; rw [hsub], rfl, hf1, hf2, hf3, hf4⟩

/-- tree.rs:143-161: full record-level effect of `rotate_left` at a node
`n` whose right child `p` exists in the reified view. -/
theorem rotate_left_effect {α : Type} (t : RBTreeSet α) (n p : Nat)
    (tr : ITree α) (c cp : Colour) (d dp : α) (A B C : ITree α)
    (hre : reify? (t.heap.length + 1) t.heap t.root = some tr)
    (hpar : parOkI t.heap none tr = true)
    (hnd : (indicesI tr).Nodup)
    (hS : subtreeAt tr n
      = some (ITree.node c A n d (ITree.node cp B p dp C))) :
    (rotate_left t n).heap.length = t.heap.length
    ∧ (rotate_left t n).root = substL n (some p) t.root
    ∧ (rotate_left t n).length = t.length
    ∧ reify? (t.heap.length + 1) (rotate_left t n).heap
        (rotate_left t n).root
      = some (graftI tr n (ITree.node cp (ITree.node c A n d B) p dp C))
    ∧ parOkI (rotate_left t n).heap none
        (graftI tr n (ITree.node cp (ITree.node c A n d B) p dp C)) = true
    ∧ (indicesI (graftI tr n
        (ITree.node cp (ITree.node c A n d B) p dp C))).Nodup
    ∧ inorderNI (graftI tr n
        (ITree.node cp (ITree.node c A n d B) p dp C)) = inorderNI tr := by
  obtain ⟨hnp, ⟨hnA, hnB, hnC⟩, ⟨hpA, hpB, hpC⟩, hdAB, hdBC, hdAC⟩ :=
    rotL_shape_facts tr n p c cp d dp A B C hnd hS
  have hpne : p ≠ n := fun he => hnp he.symm
  have hSre : reify? (t.heap.length + 1) t.heap (some n)
      = some (ITree.node c A n d (ITree.node cp B p dp C)) :=
    reify?_subtreeAt _ t.heap t.root tr n _ hre hS
  obtain ⟨ndn, hgn0, hcn0, hdn0, hln0, hrn0, hAre, hRre⟩ :=
    reify?_record _ t.heap n _ _ _ _ hSre
  rw [rootLink] at hrn0
  have hPre : reify? (t.heap.length + 1 - 1) t.heap (some p)
      = some (ITree.node cp B p dp C) := by
    rw [← hrn0]
    exact hRre
  obtain ⟨ndp, hgp0, hcp0, hdp0, hlp0, hrp0, hBre, hCre⟩ :=
    reify?_record _ t.heap p _ _ _ _ hPre
  have hpn0 : parent! t.heap n = ndn.parent := parent!_eq t.heap n ndn hgn0
  have hrightn : right! t.heap n = some p := by
    rw [right!_eq t.heap n ndn hgn0]
    exact hrn0
  have hlpB : left! t.heap p = rootLink B := by
    rw [left!_eq t.heap p ndp hgp0]
    exact hlp0
  have hl1p : left! (set_right t.heap n (rootLink B)) p = rootLink B := by
    rw [left!_eq _ p ndp (by
      rw [hGet_set_right_ne t.heap n (rootLink B) p hpne]
      exact hgp0)]
    exact hlp0
  rw [rotate_left, hrightn]
  dsimp only
  rw [hlpB, hl1p]
  cases hB : rootLink B with
  | none =>
    dsimp only
    set h1 := set_right t.heap n none with hh1
    set h3 := set_left h1 p (some n) with hh3
    set hm := set_parent h3 p (parent! h3 n) with hhm
    have hg1n : hGet h1 n = some { ndn with right := none } := by
      rw [hh1]
      exact hGet_set_right_self t.heap n none ndn hgn0
    have hg1p : hGet h1 p = some ndp := by
      rw [hh1, hGet_set_right_ne t.heap n none p hpne]
      exact hgp0
    have hg3n : hGet h3 n = some { ndn with right := none } := by
      rw [hh3, hGet_set_left_ne h1 p (some n) n hnp]
      exact hg1n
    have hg3p : hGet h3 p = some { ndp with left := some n } := by
      rw [hh3]
      exact hGet_set_left_self h1 p (some n) ndp hg1p
    have hp3n : parent! h3 n = ndn.parent :=
      parent!_eq h3 n { ndn with right := none } hg3n
    have hgmn : hGet hm n = some { ndn with right := none } := by
      rw [hhm, hGet_set_parent_ne h3 p (parent! h3 n) n hnp]
      exact hg3n
    have hgmp : hGet hm p
        = some { ndp with left := some n, parent := ndn.parent } := by
      rw [hhm, hp3n]
      exact hGet_set_parent_self h3 p ndn.parent _ hg3p
    have hlenm : hm.length = t.heap.length := by
      rw [hhm, length_set_parent, hh3, length_set_left, hh1,
        length_set_right]
    have hg4n : ∃ nd4, hGet hm n = some nd4 ∧ nd4.colour = c
        ∧ nd4.data = d ∧ nd4.left = rootLink A ∧ nd4.right = rootLink B
        ∧ nd4.parent = parent! t.heap n :=
      ⟨_, hgmn, hcn0, hdn0, hln0, by rw [hB], by rw [hpn0]⟩
    have hg4p : ∃ nd4, hGet hm p = some nd4 ∧ nd4.colour = cp
        ∧ nd4.data = dp ∧ nd4.left = some n ∧ nd4.right = rootLink C
        ∧ nd4.parent = parent! t.heap n :=
      ⟨_, hgmp, hcp0, hdp0, rfl, hrp0, by rw [hpn0]⟩
    have hg4b : ∀ b2, rootLink B = some b2 → ∃ ndb ndb',
        hGet t.heap b2 = some ndb ∧ hGet hm b2 = some ndb'
        ∧ ndb'.colour = ndb.colour ∧ ndb'.data = ndb.data
        ∧ ndb'.left = ndb.left ∧ ndb'.right = ndb.right
        ∧ ndb'.parent = some n := by
      intro b2 hb2
      rw [hB] at hb2
      cases hb2
    have hun4 : ∀ j, j ≠ n → j ≠ p →
        (∀ b2, rootLink B = some b2 → j ≠ b2) →
        hGet hm j = hGet t.heap j := by
      intro j hjn hjp _
      rw [hhm, hGet_set_parent_ne h3 p (parent! h3 n) j hjp, hh3,
        hGet_set_left_ne h1 p (some n) j hjp, hh1,
        hGet_set_right_ne t.heap n none j hjn]
    have hpmp : parent! hm p = parent! t.heap n := by
      rw [parent!_eq hm p _ hgmp, hpn0]
    rcases subtreeAt_parent tr (t.heap.length + 1) t.heap none t.root n _
        hre hpar hnd hS with
      ⟨hrt, hpn1, hStr⟩ | ⟨g, ndg, hgmem, hgg, hpn1, hgS, hside, hboth⟩
    · rw [hpmp, hpn1]
      exact rotate_left_tail_root t hm n p tr c cp d dp A B C _ hre hpar
        hnd hS hlenm hg4n hg4p hg4b hun4 hrt hStr rfl
    · rw [hpmp, hpn1]
      exact rotate_left_tail_g t hm n p g ndg tr c cp d dp A B C _ hre
        hpar hnd hS hlenm hg4n hg4p hg4b hun4 hgmem hgg hpn1 hgS hside
        hboth rfl
  | some b2 =>
    dsimp only
    have hb2B : b2 ∈ indicesI B := rootLink_mem B b2 hB
    have hb2n : b2 ≠ n := fun he => hnB (he ▸ hb2B)
    have hb2p : b2 ≠ p := fun he => hpB (he ▸ hb2B)
    rw [hlp0, hB] at hBre
    obtain ⟨ndb, trbl, trbr, hgb0, htrb, hbl, hbr⟩ :=
      reify?_some_node _ t.heap b2 B hBre
    set h1 := set_right t.heap n (some b2) with hh1
    set h2 := set_parent h1 b2 (some n) with hh2
    set h3 := set_left h2 p (some n) with hh3
    set hm := set_parent h3 p (parent! h3 n) with hhm
    have hg1n : hGet h1 n = some { ndn with right := some b2 } := by
      rw [hh1]
      exact hGet_set_right_self t.heap n (some b2) ndn hgn0
    have hg1p : hGet h1 p = some ndp := by
      rw [hh1, hGet_set_right_ne t.heap n (some b2) p hpne]
      exact hgp0
    have hg1b : hGet h1 b2 = some ndb := by
      rw [hh1, hGet_set_right_ne t.heap n (some b2) b2 hb2n]
      exact hgb0
    have hg2n : hGet h2 n = some { ndn with right := some b2 } := by
      rw [hh2,
        hGet_set_parent_ne h1 b2 (some n) n (fun he => hb2n he.symm)]
      exact hg1n
    have hg2p : hGet h2 p = some ndp := by
      rw [hh2,
        hGet_set_parent_ne h1 b2 (some n) p (fun he => hb2p he.symm)]
      exact hg1p
    have hg2b : hGet h2 b2 = some { ndb with parent := some n } := by
      rw [hh2]
      exact hGet_set_parent_self h1 b2 (some n) ndb hg1b
    have hg3n : hGet h3 n = some { ndn with right := some b2 } := by
      rw [hh3, hGet_set_left_ne h2 p (some n) n hnp]
      exact hg2n
    have hg3p : hGet h3 p = some { ndp with left := some n } := by
      rw [hh3]
      exact hGet_set_left_self h2 p (some n) ndp hg2p
    have hg3b : hGet h3 b2 = some { ndb with parent := some n } := by
      rw [hh3, hGet_set_left_ne h2 p (some n) b2 hb2p]
      exact hg2b
    have hp3n : parent! h3 n = ndn.parent :=
      parent!_eq h3 n { ndn with right := some b2 } hg3n
    have hgmn : hGet hm n = some { ndn with right := some b2 } := by
      rw [hhm, hGet_set_parent_ne h3 p (parent! h3 n) n hnp]
      exact hg3n
    have hgmp : hGet hm p
        = some { ndp with left := some n, parent := ndn.parent } := by
      rw [hhm, hp3n]
      exact hGet_set_parent_self h3 p ndn.parent _ hg3p
    have hgmb : hGet hm b2 = some { ndb with parent := some n } := by
      rw [hhm, hGet_set_parent_ne h3 p (parent! h3 n) b2 hb2p]
      exact hg3b
    have hlenm : hm.length = t.heap.length := by
      rw [hhm, length_set_parent, hh3, length_set_left, hh2,
        length_set_parent, hh1, length_set_right]
    have hg4n : ∃ nd4, hGet hm n = some nd4 ∧ nd4.colour = c
        ∧ nd4.data = d ∧ nd4.left = rootLink A ∧ nd4.right = rootLink B
        ∧ nd4.parent = parent! t.heap n :=
      ⟨_, hgmn, hcn0, hdn0, hln0, by rw [hB], by rw [hpn0]⟩
    have hg4p : ∃ nd4, hGet hm p = some nd4 ∧ nd4.colour = cp
        ∧ nd4.data = dp ∧ nd4.left = some n ∧ nd4.right = rootLink C
        ∧ nd4.parent = parent! t.heap n :=
      ⟨_, hgmp, hcp0, hdp0, rfl, hrp0, by rw [hpn0]⟩
    have hg4b : ∀ b2', rootLink B = some b2' → ∃ ndb0 ndb0',
        hGet t.heap b2' = some ndb0 ∧ hGet hm b2' = some ndb0'
        ∧ ndb0'.colour = ndb0.colour ∧ ndb0'.data = ndb0.data
        ∧ ndb0'.left = ndb0.left ∧ ndb0'.right = ndb0.right
        ∧ ndb0'.parent = some n := by
      intro b2' hb2'
      rw [hB] at hb2'
      injection hb2' with he
      rw [← he]
      exact ⟨ndb, { ndb with parent := some n }, hgb0, hgmb, rfl, rfl,
        rfl, rfl, rfl⟩
    have hun4 : ∀ j, j ≠ n → j ≠ p →
        (∀ b2', rootLink B = some b2' → j ≠ b2') →
        hGet hm j = hGet t.heap j := by
      intro j hjn hjp hjb
      have hjb2 : j ≠ b2 := hjb b2 hB
      rw [hhm, hGet_set_parent_ne h3 p (parent! h3 n) j hjp, hh3,
        hGet_set_left_ne h2 p (some n) j hjp, hh2,
        hGet_set_parent_ne h1 b2 (some n) j hjb2, hh1,
        hGet_set_right_ne t.heap n (some b2) j hjn]
    have hpmp : parent! hm p = parent! t.heap n := by
      rw [parent!_eq hm p _ hgmp, hpn0]
    rcases subtreeAt_parent tr (t.heap.length + 1) t.heap none t.root n _
        hre hpar hnd hS with
      ⟨hrt, hpn1, hStr⟩ | ⟨g, ndg, hgmem, hgg, hpn1, hgS, hside, hboth⟩
    · rw [hpmp, hpn1]
      exact rotate_left_tail_root t hm n p tr c cp d dp A B C _ hre hpar
        hnd hS hlenm hg4n hg4p hg4b hun4 hrt hStr rfl
    · rw [hpmp, hpn1]
      exact rotate_left_tail_g t hm n p g ndg tr c cp d dp A B C _ hre
        hpar hnd hS hlenm hg4n hg4p hg4b hun4 hgmem hgg hpn1 hgS hside
        hboth rfl

theorem recolourI_not_mem {α : Type} :
    ∀ (tr : ITree α) (n : Nat) (c' : Colour), n ∉ indicesI tr →
      recolourI tr n c' = tr := by
  intro tr
  induction tr with
  | leaf => intro n c' _; rfl
  | node c l i d r ihl ihr =>
    intro n c' hn
    rw [indicesI] at hn
    rw [recolourI,
      if_neg (fun he => hn (List.mem_cons.mpr (Or.inl he.symm)))]
    rw [ihl n c' (fun hm =>
      hn (List.mem_cons_of_mem _ (List.mem_append.mpr (Or.inl hm))))]
    rw [ihr n c' (fun hm =>
      hn (List.mem_cons_of_mem _ (List.mem_append.mpr (Or.inr hm))))]

theorem setDataI_not_mem {α : Type} :
    ∀ (tr : ITree α) (n : Nat) (d' : α), n ∉ indicesI tr →
      setDataI tr n d' = tr := by
  intro tr
  induction tr with
  | leaf => intro n d' _; rfl
  | node c l i d r ihl ihr =>
    intro n d' hn
    rw [indicesI] at hn
    rw [setDataI,
      if_neg (fun he => hn (List.mem_cons.mpr (Or.inl he.symm)))]
    rw [ihl n d' (fun hm =>
      hn (List.mem_cons_of_mem _ (List.mem_append.mpr (Or.inl hm))))]
    rw [ihr n d' (fun hm =>
      hn (List.mem_cons_of_mem _ (List.mem_append.mpr (Or.inr hm))))]

theorem indicesI_recolourI {α : Type} :
    ∀ (tr : ITree α) (n : Nat) (c' : Colour),
      indicesI (recolourI tr n c') = indicesI tr := by
  intro tr
  induction tr with
  | leaf => intro n c'; rfl
  | node c l i d r ihl ihr =>
    intro n c'
    rw [recolourI]
    by_cases hin : i = n
    · rw [if_pos hin, indicesI, indicesI]
    · rw [if_neg hin, indicesI, indicesI, ihl, ihr]

theorem indicesI_setDataI {α : Type} :
    ∀ (tr : ITree α) (n : Nat) (d' : α),
      indicesI (setDataI tr n d') = indicesI tr := by
  intro tr
  induction tr with
  | leaf => intro n d'; rfl
  | node c l i d r ihl ihr =>
    intro n d'
    rw [setDataI]
    by_cases hin : i = n
    · rw [if_pos hin, indicesI, indicesI]
    · rw [if_neg hin, indicesI, indicesI, ihl, ihr]

theorem inorderNI_recolourI {α : Type} :
    ∀ (tr : ITree α) (n : Nat) (c' : Colour),
      inorderNI (recolourI tr n c') = inorderNI tr := by
  intro tr
  induction tr with
  | leaf => intro n c'; rfl
  | node c l i d r ihl ihr =>
    intro n c'
    rw [recolourI]
    by_cases hin : i = n
    · rw [if_pos hin, inorderNI, inorderNI]
    · rw [if_neg hin, inorderNI, inorderNI, ihl, ihr]

theorem reify?_set_colour {α : Type} :
    ∀ (fuel : Nat) (h : Heap α) (rt : Option Nat) (tr : ITree α)
      (n : Nat) (c' : Colour), reify? fuel h rt = some tr →
      (indicesI tr).Nodup →
      reify? fuel (set_colour h n c') rt = some (recolourI tr n c') := by
  intro fuel
  induction fuel with
  | zero =>
    intro h rt tr n c' hre _
    cases rt with
    | none => cases hre; rfl
    | some i => cases hre
  | succ fuel ih =>
    intro h rt tr n c' hre hnd
    cases rt with
    | none => cases hre; rfl
    | some i =>
      obtain ⟨nd, trl, trr, hg, htr, hL, hR⟩ :=
        reify?_some_node (fuel + 1) h i tr hre
      subst htr
      rw [indicesI] at hnd
      have hnd' := List.nodup_cons.mp hnd
      have hndl : (indicesI trl).Nodup := hnd'.2.of_append_left
      have hndr : (indicesI trr).Nodup := hnd'.2.of_append_right
      by_cases hin : i = n
      · have hgn : hGet h n = some nd := hin ▸ hg
        rw [reify?, hin, hGet_set_colour_self h n c' nd hgn]
        dsimp only
        have hLf : reify? fuel (set_colour h n c') nd.left = some trl := by
          refine reify?_frame fuel h (set_colour h n c') nd.left trl hL ?_
          intro j hj
          have hjn : j ≠ n := fun he =>
            hnd'.1 (List.mem_append.mpr (Or.inl ((hin.symm ▸ he) ▸ hj)))
          rw [hGet_set_colour_ne h n c' j hjn]
        have hRf : reify? fuel (set_colour h n c') nd.right
            = some trr := by
          refine reify?_frame fuel h (set_colour h n c') nd.right trr hR ?_
          intro j hj
          have hjn : j ≠ n := fun he =>
            hnd'.1 (List.mem_append.mpr (Or.inr ((hin.symm ▸ he) ▸ hj)))
          rw [hGet_set_colour_ne h n c' j hjn]
        rw [hLf, hRf]
        dsimp only
        rw [recolourI, if_pos rfl]
      · rw [reify?, hGet_set_colour_ne h n c' i (fun he => hin he), hg]
        dsimp only
        rw [ih h nd.left trl n c' hL hndl, ih h nd.right trr n c' hR hndr]
        dsimp only
        rw [recolourI, if_neg hin]

theorem reify?_set_data {α : Type} :
    ∀ (fuel : Nat) (h : Heap α) (rt : Option Nat) (tr : ITree α)
      (n : Nat) (d' : α), reify? fuel h rt = some tr →
      (indicesI tr).Nodup →
      reify? fuel (set_data h n d') rt = some (setDataI tr n d') := by
  intro fuel
  induction fuel with
  | zero =>
    intro h rt tr n d' hre _
    cases rt with
    | none => cases hre; rfl
    | some i => cases hre
  | succ fuel ih =>
    intro h rt tr n d' hre hnd
    cases rt with
    | none => cases hre; rfl
    | some i =>
      obtain ⟨nd, trl, trr, hg, htr, hL, hR⟩ :=
        reify?_some_node (fuel + 1) h i tr hre
      subst htr
      rw [indicesI] at hnd
      have hnd' := List.nodup_cons.mp hnd
      have hndl : (indicesI trl).Nodup := hnd'.2.of_append_left
      have hndr : (indicesI trr).Nodup := hnd'.2.of_append_right
      by_cases hin : i = n
      · have hgn : hGet h n = some nd := hin ▸ hg
        rw [reify?, hin, hGet_set_data_self h n d' nd hgn]
        dsimp only
        have hLf : reify? fuel (set_data h n d') nd.left = some trl := by
          refine reify?_frame fuel h (set_data h n d') nd.left trl hL ?_
          intro j hj
          have hjn : j ≠ n := fun he =>
            hnd'.1 (List.mem_append.mpr (Or.inl ((hin.symm ▸ he) ▸ hj)))
          rw [hGet_set_data_ne h n d' j hjn]
        have hRf : reify? fuel (set_data h n d') nd.right
            = some trr := by
          refine reify?_frame fuel h (set_data h n d') nd.right trr hR ?_
          intro j hj
          have hjn : j ≠ n := fun he =>
            hnd'.1 (List.mem_append.mpr (Or.inr ((hin.symm ▸ he) ▸ hj)))
          rw [hGet_set_data_ne h n d' j hjn]
        rw [hLf, hRf]
        dsimp only
        rw [setDataI, if_pos rfl]
      · rw [reify?, hGet_set_data_ne h n d' i (fun he => hin he), hg]
        dsimp only
        rw [ih h nd.left trl n d' hL hndl, ih h nd.right trr n d' hR hndr]
        dsimp only
        rw [setDataI, if_neg hin]

theorem parOkI_recolourI {α : Type} :
    ∀ (tr : ITree α) (h : Heap α) (e : Option Nat) (n : Nat) (c' : Colour),
      parOkI h e (recolourI tr n c') = parOkI h e tr := by
  intro tr
  induction tr with
  | leaf => intro h e n c'; rfl
  | node c l i d r ihl ihr =>
    intro h e n c'
    rw [recolourI]
    by_cases hin : i = n
    · rw [if_pos hin, parOkI, parOkI]
    · rw [if_neg hin, parOkI, parOkI, ihl, ihr]

theorem parOkI_setDataI {α : Type} :
    ∀ (tr : ITree α) (h : Heap α) (e : Option Nat) (n : Nat) (d' : α),
      parOkI h e (setDataI tr n d') = parOkI h e tr := by
  intro tr
  induction tr with
  | leaf => intro h e n d'; rfl
  | node c l i d r ihl ihr =>
    intro h e n d'
    rw [setDataI]
    by_cases hin : i = n
    · rw [if_pos hin, parOkI, parOkI]
    · rw [if_neg hin, parOkI, parOkI, ihl, ihr]

/-- `set_colour` keeps the view well-formed: it recolours one node of the
view, preserving in-order pairs, indices, root and lengths. -/
theorem set_colour_view {α : Type} (t : RBTreeSet α) (tr : ITree α)
    (i : Nat) (c' : Colour) (hv : viewOK t tr) :
    viewOK { t with heap := set_colour t.heap i c' } (recolourI tr i c') := by
  obtain ⟨hre, hpar, hnd⟩ := hv
  refine ⟨?_, ?_, ?_⟩
  · show reify? ((set_colour t.heap i c').length + 1) (set_colour t.heap i c')
      t.root = some (recolourI tr i c')
    rw [length_set_colour]
    exact reify?_set_colour _ t.heap t.root tr i c' hre hnd
  · show parOkI (set_colour t.heap i c') none (recolourI tr i c') = true
    rw [parOkI_recolourI]
    refine parOkI_frame tr t.heap (set_colour t.heap i c') none hpar ?_
    intro j _
    rw [parent_set_colour]
  · show (indicesI (recolourI tr i c')).Nodup
    rw [indicesI_recolourI]
    exact hnd

/-- `set_data` keeps the view well-formed, overwriting one payload. -/
theorem set_data_view {α : Type} (t : RBTreeSet α) (tr : ITree α)
    (i : Nat) (d' : α) (hv : viewOK t tr) :
    viewOK { t with heap := set_data t.heap i d' } (setDataI tr i d') := by
  obtain ⟨hre, hpar, hnd⟩ := hv
  refine ⟨?_, ?_, ?_⟩
  · show reify? ((set_data t.heap i d').length + 1) (set_data t.heap i d')
      t.root = some (setDataI tr i d')
    rw [length_set_data]
    exact reify?_set_data _ t.heap t.root tr i d' hre hnd
  · show parOkI (set_data t.heap i d') none (setDataI tr i d') = true
    rw [parOkI_setDataI]
    refine parOkI_frame tr t.heap (set_data t.heap i d') none hpar ?_
    intro j _
    rw [parent_set_data]
  · show (indicesI (setDataI tr i d')).Nodup
    rw [indicesI_setDataI]
    exact hnd

theorem subtreeAt_mem_of_some {α : Type} (tr : ITree α) (j : Nat)
    (S : ITree α) (hS : subtreeAt tr j = some S) : j ∈ indicesI tr := by
  obtain ⟨c, l, d, r, hsh⟩ := subtreeAt_root tr j S hS
  refine subtreeAt_indices_sub tr j S hS j ?_
  rw [hsh, indicesI]
  exact List.mem_cons_self _ _

theorem subtreeAt_inner {α : Type} :
    ∀ (tr : ITree α) (n : Nat) (S : ITree α), (indicesI tr).Nodup →
      subtreeAt tr n = some S → ∀ j, j ∈ indicesI S →
      subtreeAt tr j = subtreeAt S j := by
  intro tr
  induction tr with
  | leaf => intro n S _ hS; cases hS
  | node c l i d r ihl ihr =>
    intro n S hnd hS j hj
    rw [indicesI] at hnd
    have hnd' := List.nodup_cons.mp hnd
    have hndl : (indicesI l).Nodup := hnd'.2.of_append_left
    have hndr : (indicesI r).Nodup := hnd'.2.of_append_right
    have hdisj : ∀ a, a ∈ indicesI l → a ∉ indicesI r :=
      fun a hal har => (List.disjoint_of_nodup_append hnd'.2) hal har
    rw [subtreeAt] at hS
    by_cases hin : i = n
    · rw [if_pos hin] at hS
      injection hS with hS2
      subst hS2
      rfl
    · rw [if_neg hin] at hS
      cases hl : subtreeAt l n with
      | some sl =>
        rw [hl] at hS
        injection hS with hS2
        rw [hS2] at hl
        have hjl : j ∈ indicesI l := subtreeAt_indices_sub l n S hl j hj
        have hij : i ≠ j := fun he =>
          hnd'.1 (List.mem_append.mpr (Or.inl (he ▸ hjl)))
        rw [subtreeAt, if_neg hij]
        have hrec := ihl n S hndl hl j hj
        have hsome : (subtreeAt S j).isSome = true :=
          subtreeAt_isSome_of_mem S j hj
        cases hSj : subtreeAt S j with
        | none => rw [hSj] at hsome; cases hsome
        | some SJ =>
          rw [hSj] at hrec
          rw [hrec]
      | none =>
        rw [hl] at hS
        have hjr : j ∈ indicesI r := subtreeAt_indices_sub r n S hS j hj
        have hij : i ≠ j := fun he =>
          hnd'.1 (List.mem_append.mpr (Or.inr (he ▸ hjr)))
        rw [subtreeAt, if_neg hij]
        have hjl : j ∉ indicesI l := fun hm => hdisj j hm hjr
        have hln : subtreeAt l j = none := by
          cases hlj : subtreeAt l j with
          | none => rfl
          | some SJ => exact absurd (subtreeAt_mem_of_some l j SJ hlj) hjl
        rw [hln]
        exact ihr n S hndr hS j hj

theorem subtreeAt_graft_local {α : Type} :
    ∀ (tr : ITree α) (n : Nat) (S S' : ITree α), (indicesI tr).Nodup →
      subtreeAt tr n = some S →
      (∀ k, k ∈ indicesI S' → k ∈ indicesI S) →
      ∀ j, j ∈ indicesI S' →
      subtreeAt (graftI tr n S') j = subtreeAt S' j := by
  intro tr
  induction tr with
  | leaf => intro n S S' _ hS; cases hS
  | node c l i d r ihl ihr =>
    intro n S S' hnd hS hsub j hj
    rw [indicesI] at hnd
    have hnd' := List.nodup_cons.mp hnd
    have hndl : (indicesI l).Nodup := hnd'.2.of_append_left
    have hndr : (indicesI r).Nodup := hnd'.2.of_append_right
    have hdisj : ∀ a, a ∈ indicesI l → a ∉ indicesI r :=
      fun a hal har => (List.disjoint_of_nodup_append hnd'.2) hal har
    rw [subtreeAt] at hS
    by_cases hin : i = n
    · rw [if_pos hin] at hS
      injection hS with hS2
      rw [graftI, if_pos hin]
    · rw [if_neg hin] at hS
      cases hl : subtreeAt l n with
      | some sl =>
        rw [hl] at hS
        injection hS with hS2
        rw [hS2] at hl
        have hSl := subtreeAt_indices_sub l n S hl
        have hjl : j ∈ indicesI l := hSl j (hsub j hj)
        have hij : i ≠ j := fun he =>
          hnd'.1 (List.mem_append.mpr (Or.inl (he ▸ hjl)))
        have hnl : n ∈ indicesI l := by
          obtain ⟨cS, lS, dS, rS, hsh⟩ := subtreeAt_root l n S hl
          refine hSl n ?_
          rw [hsh, indicesI]
          exact List.mem_cons_self _ _
        have hnr : n ∉ indicesI r := hdisj n hnl
        rw [graftI, if_neg hin, subtreeAt, if_neg hij]
        have hrec := ihl n S S' hndl hl hsub j hj
        have hsome : (subtreeAt S' j).isSome = true :=
          subtreeAt_isSome_of_mem S' j hj
        cases hSj : subtreeAt S' j with
        | none => rw [hSj] at hsome; cases hsome
        | some SJ =>
          rw [hSj] at hrec
          rw [hrec]
      | none =>
        rw [hl] at hS
        have hSr := subtreeAt_indices_sub r n S hS
        have hjr : j ∈ indicesI r := hSr j (hsub j hj)
        have hij : i ≠ j := fun he =>
          hnd'.1 (List.mem_append.mpr (Or.inr (he ▸ hjr)))
        have hnr : n ∈ indicesI r := by
          obtain ⟨cS, lS, dS, rS, hsh⟩ := subtreeAt_root r n S hS
          refine hSr n ?_
          rw [hsh, indicesI]
          exact List.mem_cons_self _ _
        have hnl : n ∉ indicesI l := fun hm => hdisj n hm hnr
        rw [graftI, if_neg hin, subtreeAt, if_neg hij,
          graftI_not_mem l n S' hnl]
        have hjl : j ∉ indicesI l := fun hm => hdisj j hm hjr
        have hln : subtreeAt l j = none := by
          cases hlj : subtreeAt l j with
          | none => rfl
          | some SJ => exact absurd (subtreeAt_mem_of_some l j SJ hlj) hjl
        rw [hln]
        exact ihr n S S' hndr hS hsub j hj

theorem subtreeAt_recolourI {α : Type} :
    ∀ (tr : ITree α) (i : Nat) (c' : Colour) (j : Nat) (SJ : ITree α),
      subtreeAt tr j = some SJ → i ∉ indicesI SJ →
      subtreeAt (recolourI tr i c') j = some SJ := by
  intro tr
  induction tr with
  | leaf => intro i c' j SJ hS; cases hS
  | node c l ii d r ihl ihr =>
    intro i c' j SJ hS hiS
    rw [subtreeAt] at hS
    by_cases hij : ii = j
    · rw [if_pos hij] at hS
      injection hS with hS2
      have hii : ii ≠ i := by
        intro he
        refine hiS ?_
        rw [← hS2, ← he, indicesI]
        exact List.mem_cons_self _ _
      rw [recolourI, if_neg (fun he => hii he), subtreeAt, if_pos hij]
      rw [← hS2]
      have hil : i ∉ indicesI l := by
        intro hm
        refine hiS ?_
        rw [← hS2, indicesI]
        exact List.mem_cons_of_mem _ (List.mem_append.mpr (Or.inl hm))
      have hir : i ∉ indicesI r := by
        intro hm
        refine hiS ?_
        rw [← hS2, indicesI]
        exact List.mem_cons_of_mem _ (List.mem_append.mpr (Or.inr hm))
      rw [recolourI_not_mem l i c' hil, recolourI_not_mem r i c' hir]
    · rw [if_neg hij] at hS
      by_cases hiin : ii = i
      · rw [recolourI, if_pos hiin, subtreeAt, if_neg hij]
        exact hS
      · rw [recolourI, if_neg hiin, subtreeAt, if_neg hij]
        cases hl : subtreeAt l j with
        | some sl =>
          rw [hl] at hS
          injection hS with hS2
          rw [hS2] at hl
          have := ihl i c' j SJ hl hiS
          rw [this]
        | none =>
          rw [hl] at hS
          have hln : subtreeAt (recolourI l i c') j = none := by
            cases hlj : subtreeAt (recolourI l i c') j with
            | none => rfl
            | some SJ2 =>
              have hm := subtreeAt_mem_of_some _ j SJ2 hlj
              rw [indicesI_recolourI] at hm
              have := subtreeAt_isSome_of_mem l j hm
              rw [hl] at this
              cases this
          rw [hln]
          exact ihr i c' j SJ hS hiS

/-- A view-shape extractor: every member index of a well-formed view roots
a subtree whose record fields mirror the node. -/
theorem view_shape {α : Type} (t : RBTreeSet α) (tr : ITree α)
    (hv : viewOK t tr) (n : Nat) (hmem : n ∈ indicesI tr) :
    ∃ nd cT lT dT rT, hGet t.heap n = some nd
      ∧ subtreeAt tr n = some (ITree.node cT lT n dT rT)
      ∧ nd.colour = cT ∧ nd.data = dT
      ∧ nd.left = rootLink lT ∧ nd.right = rootLink rT := by
  obtain ⟨hre, hpar, hnd⟩ := hv
  have hsome := subtreeAt_isSome_of_mem tr n hmem
  cases hS : subtreeAt tr n with
  | none => rw [hS] at hsome; cases hsome
  | some S =>
    obtain ⟨cT, lT, dT, rT, hsh⟩ := subtreeAt_root tr n S hS
    have hS2 : subtreeAt tr n = some (ITree.node cT lT n dT rT) := by
      rw [hS, hsh]
    have hSre := reify?_subtreeAt _ t.heap t.root tr n _ hre hS2
    obtain ⟨nd, hg, h1, h2, h3, h4, _, _⟩ :=
      reify?_record _ t.heap n _ _ _ _ hSre
    exact ⟨nd, cT, lT, dT, rT, hg, by rw [hsh], h1, h2, h3, h4⟩

theorem subtreeAt_rotR_local {α : Type} (n p : Nat) (c cp : Colour)
    (d dp : α) (A B C : ITree α) (j : Nat) (hjn : j ≠ n) (hjp : j ≠ p) :
    subtreeAt (ITree.node cp A p dp (ITree.node c B n d C)) j
    = subtreeAt (ITree.node c (ITree.node cp A p dp B) n d C) j := by
  have h1 : ¬ (p = j) := fun he => hjp he.symm
  have h2 : ¬ (n = j) := fun he => hjn he.symm
  simp only [subtreeAt, if_neg h1, if_neg h2]
  cases subtreeAt A j with
  | some s => rfl
  | none =>
    cases subtreeAt B j with
    | some s => rfl
    | none => rfl

theorem subtreeAt_rotL_local {α : Type} (n p : Nat) (c cp : Colour)
    (d dp : α) (A B C : ITree α) (j : Nat) (hjn : j ≠ n) (hjp : j ≠ p) :
    subtreeAt (ITree.node cp (ITree.node c A n d B) p dp C) j
    = subtreeAt (ITree.node c A n d (ITree.node cp B p dp C)) j := by
  have h1 : ¬ (p = j) := fun he => hjp he.symm
  have h2 : ¬ (n = j) := fun he => hjn he.symm
  simp only [subtreeAt, if_neg h1, if_neg h2]
  cases subtreeAt A j with
  | some s => rfl
  | none =>
    cases subtreeAt B j with
    | some s => rfl
    | none => rfl

theorem subtreeAt_graft_outside {α : Type} :
    ∀ (tr : ITree α) (n : Nat) (S S' : ITree α) (j : Nat) (SJ : ITree α),
      (indicesI tr).Nodup → subtreeAt tr n = some S →
      (∀ k, k ∈ indicesI S' → k ∈ indicesI S) →
      subtreeAt tr j = some SJ →
      (∀ k, k ∈ indicesI SJ → k ∉ indicesI S) →
      subtreeAt (graftI tr n S') j = some SJ := by
  intro tr
  induction tr with
  | leaf => intro n S S' j SJ _ hS; cases hS
  | node c l i d r ihl ihr =>
    intro n S S' j SJ hnd hS hsub hSJ hdisj
    have hjSJ : j ∈ indicesI SJ := by
      obtain ⟨cJ, lJ, dJ, rJ, hsh⟩ := subtreeAt_root _ j SJ hSJ
      rw [hsh, indicesI]
      exact List.mem_cons_self _ _
    rw [indicesI] at hnd
    have hnd' := List.nodup_cons.mp hnd
    have hndl : (indicesI l).Nodup := hnd'.2.of_append_left
    have hndr : (indicesI r).Nodup := hnd'.2.of_append_right
    have hdlr : ∀ a, a ∈ indicesI l → a ∉ indicesI r :=
      fun a hal har => (List.disjoint_of_nodup_append hnd'.2) hal har
    rw [subtreeAt] at hS hSJ
    by_cases hin : i = n
    · rw [if_pos hin] at hS
      injection hS with hS2
      exfalso
      refine hdisj j hjSJ ?_
      rw [← hS2, indicesI]
      have hjtr : j ∈ i :: (indicesI l ++ indicesI r) := by
        rw [← indicesI]
        exact subtreeAt_mem_of_some _ j SJ (by rw [subtreeAt]; exact hSJ)
      exact hjtr
    · rw [if_neg hin] at hS
      by_cases hij : i = j
      · rw [if_pos hij] at hSJ
        injection hSJ with hSJ2
        exfalso
        cases hl : subtreeAt l n with
        | some sl =>
          rw [hl] at hS
          injection hS with hS3
          rw [hS3] at hl
          obtain ⟨cS, lS, dS, rS, hsh⟩ := subtreeAt_root l n S hl
          have hnS : n ∈ indicesI S := by
            rw [hsh, indicesI]
            exact List.mem_cons_self _ _
          refine hdisj n ?_ hnS
          rw [← hSJ2, indicesI]
          exact List.mem_cons_of_mem _ (List.mem_append.mpr
            (Or.inl (subtreeAt_indices_sub l n S hl n hnS)))
        | none =>
          rw [hl] at hS
          obtain ⟨cS, lS, dS, rS, hsh⟩ := subtreeAt_root r n S hS
          have hnS : n ∈ indicesI S := by
            rw [hsh, indicesI]
            exact List.mem_cons_self _ _
          refine hdisj n ?_ hnS
          rw [← hSJ2, indicesI]
          exact List.mem_cons_of_mem _ (List.mem_append.mpr
            (Or.inr (subtreeAt_indices_sub r n S hS n hnS)))
      · rw [if_neg hij] at hSJ
        cases hl : subtreeAt l n with
        | some sl =>
          rw [hl] at hS
          injection hS with hS3
          rw [hS3] at hl
          have hnl : n ∈ indicesI l := by
            obtain ⟨cS, lS, dS, rS, hsh⟩ := subtreeAt_root l n S hl
            refine subtreeAt_indices_sub l n S hl n ?_
            rw [hsh, indicesI]
            exact List.mem_cons_self _ _
          have hnr : n ∉ indicesI r := hdlr n hnl
          rw [graftI, if_neg hin, graftI_not_mem r n S' hnr, subtreeAt,
            if_neg hij]
          obtain ⟨⟨X, Y, hXY, hgXY⟩, _⟩ := subtreeAt_split l n S hl hndl
          cases hlj : subtreeAt l j with
          | some slj =>
            rw [hlj] at hSJ
            injection hSJ with hSJ2
            rw [hSJ2] at hlj
            have := ihl n S S' j SJ hndl hl hsub hlj hdisj
            rw [this]
          | none =>
            rw [hlj] at hSJ
            have hjgl : subtreeAt (graftI l n S') j = none := by
              cases hgl : subtreeAt (graftI l n S') j with
              | none => rfl
              | some X2 =>
                have hm := subtreeAt_mem_of_some _ j X2 hgl
                rw [hgXY S'] at hm
                rcases List.mem_append.mp hm with hm2 | hm2
                · rcases List.mem_append.mp hm2 with hm3 | hm3
                  · have : j ∈ indicesI l := by
                      rw [hXY]
                      exact List.mem_append.mpr (Or.inl
                        (List.mem_append.mpr (Or.inl hm3)))
                    have h4 := subtreeAt_isSome_of_mem l j this
                    rw [hlj] at h4
                    cases h4
                  · exact absurd (hsub j hm3) (hdisj j hjSJ)
                · have : j ∈ indicesI l := by
                    rw [hXY]
                    exact List.mem_append.mpr (Or.inr hm2)
                  have h4 := subtreeAt_isSome_of_mem l j this
                  rw [hlj] at h4
                  cases h4
            rw [hjgl]
            exact hSJ
        | none =>
          rw [hl] at hS
          have hnr : n ∈ indicesI r := by
            obtain ⟨cS, lS, dS, rS, hsh⟩ := subtreeAt_root r n S hS
            refine subtreeAt_indices_sub r n S hS n ?_
            rw [hsh, indicesI]
            exact List.mem_cons_self _ _
          have hnl : n ∉ indicesI l := fun hm => hdlr n hm hnr
          rw [graftI, if_neg hin, graftI_not_mem l n S' hnl, subtreeAt,
            if_neg hij]
          cases hlj : subtreeAt l j with
          | some slj =>
            rw [hlj] at hSJ
            injection hSJ with hSJ2
            exact congrArg some hSJ2
          | none =>
            rw [hlj] at hSJ
            exact ihr n S S' j SJ hndr hS hsub hSJ hdisj

theorem subtree_preserve_up {α : Type} (tr tr' : ITree α) (g node : Nat)
    (S_par : ITree α)
    (hnd : (indicesI tr).Nodup) (hnd' : (indicesI tr').Nodup)
    (hg : subtreeAt tr g = some S_par) (hg' : subtreeAt tr' g = some S_par)
    (hmem : node ∈ indicesI S_par) :
    subtreeAt tr' node = subtreeAt tr node := by
  rw [subtreeAt_inner tr g S_par hnd hg node hmem,
    subtreeAt_inner tr' g S_par hnd' hg' node hmem]

theorem subtreeAt_recolourI_map {α : Type} :
    ∀ (tr : ITree α), (indicesI tr).Nodup →
      ∀ (j : Nat) (SJ : ITree α), subtreeAt tr j = some SJ →
      ∀ (i : Nat) (c' : Colour),
      subtreeAt (recolourI tr i c') j = some (recolourI SJ i c') := by
  intro tr
  induction tr with
  | leaf => intro _ j SJ hS; cases hS
  | node c l ii d r ihl ihr =>
    intro hnd j SJ hSJ i c'
    rw [indicesI] at hnd
    have hnd' := List.nodup_cons.mp hnd
    have hndl : (indicesI l).Nodup := hnd'.2.of_append_left
    have hndr : (indicesI r).Nodup := hnd'.2.of_append_right
    have hdlr : ∀ a, a ∈ indicesI l → a ∉ indicesI r :=
      fun a hal har => (List.disjoint_of_nodup_append hnd'.2) hal har
    rw [subtreeAt] at hSJ
    by_cases hij : ii = j
    · rw [if_pos hij] at hSJ
      injection hSJ with hSJ2
      rw [← hSJ2, recolourI]
      by_cases hii : ii = i
      · rw [if_pos hii, subtreeAt, if_pos hij]
      · rw [if_neg hii, subtreeAt, if_pos hij]
    · rw [if_neg hij] at hSJ
      rw [recolourI]
      by_cases hii : ii = i
      · rw [if_pos hii, subtreeAt, if_neg hij]
        cases hlj : subtreeAt l j with
        | some slj =>
          rw [hlj] at hSJ
          injection hSJ with hSJ2
          rw [hSJ2] at hlj
          have hiSJ : i ∉ indicesI SJ := by
            intro hm
            have h5 : ii ∈ indicesI l := by
              rw [hii]
              exact subtreeAt_indices_sub l j SJ hlj i hm
            exact hnd'.1 (List.mem_append.mpr (Or.inl h5))
          rw [recolourI_not_mem SJ i c' hiSJ]
          exact congrArg some hSJ2
        | none =>
          rw [hlj] at hSJ
          have hiSJ : i ∉ indicesI SJ := by
            intro hm
            have h5 : ii ∈ indicesI r := by
              rw [hii]
              exact subtreeAt_indices_sub r j SJ hSJ i hm
            exact hnd'.1 (List.mem_append.mpr (Or.inr h5))
          rw [recolourI_not_mem SJ i c' hiSJ]
          exact hSJ
      · rw [if_neg hii, subtreeAt, if_neg hij]
        cases hlj : subtreeAt l j with
        | some slj =>
          rw [hlj] at hSJ
          injection hSJ with hSJ2
          rw [hSJ2] at hlj
          rw [ihl hndl j SJ hlj i c']
        | none =>
          rw [hlj] at hSJ
          have hln : subtreeAt (recolourI l i c') j = none := by
            cases hgl : subtreeAt (recolourI l i c') j with
            | none => rfl
            | some X =>
              have hm := subtreeAt_mem_of_some _ j X hgl
              rw [indicesI_recolourI] at hm
              have h4 := subtreeAt_isSome_of_mem l j hm
              rw [hlj] at h4
              cases h4
          rw [hln]
          exact ihr hndr j SJ hSJ i c'

theorem subtreeAt_setDataI_map {α : Type} :
    ∀ (tr : ITree α), (indicesI tr).Nodup →
      ∀ (j : Nat) (SJ : ITree α), subtreeAt tr j = some SJ →
      ∀ (i : Nat) (d' : α),
      subtreeAt (setDataI tr i d') j = some (setDataI SJ i d') := by
  intro tr
  induction tr with
  | leaf => intro _ j SJ hS; cases hS
  | node c l ii d r ihl ihr =>
    intro hnd j SJ hSJ i d'
    rw [indicesI] at hnd
    have hnd' := List.nodup_cons.mp hnd
    have hndl : (indicesI l).Nodup := hnd'.2.of_append_left
    have hndr : (indicesI r).Nodup := hnd'.2.of_append_right
    rw [subtreeAt] at hSJ
    by_cases hij : ii = j
    · rw [if_pos hij] at hSJ
      injection hSJ with hSJ2
      rw [← hSJ2, setDataI]
      by_cases hii : ii = i
      · rw [if_pos hii, subtreeAt, if_pos hij]
      · rw [if_neg hii, subtreeAt, if_pos hij]
    · rw [if_neg hij] at hSJ
      rw [setDataI]
      by_cases hii : ii = i
      · rw [if_pos hii, subtreeAt, if_neg hij]
        cases hlj : subtreeAt l j with
        | some slj =>
          rw [hlj] at hSJ
          injection hSJ with hSJ2
          rw [hSJ2] at hlj
          have hiSJ : i ∉ indicesI SJ := by
            intro hm
            have h5 : ii ∈ indicesI l := by
              rw [hii]
              exact subtreeAt_indices_sub l j SJ hlj i hm
            exact hnd'.1 (List.mem_append.mpr (Or.inl h5))
          rw [setDataI_not_mem SJ i d' hiSJ]
          exact congrArg some hSJ2
        | none =>
          rw [hlj] at hSJ
          have hiSJ : i ∉ indicesI SJ := by
            intro hm
            have h5 : ii ∈ indicesI r := by
              rw [hii]
              exact subtreeAt_indices_sub r j SJ hSJ i hm
            exact hnd'.1 (List.mem_append.mpr (Or.inr h5))
          rw [setDataI_not_mem SJ i d' hiSJ]
          exact hSJ
      · rw [if_neg hii, subtreeAt, if_neg hij]
        cases hlj : subtreeAt l j with
        | some slj =>
          rw [hlj] at hSJ
          injection hSJ with hSJ2
          rw [hSJ2] at hlj
          rw [ihl hndl j SJ hlj i d']
        | none =>
          rw [hlj] at hSJ
          have hln : subtreeAt (setDataI l i d') j = none := by
            cases hgl : subtreeAt (setDataI l i d') j with
            | none => rfl
            | some X =>
              have hm := subtreeAt_mem_of_some _ j X hgl
              rw [indicesI_setDataI] at hm
              have h4 := subtreeAt_isSome_of_mem l j hm
              rw [hlj] at h4
              cases h4
          rw [hln]
          exact ihr hndr j SJ hSJ i d'

/-- Resolve the parent / sibling reads of a well-formed state into the
shape of the parent's subtree: the node and its sibling `s` hang off
`parent` on opposite sides, with all the records' reads determined. -/
theorem view_sib_pattern {α : Type} (t : RBTreeSet α) (tr : ITree α)
    (node parent s : Nat)
    (hv : viewOK t tr) (hmem : node ∈ indicesI tr)
    (hrt : t.root ≠ some node)
    (hpar0 : parent! t.heap node = some parent)
    (hsib : sibling t.heap node = some s) :
    ∃ (cg cs : Colour) (dg ds : α) (SN Ls Rs : ITree α),
      parent ∈ indicesI tr
      ∧ rootLink SN = some node
      ∧ subtreeAt tr node = some SN
      ∧ parent! t.heap s = some parent
      ∧ colour! t.heap parent = some cg
      ∧ colour! t.heap s = some cs
      ∧ node ≠ s ∧ node ≠ parent ∧ s ≠ parent
      ∧ parent ∉ indicesI SN
      ∧ (∀ k, k ∈ indicesI SN → k ∉ indicesI (ITree.node cs Ls s ds Rs))
      ∧ ((is_left_child t.heap node = true
          ∧ subtreeAt tr parent
            = some (ITree.node cg SN parent dg (ITree.node cs Ls s ds Rs))
          ∧ is_left_child t.heap s = false)
        ∨ (is_left_child t.heap node = false
          ∧ subtreeAt tr parent
            = some (ITree.node cg (ITree.node cs Ls s ds Rs) parent dg SN)
          ∧ is_left_child t.heap s = true)) := by
  obtain ⟨hre, hpar, hnd⟩ := hv
  have hsomeN := subtreeAt_isSome_of_mem tr node hmem
  cases hSN : subtreeAt tr node with
  | none => rw [hSN] at hsomeN; cases hsomeN
  | some SN =>
  obtain ⟨cN, lN, dN, rN, hshN⟩ := subtreeAt_root tr node SN hSN
  have hSN2 : subtreeAt tr node
      = some (ITree.node cN lN node dN rN) := by
    rw [hSN, hshN]
  rcases subtreeAt_parent tr (t.heap.length + 1) t.heap none t.root node _
      hre hpar hnd hSN2 with
    ⟨hrt2, _, _⟩ | ⟨g, ndg, hgmem, hgg, hpn1, hgS, hside, hboth⟩
  · exact absurd hrt2 hrt
  have hgp : parent = g := by
    rw [hpar0] at hpn1
    exact Option.some.inj hpn1
  subst hgp
  obtain ⟨ndgv, cg, L, dg, R, hggv, hSg, hc1, hc2, hc3, hc4⟩ :=
    view_shape t tr ⟨hre, hpar, hnd⟩ parent hgmem
  have hndg : ndgv = ndg := by
    rw [hgg] at hggv
    exact (Option.some.inj hggv).symm
  rw [hndg] at hc1 hc2 hc3 hc4
  have hnodeg : node ≠ parent := by
    intro he
    refine hgS ?_
    rw [← he, indicesI]
    exact List.mem_cons_self _ _
  -- the parent-subtree's pieces
  have hSgre := reify?_subtreeAt _ t.heap t.root tr parent _ hre hSg
  obtain ⟨ndg2, hgg2, _, _, _, _, hLre, hRre⟩ :=
    reify?_record _ t.heap parent _ _ _ _ hSgre
  have hndg2 : ndg2 = ndg := by
    rw [hgg] at hgg2
    exact (Option.some.inj hgg2).symm
  rw [hndg2] at hLre hRre
  have hndSg : (indicesI (ITree.node cg L parent dg R)).Nodup := by
    obtain ⟨⟨X, Y, hXY, _⟩, _⟩ := subtreeAt_split tr parent _ hSg hnd
    have h1 : (X ++ indicesI (ITree.node cg L parent dg R) ++ Y).Nodup :=
      hXY ▸ hnd
    exact (h1.of_append_left).of_append_right
  rw [indicesI] at hndSg
  have hndSg' := List.nodup_cons.mp hndSg
  have hdisjLR : ∀ a, a ∈ indicesI L → a ∉ indicesI R :=
    fun a hal har => (List.disjoint_of_nodup_append hndSg'.2) hal har
  have hilc : is_left_child t.heap node = (ndg.left == some node) := by
    rw [is_left_child, hpar0]
    simp only [Option.some_bind]
    rw [left!_eq t.heap parent ndg hgg]
  have hsib2 : sibling t.heap node
      = if is_left_child t.heap node then ndg.right else ndg.left := by
    rw [sibling, hpar0]
    by_cases hc : is_left_child t.heap node = true
    · rw [if_pos hc, if_pos hc]
      simp only [Option.some_bind]
      rw [right!_eq t.heap parent ndg hgg]
    · rw [if_neg hc, if_neg hc]
      simp only [Option.some_bind]
      rw [left!_eq t.heap parent ndg hgg]
  rcases hside with hsd | hsd
  · -- node is the left child of parent, s the right
    have hilct : is_left_child t.heap node = true := by
      rw [hilc, hsd]
      exact beq_self_eq_true _
    have hLroot : rootLink L = some node := by
      rw [← hc3, hsd]
    have hnodeL : node ∈ indicesI L := rootLink_mem L node hLroot
    have hnodeSg : node ∈ indicesI (ITree.node cg L parent dg R) := by
      rw [indicesI]
      exact List.mem_cons_of_mem _ (List.mem_append.mpr (Or.inl hnodeL))
    have hLSN : L = SN := by
      have h1 := subtreeAt_inner tr parent _ hnd hSg node hnodeSg
      cases L with
      | leaf => cases hLroot
      | node cL lL iL dL rL =>
        injection hLroot with hiL
        rw [subtreeAt] at h1
        rw [if_neg (fun he => hnodeg he.symm), subtreeAt, if_pos hiL]
          at h1
        rw [hSN] at h1
        exact (Option.some.inj h1).symm
    have hsR : ndg.right = some s := by
      rw [hsib2, if_pos hilct] at hsib
      exact hsib
    have hRroot : rootLink R = some s := by
      rw [← hc4, hsR]
    cases R with
    | leaf => cases hRroot
    | node cs Ls iR ds Rs =>
    injection hRroot with hiR
    have hiR2 : s = iR := hiR.symm
    subst hiR2
    have hsmem : s ∈ indicesI tr := by
      refine subtreeAt_indices_sub tr parent _ hSg s ?_
      rw [indicesI]
      refine List.mem_cons_of_mem _ (List.mem_append.mpr (Or.inr ?_))
      rw [indicesI]
      exact List.mem_cons_self _ _
    have hnodes : node ≠ s := by
      intro he
      refine hdisjLR node hnodeL ?_
      rw [he, indicesI]
      exact List.mem_cons_self _ _
    have hsparent : s ≠ parent := by
      intro he
      refine hndSg'.1 ?_
      rw [← he]
      refine List.mem_append.mpr (Or.inr ?_)
      rw [indicesI]
      exact List.mem_cons_self _ _
    have hRre2 : reify? (t.heap.length + 1 - 1) t.heap (some s)
        = some (ITree.node cs Ls s ds Rs) := by
      rw [← hsR]
      exact hRre
    obtain ⟨nds, hgs, hs1, _, _, _, _, _⟩ :=
      reify?_record _ t.heap s _ _ _ _ hRre2
    have hps : parent! t.heap s = some parent := by
      have hsSome := subtreeAt_isSome_of_mem tr s hsmem
      cases hSs : subtreeAt tr s with
      | none => rw [hSs] at hsSome; cases hsSome
      | some Ss =>
        obtain ⟨cS2, lS2, dS2, rS2, hsh2⟩ := subtreeAt_root tr s Ss hSs
        have hSs2 : subtreeAt tr s
            = some (ITree.node cS2 lS2 s dS2 rS2) := by
          rw [hSs, hsh2]
        rcases subtreeAt_parent tr (t.heap.length + 1) t.heap none t.root
            s _ hre hpar hnd hSs2 with
          ⟨hrt3, _, _⟩ | ⟨g2, ndg3, hg2mem, hgg3, hpn2, _, hside2, _⟩
        · exfalso
          rw [hrt3] at hre
          obtain ⟨c5, l5, d5, r5, htr5, htail⟩ :=
            link_target_tail _ t.heap s tr hre parent ndg s hgmem hgg
              (Or.inr hsR)
          rw [htr5, indicesI] at hnd
          exact (List.nodup_cons.mp hnd).1 htail
        · have heq : parent = g2 :=
            link_unique (t.heap.length + 1) t.heap t.root tr hre hnd
              parent g2 ndg ndg3 s hgmem hg2mem hgg hgg3 (Or.inr hsR)
              hside2
          rw [hpn2, ← heq]
    have hilcs : is_left_child t.heap s = false := by
      rw [is_left_child, hps]
      simp only [Option.some_bind]
      rw [left!_eq t.heap parent ndg hgg, hsd]
      simp only [beq_eq_false_iff_ne, ne_eq, Option.some.injEq]
      exact fun he => hnodes he
    have hparSN : parent ∉ indicesI SN := by
      rw [hshN]
      exact hgS
    have hdisjSb : ∀ k, k ∈ indicesI SN →
        k ∉ indicesI (ITree.node cs Ls s ds Rs) := by
      intro k hk
      refine hdisjLR k ?_
      rw [hLSN]
      exact hk
    refine ⟨cg, cs, dg, ds, SN, Ls, Rs, hgmem, by rw [← hLSN]; exact hLroot,
      rfl, hps, ?_, ?_, hnodes, hnodeg, hsparent, hparSN, hdisjSb,
      Or.inl ⟨hilct, ?_, hilcs⟩⟩
    · rw [colour!, hgg]
      simp only [Option.map_some']
      rw [hc1]
    · rw [colour!, hgs]
      simp only [Option.map_some']
      rw [hs1]
    · rw [← hLSN]
      exact hSg
  · -- node is the right child of parent, s the left
    have hilct : is_left_child t.heap node = false := by
      rw [hilc]
      have hlne : ndg.left ≠ some node := fun he => hboth ⟨he, hsd⟩
      simp only [beq_eq_false_iff_ne, ne_eq]
      exact hlne
    have hRroot : rootLink R = some node := by
      rw [← hc4, hsd]
    have hnodeR : node ∈ indicesI R := rootLink_mem R node hRroot
    have hnodeSg : node ∈ indicesI (ITree.node cg L parent dg R) := by
      rw [indicesI]
      exact List.mem_cons_of_mem _ (List.mem_append.mpr (Or.inr hnodeR))
    have hRSN : R = SN := by
      have h1 := subtreeAt_inner tr parent _ hnd hSg node hnodeSg
      cases R with
      | leaf => cases hRroot
      | node cR lR iR dR rR =>
        injection hRroot with hiR
        rw [subtreeAt] at h1
        rw [if_neg (fun he => hnodeg he.symm)] at h1
        have hnodeLn : subtreeAt L node = none := by
          cases hL2 : subtreeAt L node with
          | none => rfl
          | some X =>
            exact absurd hnodeR
              (hdisjLR node (subtreeAt_mem_of_some L node X hL2))
        rw [hnodeLn, subtreeAt, if_pos hiR] at h1
        rw [hSN] at h1
        exact (Option.some.inj h1).symm
    have hsL : ndg.left = some s := by
      rw [hsib2, if_neg (by rw [hilct]; exact Bool.false_ne_true)] at hsib
      exact hsib
    have hLroot : rootLink L = some s := by
      rw [← hc3, hsL]
    cases L with
    | leaf => cases hLroot
    | node cs Ls iL ds Rs =>
    injection hLroot with hiL
    have hiL2 : s = iL := hiL.symm
    subst hiL2
    have hsmem : s ∈ indicesI tr := by
      refine subtreeAt_indices_sub tr parent _ hSg s ?_
      rw [indicesI]
      refine List.mem_cons_of_mem _ (List.mem_append.mpr (Or.inl ?_))
      rw [indicesI]
      exact List.mem_cons_self _ _
    have hnodes : node ≠ s := by
      intro he
      refine hdisjLR s ?_ ?_
      · rw [indicesI]
        exact List.mem_cons_self _ _
      · rw [← he]
        exact hnodeR
    have hsparent : s ≠ parent := by
      intro he
      refine hndSg'.1 ?_
      rw [← he]
      refine List.mem_append.mpr (Or.inl ?_)
      rw [indicesI]
      exact List.mem_cons_self _ _
    have hLre2 : reify? (t.heap.length + 1 - 1) t.heap (some s)
        = some (ITree.node cs Ls s ds Rs) := by
      rw [← hsL]
      exact hLre
    obtain ⟨nds, hgs, hs1, _, _, _, _, _⟩ :=
      reify?_record _ t.heap s _ _ _ _ hLre2
    have hps : parent! t.heap s = some parent := by
      have hsSome := subtreeAt_isSome_of_mem tr s hsmem
      cases hSs : subtreeAt tr s with
      | none => rw [hSs] at hsSome; cases hsSome
      | some Ss =>
        obtain ⟨cS2, lS2, dS2, rS2, hsh2⟩ := subtreeAt_root tr s Ss hSs
        have hSs2 : subtreeAt tr s
            = some (ITree.node cS2 lS2 s dS2 rS2) := by
          rw [hSs, hsh2]
        rcases subtreeAt_parent tr (t.heap.length + 1) t.heap none t.root
            s _ hre hpar hnd hSs2 with
          ⟨hrt3, _, _⟩ | ⟨g2, ndg3, hg2mem, hgg3, hpn2, _, hside2, _⟩
        · exfalso
          rw [hrt3] at hre
          obtain ⟨c5, l5, d5, r5, htr5, htail⟩ :=
            link_target_tail _ t.heap s tr hre parent ndg s hgmem hgg
              (Or.inl hsL)
          rw [htr5, indicesI] at hnd
          exact (List.nodup_cons.mp hnd).1 htail
        · have heq : parent = g2 :=
            link_unique (t.heap.length + 1) t.heap t.root tr hre hnd
              parent g2 ndg ndg3 s hgmem hg2mem hgg hgg3 (Or.inl hsL)
              hside2
          rw [hpn2, ← heq]
    have hilcs : is_left_child t.heap s = true := by
      rw [is_left_child, hps]
      simp only [Option.some_bind]
      rw [left!_eq t.heap parent ndg hgg, hsL]
      exact beq_self_eq_true _
    have hparSN : parent ∉ indicesI SN := by
      rw [hshN]
      exact hgS
    have hdisjSb : ∀ k, k ∈ indicesI SN →
        k ∉ indicesI (ITree.node cs Ls s ds Rs) := by
      intro k hk hkL
      refine hdisjLR k hkL ?_
      rw [hRSN]
      exact hk
    refine ⟨cg, cs, dg, ds, SN, Ls, Rs, hgmem, by rw [← hRSN]; exact hRroot,
      rfl, hps, ?_, ?_, hnodes, hnodeg, hsparent, hparSN, hdisjSb,
      Or.inr ⟨hilct, ?_, hilcs⟩⟩
    · rw [colour!, hgg]
      simp only [Option.map_some']
      rw [hc1]
    · rw [colour!, hgs]
      simp only [Option.map_some']
      rw [hs1]
    · rw [← hRSN]
      exact hSg

theorem colour!_set_colour_ne {α : Type} (h : Heap α) (i : Nat)
    (c : Colour) (j : Nat) (hj : j ≠ i) :
    colour! (set_colour h i c) j = colour! h j := by
  rw [colour!, hGet_set_colour_ne h i c j hj, colour!]

theorem colour!_set_colour_self {α : Type} (h : Heap α) (i : Nat)
    (c : Colour) (nd : NodeData α) (hg : hGet h i = some nd) :
    colour! (set_colour h i c) i = some c := by
  rw [colour!, hGet_set_colour_self h i c nd hg]
  rfl

theorem stepBundle_refl {α : Type} (t : RBTreeSet α) (node : Nat)
    (tr : ITree α) (hv : viewOK t tr) : stepBundle t t node tr tr :=
  ⟨hv, rfl, rfl, rfl, fun _ h => h⟩

theorem stepBundle_trans {α : Type} (t t1 t2 : RBTreeSet α) (node : Nat)
    (tr tr1 tr2 : ITree α) (h1 : stepBundle t t1 node tr tr1)
    (h2 : stepBundle t1 t2 node tr1 tr2) : stepBundle t t2 node tr tr2 :=
  ⟨h2.1, h2.2.1.trans h1.2.1, h2.2.2.1.trans h1.2.2.1,
    h2.2.2.2.1.trans h1.2.2.2.1,
    fun SN h => h2.2.2.2.2 SN (h1.2.2.2.2 SN h)⟩

/-- A recolouring step outside the pinned node's subtree. -/
theorem set_colour_bundle {α : Type} (t : RBTreeSet α) (tr : ITree α)
    (i : Nat) (c' : Colour) (node : Nat) (hv : viewOK t tr)
    (hout : ∀ SN, subtreeAt tr node = some SN → i ∉ indicesI SN) :
    stepBundle t { t with heap := set_colour t.heap i c' } node tr
      (recolourI tr i c') := by
  refine ⟨set_colour_view t tr i c' hv, inorderNI_recolourI tr i c', ?_,
    rfl, ?_⟩
  · show (set_colour t.heap i c').length = t.heap.length
    rw [length_set_colour]
  · intro SN hSN
    have h1 := subtreeAt_recolourI_map tr hv.2.2 node SN hSN i c'
    rw [recolourI_not_mem SN i c' (hout SN hSN)] at h1
    exact h1

/-- Members of the right-rotation pattern other than `n` and `p` stay
members of the rotated pattern. -/
theorem rotR_mem_transfer {α : Type} (n p : Nat) (c cp : Colour)
    (d dp : α) (A B C : ITree α) (j : Nat)
    (hj : j ∈ indicesI (ITree.node c (ITree.node cp A p dp B) n d C))
    (hjn : j ≠ n) (hjp : j ≠ p) :
    j ∈ indicesI (ITree.node cp A p dp (ITree.node c B n d C)) := by
  rw [indicesI, indicesI] at hj
  rw [indicesI, indicesI]
  rcases List.mem_cons.mp hj with he | hj2
  · exact absurd he hjn
  rcases List.mem_append.mp hj2 with hj3 | hj3
  · rcases List.mem_cons.mp hj3 with he | hj4
    · exact absurd he hjp
    rcases List.mem_append.mp hj4 with hj5 | hj5
    · exact List.mem_cons_of_mem _ (List.mem_append.mpr (Or.inl hj5))
    · exact List.mem_cons_of_mem _ (List.mem_append.mpr (Or.inr
        (List.mem_cons_of_mem _ (List.mem_append.mpr (Or.inl hj5)))))
  · exact List.mem_cons_of_mem _ (List.mem_append.mpr (Or.inr
      (List.mem_cons_of_mem _ (List.mem_append.mpr (Or.inr hj3)))))

theorem rotR_mem_back {α : Type} (n p : Nat) (c cp : Colour)
    (d dp : α) (A B C : ITree α) (k : Nat)
    (hk : k ∈ indicesI (ITree.node cp A p dp (ITree.node c B n d C))) :
    k ∈ indicesI (ITree.node c (ITree.node cp A p dp B) n d C) := by
  rw [indicesI, indicesI] at hk
  rw [indicesI, indicesI]
  rcases List.mem_cons.mp hk with he | hk2
  · exact List.mem_cons_of_mem _ (List.mem_append.mpr (Or.inl
      (List.mem_cons.mpr (Or.inl he))))
  rcases List.mem_append.mp hk2 with hk3 | hk3
  · exact List.mem_cons_of_mem _ (List.mem_append.mpr (Or.inl
      (List.mem_cons_of_mem _ (List.mem_append.mpr (Or.inl hk3)))))
  rcases List.mem_cons.mp hk3 with he | hk4
  · exact List.mem_cons.mpr (Or.inl he)
  rcases List.mem_append.mp hk4 with hk5 | hk5
  · exact List.mem_cons_of_mem _ (List.mem_append.mpr (Or.inl
      (List.mem_cons_of_mem _ (List.mem_append.mpr (Or.inr hk5)))))
  · exact List.mem_cons_of_mem _ (List.mem_append.mpr (Or.inr hk5))

theorem rotL_mem_transfer {α : Type} (n p : Nat) (c cp : Colour)
    (d dp : α) (A B C : ITree α) (j : Nat)
    (hj : j ∈ indicesI (ITree.node c A n d (ITree.node cp B p dp C)))
    (hjn : j ≠ n) (hjp : j ≠ p) :
    j ∈ indicesI (ITree.node cp (ITree.node c A n d B) p dp C) := by
  rw [indicesI, indicesI] at hj
  rw [indicesI, indicesI]
  rcases List.mem_cons.mp hj with he | hj2
  · exact absurd he hjn
  rcases List.mem_append.mp hj2 with hj3 | hj3
  · exact List.mem_cons_of_mem _ (List.mem_append.mpr (Or.inl
      (List.mem_cons_of_mem _ (List.mem_append.mpr (Or.inl hj3)))))
  rcases List.mem_cons.mp hj3 with he | hj4
  · exact absurd he hjp
  rcases List.mem_append.mp hj4 with hj5 | hj5
  · exact List.mem_cons_of_mem _ (List.mem_append.mpr (Or.inl
      (List.mem_cons_of_mem _ (List.mem_append.mpr (Or.inr hj5)))))
  · exact List.mem_cons_of_mem _ (List.mem_append.mpr (Or.inr hj5))

theorem rotL_mem_back {α : Type} (n p : Nat) (c cp : Colour)
    (d dp : α) (A B C : ITree α) (k : Nat)
    (hk : k ∈ indicesI (ITree.node cp (ITree.node c A n d B) p dp C)) :
    k ∈ indicesI (ITree.node c A n d (ITree.node cp B p dp C)) := by
  rw [indicesI, indicesI] at hk
  rw [indicesI, indicesI]
  rcases List.mem_cons.mp hk with he | hk2
  · exact List.mem_cons_of_mem _ (List.mem_append.mpr (Or.inr
      (List.mem_cons.mpr (Or.inl he))))
  rcases List.mem_append.mp hk2 with hk3 | hk3
  · rcases List.mem_cons.mp hk3 with he | hk4
    · exact List.mem_cons.mpr (Or.inl he)
    rcases List.mem_append.mp hk4 with hk5 | hk5
    · exact List.mem_cons_of_mem _ (List.mem_append.mpr (Or.inl hk5))
    · exact List.mem_cons_of_mem _ (List.mem_append.mpr (Or.inr
        (List.mem_cons_of_mem _ (List.mem_append.mpr (Or.inl hk5)))))
  · exact List.mem_cons_of_mem _ (List.mem_append.mpr (Or.inr
      (List.mem_cons_of_mem _ (List.mem_append.mpr (Or.inr hk3)))))

/-- A right-rotation step pinned at a node inside the rotation pattern
(other than the two centres). -/
theorem rotate_right_bundle {α : Type} (t : RBTreeSet α) (tr : ITree α)
    (n p : Nat) (c cp : Colour) (d dp : α) (A B C : ITree α) (node : Nat)
    (hv : viewOK t tr)
    (hS : subtreeAt tr n
      = some (ITree.node c (ITree.node cp A p dp B) n d C))
    (hnn : node ≠ n) (hnp : node ≠ p)
    (hmem : node ∈ indicesI
      (ITree.node c (ITree.node cp A p dp B) n d C)) :
    stepBundle t (rotate_right t n) node tr
      (graftI tr n (ITree.node cp A p dp (ITree.node c B n d C))) := by
  obtain ⟨hre, hpar, hnd⟩ := hv
  obtain ⟨he1, he2, he3, he4, he5, he6, he7⟩ :=
    rotate_right_effect t n p tr c cp d dp A B C hre hpar hnd hS
  refine ⟨⟨?_, he5, he6⟩, he7, he1, he3, ?_⟩
  · show reify? ((rotate_right t n).heap.length + 1) (rotate_right t n).heap
      (rotate_right t n).root = some _
    rw [he1]
    exact he4
  · intro SN hSN
    have hloc := subtreeAt_rotR_local n p c cp d dp A B C node hnn hnp
    have hinner := subtreeAt_inner tr n _ hnd hS node hmem
    have hmem' := rotR_mem_transfer n p c cp d dp A B C node hmem hnn hnp
    have hgl := subtreeAt_graft_local tr n _ _ hnd hS
      (fun k hk => rotR_mem_back n p c cp d dp A B C k hk) node hmem'
    rw [hgl, hloc, ← hinner, hSN]

/-- A right-rotation step pinned at a node whose subtree is disjoint from
the rotation pattern. -/
theorem rotate_right_bundle_out {α : Type} (t : RBTreeSet α)
    (tr : ITree α) (n p : Nat) (c cp : Colour) (d dp : α)
    (A B C : ITree α) (node : Nat) (hv : viewOK t tr)
    (hS : subtreeAt tr n
      = some (ITree.node c (ITree.node cp A p dp B) n d C))
    (hdisj : ∀ SN, subtreeAt tr node = some SN → ∀ k, k ∈ indicesI SN →
      k ∉ indicesI (ITree.node c (ITree.node cp A p dp B) n d C)) :
    stepBundle t (rotate_right t n) node tr
      (graftI tr n (ITree.node cp A p dp (ITree.node c B n d C))) := by
  obtain ⟨hre, hpar, hnd⟩ := hv
  obtain ⟨he1, he2, he3, he4, he5, he6, he7⟩ :=
    rotate_right_effect t n p tr c cp d dp A B C hre hpar hnd hS
  refine ⟨⟨?_, he5, he6⟩, he7, he1, he3, ?_⟩
  · show reify? ((rotate_right t n).heap.length + 1) (rotate_right t n).heap
      (rotate_right t n).root = some _
    rw [he1]
    exact he4
  · intro SN hSN
    exact subtreeAt_graft_outside tr n _ _ node SN hnd hS
      (fun k hk => rotR_mem_back n p c cp d dp A B C k hk) hSN
      (hdisj SN hSN)

/-- A left-rotation step pinned at a node inside the rotation pattern. -/
theorem rotate_left_bundle {α : Type} (t : RBTreeSet α) (tr : ITree α)
    (n p : Nat) (c cp : Colour) (d dp : α) (A B C : ITree α) (node : Nat)
    (hv : viewOK t tr)
    (hS : subtreeAt tr n
      = some (ITree.node c A n d (ITree.node cp B p dp C)))
    (hnn : node ≠ n) (hnp : node ≠ p)
    (hmem : node ∈ indicesI
      (ITree.node c A n d (ITree.node cp B p dp C))) :
    stepBundle t (rotate_left t n) node tr
      (graftI tr n (ITree.node cp (ITree.node c A n d B) p dp C)) := by
  obtain ⟨hre, hpar, hnd⟩ := hv
  obtain ⟨he1, he2, he3, he4, he5, he6, he7⟩ :=
    rotate_left_effect t n p tr c cp d dp A B C hre hpar hnd hS
  refine ⟨⟨?_, he5, he6⟩, he7, he1, he3, ?_⟩
  · show reify? ((rotate_left t n).heap.length + 1) (rotate_left t n).heap
      (rotate_left t n).root = some _
    rw [he1]
    exact he4
  · intro SN hSN
    have hloc := subtreeAt_rotL_local n p c cp d dp A B C node hnn hnp
    have hinner := subtreeAt_inner tr n _ hnd hS node hmem
    have hmem' := rotL_mem_transfer n p c cp d dp A B C node hmem hnn hnp
    have hgl := subtreeAt_graft_local tr n _ _ hnd hS
      (fun k hk => rotL_mem_back n p c cp d dp A B C k hk) node hmem'
    rw [hgl, hloc, ← hinner, hSN]

/-- A left-rotation step pinned at a node whose subtree is disjoint from
the rotation pattern. -/
theorem rotate_left_bundle_out {α : Type} (t : RBTreeSet α)
    (tr : ITree α) (n p : Nat) (c cp : Colour) (d dp : α)
    (A B C : ITree α) (node : Nat) (hv : viewOK t tr)
    (hS : subtreeAt tr n
      = some (ITree.node c A n d (ITree.node cp B p dp C)))
    (hdisj : ∀ SN, subtreeAt tr node = some SN → ∀ k, k ∈ indicesI SN →
      k ∉ indicesI (ITree.node c A n d (ITree.node cp B p dp C))) :
    stepBundle t (rotate_left t n) node tr
      (graftI tr n (ITree.node cp (ITree.node c A n d B) p dp C)) := by
  obtain ⟨hre, hpar, hnd⟩ := hv
  obtain ⟨he1, he2, he3, he4, he5, he6, he7⟩ :=
    rotate_left_effect t n p tr c cp d dp A B C hre hpar hnd hS
  refine ⟨⟨?_, he5, he6⟩, he7, he1, he3, ?_⟩
  · show reify? ((rotate_left t n).heap.length + 1) (rotate_left t n).heap
      (rotate_left t n).root = some _
    rw [he1]
    exact he4
  · intro SN hSN
    exact subtreeAt_graft_outside tr n _ _ node SN hnd hS
      (fun k hk => rotL_mem_back n p c cp d dp A B C k hk) hSN
      (hdisj SN hSN)

/-- Lower a bundle pinned at an ancestor to any node inside the
ancestor's subtree. -/
theorem bundle_down {α : Type} (t t' : RBTreeSet α) (parent node : Nat)
    (tr tr' : ITree α) (S_par : ITree α)
    (hb : stepBundle t t' parent tr tr')
    (hnd : (indicesI tr).Nodup)
    (hSg : subtreeAt tr parent = some S_par)
    (hmem : node ∈ indicesI S_par) :
    stepBundle t t' node tr tr' := by
  refine ⟨hb.1, hb.2.1, hb.2.2.1, hb.2.2.2.1, ?_⟩
  intro SN hSN
  have hSg' := hb.2.2.2.2 S_par hSg
  have := subtree_preserve_up tr tr' parent node S_par hnd hb.1.2.2
    hSg hSg' hmem
  rw [this]
  exact hSN

/-- A graft inside a subtree localises: regrafting at `n` inside the
subtree rooted at `g` replaces exactly that part of `g`'s subtree. -/
theorem subtreeAt_graftI_inside {α : Type} :
    ∀ (tr : ITree α) (g : Nat) (SG : ITree α) (n : Nat) (S S' : ITree α),
      (indicesI tr).Nodup → n ≠ g →
      subtreeAt tr g = some SG → subtreeAt SG n = some S →
      subtreeAt (graftI tr n S') g = some (graftI SG n S') := by
  intro tr
  induction tr with
  | leaf => intro g SG n S S' _ _ hSG; cases hSG
  | node c l i d r ihl ihr =>
    intro g SG n S S' hnd hng hSG hS
    rw [indicesI] at hnd
    have hnd' := List.nodup_cons.mp hnd
    have hndl : (indicesI l).Nodup := hnd'.2.of_append_left
    have hndr : (indicesI r).Nodup := hnd'.2.of_append_right
    have hdlr : ∀ a, a ∈ indicesI l → a ∉ indicesI r :=
      fun a hal har => (List.disjoint_of_nodup_append hnd'.2) hal har
    have hnSG : n ∈ indicesI SG := subtreeAt_mem_of_some SG n S hS
    rw [subtreeAt] at hSG
    by_cases hig : i = g
    · rw [if_pos hig] at hSG
      injection hSG with hSG2
      have hin : i ≠ n := by
        rw [hig]
        exact fun he => hng he.symm
      rw [graftI, if_neg (fun he => hin he), subtreeAt, if_pos hig,
        ← hSG2, graftI, if_neg (fun he => hin he)]
    · rw [if_neg hig] at hSG
      cases hlg : subtreeAt l g with
      | some slg =>
        rw [hlg] at hSG
        injection hSG with hSG2
        rw [hSG2] at hlg
        have hnl : n ∈ indicesI l :=
          subtreeAt_indices_sub l g SG hlg n hnSG
        have hnr : n ∉ indicesI r := hdlr n hnl
        have hin : i ≠ n := fun he =>
          hnd'.1 (List.mem_append.mpr (Or.inl (he ▸ hnl)))
        rw [graftI, if_neg hin, graftI_not_mem r n S' hnr, subtreeAt,
          if_neg hig]
        have hrec := ihl g SG n S S' hndl hng hlg hS
        rw [hrec]
      | none =>
        rw [hlg] at hSG
        have hgr : g ∈ indicesI r := by
          obtain ⟨cG, lG, dG, rG, hsh⟩ := subtreeAt_root r g SG hSG
          refine subtreeAt_indices_sub r g SG hSG g ?_
          rw [hsh, indicesI]
          exact List.mem_cons_self _ _
        have hnr : n ∈ indicesI r :=
          subtreeAt_indices_sub r g SG hSG n hnSG
        have hnl : n ∉ indicesI l := fun hm => hdlr n hm hnr
        have hin : i ≠ n := fun he =>
          hnd'.1 (List.mem_append.mpr (Or.inr (he ▸ hnr)))
        rw [graftI, if_neg hin, graftI_not_mem l n S' hnl, subtreeAt,
          if_neg hig, hlg]
        exact ihr g SG n S S' hndr hng hSG hS

theorem subtreeAt_eq_none {α : Type} (tr : ITree α) (j : Nat)
    (h : j ∉ indicesI tr) : subtreeAt tr j = none := by
  cases hS : subtreeAt tr j with
  | none => rfl
  | some S => exact absurd (subtreeAt_mem_of_some tr j S hS) h

/-- The sibling subtree sitting right of `parent` is itself addressable. -/
theorem subtreeAt_child_r {α : Type} (tr : ITree α)
    (hnd : (indicesI tr).Nodup) (parent s : Nat) (cg : Colour) (dg : α)
    (SN SS : ITree α)
    (hSg : subtreeAt tr parent = some (ITree.node cg SN parent dg SS))
    (hroot : rootLink SS = some s) (hsSN : s ∉ indicesI SN)
    (hsp : s ≠ parent) :
    subtreeAt tr s = some SS := by
  have hsmem : s ∈ indicesI (ITree.node cg SN parent dg SS) := by
    rw [indicesI]
    exact List.mem_cons_of_mem _
      (List.mem_append.mpr (Or.inr (rootLink_mem SS s hroot)))
  have h1 := subtreeAt_inner tr parent _ hnd hSg s hsmem
  rw [subtreeAt, if_neg (fun he => hsp he.symm),
    subtreeAt_eq_none SN s hsSN] at h1
  cases SS with
  | leaf => cases hroot
  | node cS lS iS dS rS =>
    injection hroot with hiS
    rw [subtreeAt, if_pos hiS] at h1
    exact h1

/-- The sibling subtree sitting left of `parent` is itself addressable. -/
theorem subtreeAt_child_l {α : Type} (tr : ITree α)
    (hnd : (indicesI tr).Nodup) (parent s : Nat) (cg : Colour) (dg : α)
    (SN SS : ITree α)
    (hSg : subtreeAt tr parent = some (ITree.node cg SS parent dg SN))
    (hroot : rootLink SS = some s) (hsp : s ≠ parent) :
    subtreeAt tr s = some SS := by
  have hsmem : s ∈ indicesI (ITree.node cg SS parent dg SN) := by
    rw [indicesI]
    exact List.mem_cons_of_mem _
      (List.mem_append.mpr (Or.inl (rootLink_mem SS s hroot)))
  have h1 := subtreeAt_inner tr parent _ hnd hSg s hsmem
  rw [subtreeAt, if_neg (fun he => hsp he.symm)] at h1
  cases SS with
  | leaf => cases hroot
  | node cS lS iS dS rS =>
    injection hroot with hiS
    rw [subtreeAt, if_pos hiS] at h1
    exact h1

theorem subtreeAt_nodup {α : Type} (tr : ITree α) (n : Nat) (S : ITree α)
    (hS : subtreeAt tr n = some S) (hnd : (indicesI tr).Nodup) :
    (indicesI S).Nodup := by
  obtain ⟨⟨X, Y, hXY, _⟩, _⟩ := subtreeAt_split tr n S hS hnd
  rw [hXY] at hnd
  exact hnd.of_append_left.of_append_right

/-- Below the root, a node's parent handle addresses a subtree that
contains the node. -/
theorem view_parent_subtree {α : Type} (t : RBTreeSet α) (tr : ITree α)
    (node parent : Nat) (hv : viewOK t tr) (hmem : node ∈ indicesI tr)
    (hrt : t.root ≠ some node)
    (hpar0 : parent! t.heap node = some parent) :
    ∃ S_par, parent ∈ indicesI tr ∧ subtreeAt tr parent = some S_par
      ∧ node ∈ indicesI S_par := by
  obtain ⟨hre, hpar, hnd⟩ := hv
  have hsomeN := subtreeAt_isSome_of_mem tr node hmem
  cases hSN : subtreeAt tr node with
  | none => rw [hSN] at hsomeN; cases hsomeN
  | some SN =>
  rcases subtreeAt_parent tr (t.heap.length + 1) t.heap none t.root node SN
      hre hpar hnd hSN with
    ⟨hrt2, _, _⟩ | ⟨g, ndg, hgmem, hgg, hpn1, hgS, hside, _⟩
  · exact absurd hrt2 hrt
  have hgp : parent = g := by
    rw [hpar0] at hpn1
    exact Option.some.inj hpn1
  subst hgp
  obtain ⟨ndgv, cg, L, dg, R, hggv, hSg, _, _, hcl, hcr⟩ :=
    view_shape t tr ⟨hre, hpar, hnd⟩ parent hgmem
  have hndg : ndgv = ndg := by
    rw [hgg] at hggv
    exact (Option.some.inj hggv).symm
  rw [hndg] at hcl hcr
  refine ⟨ITree.node cg L parent dg R, hgmem, hSg, ?_⟩
  rw [indicesI]
  rcases hside with hL | hR
  · have hrl : rootLink L = some node := hcl.symm.trans hL
    exact List.mem_cons_of_mem _ (List.mem_append.mpr (Or.inl
      (rootLink_mem L node hrl)))
  · have hrr : rootLink R = some node := hcr.symm.trans hR
    exact List.mem_cons_of_mem _ (List.mem_append.mpr (Or.inr
      (rootLink_mem R node hrr)))

/-- Fix-up, no-sibling arm: the recursion on the parent keeps the view
bundle pinned at the node. -/
theorem dbf_sib_none {α : Type} (fuel : Nat) (t : RBTreeSet α)
    (node parent : Nat) (tr : ITree α)
    (ih : ∀ (t1 : RBTreeSet α) (n1 : Nat) (tr1 : ITree α),
      viewOK t1 tr1 → n1 ∈ indicesI tr1 →
      ∃ tr2, stepBundle t1 (double_black_fixup fuel t1 n1) n1 tr1 tr2)
    (hv : viewOK t tr) (hmem : node ∈ indicesI tr)
    (hrt : t.root ≠ some node)
    (hpar0 : parent! t.heap node = some parent) :
    ∃ tr', stepBundle t (double_black_fixup fuel t parent) node tr tr' := by
  obtain ⟨S_par, hgmem, hSg, hmemS⟩ :=
    view_parent_subtree t tr node parent hv hmem hrt hpar0
  obtain ⟨tr2, h2⟩ := ih t parent tr hv hgmem
  exact ⟨tr2, bundle_down t _ parent node tr tr2 S_par h2 hv.2.2 hSg hmemS⟩

/-- Fix-up, both-nephews-black arm: recolour the sibling red, then either
recurse on the parent or recolour it black. -/
theorem dbf_arm3 {α : Type} (fuel : Nat) (t t' : RBTreeSet α)
    (node parent s : Nat) (tr : ITree α)
    (ih : ∀ (t1 : RBTreeSet α) (n1 : Nat) (tr1 : ITree α),
      viewOK t1 tr1 → n1 ∈ indicesI tr1 →
      ∃ tr2, stepBundle t1 (double_black_fixup fuel t1 n1) n1 tr1 tr2)
    (hv : viewOK t tr) (hmem : node ∈ indicesI tr)
    (hrt : t.root ≠ some node)
    (hpar0 : parent! t.heap node = some parent)
    (hsib : sibling t.heap node = some s)
    (ht' : t' = if colour! (set_colour t.heap s Colour.red) parent
        == some Colour.black then
        double_black_fixup fuel
          { t with heap := set_colour t.heap s Colour.red } parent
      else
        RBTreeSet.mk
          (set_colour (set_colour t.heap s Colour.red) parent Colour.black)
          t.root t.length) :
    ∃ tr', stepBundle t t' node tr tr' := by
  subst ht'
  obtain ⟨cg, cs, dg, ds, SN, Ls, Rs, hgmem, hSNroot, hSN, hpars, hcolg,
    hcols, hns, hng, hsp, hparSN, hdisjSb, hor⟩ :=
    view_sib_pattern t tr node parent s hv hmem hrt hpar0 hsib
  have hsSN : s ∉ indicesI SN := fun hmem2 =>
    hdisjSb s hmem2 (by rw [indicesI]; exact List.mem_cons_self _ _)
  have hb1 : stepBundle t { t with heap := set_colour t.heap s Colour.red }
      node tr (recolourI tr s Colour.red) :=
    set_colour_bundle t tr s Colour.red node hv (fun SN' hSN' => by
      rw [hSN] at hSN'
      rw [← Option.some.inj hSN']
      exact hsSN)
  obtain ⟨S_par, hSg, hnodeS, _⟩ : ∃ S_par,
      subtreeAt tr parent = some S_par ∧ node ∈ indicesI S_par
        ∧ s ∈ indicesI S_par := by
    rcases hor with ⟨_, hSg, _⟩ | ⟨_, hSg, _⟩
    · refine ⟨_, hSg, ?_, ?_⟩
      · rw [indicesI]
        exact List.mem_cons_of_mem _ (List.mem_append.mpr (Or.inl
          (rootLink_mem SN node hSNroot)))
      · rw [indicesI]
        refine List.mem_cons_of_mem _ (List.mem_append.mpr (Or.inr ?_))
        rw [indicesI]
        exact List.mem_cons_self _ _
    · refine ⟨_, hSg, ?_, ?_⟩
      · rw [indicesI]
        exact List.mem_cons_of_mem _ (List.mem_append.mpr (Or.inr
          (rootLink_mem SN node hSNroot)))
      · rw [indicesI]
        refine List.mem_cons_of_mem _ (List.mem_append.mpr (Or.inl ?_))
        rw [indicesI]
        exact List.mem_cons_self _ _
  have hSg1 : subtreeAt (recolourI tr s Colour.red) parent
      = some (recolourI S_par s Colour.red) :=
    subtreeAt_recolourI_map tr hv.2.2 parent S_par hSg s Colour.red
  have hmem1 : node ∈ indicesI (recolourI S_par s Colour.red) := by
    rw [indicesI_recolourI]
    exact hnodeS
  by_cases hc6 : (colour! (set_colour t.heap s Colour.red) parent
      == some Colour.black) = true
  · rw [if_pos hc6]
    have hgmem1 : parent ∈ indicesI (recolourI tr s Colour.red) := by
      rw [indicesI_recolourI]
      exact hgmem
    obtain ⟨tr2, h2⟩ := ih
      { t with heap := set_colour t.heap s Colour.red } parent
      (recolourI tr s Colour.red) hb1.1 hgmem1
    refine ⟨tr2, stepBundle_trans _ _ _ _ _ _ _ hb1 ?_⟩
    exact bundle_down _ _ parent node _ _ _ h2 hb1.1.2.2 hSg1 hmem1
  · rw [if_neg hc6]
    have hb2 := set_colour_bundle
      { t with heap := set_colour t.heap s Colour.red }
      (recolourI tr s Colour.red) parent Colour.black node hb1.1
      (fun SN' hSN' => by
        have h3 := hb1.2.2.2.2 SN hSN
        rw [h3] at hSN'
        rw [← Option.some.inj hSN']
        exact hparSN)
    exact ⟨_, stepBundle_trans _ _ _ _ _ _ _ hb1 hb2⟩

/-- Fix-up, red-sibling arm: recolour parent red and sibling black, rotate
at the parent towards the node, then retry at the node. -/
theorem dbf_arm1 {α : Type} (fuel : Nat) (t t' : RBTreeSet α)
    (node parent s : Nat) (tr : ITree α)
    (ih : ∀ (t1 : RBTreeSet α) (n1 : Nat) (tr1 : ITree α),
      viewOK t1 tr1 → n1 ∈ indicesI tr1 →
      ∃ tr2, stepBundle t1 (double_black_fixup fuel t1 n1) n1 tr1 tr2)
    (hv : viewOK t tr) (hmem : node ∈ indicesI tr)
    (hrt : t.root ≠ some node)
    (hpar0 : parent! t.heap node = some parent)
    (hsib : sibling t.heap node = some s)
    (ht' : t' = double_black_fixup fuel
      (if is_left_child
          (set_colour (set_colour t.heap parent Colour.red) s Colour.black)
          s then
        rotate_right
          (RBTreeSet.mk
            (set_colour (set_colour t.heap parent Colour.red) s
              Colour.black)
            t.root t.length) parent
      else
        rotate_left
          (RBTreeSet.mk
            (set_colour (set_colour t.heap parent Colour.red) s
              Colour.black)
            t.root t.length) parent) node) :
    ∃ tr', stepBundle t t' node tr tr' := by
  subst ht'
  obtain ⟨cg, cs, dg, ds, SN, Ls, Rs, hgmem, hSNroot, hSN, hpars, hcolg,
    hcols, hns, hng, hsp, hparSN, hdisjSb, hor⟩ :=
    view_sib_pattern t tr node parent s hv hmem hrt hpar0 hsib
  have hsSN : s ∉ indicesI SN := fun hmem2 =>
    hdisjSb s hmem2 (by rw [indicesI]; exact List.mem_cons_self _ _)
  have hps : ¬(parent = s) := fun he => hsp he.symm
  have hb1 : stepBundle t
      { t with heap := set_colour t.heap parent Colour.red } node tr
      (recolourI tr parent Colour.red) :=
    set_colour_bundle t tr parent Colour.red node hv (fun SN' hSN' => by
      rw [hSN] at hSN'
      rw [← Option.some.inj hSN']
      exact hparSN)
  have hb2 : stepBundle { t with heap := set_colour t.heap parent Colour.red }
      (RBTreeSet.mk
        (set_colour (set_colour t.heap parent Colour.red) s Colour.black)
        t.root t.length) node
      (recolourI tr parent Colour.red)
      (recolourI (recolourI tr parent Colour.red) s Colour.black) :=
    set_colour_bundle { t with heap := set_colour t.heap parent Colour.red }
      (recolourI tr parent Colour.red) s Colour.black node hb1.1
      (fun SN' hSN' => by
        have h3 := hb1.2.2.2.2 SN hSN
        rw [h3] at hSN'
        rw [← Option.some.inj hSN']
        exact hsSN)
  have hb12 := stepBundle_trans _ _ _ _ _ _ _ hb1 hb2
  have hnd := hv.2.2
  have hnd1 : (indicesI (recolourI tr parent Colour.red)).Nodup :=
    hb1.1.2.2
  have hilc : is_left_child
      (set_colour (set_colour t.heap parent Colour.red) s Colour.black) s
      = is_left_child t.heap s := by
    rw [is_left_child_set_colour, is_left_child_set_colour]
  rcases hor with ⟨hilcn, hSg, hilcs⟩ | ⟨hilcn, hSg, hilcs⟩
  · -- node is the left child, the sibling sits right of the parent
    rw [hilc, hilcs, if_neg Bool.false_ne_true]
    have hSg1 := subtreeAt_recolourI_map tr hnd parent _ hSg parent
      Colour.red
    rw [recolourI, if_pos rfl] at hSg1
    have hSg2 := subtreeAt_recolourI_map _ hnd1 parent _ hSg1 s Colour.black
    rw [recolourI, if_neg hps, recolourI_not_mem SN s Colour.black hsSN,
      recolourI, if_pos rfl] at hSg2
    have hmem2 : node ∈ indicesI
        (ITree.node Colour.red SN parent dg
          (ITree.node Colour.black Ls s ds Rs)) := by
      rw [indicesI]
      exact List.mem_cons_of_mem _ (List.mem_append.mpr (Or.inl
        (rootLink_mem SN node hSNroot)))
    have hb3 := rotate_left_bundle
      (RBTreeSet.mk
        (set_colour (set_colour t.heap parent Colour.red) s Colour.black)
        t.root t.length)
      (recolourI (recolourI tr parent Colour.red) s Colour.black)
      parent s Colour.red Colour.black dg ds SN Ls Rs node hb12.1 hSg2
      hng hns hmem2
    have hb123 := stepBundle_trans _ _ _ _ _ _ _ hb12 hb3
    have hmem3 : node ∈ indicesI (graftI
        (recolourI (recolourI tr parent Colour.red) s Colour.black) parent
        (ITree.node Colour.black
          (ITree.node Colour.red SN parent dg Ls) s ds Rs)) :=
      subtreeAt_mem_of_some _ node SN (hb123.2.2.2.2 SN hSN)
    obtain ⟨tr4, h4⟩ := ih _ node _ hb123.1 hmem3
    exact ⟨tr4, stepBundle_trans _ _ _ _ _ _ _ hb123 h4⟩
  · -- node is the right child, the sibling sits left of the parent
    rw [hilc, hilcs, if_pos rfl]
    have hSg1 := subtreeAt_recolourI_map tr hnd parent _ hSg parent
      Colour.red
    rw [recolourI, if_pos rfl] at hSg1
    have hSg2 := subtreeAt_recolourI_map _ hnd1 parent _ hSg1 s Colour.black
    rw [recolourI, if_neg hps, recolourI_not_mem SN s Colour.black hsSN,
      recolourI, if_pos rfl] at hSg2
    have hmem2 : node ∈ indicesI
        (ITree.node Colour.red (ITree.node Colour.black Ls s ds Rs) parent
          dg SN) := by
      rw [indicesI]
      exact List.mem_cons_of_mem _ (List.mem_append.mpr (Or.inr
        (rootLink_mem SN node hSNroot)))
    have hb3 := rotate_right_bundle
      (RBTreeSet.mk
        (set_colour (set_colour t.heap parent Colour.red) s Colour.black)
        t.root t.length)
      (recolourI (recolourI tr parent Colour.red) s Colour.black)
      parent s Colour.red Colour.black dg ds Ls Rs SN node hb12.1 hSg2
      hng hns hmem2
    have hb123 := stepBundle_trans _ _ _ _ _ _ _ hb12 hb3
    have hmem3 : node ∈ indicesI (graftI
        (recolourI (recolourI tr parent Colour.red) s Colour.black) parent
        (ITree.node Colour.black Ls s ds
          (ITree.node Colour.red Rs parent dg SN))) :=
      subtreeAt_mem_of_some _ node SN (hb123.2.2.2.2 SN hSN)
    obtain ⟨tr4, h4⟩ := ih _ node _ hb123.1 hmem3
    exact ⟨tr4, stepBundle_trans _ _ _ _ _ _ _ hb123 h4⟩

/-- Fix-up, near-nephew arm, sibling left of the parent: recolour the
left nephew and the sibling, rotate right at the parent, recolour the
parent black. -/
theorem dbf_arm2_a {α : Type} (t t' : RBTreeSet α)
    (node parent s l : Nat) (tr : ITree α)
    (hv : viewOK t tr) (hmem : node ∈ indicesI tr)
    (hrt : t.root ≠ some node)
    (hpar0 : parent! t.heap node = some parent)
    (hsib : sibling t.heap node = some s)
    (hL : left! t.heap s = some l)
    (hc5 : is_left_child t.heap s = true)
    (ht' : t' = RBTreeSet.mk
      (set_colour
        (rotate_right
          (RBTreeSet.mk
            (set_colour
              (set_colour t.heap l ((colour! t.heap s).getD Colour.red)) s
              ((colour!
                (set_colour t.heap l ((colour! t.heap s).getD Colour.red))
                parent).getD Colour.red))
            t.root t.length)
          parent).heap parent Colour.black)
      (rotate_right
        (RBTreeSet.mk
          (set_colour
            (set_colour t.heap l ((colour! t.heap s).getD Colour.red)) s
            ((colour!
              (set_colour t.heap l ((colour! t.heap s).getD Colour.red))
              parent).getD Colour.red))
          t.root t.length)
        parent).root
      (rotate_right
        (RBTreeSet.mk
          (set_colour
            (set_colour t.heap l ((colour! t.heap s).getD Colour.red)) s
            ((colour!
              (set_colour t.heap l ((colour! t.heap s).getD Colour.red))
              parent).getD Colour.red))
          t.root t.length)
        parent).length) :
    ∃ tr', stepBundle t t' node tr tr' := by
  subst ht'
  obtain ⟨cg, cs, dg, ds, SN, Ls, Rs, hgmem, hSNroot, hSN, hpars, hcolg,
    hcols, hns, hng, hsp, hparSN, hdisjSb, hor⟩ :=
    view_sib_pattern t tr node parent s hv hmem hrt hpar0 hsib
  set c1 := (colour! t.heap s).getD Colour.red with hc1eq
  set c2 := (colour! (set_colour t.heap l c1) parent).getD Colour.red
    with hc2eq
  have hnd := hv.2.2
  have hsSN : s ∉ indicesI SN := fun hmem2 =>
    hdisjSb s hmem2 (by rw [indicesI]; exact List.mem_cons_self _ _)
  have hps : ¬(parent = s) := fun he => hsp he.symm
  have hnodeSN : node ∈ indicesI SN := rootLink_mem SN node hSNroot
  rcases hor with ⟨_, _, hilcs⟩ | ⟨_, hSg, _⟩
  · exact absurd hc5 (by rw [hilcs]; exact Bool.false_ne_true)
  have hndSpar := subtreeAt_nodup tr parent _ hSg hnd
  have hSs : subtreeAt tr s = some (ITree.node cs Ls s ds Rs) :=
    subtreeAt_child_l tr hnd parent s cg dg SN _ hSg rfl hsp
  have hndSib := subtreeAt_nodup tr s _ hSs hnd
  have hsmem : s ∈ indicesI tr := subtreeAt_mem_of_some tr s _ hSs
  obtain ⟨nds, cT, lT, dT, rT, hgs, hSs2, _, _, hndsl, _⟩ :=
    view_shape t tr hv s hsmem
  have hinj := Option.some.inj (hSs2.symm.trans hSs)
  injection hinj with h1 h2 h3 h4 h5
  have hLleft : nds.left = some l := by
    rw [left!, hgs] at hL
    exact hL
  have hrlLs : rootLink Ls = some l := by
    rw [← h2, ← hndsl]
    exact hLleft
  cases Ls with
  | leaf => cases hrlLs
  | node cl Al ll dl Bl =>
  rw [rootLink] at hrlLs
  injection hrlLs with hll
  have hll2 : l = ll := hll.symm
  subst hll2
  -- index side conditions
  have hlSib : l ∈ indicesI (ITree.node cs (ITree.node cl Al l dl Bl) s
      ds Rs) := by
    rw [indicesI]
    refine List.mem_cons_of_mem _ (List.mem_append.mpr (Or.inl ?_))
    rw [indicesI]
    exact List.mem_cons_self _ _
  have hlSN : l ∉ indicesI SN := fun hmem2 => hdisjSb l hmem2 hlSib
  have hparSib : parent ∉ indicesI (ITree.node cs
      (ITree.node cl Al l dl Bl) s ds Rs) := by
    rw [indicesI] at hndSpar
    intro hmem2
    exact (List.nodup_cons.mp hndSpar).1 (List.mem_append.mpr
      (Or.inl hmem2))
  have hpl : ¬(parent = l) := fun he => hparSib (he ▸ hlSib)
  have hlLs : l ∈ indicesI (ITree.node cl Al l dl Bl) := by
    rw [indicesI]
    exact List.mem_cons_self _ _
  have hsl : ¬(s = l) := by
    rw [indicesI] at hndSib
    intro he
    refine (List.nodup_cons.mp hndSib).1 (List.mem_append.mpr
      (Or.inl ?_))
    rw [he]
    exact hlLs
  have hlRs : l ∉ indicesI Rs := fun hmem2 =>
    (List.disjoint_of_nodup_append (List.nodup_cons.mp
      (by rw [indicesI] at hndSib; exact hndSib)).2) hlLs hmem2
  have hnl : node ≠ l := fun he => hlSN (he ▸ hnodeSN)
  -- the two recolouring steps
  have hb1 : stepBundle t { t with heap := set_colour t.heap l c1 } node tr
      (recolourI tr l c1) :=
    set_colour_bundle t tr l c1 node hv (fun SN' hSN' => by
      rw [hSN] at hSN'
      rw [← Option.some.inj hSN']
      exact hlSN)
  have hb2 : stepBundle { t with heap := set_colour t.heap l c1 }
      (RBTreeSet.mk (set_colour (set_colour t.heap l c1) s c2) t.root
        t.length) node (recolourI tr l c1)
      (recolourI (recolourI tr l c1) s c2) :=
    set_colour_bundle { t with heap := set_colour t.heap l c1 }
      (recolourI tr l c1) s c2 node hb1.1 (fun SN' hSN' => by
        have h3 := hb1.2.2.2.2 SN hSN
        rw [h3] at hSN'
        rw [← Option.some.inj hSN']
        exact hsSN)
  have hb12 := stepBundle_trans _ _ _ _ _ _ _ hb1 hb2
  have hnd1 : (indicesI (recolourI tr l c1)).Nodup := hb1.1.2.2
  -- transported parent pattern
  have hSg1 := subtreeAt_recolourI_map tr hnd parent _ hSg l c1
  rw [recolourI, if_neg hpl, recolourI_not_mem SN l c1 hlSN, recolourI,
    if_neg hsl, recolourI_not_mem Rs l c1 hlRs, recolourI, if_pos rfl]
    at hSg1
  have hSg2 := subtreeAt_recolourI_map _ hnd1 parent _ hSg1 s c2
  rw [recolourI, if_neg hps, recolourI_not_mem SN s c2 hsSN, recolourI,
    if_pos rfl] at hSg2
  have hmem2 : node ∈ indicesI (ITree.node cg
      (ITree.node c2 (ITree.node c1 Al l dl Bl) s ds Rs) parent dg SN) := by
    rw [indicesI]
    exact List.mem_cons_of_mem _ (List.mem_append.mpr (Or.inr hnodeSN))
  have hb3 := rotate_right_bundle
    (RBTreeSet.mk (set_colour (set_colour t.heap l c1) s c2) t.root
      t.length)
    (recolourI (recolourI tr l c1) s c2) parent s cg c2 dg ds
    (ITree.node c1 Al l dl Bl) Rs SN node hb12.1 hSg2 hng hns hmem2
  have hb123 := stepBundle_trans _ _ _ _ _ _ _ hb12 hb3
  have hb4 := set_colour_bundle
    (rotate_right
      (RBTreeSet.mk (set_colour (set_colour t.heap l c1) s c2) t.root
        t.length) parent)
    (graftI (recolourI (recolourI tr l c1) s c2) parent
      (ITree.node c2 (ITree.node c1 Al l dl Bl) s ds
        (ITree.node cg Rs parent dg SN)))
    parent Colour.black node hb123.1 (fun SN' hSN' => by
      have h3 := hb123.2.2.2.2 SN hSN
      rw [h3] at hSN'
      rw [← Option.some.inj hSN']
      exact hparSN)
  exact ⟨_, stepBundle_trans _ _ _ _ _ _ _ hb123 hb4⟩

/-- Fix-up, near-nephew arm, sibling right of the parent: recolour the
right nephew and the sibling, rotate left at the parent, recolour the
parent black. -/
theorem dbf_arm2_d {α : Type} (t t' : RBTreeSet α)
    (node parent s r : Nat) (tr : ITree α)
    (hv : viewOK t tr) (hmem : node ∈ indicesI tr)
    (hrt : t.root ≠ some node)
    (hpar0 : parent! t.heap node = some parent)
    (hsib : sibling t.heap node = some s)
    (hR : right! t.heap s = some r)
    (hc5 : is_left_child t.heap s = false)
    (ht' : t' = RBTreeSet.mk
      (set_colour
        (rotate_left
          (RBTreeSet.mk
            (set_colour
              (set_colour t.heap r ((colour! t.heap s).getD Colour.red)) s
              ((colour!
                (set_colour t.heap r ((colour! t.heap s).getD Colour.red))
                parent).getD Colour.red))
            t.root t.length)
          parent).heap parent Colour.black)
      (rotate_left
        (RBTreeSet.mk
          (set_colour
            (set_colour t.heap r ((colour! t.heap s).getD Colour.red)) s
            ((colour!
              (set_colour t.heap r ((colour! t.heap s).getD Colour.red))
              parent).getD Colour.red))
          t.root t.length)
        parent).root
      (rotate_left
        (RBTreeSet.mk
          (set_colour
            (set_colour t.heap r ((colour! t.heap s).getD Colour.red)) s
            ((colour!
              (set_colour t.heap r ((colour! t.heap s).getD Colour.red))
              parent).getD Colour.red))
          t.root t.length)
        parent).length) :
    ∃ tr', stepBundle t t' node tr tr' := by
  subst ht'
  obtain ⟨cg, cs, dg, ds, SN, Ls, Rs, hgmem, hSNroot, hSN, hpars, hcolg,
    hcols, hns, hng, hsp, hparSN, hdisjSb, hor⟩ :=
    view_sib_pattern t tr node parent s hv hmem hrt hpar0 hsib
  set c1 := (colour! t.heap s).getD Colour.red with hc1eq
  set c2 := (colour! (set_colour t.heap r c1) parent).getD Colour.red
    with hc2eq
  have hnd := hv.2.2
  have hsSN : s ∉ indicesI SN := fun hmem2 =>
    hdisjSb s hmem2 (by rw [indicesI]; exact List.mem_cons_self _ _)
  have hps : ¬(parent = s) := fun he => hsp he.symm
  have hnodeSN : node ∈ indicesI SN := rootLink_mem SN node hSNroot
  rcases hor.symm with ⟨_, _, hilcs⟩ | ⟨_, hSg, _⟩
  · exact absurd hilcs (by rw [hc5]; exact Bool.false_ne_true)
  have hndSpar := subtreeAt_nodup tr parent _ hSg hnd
  have hSs : subtreeAt tr s = some (ITree.node cs Ls s ds Rs) :=
    subtreeAt_child_r tr hnd parent s cg dg SN _ hSg rfl hsSN hsp
  have hndSib := subtreeAt_nodup tr s _ hSs hnd
  have hsmem : s ∈ indicesI tr := subtreeAt_mem_of_some tr s _ hSs
  obtain ⟨nds, cT, lT, dT, rT, hgs, hSs2, _, _, _, hndsr⟩ :=
    view_shape t tr hv s hsmem
  have hinj := Option.some.inj (hSs2.symm.trans hSs)
  injection hinj with h1 h2 h3 h4 h5
  have hRright : nds.right = some r := by
    rw [right!, hgs] at hR
    exact hR
  have hrlRs : rootLink Rs = some r := by
    rw [← h5, ← hndsr]
    exact hRright
  cases Rs with
  | leaf => cases hrlRs
  | node cr Ar rr dr Br =>
  rw [rootLink] at hrlRs
  injection hrlRs with hrr
  have hrr2 : r = rr := hrr.symm
  subst hrr2
  -- index side conditions
  have hrRs : r ∈ indicesI (ITree.node cr Ar r dr Br) := by
    rw [indicesI]
    exact List.mem_cons_self _ _
  have hrSib : r ∈ indicesI (ITree.node cs Ls s ds
      (ITree.node cr Ar r dr Br)) := by
    rw [indicesI]
    exact List.mem_cons_of_mem _ (List.mem_append.mpr (Or.inr hrRs))
  have hrSN : r ∉ indicesI SN := fun hmem2 => hdisjSb r hmem2 hrSib
  have hparSib : parent ∉ indicesI (ITree.node cs Ls s ds
      (ITree.node cr Ar r dr Br)) := by
    rw [indicesI] at hndSpar
    intro hmem2
    exact (List.nodup_cons.mp hndSpar).1 (List.mem_append.mpr
      (Or.inr hmem2))
  have hpr : ¬(parent = r) := fun he => hparSib (he ▸ hrSib)
  have hsr : ¬(s = r) := by
    rw [indicesI] at hndSib
    intro he
    refine (List.nodup_cons.mp hndSib).1 (List.mem_append.mpr
      (Or.inr ?_))
    rw [he]
    exact hrRs
  have hrLs : r ∉ indicesI Ls := fun hmem2 =>
    (List.disjoint_of_nodup_append (List.nodup_cons.mp
      (by rw [indicesI] at hndSib; exact hndSib)).2) hmem2 hrRs
  have hnr : node ≠ r := fun he => hrSN (he ▸ hnodeSN)
  -- the two recolouring steps
  have hb1 : stepBundle t { t with heap := set_colour t.heap r c1 } node tr
      (recolourI tr r c1) :=
    set_colour_bundle t tr r c1 node hv (fun SN' hSN' => by
      rw [hSN] at hSN'
      rw [← Option.some.inj hSN']
      exact hrSN)
  have hb2 : stepBundle { t with heap := set_colour t.heap r c1 }
      (RBTreeSet.mk (set_colour (set_colour t.heap r c1) s c2) t.root
        t.length) node (recolourI tr r c1)
      (recolourI (recolourI tr r c1) s c2) :=
    set_colour_bundle { t with heap := set_colour t.heap r c1 }
      (recolourI tr r c1) s c2 node hb1.1 (fun SN' hSN' => by
        have h3 := hb1.2.2.2.2 SN hSN
        rw [h3] at hSN'
        rw [← Option.some.inj hSN']
        exact hsSN)
  have hb12 := stepBundle_trans _ _ _ _ _ _ _ hb1 hb2
  have hnd1 : (indicesI (recolourI tr r c1)).Nodup := hb1.1.2.2
  -- transported parent pattern
  have hSg1 := subtreeAt_recolourI_map tr hnd parent _ hSg r c1
  rw [recolourI, if_neg hpr, recolourI_not_mem SN r c1 hrSN, recolourI,
    if_neg hsr, recolourI_not_mem Ls r c1 hrLs, recolourI, if_pos rfl]
    at hSg1
  have hSg2 := subtreeAt_recolourI_map _ hnd1 parent _ hSg1 s c2
  rw [recolourI, if_neg hps, recolourI_not_mem SN s c2 hsSN, recolourI,
    if_pos rfl] at hSg2
  have hmem2 : node ∈ indicesI (ITree.node cg SN parent dg
      (ITree.node c2 Ls s ds (ITree.node c1 Ar r dr Br))) := by
    rw [indicesI]
    exact List.mem_cons_of_mem _ (List.mem_append.mpr (Or.inl hnodeSN))
  have hb3 := rotate_left_bundle
    (RBTreeSet.mk (set_colour (set_colour t.heap r c1) s c2) t.root
      t.length)
    (recolourI (recolourI tr r c1) s c2) parent s cg c2 dg ds SN Ls
    (ITree.node c1 Ar r dr Br) node hb12.1 hSg2 hng hns hmem2
  have hb123 := stepBundle_trans _ _ _ _ _ _ _ hb12 hb3
  have hb4 := set_colour_bundle
    (rotate_left
      (RBTreeSet.mk (set_colour (set_colour t.heap r c1) s c2) t.root
        t.length) parent)
    (graftI (recolourI (recolourI tr r c1) s c2) parent
      (ITree.node c2 (ITree.node cg SN parent dg Ls) s ds
        (ITree.node c1 Ar r dr Br)))
    parent Colour.black node hb123.1 (fun SN' hSN' => by
      have h3 := hb123.2.2.2.2 SN hSN
      rw [h3] at hSN'
      rw [← Option.some.inj hSN']
      exact hparSN)
  exact ⟨_, stepBundle_trans _ _ _ _ _ _ _ hb123 hb4⟩

/-- Fix-up, far-nephew double-rotation arm, sibling right of the parent:
recolour the left nephew, rotate right at the sibling, rotate left at the
parent, recolour the parent black. -/
theorem dbf_arm2_b {α : Type} (t t' : RBTreeSet α)
    (node parent s l : Nat) (tr : ITree α)
    (hv : viewOK t tr) (hmem : node ∈ indicesI tr)
    (hrt : t.root ≠ some node)
    (hpar0 : parent! t.heap node = some parent)
    (hsib : sibling t.heap node = some s)
    (hL : left! t.heap s = some l)
    (hc5 : is_left_child t.heap s = false)
    (ht' : t' = RBTreeSet.mk
      (set_colour
        (rotate_left
          (rotate_right
            (RBTreeSet.mk
              (set_colour t.heap l ((colour! t.heap parent).getD
                Colour.red))
              t.root t.length) s)
          parent).heap parent Colour.black)
      (rotate_left
        (rotate_right
          (RBTreeSet.mk
            (set_colour t.heap l ((colour! t.heap parent).getD Colour.red))
            t.root t.length) s)
        parent).root
      (rotate_left
        (rotate_right
          (RBTreeSet.mk
            (set_colour t.heap l ((colour! t.heap parent).getD Colour.red))
            t.root t.length) s)
        parent).length) :
    ∃ tr', stepBundle t t' node tr tr' := by
  subst ht'
  obtain ⟨cg, cs, dg, ds, SN, Ls, Rs, hgmem, hSNroot, hSN, hpars, hcolg,
    hcols, hns, hng, hsp, hparSN, hdisjSb, hor⟩ :=
    view_sib_pattern t tr node parent s hv hmem hrt hpar0 hsib
  set c1 := (colour! t.heap parent).getD Colour.red with hc1eq
  have hnd := hv.2.2
  have hsSN : s ∉ indicesI SN := fun hmem2 =>
    hdisjSb s hmem2 (by rw [indicesI]; exact List.mem_cons_self _ _)
  have hps : ¬(parent = s) := fun he => hsp he.symm
  have hnodeSN : node ∈ indicesI SN := rootLink_mem SN node hSNroot
  rcases hor.symm with ⟨_, _, hilcs⟩ | ⟨_, hSg, _⟩
  · exact absurd hilcs (by rw [hc5]; exact Bool.false_ne_true)
  have hndSpar := subtreeAt_nodup tr parent _ hSg hnd
  have hSs : subtreeAt tr s = some (ITree.node cs Ls s ds Rs) :=
    subtreeAt_child_r tr hnd parent s cg dg SN _ hSg rfl hsSN hsp
  have hndSib := subtreeAt_nodup tr s _ hSs hnd
  have hsmem : s ∈ indicesI tr := subtreeAt_mem_of_some tr s _ hSs
  obtain ⟨nds, cT, lT, dT, rT, hgs, hSs2, _, _, hndsl, _⟩ :=
    view_shape t tr hv s hsmem
  have hinj := Option.some.inj (hSs2.symm.trans hSs)
  injection hinj with h1 h2 h3 h4 h5
  have hLleft : nds.left = some l := by
    rw [left!, hgs] at hL
    exact hL
  have hrlLs : rootLink Ls = some l := by
    rw [← h2, ← hndsl]
    exact hLleft
  cases Ls with
  | leaf => cases hrlLs
  | node cl Al ll dl Bl =>
  rw [rootLink] at hrlLs
  injection hrlLs with hll
  have hll2 : l = ll := hll.symm
  subst hll2
  -- index side conditions
  have hlLs : l ∈ indicesI (ITree.node cl Al l dl Bl) := by
    rw [indicesI]
    exact List.mem_cons_self _ _
  have hlSib : l ∈ indicesI (ITree.node cs (ITree.node cl Al l dl Bl) s
      ds Rs) := by
    rw [indicesI]
    exact List.mem_cons_of_mem _ (List.mem_append.mpr (Or.inl hlLs))
  have hlSN : l ∉ indicesI SN := fun hmem2 => hdisjSb l hmem2 hlSib
  have hparSib : parent ∉ indicesI (ITree.node cs
      (ITree.node cl Al l dl Bl) s ds Rs) := by
    rw [indicesI] at hndSpar
    intro hmem2
    exact (List.nodup_cons.mp hndSpar).1 (List.mem_append.mpr
      (Or.inr hmem2))
  have hpl : ¬(parent = l) := fun he => hparSib (he ▸ hlSib)
  have hsl : ¬(s = l) := by
    rw [indicesI] at hndSib
    intro he
    refine (List.nodup_cons.mp hndSib).1 (List.mem_append.mpr
      (Or.inl ?_))
    rw [he]
    exact hlLs
  have hlRs : l ∉ indicesI Rs := fun hmem2 =>
    (List.disjoint_of_nodup_append (List.nodup_cons.mp
      (by rw [indicesI] at hndSib; exact hndSib)).2) hlLs hmem2
  have hnl : node ≠ l := fun he => hlSN (he ▸ hnodeSN)
  -- recolour the left nephew
  have hb1 : stepBundle t { t with heap := set_colour t.heap l c1 } node tr
      (recolourI tr l c1) :=
    set_colour_bundle t tr l c1 node hv (fun SN' hSN' => by
      rw [hSN] at hSN'
      rw [← Option.some.inj hSN']
      exact hlSN)
  have hnd1 : (indicesI (recolourI tr l c1)).Nodup := hb1.1.2.2
  -- rotate right at the sibling
  have hSs1 := subtreeAt_recolourI_map tr hnd s _ hSs l c1
  rw [recolourI, if_neg hsl, recolourI_not_mem Rs l c1 hlRs, recolourI,
    if_pos rfl] at hSs1
  have hindeq : indicesI (ITree.node cs (ITree.node c1 Al l dl Bl) s ds Rs)
      = indicesI (ITree.node cs (ITree.node cl Al l dl Bl) s ds Rs) := by
    simp only [indicesI]
  have hb2 := rotate_right_bundle_out
    (RBTreeSet.mk (set_colour t.heap l c1) t.root t.length)
    (recolourI tr l c1) s l cs c1 ds dl Al Bl Rs node hb1.1 hSs1
    (fun SN' hSN' k hk => by
      have h3 := hb1.2.2.2.2 SN hSN
      rw [h3] at hSN'
      rw [← Option.some.inj hSN'] at hk
      rw [hindeq]
      exact hdisjSb k hk)
  have hb12 := stepBundle_trans _ _ _ _ _ _ _ hb1 hb2
  -- rotate left at the parent
  have hSg1 := subtreeAt_recolourI_map tr hnd parent _ hSg l c1
  rw [recolourI, if_neg hpl, recolourI_not_mem SN l c1 hlSN, recolourI,
    if_neg hsl, recolourI_not_mem Rs l c1 hlRs, recolourI, if_pos rfl]
    at hSg1
  have hSsInPar : subtreeAt
      (ITree.node cg SN parent dg
        (ITree.node cs (ITree.node c1 Al l dl Bl) s ds Rs)) s
      = some (ITree.node cs (ITree.node c1 Al l dl Bl) s ds Rs) := by
    rw [subtreeAt, if_neg hps, subtreeAt_eq_none SN s hsSN]
    show subtreeAt (ITree.node cs (ITree.node c1 Al l dl Bl) s ds Rs) s
      = _
    rw [subtreeAt, if_pos rfl]
  have hSg2 := subtreeAt_graftI_inside (recolourI tr l c1) parent _ s _
    (ITree.node c1 Al l dl (ITree.node cs Bl s ds Rs)) hnd1 hsp hSg1
    hSsInPar
  rw [graftI, if_neg hps,
    graftI_not_mem SN s (ITree.node c1 Al l dl
      (ITree.node cs Bl s ds Rs)) hsSN,
    graftI, if_pos rfl] at hSg2
  have hmem2 : node ∈ indicesI (ITree.node cg SN parent dg
      (ITree.node c1 Al l dl (ITree.node cs Bl s ds Rs))) := by
    rw [indicesI]
    exact List.mem_cons_of_mem _ (List.mem_append.mpr (Or.inl hnodeSN))
  have hb3 := rotate_left_bundle
    (rotate_right (RBTreeSet.mk (set_colour t.heap l c1) t.root t.length)
      s)
    (graftI (recolourI tr l c1) s
      (ITree.node c1 Al l dl (ITree.node cs Bl s ds Rs)))
    parent l cg c1 dg dl SN Al (ITree.node cs Bl s ds Rs) node hb12.1
    hSg2 hng hnl hmem2
  have hb123 := stepBundle_trans _ _ _ _ _ _ _ hb12 hb3
  -- recolour the parent black
  have hb4 := set_colour_bundle
    (rotate_left
      (rotate_right (RBTreeSet.mk (set_colour t.heap l c1) t.root
        t.length) s) parent)
    (graftI
      (graftI (recolourI tr l c1) s
        (ITree.node c1 Al l dl (ITree.node cs Bl s ds Rs)))
      parent
      (ITree.node c1 (ITree.node cg SN parent dg Al) l dl
        (ITree.node cs Bl s ds Rs)))
    parent Colour.black node hb123.1 (fun SN' hSN' => by
      have h3 := hb123.2.2.2.2 SN hSN
      rw [h3] at hSN'
      rw [← Option.some.inj hSN']
      exact hparSN)
  exact ⟨_, stepBundle_trans _ _ _ _ _ _ _ hb123 hb4⟩

/-- Fix-up, far-nephew double-rotation arm, sibling left of the parent:
recolour the right nephew, rotate left at the sibling, rotate right at
the parent, recolour the parent black. -/
theorem dbf_arm2_c {α : Type} (t t' : RBTreeSet α)
    (node parent s r : Nat) (tr : ITree α)
    (hv : viewOK t tr) (hmem : node ∈ indicesI tr)
    (hrt : t.root ≠ some node)
    (hpar0 : parent! t.heap node = some parent)
    (hsib : sibling t.heap node = some s)
    (hR : right! t.heap s = some r)
    (hc5 : is_left_child t.heap s = true)
    (ht' : t' = RBTreeSet.mk
      (set_colour
        (rotate_right
          (rotate_left
            (RBTreeSet.mk
              (set_colour t.heap r ((colour! t.heap parent).getD
                Colour.red))
              t.root t.length) s)
          parent).heap parent Colour.black)
      (rotate_right
        (rotate_left
          (RBTreeSet.mk
            (set_colour t.heap r ((colour! t.heap parent).getD Colour.red))
            t.root t.length) s)
        parent).root
      (rotate_right
        (rotate_left
          (RBTreeSet.mk
            (set_colour t.heap r ((colour! t.heap parent).getD Colour.red))
            t.root t.length) s)
        parent).length) :
    ∃ tr', stepBundle t t' node tr tr' := by
  subst ht'
  obtain ⟨cg, cs, dg, ds, SN, Ls, Rs, hgmem, hSNroot, hSN, hpars, hcolg,
    hcols, hns, hng, hsp, hparSN, hdisjSb, hor⟩ :=
    view_sib_pattern t tr node parent s hv hmem hrt hpar0 hsib
  set c1 := (colour! t.heap parent).getD Colour.red with hc1eq
  have hnd := hv.2.2
  have hsSN : s ∉ indicesI SN := fun hmem2 =>
    hdisjSb s hmem2 (by rw [indicesI]; exact List.mem_cons_self _ _)
  have hps : ¬(parent = s) := fun he => hsp he.symm
  have hnodeSN : node ∈ indicesI SN := rootLink_mem SN node hSNroot
  rcases hor with ⟨_, _, hilcs⟩ | ⟨_, hSg, _⟩
  · exact absurd hc5 (by rw [hilcs]; exact Bool.false_ne_true)
  have hndSpar := subtreeAt_nodup tr parent _ hSg hnd
  have hSs : subtreeAt tr s = some (ITree.node cs Ls s ds Rs) :=
    subtreeAt_child_l tr hnd parent s cg dg SN _ hSg rfl hsp
  have hndSib := subtreeAt_nodup tr s _ hSs hnd
  have hsmem : s ∈ indicesI tr := subtreeAt_mem_of_some tr s _ hSs
  obtain ⟨nds, cT, lT, dT, rT, hgs, hSs2, _, _, _, hndsr⟩ :=
    view_shape t tr hv s hsmem
  have hinj := Option.some.inj (hSs2.symm.trans hSs)
  injection hinj with h1 h2 h3 h4 h5
  have hRright : nds.right = some r := by
    rw [right!, hgs] at hR
    exact hR
  have hrlRs : rootLink Rs = some r := by
    rw [← h5, ← hndsr]
    exact hRright
  cases Rs with
  | leaf => cases hrlRs
  | node cr Ar rr dr Br =>
  rw [rootLink] at hrlRs
  injection hrlRs with hrr
  have hrr2 : r = rr := hrr.symm
  subst hrr2
  -- index side conditions
  have hrRs : r ∈ indicesI (ITree.node cr Ar r dr Br) := by
    rw [indicesI]
    exact List.mem_cons_self _ _
  have hrSib : r ∈ indicesI (ITree.node cs Ls s ds
      (ITree.node cr Ar r dr Br)) := by
    rw [indicesI]
    exact List.mem_cons_of_mem _ (List.mem_append.mpr (Or.inr hrRs))
  have hrSN : r ∉ indicesI SN := fun hmem2 => hdisjSb r hmem2 hrSib
  have hparSib : parent ∉ indicesI (ITree.node cs Ls s ds
      (ITree.node cr Ar r dr Br)) := by
    rw [indicesI] at hndSpar
    intro hmem2
    exact (List.nodup_cons.mp hndSpar).1 (List.mem_append.mpr
      (Or.inl hmem2))
  have hpr : ¬(parent = r) := fun he => hparSib (he ▸ hrSib)
  have hsr : ¬(s = r) := by
    rw [indicesI] at hndSib
    intro he
    refine (List.nodup_cons.mp hndSib).1 (List.mem_append.mpr
      (Or.inr ?_))
    rw [he]
    exact hrRs
  have hrLs : r ∉ indicesI Ls := fun hmem2 =>
    (List.disjoint_of_nodup_append (List.nodup_cons.mp
      (by rw [indicesI] at hndSib; exact hndSib)).2) hmem2 hrRs
  have hnr : node ≠ r := fun he => hrSN (he ▸ hnodeSN)
  -- recolour the right nephew
  have hb1 : stepBundle t { t with heap := set_colour t.heap r c1 } node tr
      (recolourI tr r c1) :=
    set_colour_bundle t tr r c1 node hv (fun SN' hSN' => by
      rw [hSN] at hSN'
      rw [← Option.some.inj hSN']
      exact hrSN)
  have hnd1 : (indicesI (recolourI tr r c1)).Nodup := hb1.1.2.2
  -- rotate left at the sibling
  have hSs1 := subtreeAt_recolourI_map tr hnd s _ hSs r c1
  rw [recolourI, if_neg hsr, recolourI_not_mem Ls r c1 hrLs, recolourI,
    if_pos rfl] at hSs1
  have hindeq : indicesI (ITree.node cs Ls s ds
        (ITree.node c1 Ar r dr Br))
      = indicesI (ITree.node cs Ls s ds (ITree.node cr Ar r dr Br)) := by
    simp only [indicesI]
  have hb2 := rotate_left_bundle_out
    (RBTreeSet.mk (set_colour t.heap r c1) t.root t.length)
    (recolourI tr r c1) s r cs c1 ds dr Ls Ar Br node hb1.1 hSs1
    (fun SN' hSN' k hk => by
      have h3 := hb1.2.2.2.2 SN hSN
      rw [h3] at hSN'
      rw [← Option.some.inj hSN'] at hk
      rw [hindeq]
      exact hdisjSb k hk)
  have hb12 := stepBundle_trans _ _ _ _ _ _ _ hb1 hb2
  -- rotate right at the parent
  have hSg1 := subtreeAt_recolourI_map tr hnd parent _ hSg r c1
  rw [recolourI, if_neg hpr, recolourI_not_mem SN r c1 hrSN, recolourI,
    if_neg hsr, recolourI_not_mem Ls r c1 hrLs, recolourI, if_pos rfl]
    at hSg1
  have hSsInPar : subtreeAt
      (ITree.node cg
        (ITree.node cs Ls s ds (ITree.node c1 Ar r dr Br)) parent dg SN) s
      = some (ITree.node cs Ls s ds (ITree.node c1 Ar r dr Br)) := by
    rw [subtreeAt, if_neg hps, subtreeAt, if_pos rfl]
  have hSg2 := subtreeAt_graftI_inside (recolourI tr r c1) parent _ s _
    (ITree.node c1 (ITree.node cs Ls s ds Ar) r dr Br) hnd1 hsp hSg1
    hSsInPar
  rw [graftI, if_neg hps,
    graftI_not_mem SN s (ITree.node c1
      (ITree.node cs Ls s ds Ar) r dr Br) hsSN,
    graftI, if_pos rfl] at hSg2
  have hmem2 : node ∈ indicesI (ITree.node cg
      (ITree.node c1 (ITree.node cs Ls s ds Ar) r dr Br) parent dg
      SN) := by
    rw [indicesI]
    exact List.mem_cons_of_mem _ (List.mem_append.mpr (Or.inr hnodeSN))
  have hb3 := rotate_right_bundle
    (rotate_left (RBTreeSet.mk (set_colour t.heap r c1) t.root t.length)
      s)
    (graftI (recolourI tr r c1) s
      (ITree.node c1 (ITree.node cs Ls s ds Ar) r dr Br))
    parent r cg c1 dg dr (ITree.node cs Ls s ds Ar) Br SN node hb12.1
    hSg2 hng hnr hmem2
  have hb123 := stepBundle_trans _ _ _ _ _ _ _ hb12 hb3
  -- recolour the parent black
  have hb4 := set_colour_bundle
    (rotate_right
      (rotate_left (RBTreeSet.mk (set_colour t.heap r c1) t.root
        t.length) s) parent)
    (graftI
      (graftI (recolourI tr r c1) s
        (ITree.node c1 (ITree.node cs Ls s ds Ar) r dr Br))
      parent
      (ITree.node c1 (ITree.node cs Ls s ds Ar) r dr
        (ITree.node cg Br parent dg SN)))
    parent Colour.black node hb123.1 (fun SN' hSN' => by
      have h3 := hb123.2.2.2.2 SN hSN
      rw [h3] at hSN'
      rw [← Option.some.inj hSN']
      exact hparSN)
  exact ⟨_, stepBundle_trans _ _ _ _ _ _ _ hb123 hb4⟩

/-- Fix-up, degenerate nephew arm: only the parent is recoloured black. -/
theorem dbf_parent_black {α : Type} (t : RBTreeSet α)
    (node parent s : Nat) (tr : ITree α)
    (hv : viewOK t tr) (hmem : node ∈ indicesI tr)
    (hrt : t.root ≠ some node)
    (hpar0 : parent! t.heap node = some parent)
    (hsib : sibling t.heap node = some s) :
    ∃ tr', stepBundle t
      { t with heap := set_colour t.heap parent Colour.black } node tr
      tr' := by
  obtain ⟨cg, cs, dg, ds, SN, Ls, Rs, hgmem, hSNroot, hSN, hpars, hcolg,
    hcols, hns, hng, hsp, hparSN, hdisjSb, hor⟩ :=
    view_sib_pattern t tr node parent s hv hmem hrt hpar0 hsib
  exact ⟨_, set_colour_bundle t tr parent Colour.black node hv
    (fun SN' hSN' => by
      rw [hSN] at hSN'
      rw [← Option.some.inj hSN']
      exact hparSN)⟩

/-- tree.rs:335-389 `double_black_fixup` preserves the well-formed view,
the in-order (index, payload) listing, the heap extent, the stored length,
and the whole subtree hanging below the fixed-up node. -/
theorem double_black_fixup_view {α : Type} :
    ∀ (fuel : Nat) (t : RBTreeSet α) (node : Nat) (tr : ITree α),
      viewOK t tr → node ∈ indicesI tr →
      ∃ tr', stepBundle t (double_black_fixup fuel t node) node tr tr' := by
  intro fuel
  induction fuel with
  | zero =>
    intro t node tr hv _
    exact ⟨tr, stepBundle_refl t node tr hv⟩
  | succ fuel ih =>
    intro t node tr hv hmem
    rw [double_black_fixup]
    by_cases hrt : (t.root == some node) = true
    · rw [if_pos hrt]
      exact ⟨tr, stepBundle_refl t node tr hv⟩
    · rw [if_neg hrt]
      have hrt' : t.root ≠ some node := fun he =>
        hrt (by rw [he]; exact beq_self_eq_true _)
      cases hP : parent! t.heap node with
      | none => exact ⟨tr, stepBundle_refl t node tr hv⟩
      | some parent =>
        dsimp only
        cases hS : sibling t.heap node with
        | none => exact dbf_sib_none fuel t node parent tr ih hv hmem hrt' hP
        | some s =>
          dsimp only
          by_cases hc1 : (colour! t.heap s == some Colour.red) = true
          · rw [if_pos hc1]
            exact dbf_arm1 fuel t _ node parent s tr ih hv hmem hrt' hP hS
              rfl
          · rw [if_neg hc1]
            by_cases hc3 : (((left! t.heap s).bind (colour! t.heap)
                == some Colour.red)
                || ((right! t.heap s).bind (colour! t.heap)
                  == some Colour.red)) = true
            · rw [if_pos hc3]
              by_cases hc4 : ((left! t.heap s).bind (colour! t.heap)
                  == some Colour.red) = true
              · rw [if_pos hc4]
                cases hL : left! t.heap s with
                | none =>
                  dsimp only
                  exact dbf_parent_black t node parent s tr hv hmem hrt'
                    hP hS
                | some l =>
                  dsimp only
                  by_cases hc5 : is_left_child t.heap s = true
                  · rw [if_pos hc5]
                    exact dbf_arm2_a t _ node parent s l tr hv hmem hrt'
                      hP hS hL hc5 rfl
                  · rw [if_neg hc5]
                    exact dbf_arm2_b t _ node parent s l tr hv hmem hrt'
                      hP hS hL (Bool.eq_false_iff.mpr hc5) rfl
              · rw [if_neg hc4]
                cases hR : right! t.heap s with
                | none =>
                  dsimp only
                  exact dbf_parent_black t node parent s tr hv hmem hrt'
                    hP hS
                | some r =>
                  dsimp only
                  by_cases hc5 : is_left_child t.heap s = true
                  · rw [if_pos hc5]
                    exact dbf_arm2_c t _ node parent s r tr hv hmem hrt'
                      hP hS hR hc5 rfl
                  · rw [if_neg hc5]
                    exact dbf_arm2_d t _ node parent s r tr hv hmem hrt'
                      hP hS hR (Bool.eq_false_iff.mpr hc5) rfl
            · rw [if_neg hc3]
              exact dbf_arm3 fuel t _ node parent s tr ih hv hmem hrt' hP
                hS rfl

/-- The root's parent back-reference is `none` in a coherent view. -/
theorem root_parent_none {α : Type} (t : RBTreeSet α) (tr : ITree α)
    (i : Nat) (hv : viewOK t tr) (hrt : t.root = some i) :
    parent! t.heap i = none := by
  obtain ⟨hre, hpar, _⟩ := hv
  rw [hrt] at hre
  obtain ⟨nd0, trl, trr, hg0, htr0, _, _⟩ :=
    reify?_some_node _ t.heap i tr hre
  rw [htr0, parOkI, Bool.and_eq_true_iff, Bool.and_eq_true_iff] at hpar
  exact eq_of_beq hpar.1.1

theorem subtreeAt_depth_le {α : Type} :
    ∀ (tr : ITree α) (n : Nat) (S : ITree α),
      subtreeAt tr n = some S → depthI S ≤ depthI tr := by
  intro tr
  induction tr with
  | leaf => intro n S hS; cases hS
  | node c l i d r ihl ihr =>
    intro n S hS
    rw [subtreeAt] at hS
    by_cases hin : i = n
    · rw [if_pos hin] at hS
      injection hS with hS2
      rw [hS2]
    · rw [if_neg hin] at hS
      cases hl : subtreeAt l n with
      | some sl =>
        rw [hl] at hS
        injection hS with hS2
        rw [hS2] at hl
        have h1 := ihl n S hl
        rw [depthI]
        omega
      | none =>
        rw [hl] at hS
        have h1 := ihr n S hS
        rw [depthI]
        omega

/-- `leftmost` walks to the in-order head of the subtree it starts in:
the node found has no left child and carries the first in-order pair. -/
theorem leftmost_view {α : Type} :
    ∀ (SR : ITree α) (fuel : Nat) (t : RBTreeSet α) (tr : ITree α)
      (r : Nat),
      viewOK t tr → subtreeAt tr r = some SR → depthI SR ≤ fuel →
      ∃ m dm rest, leftmost fuel t.heap r = m
        ∧ m ∈ indicesI SR
        ∧ left! t.heap m = none
        ∧ inorderNI SR = (m, dm) :: rest
        ∧ data! t.heap m = some dm := by
  intro SR
  induction SR with
  | leaf =>
    intro fuel t tr r hv hS _
    obtain ⟨c2, l2, d2, r2, hsh⟩ := subtreeAt_root tr r _ hS
    cases hsh
  | node cS LS iS dS RS ihl ihr =>
    intro fuel t tr r hv hS hdep
    obtain ⟨c2, l2, d2, r2, hsh⟩ := subtreeAt_root tr r _ hS
    have hiS : iS = r := by injection hsh with e1 e2 e3 e4 e5
    subst hiS
    have hnd := hv.2.2
    have hndS := subtreeAt_nodup tr iS _ hS hnd
    have hmemS : iS ∈ indicesI tr := subtreeAt_mem_of_some tr iS _ hS
    obtain ⟨nd, cT, lT, dT, rT, hg, hS2, hc1, hc2, hc3, hc4⟩ :=
      view_shape t tr hv iS hmemS
    have hinj := Option.some.inj (hS2.symm.trans hS)
    injection hinj with e1 e2 e3 e4 e5
    have hleft : left! t.heap iS = rootLink LS := by
      rw [left!_eq t.heap iS nd hg, hc3, e2]
    rw [depthI] at hdep
    cases fuel with
    | zero => omega
    | succ fuel =>
    rw [leftmost, hleft]
    cases LS with
    | leaf =>
      refine ⟨iS, dS, inorderNI RS, rfl, ?_, ?_, ?_, ?_⟩
      · rw [indicesI]
        exact List.mem_cons_self _ _
      · rw [hleft]
        rfl
      · rw [inorderNI, inorderNI, List.nil_append]
      · rw [data!, hg]
        show some nd.data = some dS
        rw [hc2, e4]
    | node cl Al il dl Bl =>
      have hil : il ≠ iS := by
        rw [indicesI] at hndS
        intro he
        refine (List.nodup_cons.mp hndS).1 (List.mem_append.mpr
          (Or.inl ?_))
        rw [← he, indicesI]
        exact List.mem_cons_self _ _
      have hSL : subtreeAt tr il = some (ITree.node cl Al il dl Bl) :=
        subtreeAt_child_l tr hnd iS il cS dS RS _ hS rfl hil
      obtain ⟨m, dm, rest, hlm, hmmem, hmleft, hino, hmdat⟩ :=
        ihl fuel t tr il hv hSL (by rw [depthI] at hdep ⊢; omega)
      refine ⟨m, dm, rest ++ (iS, dS) :: inorderNI RS, ?_, ?_, hmleft,
        ?_, hmdat⟩
      · show leftmost fuel t.heap il = m
        exact hlm
      · rw [indicesI]
        exact List.mem_cons_of_mem _ (List.mem_append.mpr (Or.inl hmmem))
      · rw [inorderNI, hino, List.cons_append]

/-- A pair list with duplicate-free keys splits uniquely at a key. -/
theorem split_unique_fst {β : Type} :
    ∀ (X X' : List (Nat × β)) (s : Nat) (a b : β) (Y Y' : List (Nat × β)),
      X ++ (s, a) :: Y = X' ++ (s, b) :: Y' →
      ((X ++ (s, a) :: Y).map Prod.fst).Nodup →
      X = X' ∧ a = b ∧ Y = Y' := by
  intro X
  induction X with
  | nil =>
    intro X' s a b Y Y' heq hnd
    cases X' with
    | nil =>
      rw [List.nil_append, List.nil_append] at heq
      injection heq with h1 h2
      injection h1 with h3 h4
      exact ⟨rfl, h4, h2⟩
    | cons x' xs' =>
      rw [List.nil_append, List.cons_append] at heq
      injection heq with h1 h2
      rw [List.nil_append, List.map_cons] at hnd
      exfalso
      refine (List.nodup_cons.mp hnd).1 ?_
      rw [h2, List.map_append, List.map_cons]
      exact List.mem_append.mpr (Or.inr (List.mem_cons_self _ _))
  | cons x xs ih =>
    intro X' s a b Y Y' heq hnd
    cases X' with
    | nil =>
      rw [List.nil_append, List.cons_append] at heq
      injection heq with h1 h2
      rw [List.cons_append, List.map_cons] at hnd
      exfalso
      refine (List.nodup_cons.mp hnd).1 ?_
      rw [h1]
      show (s, b).1 ∈ List.map Prod.fst (xs ++ (s, a) :: Y)
      rw [List.map_append, List.map_cons]
      exact List.mem_append.mpr (Or.inr (List.mem_cons_self _ _))
    | cons x' xs' =>
      rw [List.cons_append, List.cons_append] at heq
      injection heq with h1 h2
      rw [List.cons_append, List.map_cons] at hnd
      obtain ⟨hxs, hab, hy⟩ := ih xs' s a b Y Y' h2
        (List.nodup_cons.mp hnd).2
      exact ⟨by rw [h1, hxs], hab, hy⟩

/-- The in-order keys are a permutation of the pre-order keys. -/
theorem fst_inorderNI_perm {α : Type} :
    ∀ (tr : ITree α),
      List.Perm ((inorderNI tr).map Prod.fst) (indicesI tr) := by
  intro tr
  induction tr with
  | leaf => exact List.Perm.refl _
  | node c l i d r ihl ihr =>
    rw [inorderNI, indicesI, List.map_append, List.map_cons]
    exact List.Perm.trans List.perm_middle
      (List.Perm.cons i (List.Perm.append ihl ihr))

theorem fst_inorderNI_nodup {α : Type} (tr : ITree α)
    (hnd : (indicesI tr).Nodup) :
    ((inorderNI tr).map Prod.fst).Nodup :=
  ((fst_inorderNI_perm tr).nodup_iff).mpr hnd

/-- Overwriting the payload at one key rewrites exactly that in-order
pair. -/
theorem inorderNI_setDataI_mem {α : Type} :
    ∀ (tr : ITree α) (i : Nat) (d' : α), (indicesI tr).Nodup →
      i ∈ indicesI tr →
      ∃ X di Y, inorderNI tr = X ++ (i, di) :: Y
        ∧ inorderNI (setDataI tr i d') = X ++ (i, d') :: Y := by
  intro tr
  induction tr with
  | leaf => intro i d' _ hmem; cases hmem
  | node c l j d r ihl ihr =>
    intro i d' hnd hmem
    rw [indicesI] at hnd
    have hnd' := List.nodup_cons.mp hnd
    have hndl : (indicesI l).Nodup := hnd'.2.of_append_left
    have hndr : (indicesI r).Nodup := hnd'.2.of_append_right
    by_cases hij : j = i
    · refine ⟨inorderNI l, d, inorderNI r, by rw [inorderNI, hij], ?_⟩
      rw [setDataI, if_pos hij, inorderNI, hij]
    · rw [indicesI] at hmem
      rcases List.mem_cons.mp hmem with he | hmem2
      · exact absurd he.symm hij
      rw [setDataI, if_neg hij]
      rcases List.mem_append.mp hmem2 with hil | hir
      · obtain ⟨X, di, Y, h1, h2⟩ := ihl i d' hndl hil
        have hinr : i ∉ indicesI r := fun hm =>
          (List.disjoint_of_nodup_append hnd'.2) hil hm
        refine ⟨X, di, Y ++ (j, d) :: inorderNI r, ?_, ?_⟩
        · rw [inorderNI, h1, List.append_assoc, List.cons_append]
        · rw [inorderNI, setDataI_not_mem r i d' hinr, h2,
            List.append_assoc, List.cons_append]
      · obtain ⟨X, di, Y, h1, h2⟩ := ihr i d' hndr hir
        have hinl : i ∉ indicesI l := fun hm =>
          (List.disjoint_of_nodup_append hnd'.2) hm hir
        refine ⟨inorderNI l ++ (j, d) :: X, di, Y, ?_, ?_⟩
        · rw [inorderNI, h1]
          simp only [List.append_assoc, List.cons_append]
        · rw [inorderNI, setDataI_not_mem l i d' hinl, h2]
          simp only [List.append_assoc, List.cons_append]

theorem colourI_setDataI {α : Type} (tr : ITree α) (i : Nat) (d' : α) :
    colourI (setDataI tr i d') = colourI tr := by
  cases tr with
  | leaf => rfl
  | node c l j d r =>
    rw [setDataI]
    by_cases hij : j = i
    · rw [if_pos hij, colourI, colourI]
    · rw [if_neg hij, colourI, colourI]

theorem noRRI_node {α : Type} (c : Colour) (l : ITree α) (i : Nat) (d : α)
    (r : ITree α) :
    noRRI (ITree.node c l i d r)
    = ((match c with
        | Colour.red => !(colourI l == Colour.red)
            && !(colourI r == Colour.red)
        | Colour.black => true)
      && noRRI l && noRRI r) := rfl

theorem bhI_node {α : Type} (c : Colour) (l : ITree α) (i : Nat) (d : α)
    (r : ITree α) :
    bhI (ITree.node c l i d r)
    = (match bhI l, bhI r with
      | some a, some b =>
        if a == b then
          some (a + (match c with | Colour.black => 1 | Colour.red => 0))
        else none
      | _, _ => none) := rfl

theorem noRRI_setDataI {α : Type} :
    ∀ (tr : ITree α) (i : Nat) (d' : α),
      noRRI (setDataI tr i d') = noRRI tr := by
  intro tr
  induction tr with
  | leaf => intro i d'; rfl
  | node c l j d r ihl ihr =>
    intro i d'
    rw [setDataI]
    by_cases hij : j = i
    · rw [if_pos hij]
      rfl
    · rw [if_neg hij, noRRI_node, noRRI_node, colourI_setDataI,
        colourI_setDataI, ihl, ihr]

theorem bhI_setDataI {α : Type} :
    ∀ (tr : ITree α) (i : Nat) (d' : α),
      bhI (setDataI tr i d') = bhI tr := by
  intro tr
  induction tr with
  | leaf => intro i d'; rfl
  | node c l j d r ihl ihr =>
    intro i d'
    rw [setDataI]
    by_cases hij : j = i
    · rw [if_pos hij]
      rfl
    · rw [if_neg hij, bhI_node, bhI_node, ihl, ihr]

/-- A no-red-red tree of black height zero is empty or one red node. -/
theorem bh_zero_shape {α : Type} :
    ∀ (L : ITree α), noRRI L = true → bhI L = some 0 →
      L = ITree.leaf
      ∨ ∃ i d, L = ITree.node Colour.red ITree.leaf i d ITree.leaf := by
  intro L
  induction L with
  | leaf => intro _ _; exact Or.inl rfl
  | node c l i d r ihl ihr =>
    intro hrr hbh
    rw [noRRI_node, Bool.and_eq_true_iff, Bool.and_eq_true_iff] at hrr
    obtain ⟨⟨hc0, hrl⟩, hrr2⟩ := hrr
    rw [bhI_node] at hbh
    cases hbl : bhI l with
    | none => rw [hbl] at hbh; cases hbh
    | some a =>
      cases hbr : bhI r with
      | none => rw [hbl, hbr] at hbh; cases hbh
      | some b =>
        rw [hbl, hbr] at hbh
        cases c with
        | black =>
          dsimp only at hbh
          by_cases hab : (a == b) = true
          · rw [if_pos hab] at hbh
            injection hbh with hbh2
            exact (Nat.succ_ne_zero a hbh2).elim
          · rw [if_neg hab] at hbh
            cases hbh
        | red =>
          dsimp only at hbh
          by_cases hab : (a == b) = true
          · rw [if_pos hab] at hbh
            injection hbh with hbh2
            have hc0' : (!(colourI l == Colour.red)
                && !(colourI r == Colour.red)) = true := hc0
            rw [Bool.and_eq_true_iff] at hc0'
            have ha0 : a = 0 := by omega
            have hb0 : b = 0 := by
              have hab2 : a = b := eq_of_beq hab
              omega
            rw [ha0] at hbl
            rw [hb0] at hbr
            rcases ihl hrl hbl with hleaf | ⟨i2, d2, hred⟩
            · rcases ihr hrr2 hbr with hleaf2 | ⟨i3, d3, hred2⟩
              · exact Or.inr ⟨i, d, by rw [hleaf, hleaf2]⟩
              · exfalso
                have hcol := hc0'.2
                rw [hred2, colourI] at hcol
                cases hcol
            · exfalso
              have hcol := hc0'.1
              rw [hred, colourI] at hcol
              cases hcol
          · rw [if_neg hab] at hbh
            cases hbh

/-- tree.rs:441-449 unlinking a childless node from its parent's child
slot detaches exactly that node from the view. -/
theorem detach_effect {α : Type} (t : RBTreeSet α) (tr : ITree α)
    (node parent : Nat) (SN : ITree α)
    (hv : viewOK t tr)
    (hSN : subtreeAt tr node = some SN)
    (hrt : t.root ≠ some node)
    (hpar0 : parent! t.heap node = some parent) :
    viewOK
      (RBTreeSet.mk
        (if is_left_child t.heap node then set_left t.heap parent none
         else set_right t.heap parent none) t.root t.length)
      (graftI tr node ITree.leaf) := by
  obtain ⟨hre, hpar, hnd⟩ := hv
  have hmem : node ∈ indicesI tr := subtreeAt_mem_of_some tr node SN hSN
  rcases subtreeAt_parent tr (t.heap.length + 1) t.heap none t.root node SN
      hre hpar hnd hSN with
    ⟨hrt2, _, _⟩ | ⟨g, ndg, hgmem, hgg, hpn1, hgS, hside, hboth⟩
  · exact absurd hrt2 hrt
  have hgp : parent = g := by
    rw [hpar0] at hpn1
    exact Option.some.inj hpn1
  subst hgp
  have hilc : is_left_child t.heap node = (ndg.left == some node) := by
    rw [is_left_child, hpar0]
    simp only [Option.some_bind]
    rw [left!_eq t.heap parent ndg hgg]
  have hsub : substL node none t.root = t.root := by
    rw [substL, if_neg hrt]
  obtain ⟨⟨X, Y, hXY, hgXY⟩, _⟩ := subtreeAt_split tr node SN hSN hnd
  have hndG : (indicesI (graftI tr node ITree.leaf)).Nodup := by
    rw [hgXY ITree.leaf]
    refine List.Nodup.sublist ?_ (hXY ▸ hnd)
    exact List.Sublist.append
      (List.Sublist.append (List.Sublist.refl X) (List.nil_sublist _))
      (List.Sublist.refl Y)
  by_cases hgl : ndg.left = some node
  · rw [if_pos (by rw [hilc, hgl]; exact beq_self_eq_true _)]
    have hfr : ∀ j nd, j ∈ indicesI tr → j ∉ indicesI SN →
        hGet t.heap j = some nd →
        ∃ nd', hGet (set_left t.heap parent none) j = some nd'
          ∧ nd'.colour = nd.colour ∧ nd'.data = nd.data
          ∧ nd'.left = substL node none nd.left
          ∧ nd'.right = substL node none nd.right := by
      intro j nd hj hjS hg
      by_cases hjg : j = parent
      · subst hjg
        rw [hgg] at hg
        have hndq := Option.some.inj hg
        have hnr : ndg.right ≠ some node := fun he => hboth ⟨hgl, he⟩
        refine ⟨{ ndg with left := none },
          hGet_set_left_self t.heap j none ndg hgg, ?_, ?_, ?_, ?_⟩
        · rw [← hndq]
        · rw [← hndq]
        · rw [← hndq, hgl, substL, if_pos rfl]
        · rw [← hndq, substL, if_neg hnr]
      · have hnl : nd.left ≠ some node := fun he =>
          hjg (link_unique (t.heap.length + 1) t.heap t.root tr hre hnd
            j parent nd ndg node hj hgmem hg hgg (Or.inl he) hside)
        have hnr : nd.right ≠ some node := fun he =>
          hjg (link_unique (t.heap.length + 1) t.heap t.root tr hre hnd
            j parent nd ndg node hj hgmem hg hgg (Or.inr he) hside)
        refine ⟨nd, ?_, rfl, rfl, ?_, ?_⟩
        · rw [hGet_set_left_ne t.heap parent none j hjg]
          exact hg
        · rw [substL, if_neg hnl]
        · rw [substL, if_neg hnr]
    have hreF := reify?_graft (t.heap.length + 1) t.heap
      (set_left t.heap parent none) t.root tr node SN ITree.leaf none 0
      hre hnd hSN rfl hfr
    rw [hsub] at hreF
    refine ⟨?_, ?_, hndG⟩
    · show reify? ((set_left t.heap parent none).length + 1)
        (set_left t.heap parent none) t.root
        = some (graftI tr node ITree.leaf)
      rw [length_set_left]
      exact hreF
    · show parOkI (set_left t.heap parent none) none
        (graftI tr node ITree.leaf) = true
      refine parOkI_graft tr t.heap (set_left t.heap parent none) none
        node SN ITree.leaf hpar hnd hSN (fun e0 _ => rfl) ?_
      intro j _ _
      rw [parent_set_left]
  · have hgr : ndg.right = some node := hside.resolve_left hgl
    rw [if_neg (fun hc => hgl (eq_of_beq (hilc ▸ hc)))]
    have hfr : ∀ j nd, j ∈ indicesI tr → j ∉ indicesI SN →
        hGet t.heap j = some nd →
        ∃ nd', hGet (set_right t.heap parent none) j = some nd'
          ∧ nd'.colour = nd.colour ∧ nd'.data = nd.data
          ∧ nd'.left = substL node none nd.left
          ∧ nd'.right = substL node none nd.right := by
      intro j nd hj hjS hg
      by_cases hjg : j = parent
      · subst hjg
        rw [hgg] at hg
        have hndq := Option.some.inj hg
        have hnl : ndg.left ≠ some node := fun he => hboth ⟨he, hgr⟩
        refine ⟨{ ndg with right := none },
          hGet_set_right_self t.heap j none ndg hgg, ?_, ?_, ?_, ?_⟩
        · rw [← hndq]
        · rw [← hndq]
        · rw [← hndq, substL, if_neg hnl]
        · rw [← hndq, hgr, substL, if_pos rfl]
      · have hnl : nd.left ≠ some node := fun he =>
          hjg (link_unique (t.heap.length + 1) t.heap t.root tr hre hnd
            j parent nd ndg node hj hgmem hg hgg (Or.inl he) hside)
        have hnr : nd.right ≠ some node := fun he =>
          hjg (link_unique (t.heap.length + 1) t.heap t.root tr hre hnd
            j parent nd ndg node hj hgmem hg hgg (Or.inr he) hside)
        refine ⟨nd, ?_, rfl, rfl, ?_, ?_⟩
        · rw [hGet_set_right_ne t.heap parent none j hjg]
          exact hg
        · rw [substL, if_neg hnl]
        · rw [substL, if_neg hnr]
    have hreF := reify?_graft (t.heap.length + 1) t.heap
      (set_right t.heap parent none) t.root tr node SN ITree.leaf none 0
      hre hnd hSN rfl hfr
    rw [hsub] at hreF
    refine ⟨?_, ?_, hndG⟩
    · show reify? ((set_right t.heap parent none).length + 1)
        (set_right t.heap parent none) t.root
        = some (graftI tr node ITree.leaf)
      rw [length_set_right]
      exact hreF
    · show parOkI (set_right t.heap parent none) none
        (graftI tr node ITree.leaf) = true
      refine parOkI_graft tr t.heap (set_right t.heap parent none) none
        node SN ITree.leaf hpar hnd hSN (fun e0 _ => rfl) ?_
      intro j _ _
      rw [parent_set_right]

end Rbtset
